import Mathlib

/-!
Shallow embedding of the day-10 "toggle network" solving engine of this
repository (`src/bin/codex_day10.rs` and `src/bin/gemini_cli_day10.rs`),
together with correctness theorems about it.

Machine integers (`u32`, `u64`) are modelled as `Nat`.  All bit manipulation
uses `Nat` bitwise operations, which agree with the fixed-width machine
operations on the value ranges enforced by the parsers of both binaries
(at most 32 positions, at most 63/64 steps).  Indexed `for` loops that build
bitmasks are translated into structural recursion over the corresponding
lists, reading one index (one low bit of the traversed mask) per element.
Where overflow semantics matter (the driver summations), u64 arithmetic is
modelled explicitly: `checked_add` as an `Option`-valued guard against
`2 ^ 64`, and the unchecked `iter().sum()` as addition modulo `2 ^ 64`
(release-build wrapping).  The memoised recursion of
`solve_part2_recursive_parity` is embedded with an explicit fuel parameter
bounding the call depth (the memo table caches a pure function of its key);
`target.sum + 1` fuel is proven sufficient and fuel-invariant.
-/

namespace Day10

/-- Population count of a 64-bit word: `count_ones()` in the source.  All
masks manipulated by the solvers fit in a `u64`, so counting the low 64 bits
is exact on every value the source can produce. -/
def bitCount (x : Nat) : Nat := (List.range 64).countP x.testBit

/-- Parity of the AND of two bitmasks, i.e. the GF(2) dot product of two bit
vectors; the source computes it as `(a & b).count_ones() & 1`. -/
def dotp (a b : Nat) : Bool := bitCount (a &&& b) % 2 == 1

/-- Generic width-bounded population count used to reason about `bitCount`. -/
def countBits (w x : Nat) : Nat := (List.range w).countP x.testBit

theorem bitCount_eq_countBits (x : Nat) : bitCount x = countBits 64 x := rfl

theorem countBits_succ (w x : Nat) :
    countBits (w + 1) x = countBits w x + (if x.testBit w then 1 else 0) := by
  unfold countBits
  rw [List.range_succ, List.countP_append]
  simp [List.countP_cons]

theorem countBits_eq_zero_of_lt (w x : Nat) (h : x < 2 ^ w) (w2 : Nat) (hw : w ≤ w2) :
    countBits w2 x = countBits w x := by
  induction w2 with
  | zero => have : w = 0 := Nat.le_zero.mp hw; simp [this]
  | succ k ih =>
    rcases Nat.lt_or_ge w (k + 1) with hlt | hge
    · have hk : w ≤ k := Nat.lt_succ_iff.mp hlt
      rw [countBits_succ, ih hk]
      have hxk : x.testBit k = false := by
        apply Nat.testBit_lt_two_pow
        calc x < 2 ^ w := h
        _ ≤ 2 ^ k := Nat.pow_le_pow_right (by norm_num) hk
      simp [hxk]
    · have : w = k + 1 := Nat.le_antisymm hw hge
      simp [this]

/-- Each set bit of `x` lies below `w` whenever `x < 2 ^ w`, so for such `x`
the 64-bit population count can be computed over any width at least `w`. -/
theorem bitCount_eq_countBits_of_lt (w x : Nat) (h : x < 2 ^ w) (hw : w ≤ 64) :
    bitCount x = countBits w x := by
  rw [bitCount_eq_countBits, countBits_eq_zero_of_lt w x h 64 hw]

theorem countBits_xor_parity (w a b : Nat) :
    countBits w (a ^^^ b) % 2 = (countBits w a + countBits w b) % 2 := by
  induction w with
  | zero => rfl
  | succ k ih =>
    rw [countBits_succ, countBits_succ, countBits_succ, Nat.testBit_xor]
    cases h1 : a.testBit k <;> cases h2 : b.testBit k <;> simp <;> omega

theorem bitCount_xor_parity (a b : Nat) :
    bitCount (a ^^^ b) % 2 = (bitCount a + bitCount b) % 2 := by
  rw [bitCount_eq_countBits, bitCount_eq_countBits, bitCount_eq_countBits]
  exact countBits_xor_parity 64 a b

theorem bitCount_zero : bitCount 0 = 0 := rfl

theorem dotp_zero_left (b : Nat) : dotp 0 b = false := by
  simp [dotp, Nat.zero_and, bitCount_zero]

theorem dotp_zero_right (a : Nat) : dotp a 0 = false := by
  simp [dotp, Nat.and_zero, bitCount_zero]

theorem dotp_xor_right (a x y : Nat) : dotp a (x ^^^ y) = xor (dotp a x) (dotp a y) := by
  unfold dotp
  rw [Nat.and_xor_distrib_left]
  have h := bitCount_xor_parity (a &&& x) (a &&& y)
  rcases Nat.mod_two_eq_zero_or_one (bitCount (a &&& x)) with h1 | h1 <;>
    rcases Nat.mod_two_eq_zero_or_one (bitCount (a &&& y)) with h2 | h2 <;>
    rcases Nat.mod_two_eq_zero_or_one (bitCount (a &&& x ^^^ a &&& y)) with h3 | h3 <;>
    simp [h1, h2, h3] at h ⊢ <;> omega

theorem dotp_xor_left (a b x : Nat) : dotp (a ^^^ b) x = xor (dotp a x) (dotp b x) := by
  unfold dotp
  rw [Nat.and_xor_distrib_right]
  have h := bitCount_xor_parity (a &&& x) (b &&& x)
  rcases Nat.mod_two_eq_zero_or_one (bitCount (a &&& x)) with h1 | h1 <;>
    rcases Nat.mod_two_eq_zero_or_one (bitCount (b &&& x)) with h2 | h2 <;>
    rcases Nat.mod_two_eq_zero_or_one (bitCount (a &&& x ^^^ b &&& x)) with h3 | h3 <;>
    simp [h1, h2, h3] at h ⊢ <;> omega

theorem bitCount_two_pow (i : Nat) (hi : i < 64) : bitCount (2 ^ i) = 1 := by
  have h : bitCount (2 ^ i) = countBits (i + 1) (2 ^ i) := by
    apply bitCount_eq_countBits_of_lt
    · exact Nat.pow_lt_pow_right (by norm_num) (Nat.lt_succ_self i)
    · omega
  rw [h, countBits_succ]
  have hz : countBits i (2 ^ i) = 0 := by
    unfold countBits
    rw [List.countP_eq_zero]
    intro j hj
    rw [List.mem_range] at hj
    simp [Nat.testBit_two_pow, Nat.ne_of_gt hj]
  simp [hz, Nat.testBit_two_pow]

theorem and_two_pow_of_testBit_true {a : Nat} {i : Nat} (h : a.testBit i = true) :
    a &&& 2 ^ i = 2 ^ i := by
  apply Nat.eq_of_testBit_eq
  intro j
  rw [Nat.testBit_and, Nat.testBit_two_pow]
  by_cases hij : i = j
  · subst hij; simp [h]
  · simp [hij]

theorem and_two_pow_of_testBit_false {a : Nat} {i : Nat} (h : a.testBit i = false) :
    a &&& 2 ^ i = 0 := by
  apply Nat.eq_of_testBit_eq
  intro j
  rw [Nat.testBit_and, Nat.testBit_two_pow]
  by_cases hij : i = j
  · subst hij; simp [h]
  · simp [hij]

theorem dotp_two_pow_right (a i : Nat) (hi : i < 64) : dotp a (2 ^ i) = a.testBit i := by
  unfold dotp
  cases h : a.testBit i
  · rw [and_two_pow_of_testBit_false h, bitCount_zero]; rfl
  · rw [and_two_pow_of_testBit_true h, bitCount_two_pow i hi]; rfl

/-- Congruence of the dot product under agreement on the support of `a`. -/
theorem dotp_congr (a x y : Nat) (h : ∀ i, a.testBit i = true → x.testBit i = y.testBit i) :
    dotp a x = dotp a y := by
  unfold dotp
  have : a &&& x = a &&& y := by
    apply Nat.eq_of_testBit_eq
    intro i
    rw [Nat.testBit_and, Nat.testBit_and]
    cases ha : a.testBit i
    · simp
    · simp [h i ha]
  rw [this]

end Day10

namespace Day10

theorem dotp_comm (a b : Nat) : dotp a b = dotp b a := by
  unfold dotp; rw [Nat.and_comm]

theorem dotp_one (x : Nat) : dotp 1 x = x.testBit 0 := by
  rw [dotp_comm]
  have h := dotp_two_pow_right x 0 (by norm_num)
  simpa using h

theorem testBit_two_mul_zero (x : Nat) : (2 * x).testBit 0 = false := by
  rw [Nat.testBit_zero]
  have h : 2 * x % 2 = 0 := by omega
  simp [h]

theorem testBit_two_mul_succ (x k : Nat) : (2 * x).testBit (k + 1) = x.testBit k := by
  rw [Nat.testBit_succ]
  congr 1
  omega

theorem countBits_two_mul (w x : Nat) : countBits (w + 1) (2 * x) = countBits w x := by
  induction w with
  | zero =>
    show countBits 1 (2 * x) = 0
    unfold countBits
    simp [List.range_succ, testBit_two_mul_zero]
  | succ k ih =>
    rw [countBits_succ (k + 1) (2 * x), ih, testBit_two_mul_succ, countBits_succ]

theorem bitCount_two_mul (x : Nat) (hx : x < 2 ^ 63) : bitCount (2 * x) = bitCount x := by
  have h2 : 2 * x < 2 ^ 64 := by
    have : (2 : Nat) ^ 64 = 2 * 2 ^ 63 := by norm_num
    omega
  rw [bitCount_eq_countBits_of_lt 64 (2 * x) h2 (le_refl 64),
      bitCount_eq_countBits_of_lt 63 x hx (by norm_num)]
  exact countBits_two_mul 63 x

theorem two_mul_and (a x : Nat) : (2 * a) &&& x = 2 * (a &&& (x / 2)) := by
  apply Nat.eq_of_testBit_eq
  intro i
  cases i with
  | zero =>
    rw [Nat.testBit_and, testBit_two_mul_zero, testBit_two_mul_zero]
    simp
  | succ k =>
    rw [Nat.testBit_and, testBit_two_mul_succ, testBit_two_mul_succ, Nat.testBit_and,
        Nat.testBit_div_two]

theorem dotp_two_mul (a x : Nat) (ha : a < 2 ^ 63) : dotp (2 * a) x = dotp a (x / 2) := by
  unfold dotp
  rw [two_mul_and, bitCount_two_mul _ (Nat.lt_of_le_of_lt Nat.and_le_left ha)]

/-- XOR of the masks of the steps selected by bitmask `c` (bit `s` of `c`
selects step `s`), i.e. the combined toggle effect, starting from all-off, of
applying each selected step once.  This is the semantic reading of loops of
the form `if (c >> idx) & 1 == 1 { acc ^= masks[idx] }` in both binaries. -/
def selXor : List Nat → Nat → Nat
  | [], _ => 0
  | st :: rest, c => (if c.testBit 0 then st else 0) ^^^ selXor rest (c / 2)

theorem selXor_nil (c : Nat) : selXor [] c = 0 := rfl

theorem selXor_zero (L : List Nat) : selXor L 0 = 0 := by
  induction L with
  | nil => rfl
  | cons st rest ih => simp [selXor, ih]

theorem selXor_lt_two_pow {L : List Nat} {n : Nat} (h : ∀ s ∈ L, s < 2 ^ n) (c : Nat) :
    selXor L c < 2 ^ n := by
  induction L generalizing c with
  | nil => simpa [selXor] using Nat.pos_pow_of_pos n (by norm_num)
  | cons st rest ih =>
    show ((if c.testBit 0 then st else 0) ^^^ selXor rest (c / 2)) < 2 ^ n
    apply Nat.xor_lt_two_pow
    · cases hc : c.testBit 0
      · simpa [hc] using Nat.pos_pow_of_pos n (by norm_num)
      · simpa [hc] using h st (List.mem_cons_self st rest)
    · exact ih (fun s hs => h s (List.mem_cons_of_mem st hs)) (c / 2)

theorem xor_div_two (a b : Nat) : (a ^^^ b) / 2 = a / 2 ^^^ b / 2 := by
  apply Nat.eq_of_testBit_eq
  intro i
  rw [Nat.testBit_div_two, Nat.testBit_xor, Nat.testBit_xor, Nat.testBit_div_two,
      Nat.testBit_div_two]

theorem xor_left_comm (a b c : Nat) : a ^^^ (b ^^^ c) = b ^^^ (a ^^^ c) := by
  rw [← Nat.xor_assoc, Nat.xor_comm a b, Nat.xor_assoc]

theorem xor_cancel_left (a b : Nat) : a ^^^ (a ^^^ b) = b := by
  rw [← Nat.xor_assoc, Nat.xor_self, Nat.zero_xor]

theorem testBit_one_succ (k : Nat) : Nat.testBit 1 (k + 1) = false := by
  rw [show (1 : Nat) = 2 ^ 0 from rfl, Nat.testBit_two_pow]
  simp

theorem selXor_xor (L : List Nat) (c d : Nat) :
    selXor L (c ^^^ d) = selXor L c ^^^ selXor L d := by
  induction L generalizing c d with
  | nil => simp [selXor]
  | cons st rest ih =>
    show (if (c ^^^ d).testBit 0 then st else 0) ^^^ selXor rest ((c ^^^ d) / 2) = _
    rw [Nat.testBit_xor, xor_div_two, ih]
    show _ = ((if c.testBit 0 then st else 0) ^^^ selXor rest (c / 2)) ^^^
      ((if d.testBit 0 then st else 0) ^^^ selXor rest (d / 2))
    cases hc : c.testBit 0 <;> cases hd : d.testBit 0 <;>
      simp [Nat.xor_assoc, Nat.xor_comm, xor_left_comm, Nat.xor_self, xor_cancel_left]

theorem selXor_congr (L : List Nat) (c d : Nat)
    (h : ∀ i, i < L.length → c.testBit i = d.testBit i) : selXor L c = selXor L d := by
  induction L generalizing c d with
  | nil => rfl
  | cons st rest ih =>
    show (if c.testBit 0 then st else 0) ^^^ selXor rest (c / 2) = _
    rw [h 0 (by simp), ih (c / 2) (d / 2) (fun i hi => by
      rw [Nat.testBit_div_two, Nat.testBit_div_two]
      exact h (i + 1) (by simpa using Nat.succ_lt_succ hi))]
    rfl

theorem selXor_two_pow (L : List Nat) (i : Nat) : selXor L (2 ^ i) = L.getD i 0 := by
  induction L generalizing i with
  | nil => simp [selXor]
  | cons st rest ih =>
    cases i with
    | zero =>
      show (if (1 : Nat).testBit 0 then st else 0) ^^^ selXor rest (1 / 2) = st
      rw [show (1 : Nat).testBit 0 = true from rfl, show (1 : Nat) / 2 = 0 from rfl]
      simp [selXor_zero]
    | succ k =>
      show (if (2 ^ (k + 1) : Nat).testBit 0 then st else 0) ^^^
        selXor rest (2 ^ (k + 1) / 2) = rest.getD k 0
      have h1 : (2 ^ (k + 1) : Nat).testBit 0 = false := by
        rw [Nat.testBit_two_pow]; simp
      have h2 : (2 ^ (k + 1) : Nat) / 2 = 2 ^ k := by
        rw [pow_succ]; omega
      rw [h1, h2]
      simp [ih]

/-- Column mask of the step matrix for one position: bit `s` is set iff step
`s` toggles position `pos`.  Mirrors the row-building loops of `solve_gf2`
(codex) and `GF2Solver` (gemini): `if (step >> pos) & 1 == 1 { mask |= 1 << idx }`,
reading the steps in index order. -/
def colMask : List Nat → Nat → Nat
  | [], _ => 0
  | st :: rest, pos => (if st.testBit pos then 1 else 0) + 2 * colMask rest pos

theorem colMask_lt_two_pow (L : List Nat) (pos : Nat) : colMask L pos < 2 ^ L.length := by
  induction L with
  | nil => simp [colMask]
  | cons st rest ih =>
    show (if st.testBit pos then 1 else 0) + 2 * colMask rest pos < 2 ^ (rest.length + 1)
    have hp : (2 : Nat) ^ (rest.length + 1) = 2 ^ rest.length * 2 := pow_succ 2 rest.length
    cases h : st.testBit pos <;> simp [h] <;> omega

theorem colMask_testBit (L : List Nat) (pos s : Nat) :
    (colMask L pos).testBit s = (L.getD s 0).testBit pos := by
  induction L generalizing s with
  | nil => simp [colMask]
  | cons st rest ih =>
    cases s with
    | zero =>
      show ((if st.testBit pos then 1 else 0) + 2 * colMask rest pos).testBit 0 = st.testBit pos
      rw [Nat.testBit_zero]
      cases h : st.testBit pos
      · have hm : (0 + 2 * colMask rest pos) % 2 = 0 := by omega
        simp [h, hm]
      · have hm : (1 + 2 * colMask rest pos) % 2 = 1 := by omega
        simp [h, hm]
    | succ k =>
      show ((if st.testBit pos then 1 else 0) + 2 * colMask rest pos).testBit (k + 1) =
        (rest.getD k 0).testBit pos
      rw [Nat.testBit_succ]
      have hdiv : ((if st.testBit pos then 1 else 0) + 2 * colMask rest pos) / 2 =
          colMask rest pos := by
        cases h : st.testBit pos <;> simp [h] <;> omega
      rw [hdiv, ih]

theorem dotp_colMask (L : List Nat) (pos x : Nat) (hlen : L.length ≤ 64) :
    dotp (colMask L pos) x = (selXor L x).testBit pos := by
  induction L generalizing x with
  | nil => simp [colMask, selXor, dotp_zero_left]
  | cons st rest ih =>
    have hb : (if st.testBit pos then (1 : Nat) else 0) + 2 * colMask rest pos =
        (if st.testBit pos then (1 : Nat) else 0) ^^^ 2 * colMask rest pos := by
      apply Nat.eq_of_testBit_eq
      intro i
      cases i with
      | zero =>
        rw [Nat.testBit_xor, testBit_two_mul_zero, Nat.testBit_zero]
        cases h : st.testBit pos
        · have hm : (0 + 2 * colMask rest pos) % 2 = 0 := by omega
          simp [h, hm]
        · have hm : (1 + 2 * colMask rest pos) % 2 = 1 := by omega
          simp [h, hm]
      | succ k =>
        rw [Nat.testBit_xor, Nat.testBit_succ, testBit_two_mul_succ]
        have hdiv : ((if st.testBit pos then (1 : Nat) else 0) + 2 * colMask rest pos) / 2 =
            colMask rest pos := by
          cases h : st.testBit pos <;> simp [h] <;> omega
        rw [hdiv]
        cases h : st.testBit pos <;> simp [h, testBit_one_succ]
    show dotp ((if st.testBit pos then 1 else 0) + 2 * colMask rest pos) x = _
    rw [hb, dotp_xor_left]
    have hrest : rest.length ≤ 63 := by
      simp [List.length_cons] at hlen
      omega
    have hcm : colMask rest pos < 2 ^ 63 :=
      Nat.lt_of_lt_of_le (colMask_lt_two_pow rest pos)
        (Nat.pow_le_pow_right (by norm_num) hrest)
    rw [dotp_two_mul _ x hcm, ih (x / 2) (by omega)]
    show xor (dotp (if st.testBit pos then 1 else 0) x) ((selXor rest (x / 2)).testBit pos) =
      ((if x.testBit 0 then st else 0) ^^^ selXor rest (x / 2)).testBit pos
    rw [Nat.testBit_xor]
    cases h : st.testBit pos <;> cases hx : x.testBit 0 <;>
      simp [h, hx, dotp_one, dotp_zero_left]

/-- One augmented row of the GF(2) linear system: the coefficient bitmask over
the `m` steps together with the augmented right-hand-side bit.  codex_day10
stores rows as `(u64, u8)` pairs; gemini_cli_day10 packs the rhs bit as bit
`m` of the same `u64` word, which carries the same information since every
coefficient mask fits in the low `m` bits. -/
abbrev GRow := Nat × Bool

/-- Default row used for out-of-range list reads. -/
def rowDef : GRow := (0, false)

/-- Augmented rows of the system "the selected steps XOR to `target`", one row
per position, exactly as built by `solve_gf2` and `GF2Solver::solve`. -/
def buildRows (steps : List Nat) (target : Nat) (n : Nat) : List GRow :=
  (List.range n).map (fun pos => (colMask steps pos, target.testBit pos))

theorem buildRows_length (steps : List Nat) (target n : Nat) :
    (buildRows steps target n).length = n := by simp [buildRows]

theorem buildRows_getD (steps : List Nat) (target n k : Nat) (hk : k < n) :
    (buildRows steps target n).getD k rowDef = (colMask steps k, target.testBit k) := by
  rw [List.getD_eq_getElem _ _ (by simpa [buildRows_length] using hk)]
  simp [buildRows]

/-- Assignment `x` (a bitmask over the steps) satisfies every augmented
equation of `rows`. -/
def SatRows (rows : List GRow) (x : Nat) : Prop :=
  ∀ k, k < rows.length → dotp (rows.getD k rowDef).1 x = (rows.getD k rowDef).2

theorem satRows_buildRows (steps : List Nat) (target n x : Nat)
    (hsteps : ∀ s ∈ steps, s < 2 ^ n) (hlen : steps.length ≤ 64) (htarget : target < 2 ^ n) :
    SatRows (buildRows steps target n) x ↔ selXor steps x = target := by
  constructor
  · intro h
    apply Nat.eq_of_testBit_eq
    intro pos
    by_cases hpos : pos < n
    · have := h pos (by simpa [buildRows_length] using hpos)
      rw [buildRows_getD steps target n pos hpos] at this
      rw [← dotp_colMask steps pos x hlen]
      exact this
    · have h1 : (selXor steps x).testBit pos = false := by
        apply Nat.testBit_lt_two_pow
        calc selXor steps x < 2 ^ n := selXor_lt_two_pow hsteps x
        _ ≤ 2 ^ pos := Nat.pow_le_pow_right (by norm_num) (by omega)
      have h2 : target.testBit pos = false := by
        apply Nat.testBit_lt_two_pow
        calc target < 2 ^ n := htarget
        _ ≤ 2 ^ pos := Nat.pow_le_pow_right (by norm_num) (by omega)
      rw [h1, h2]
  · intro h k hk
    have hkn : k < n := by simpa [buildRows_length] using hk
    rw [buildRows_getD steps target n k hkn]
    show dotp (colMask steps k) x = target.testBit k
    rw [dotp_colMask steps k x hlen, h]

end Day10

namespace Day10

/-- Swap of two rows of the working matrix: `rows.swap(row, p)` (codex) /
`matrix.swap(next_row, pr)` (gemini). -/
def swapRows (rows : List GRow) (i j : Nat) : List GRow :=
  (rows.set i (rows.getD j rowDef)).set j (rows.getD i rowDef)

/-- XOR the pivot row (at index `rowIdx`) into every other row whose bit
`col` is set: the inner row-reduction loop of `solve_gf2` and
`GF2Solver::solve`. -/
def elimOthers (rows : List GRow) (rowIdx col : Nat) : List GRow :=
  (List.range rows.length).map fun r =>
    let rr := rows.getD r rowDef
    if r ≠ rowIdx ∧ rr.1.testBit col then
      (rr.1 ^^^ (rows.getD rowIdx rowDef).1, xor rr.2 (rows.getD rowIdx rowDef).2)
    else rr

/-- First row index at or after `r` whose coefficient bit `col` is set: the
pivot-search loop of both eliminations. -/
def findPivotFrom (rows : List GRow) (col r : Nat) : Option Nat :=
  if h : r < rows.length then
    if (rows.getD r rowDef).1.testBit col then some r
    else findPivotFrom rows col (r + 1)
  else none
termination_by rows.length - r

/-- Gaussian-elimination column loop, carrying the working rows and the pivot
(row, column) pairs found so far; the elimination frontier is the number of
pivots.  Mirrors the column loop of `solve_gf2` and `GF2Solver::solve`,
including the early exit once every row is a pivot row. -/
def elimCols (rows : List GRow) (pivots : List (Nat × Nat)) :
    List Nat → List GRow × List (Nat × Nat)
  | [] => (rows, pivots)
  | col :: rest =>
    if rows.length ≤ pivots.length then (rows, pivots)
    else
      match findPivotFrom rows col pivots.length with
      | none => elimCols rows pivots rest
      | some p =>
        let rows1 := swapRows rows pivots.length p
        let rows2 := elimOthers rows1 pivots.length col
        elimCols rows2 (pivots ++ [(pivots.length, col)]) rest

/-- Gaussian elimination over GF(2) of the augmented rows, processing the
step columns `0..m` in order. -/
def gaussElim (m : Nat) (rows : List GRow) : List GRow × List (Nat × Nat) :=
  elimCols rows [] (List.range m)

theorem swapRows_length (rows : List GRow) (i j : Nat) :
    (swapRows rows i j).length = rows.length := by
  simp [swapRows]

theorem swapRows_getD (rows : List GRow) (i j k : Nat) (hi : i < rows.length)
    (hj : j < rows.length) (hk : k < rows.length) :
    (swapRows rows i j).getD k rowDef =
      if k = j then rows.getD i rowDef
      else if k = i then rows.getD j rowDef
      else rows.getD k rowDef := by
  have hlen : (swapRows rows i j).length = rows.length := swapRows_length rows i j
  rw [List.getD_eq_getElem _ _ (by omega)]
  unfold swapRows
  rw [List.getElem_set]
  by_cases hkj : k = j
  · rw [if_pos (hkj.symm), if_pos hkj, List.getD_eq_getElem _ _ hi]
  · rw [if_neg (fun hh => hkj hh.symm), if_neg hkj, List.getElem_set]
    by_cases hki : k = i
    · rw [if_pos (hki.symm), if_pos hki, List.getD_eq_getElem _ _ hj]
    · rw [if_neg (fun hh => hki hh.symm), if_neg hki, List.getD_eq_getElem _ _ hk]

theorem elimOthers_length (rows : List GRow) (rowIdx col : Nat) :
    (elimOthers rows rowIdx col).length = rows.length := by
  simp [elimOthers]

theorem elimOthers_getD (rows : List GRow) (rowIdx col k : Nat) (hk : k < rows.length) :
    (elimOthers rows rowIdx col).getD k rowDef =
      if k ≠ rowIdx ∧ (rows.getD k rowDef).1.testBit col then
        ((rows.getD k rowDef).1 ^^^ (rows.getD rowIdx rowDef).1,
          xor (rows.getD k rowDef).2 (rows.getD rowIdx rowDef).2)
      else rows.getD k rowDef := by
  have hlen : (elimOthers rows rowIdx col).length = rows.length :=
    elimOthers_length rows rowIdx col
  rw [List.getD_eq_getElem _ _ (by omega)]
  unfold elimOthers
  rw [List.getElem_map]
  simp [List.getElem_range]

theorem findPivotFrom_some_aux (rows : List GRow) (col : Nat) :
    ∀ fuel r p, rows.length - r ≤ fuel → findPivotFrom rows col r = some p →
      r ≤ p ∧ p < rows.length ∧ (rows.getD p rowDef).1.testBit col = true := by
  intro fuel
  induction fuel with
  | zero =>
    intro r p hf h
    rw [findPivotFrom, dif_neg (by omega)] at h
    exact absurd h (by simp)
  | succ f ih =>
    intro r p hf h
    rw [findPivotFrom] at h
    by_cases hr : r < rows.length
    · rw [dif_pos hr] at h
      by_cases hbit : (rows.getD r rowDef).1.testBit col
      · rw [if_pos hbit] at h
        obtain rfl : r = p := by simpa using h
        exact ⟨le_refl r, hr, hbit⟩
      · rw [if_neg hbit] at h
        have := ih (r + 1) p (by omega) h
        exact ⟨by omega, this.2.1, this.2.2⟩
    · rw [dif_neg hr] at h
      exact absurd h (by simp)

theorem findPivotFrom_some (rows : List GRow) (col r p : Nat)
    (h : findPivotFrom rows col r = some p) :
    r ≤ p ∧ p < rows.length ∧ (rows.getD p rowDef).1.testBit col = true :=
  findPivotFrom_some_aux rows col (rows.length - r) r p (le_refl _) h

theorem findPivotFrom_none_aux (rows : List GRow) (col : Nat) :
    ∀ fuel r, rows.length - r ≤ fuel → findPivotFrom rows col r = none →
      ∀ j, r ≤ j → j < rows.length → (rows.getD j rowDef).1.testBit col = false := by
  intro fuel
  induction fuel with
  | zero =>
    intro r hf h j hrj hj
    omega
  | succ f ih =>
    intro r hf h j hrj hj
    rw [findPivotFrom] at h
    by_cases hr : r < rows.length
    · rw [dif_pos hr] at h
      by_cases hbit : (rows.getD r rowDef).1.testBit col
      · rw [if_pos hbit] at h; exact absurd h (by simp)
      · rw [if_neg hbit] at h
        by_cases hjr : j = r
        · subst hjr; simpa using hbit
        · exact ih (r + 1) (by omega) h j (by omega) hj
    · omega

theorem findPivotFrom_none (rows : List GRow) (col r : Nat)
    (h : findPivotFrom rows col r = none) :
    ∀ j, r ≤ j → j < rows.length → (rows.getD j rowDef).1.testBit col = false :=
  findPivotFrom_none_aux rows col (rows.length - r) r (le_refl _) h

theorem satRows_swap (rows : List GRow) (i j x : Nat) (hi : i < rows.length)
    (hj : j < rows.length) : SatRows (swapRows rows i j) x ↔ SatRows rows x := by
  have hlen := swapRows_length rows i j
  constructor
  · intro h k hk
    by_cases hki : k = i
    · have hh := h j (by omega)
      rw [swapRows_getD rows i j j hi hj hj, if_pos rfl] at hh
      rw [hki]
      exact hh
    · by_cases hkj : k = j
      · have hh := h i (by omega)
        rw [swapRows_getD rows i j i hi hj hi] at hh
        rw [hkj]
        by_cases hij : i = j
        · rw [if_pos hij] at hh; rw [← hij]; exact hh
        · rwa [if_neg hij, if_pos rfl] at hh
      · have hh := h k (by omega)
        rwa [swapRows_getD rows i j k hi hj (by omega), if_neg hkj, if_neg hki] at hh
  · intro h k hk
    have hk2 : k < rows.length := by omega
    rw [swapRows_getD rows i j k hi hj hk2]
    by_cases hkj : k = j
    · rw [if_pos hkj]; exact h i hi
    · rw [if_neg hkj]
      by_cases hki : k = i
      · rw [if_pos hki]; exact h j hj
      · rw [if_neg hki]; exact h k hk2

theorem xor_cancel_bool {a b c : Bool} (h : xor a c = xor b c) : a = b := by
  cases a <;> cases b <;> cases c <;> simp_all

theorem satRows_elimOthers (rows : List GRow) (rowIdx col x : Nat)
    (hidx : rowIdx < rows.length) :
    SatRows (elimOthers rows rowIdx col) x ↔ SatRows rows x := by
  have hlen := elimOthers_length rows rowIdx col
  have hpivotSame : (elimOthers rows rowIdx col).getD rowIdx rowDef = rows.getD rowIdx rowDef := by
    rw [elimOthers_getD rows rowIdx col rowIdx hidx]
    simp
  constructor
  · intro h k hk
    have hpivot : dotp (rows.getD rowIdx rowDef).1 x = (rows.getD rowIdx rowDef).2 := by
      have := h rowIdx (by omega)
      rwa [hpivotSame] at this
    have hk2 : k < rows.length := by omega
    have := h k (by omega)
    rw [elimOthers_getD rows rowIdx col k hk2] at this
    by_cases hcond : k ≠ rowIdx ∧ (rows.getD k rowDef).1.testBit col
    · rw [if_pos hcond] at this
      simp only at this
      rw [dotp_xor_left] at this
      rw [hpivot] at this
      exact xor_cancel_bool this
    · rwa [if_neg hcond] at this
  · intro h k hk
    have hk2 : k < rows.length := by omega
    rw [elimOthers_getD rows rowIdx col k hk2]
    by_cases hcond : k ≠ rowIdx ∧ (rows.getD k rowDef).1.testBit col
    · rw [if_pos hcond]
      simp only
      rw [dotp_xor_left, h k hk2, h rowIdx hidx]
    · rw [if_neg hcond]; exact h k hk2

end Day10

namespace Day10

/-- Default pivot pair used for out-of-range reads of the pivot list. -/
def pivDef : Nat × Nat := (0, 0)

/-- Echelon-shape invariant maintained by the elimination loop just before
processing column `col`.  `R0` is the initial augmented system, `rows` the
working matrix, `pivots` the (row, column) pivot pairs found so far; the
elimination frontier equals `pivots.length`. -/
structure ElimInv (m : Nat) (R0 rows : List GRow) (pivots : List (Nat × Nat))
    (col : Nat) : Prop where
  len : rows.length = R0.length
  sat : ∀ x, SatRows rows x ↔ SatRows R0 x
  fst_eq : ∀ idx, idx < pivots.length → (pivots.getD idx pivDef).1 = idx
  snd_lt : ∀ idx, idx < pivots.length → (pivots.getD idx pivDef).2 < col
  frontier_le : pivots.length ≤ rows.length
  pivot_bit : ∀ idx, idx < pivots.length →
    (rows.getD idx rowDef).1.testBit (pivots.getD idx pivDef).2 = true
  pivot_unique : ∀ idx, idx < pivots.length → ∀ j, j < rows.length → j ≠ idx →
    (rows.getD j rowDef).1.testBit (pivots.getD idx pivDef).2 = false
  below_zero : ∀ j, pivots.length ≤ j → j < rows.length → ∀ d, d < col →
    (∀ idx, idx < pivots.length → (pivots.getD idx pivDef).2 ≠ d) →
    (rows.getD j rowDef).1.testBit d = false
  mask_lt : ∀ k, k < rows.length → (rows.getD k rowDef).1 < 2 ^ m

theorem elimInv_init (m : Nat) (R0 : List GRow)
    (hmask : ∀ k, k < R0.length → (R0.getD k rowDef).1 < 2 ^ m) :
    ElimInv m R0 R0 [] 0 := by
  refine ⟨rfl, fun x => Iff.rfl, ?_, ?_, ?_, ?_, ?_, ?_, hmask⟩ <;> simp

theorem elimInv_mono (m : Nat) (R0 rows : List GRow) (pivots : List (Nat × Nat))
    (col col2 : Nat) (inv : ElimInv m R0 rows pivots col) (hcol : col ≤ col2)
    (hfull : rows.length ≤ pivots.length) :
    ElimInv m R0 rows pivots col2 := by
  refine ⟨inv.len, inv.sat, inv.fst_eq, ?_, inv.frontier_le, inv.pivot_bit,
    inv.pivot_unique, ?_, inv.mask_lt⟩
  · intro idx hidx
    exact Nat.lt_of_lt_of_le (inv.snd_lt idx hidx) hcol
  · intro j hj hj2
    omega

theorem elimInv_skip (m : Nat) (R0 rows : List GRow) (pivots : List (Nat × Nat))
    (col : Nat) (inv : ElimInv m R0 rows pivots col)
    (hnone : findPivotFrom rows col pivots.length = none) :
    ElimInv m R0 rows pivots (col + 1) := by
  refine ⟨inv.len, inv.sat, inv.fst_eq, ?_, inv.frontier_le, inv.pivot_bit,
    inv.pivot_unique, ?_, inv.mask_lt⟩
  · intro idx hidx
    exact Nat.lt_succ_of_lt (inv.snd_lt idx hidx)
  · intro j hj hj2 d hd hnp
    by_cases hdc : d = col
    · subst hdc
      exact findPivotFrom_none rows d pivots.length hnone j hj hj2
    · exact inv.below_zero j hj hj2 d (by omega) hnp

end Day10

namespace Day10

theorem fst_pair (a : Nat) (b : Bool) : ((a, b) : GRow).1 = a := rfl

theorem snd_pair (a : Nat) (b : Bool) : ((a, b) : GRow).2 = b := rfl

theorem fst_pairN (a b : Nat) : ((a, b) : Nat × Nat).1 = a := rfl

theorem snd_pairN (a b : Nat) : ((a, b) : Nat × Nat).2 = b := rfl

theorem elimInv_pivot_step (m : Nat) (R0 rows : List GRow) (pivots : List (Nat × Nat))
    (col p : Nat) (inv : ElimInv m R0 rows pivots col)
    (hp : findPivotFrom rows col pivots.length = some p) :
    ElimInv m R0 (elimOthers (swapRows rows pivots.length p) pivots.length col)
      (pivots ++ [(pivots.length, col)]) (col + 1) := by
  obtain ⟨hfp, hplen, hpbit⟩ := findPivotFrom_some rows col pivots.length p hp
  have hflen : pivots.length < rows.length := Nat.lt_of_le_of_lt hfp hplen
  have hlen1 : (swapRows rows pivots.length p).length = rows.length :=
    swapRows_length rows pivots.length p
  have h1f : (swapRows rows pivots.length p).getD pivots.length rowDef =
      rows.getD p rowDef := by
    rw [swapRows_getD rows pivots.length p pivots.length hflen hplen hflen]
    by_cases hfp2 : pivots.length = p
    · rw [if_pos hfp2, hfp2]
    · rw [if_neg hfp2, if_pos rfl]
  have h1low : ∀ k, k < pivots.length →
      (swapRows rows pivots.length p).getD k rowDef = rows.getD k rowDef := by
    intro k hk
    rw [swapRows_getD rows pivots.length p k hflen hplen (by omega),
      if_neg (by omega), if_neg (by omega)]
  have h1other : ∀ k, k < rows.length → k ≠ pivots.length →
      (swapRows rows pivots.length p).getD k rowDef =
        rows.getD (if k = p then pivots.length else k) rowDef := by
    intro k hk hkf
    rw [swapRows_getD rows pivots.length p k hflen hplen hk]
    by_cases hkp : k = p
    · rw [if_pos hkp, if_pos hkp]
    · rw [if_neg hkp, if_neg hkf, if_neg hkp]
  have h2 : ∀ k, k < rows.length →
      (elimOthers (swapRows rows pivots.length p) pivots.length col).getD k rowDef =
        if k ≠ pivots.length ∧
            ((swapRows rows pivots.length p).getD k rowDef).1.testBit col then
          (((swapRows rows pivots.length p).getD k rowDef).1 ^^^ (rows.getD p rowDef).1,
            xor ((swapRows rows pivots.length p).getD k rowDef).2 (rows.getD p rowDef).2)
        else (swapRows rows pivots.length p).getD k rowDef := by
    intro k hk
    rw [elimOthers_getD (swapRows rows pivots.length p) pivots.length col k (by omega), h1f]
  have hlen2 : (elimOthers (swapRows rows pivots.length p) pivots.length col).length =
      rows.length := by
    rw [elimOthers_length, hlen1]
  have hpv2len : (pivots ++ [(pivots.length, col)]).length = pivots.length + 1 := by simp
  have hpv2_lt : ∀ idx, idx < pivots.length →
      (pivots ++ [(pivots.length, col)]).getD idx pivDef = pivots.getD idx pivDef := by
    intro idx hidx
    exact List.getD_append _ _ _ _ hidx
  have hpv2_f : (pivots ++ [(pivots.length, col)]).getD pivots.length pivDef =
      (pivots.length, col) := by
    rw [List.getD_append_right _ _ _ _ (le_refl _)]
    simp
  have hprow_oldpiv : ∀ idx, idx < pivots.length →
      (rows.getD p rowDef).1.testBit (pivots.getD idx pivDef).2 = false := by
    intro idx hidx
    exact inv.pivot_unique idx hidx p hplen (by omega)
  have hmask1 : ∀ kk, kk < rows.length →
      ((swapRows rows pivots.length p).getD kk rowDef).1 < 2 ^ m := by
    intro kk hkk
    by_cases hkf : kk = pivots.length
    · rw [hkf, h1f]; exact inv.mask_lt p hplen
    · rw [h1other kk hkk hkf]
      by_cases hkp : kk = p
      · rw [if_pos hkp]; exact inv.mask_lt _ hflen
      · rw [if_neg hkp]; exact inv.mask_lt kk hkk
  refine ⟨?_, ?_, ?_, ?_, ?_, ?_, ?_, ?_, ?_⟩
  · rw [hlen2, inv.len]
  · intro x
    rw [satRows_elimOthers _ _ _ _ (by omega), satRows_swap rows _ p x hflen hplen]
    exact inv.sat x
  · intro idx hidx
    rw [hpv2len] at hidx
    by_cases hio : idx < pivots.length
    · rw [hpv2_lt idx hio]
      exact inv.fst_eq idx hio
    · have hif : idx = pivots.length := by omega
      rw [hif, hpv2_f]
  · intro idx hidx
    rw [hpv2len] at hidx
    by_cases hio : idx < pivots.length
    · rw [hpv2_lt idx hio]
      exact Nat.lt_succ_of_lt (inv.snd_lt idx hio)
    · have hif : idx = pivots.length := by omega
      rw [hif, hpv2_f, snd_pairN]
      omega
  · rw [hpv2len, hlen2]
    omega
  · intro idx hidx
    rw [hpv2len] at hidx
    by_cases hio : idx < pivots.length
    · rw [hpv2_lt idx hio, h2 idx (by omega), h1low idx hio]
      by_cases hbit : (rows.getD idx rowDef).1.testBit col
      · rw [if_pos ⟨by omega, hbit⟩, fst_pair, Nat.testBit_xor, inv.pivot_bit idx hio,
          hprow_oldpiv idx hio]
        rfl
      · rw [if_neg (by intro hc; exact hbit hc.2)]
        exact inv.pivot_bit idx hio
    · have hif : idx = pivots.length := by omega
      rw [hif, hpv2_f, snd_pairN, h2 pivots.length (by omega),
        if_neg (by intro hc; exact hc.1 rfl), h1f]
      exact hpbit
  · -- pivot_unique
    intro idx hidx j hj hjidx
    rw [hpv2len] at hidx
    rw [hlen2] at hj
    by_cases hio : idx < pivots.length
    · rw [hpv2_lt idx hio]
      by_cases hjf : j = pivots.length
      · rw [hjf, h2 pivots.length (by omega), if_neg (by intro hc; exact hc.1 rfl), h1f]
        exact hprow_oldpiv idx hio
      · rw [h2 j hj]
        have hsigne : (if j = p then pivots.length else j) ≠ idx := by
          by_cases hjp : j = p
          · rw [if_pos hjp]; omega
          · rw [if_neg hjp]; exact hjidx
        have hsiglt : (if j = p then pivots.length else j) < rows.length := by
          by_cases hjp : j = p
          · rw [if_pos hjp]; omega
          · rw [if_neg hjp]; exact hj
        have hbase : (rows.getD (if j = p then pivots.length else j) rowDef).1.testBit
            (pivots.getD idx pivDef).2 = false :=
          inv.pivot_unique idx hio _ hsiglt hsigne
        rw [h1other j hj hjf]
        by_cases hbit : (rows.getD (if j = p then pivots.length else j) rowDef).1.testBit col
        · rw [if_pos ⟨hjf, hbit⟩, fst_pair, Nat.testBit_xor, hbase, hprow_oldpiv idx hio]
          rfl
        · rw [if_neg (by intro hc; exact hbit hc.2)]
          exact hbase
    · have hif : idx = pivots.length := by omega
      have hjf : j ≠ pivots.length := by omega
      rw [hif, hpv2_f, snd_pairN, h2 j hj]
      by_cases hbit : ((swapRows rows pivots.length p).getD j rowDef).1.testBit col
      · rw [if_pos ⟨hjf, hbit⟩, fst_pair, Nat.testBit_xor, hbit, hpbit]
        rfl
      · rw [if_neg (by intro hc; exact hbit hc.2)]
        simpa using hbit
  · -- below_zero
    intro j hj hjlt d hd hdnp
    rw [hpv2len] at hj
    rw [hlen2] at hjlt
    have hdcol : col ≠ d := by
      have hh := hdnp pivots.length (by rw [hpv2len]; omega)
      rwa [hpv2_f, snd_pairN] at hh
    have hdlt : d < col := by omega
    have hdnp2 : ∀ idx, idx < pivots.length → (pivots.getD idx pivDef).2 ≠ d := by
      intro idx hidx
      have hh := hdnp idx (by rw [hpv2len]; omega)
      rwa [hpv2_lt idx hidx] at hh
    have hjf : j ≠ pivots.length := by omega
    have hsigge : pivots.length ≤ (if j = p then pivots.length else j) := by
      by_cases hjp : j = p
      · rw [if_pos hjp]
      · rw [if_neg hjp]; omega
    have hsiglt : (if j = p then pivots.length else j) < rows.length := by
      by_cases hjp : j = p
      · rw [if_pos hjp]; omega
      · rw [if_neg hjp]; exact hjlt
    have hbase : (rows.getD (if j = p then pivots.length else j) rowDef).1.testBit d = false :=
      inv.below_zero _ hsigge hsiglt d hdlt hdnp2
    have hprowd : (rows.getD p rowDef).1.testBit d = false :=
      inv.below_zero p hfp hplen d hdlt hdnp2
    rw [h2 j hjlt, h1other j hjlt hjf]
    by_cases hbit : (rows.getD (if j = p then pivots.length else j) rowDef).1.testBit col
    · rw [if_pos ⟨hjf, hbit⟩, fst_pair, Nat.testBit_xor, hbase, hprowd]
      rfl
    · rw [if_neg (by intro hc; exact hbit hc.2)]
      exact hbase
  · intro k hk
    rw [hlen2] at hk
    rw [h2 k hk]
    by_cases hcond : k ≠ pivots.length ∧
        ((swapRows rows pivots.length p).getD k rowDef).1.testBit col
    · rw [if_pos hcond, fst_pair]
      exact Nat.xor_lt_two_pow (hmask1 k hk) (inv.mask_lt p hplen)
    · rw [if_neg hcond]
      exact hmask1 k hk

end Day10

namespace Day10

theorem elimCols_cons (rows : List GRow) (pivots : List (Nat × Nat)) (col : Nat)
    (rest : List Nat) :
    elimCols rows pivots (col :: rest) =
      if rows.length ≤ pivots.length then (rows, pivots)
      else
        match findPivotFrom rows col pivots.length with
        | none => elimCols rows pivots rest
        | some p =>
          elimCols (elimOthers (swapRows rows pivots.length p) pivots.length col)
            (pivots ++ [(pivots.length, col)]) rest := rfl

theorem elimCols_inv (m : Nat) (R0 : List GRow) :
    ∀ k col rows pivots, ElimInv m R0 rows pivots col →
      ElimInv m R0 (elimCols rows pivots (List.range' col k)).1
        (elimCols rows pivots (List.range' col k)).2 (col + k) := by
  intro k
  induction k with
  | zero =>
    intro col rows pivots inv
    simpa [elimCols] using inv
  | succ kk ih =>
    intro col rows pivots inv
    rw [List.range'_succ, elimCols_cons]
    by_cases hfull : rows.length ≤ pivots.length
    · rw [if_pos hfull]
      exact elimInv_mono m R0 rows pivots col (col + (kk + 1)) inv (by omega) hfull
    · rw [if_neg hfull]
      cases hfind : findPivotFrom rows col pivots.length with
      | none =>
        have hc : col + (kk + 1) = (col + 1) + kk := by omega
        rw [hc]
        exact ih (col + 1) rows pivots (elimInv_skip m R0 rows pivots col inv hfind)
      | some p =>
        have hc : col + (kk + 1) = (col + 1) + kk := by omega
        rw [hc]
        exact ih (col + 1) _ _ (elimInv_pivot_step m R0 rows pivots col p inv hfind)

/-- Full elimination invariant at the end of `gaussElim`. -/
theorem gaussElim_inv (m : Nat) (R0 : List GRow)
    (hmask : ∀ k, k < R0.length → (R0.getD k rowDef).1 < 2 ^ m) :
    ElimInv m R0 (gaussElim m R0).1 (gaussElim m R0).2 m := by
  have h := elimCols_inv m R0 m 0 R0 [] (elimInv_init m R0 hmask)
  rw [← List.range_eq_range'] at h
  simpa [gaussElim] using h

/-- After the elimination every row at or beyond the frontier has an
identically zero coefficient mask. -/
theorem elimInv_below_frontier_zero (m : Nat) (R0 rows : List GRow)
    (pivots : List (Nat × Nat)) (inv : ElimInv m R0 rows pivots m) :
    ∀ j, pivots.length ≤ j → j < rows.length → (rows.getD j rowDef).1 = 0 := by
  intro j hj hjlt
  apply Nat.eq_of_testBit_eq
  intro d
  rw [Nat.zero_testBit]
  by_cases hdm : d < m
  · by_cases hpiv : ∃ idx, idx < pivots.length ∧ (pivots.getD idx pivDef).2 = d
    · obtain ⟨idx, hidx, hcd⟩ := hpiv
      rw [← hcd]
      exact inv.pivot_unique idx hidx j hjlt (by omega)
    · apply inv.below_zero j hj hjlt d hdm
      intro idx hidx hcd
      exact hpiv ⟨idx, hidx, hcd⟩
  · apply Nat.testBit_lt_two_pow
    calc (rows.getD j rowDef).1 < 2 ^ m := inv.mask_lt j hjlt
    _ ≤ 2 ^ d := Nat.pow_le_pow_right (by norm_num) (by omega)

end Day10

namespace Day10

/-- Clear the augmented bits: the homogeneous version of an augmented system.
Used to reason about the kernel computation, which depends only on the
coefficient masks. -/
def rowsMask0 (rows : List GRow) : List GRow := rows.map (fun r => (r.1, false))

theorem rowsMask0_length (rows : List GRow) : (rowsMask0 rows).length = rows.length := by
  simp [rowsMask0]

theorem rowsMask0_getD (rows : List GRow) (k : Nat) :
    (rowsMask0 rows).getD k rowDef = ((rows.getD k rowDef).1, false) := by
  by_cases hk : k < rows.length
  · rw [List.getD_eq_getElem _ _ (by rw [rowsMask0_length]; omega),
      List.getD_eq_getElem _ _ hk]
    simp [rowsMask0]
  · rw [List.getD_eq_default _ _ (by rw [rowsMask0_length]; omega),
      List.getD_eq_default _ _ (by omega)]
    rfl

theorem list_ext_getD {l1 l2 : List GRow} (hlen : l1.length = l2.length)
    (h : ∀ k, k < l1.length → l1.getD k rowDef = l2.getD k rowDef) : l1 = l2 := by
  apply List.ext_getElem hlen
  intro i h1 h2
  rw [← List.getD_eq_getElem l1 rowDef h1, ← List.getD_eq_getElem l2 rowDef h2]
  exact h i h1

theorem swapRows_mask0 (rows : List GRow) (i j : Nat) :
    swapRows (rowsMask0 rows) i j = rowsMask0 (swapRows rows i j) := by
  show ((rowsMask0 rows).set i ((rowsMask0 rows).getD j rowDef)).set j
      ((rowsMask0 rows).getD i rowDef) =
    rowsMask0 ((rows.set i (rows.getD j rowDef)).set j (rows.getD i rowDef))
  rw [rowsMask0_getD, rowsMask0_getD]
  show _ = ((rows.set i (rows.getD j rowDef)).set j (rows.getD i rowDef)).map
    (fun r => (r.1, false))
  rw [List.map_set, List.map_set]
  rfl

theorem findPivotFrom_mask0_aux (rows : List GRow) (col : Nat) :
    ∀ fuel r, rows.length - r ≤ fuel →
      findPivotFrom (rowsMask0 rows) col r = findPivotFrom rows col r := by
  intro fuel
  induction fuel with
  | zero =>
    intro r hf
    have hr : ¬ r < rows.length := by omega
    conv_lhs => rw [findPivotFrom]
    conv_rhs => rw [findPivotFrom]
    simp only [rowsMask0_length]
    rw [dif_neg hr, dif_neg hr]
  | succ f ih =>
    intro r hf
    conv_lhs => rw [findPivotFrom]
    conv_rhs => rw [findPivotFrom]
    simp only [rowsMask0_length]
    by_cases hr : r < rows.length
    · rw [dif_pos hr, dif_pos hr, rowsMask0_getD]
      by_cases hbit : (rows.getD r rowDef).1.testBit col
      · rw [if_pos hbit, if_pos hbit]
      · rw [if_neg hbit, if_neg hbit]
        exact ih (r + 1) (by omega)
    · rw [dif_neg hr, dif_neg hr]

theorem findPivotFrom_mask0 (rows : List GRow) (col r : Nat) :
    findPivotFrom (rowsMask0 rows) col r = findPivotFrom rows col r :=
  findPivotFrom_mask0_aux rows col (rows.length - r) r (le_refl _)

theorem elimOthers_mask0 (rows : List GRow) (rowIdx col : Nat) :
    elimOthers (rowsMask0 rows) rowIdx col = rowsMask0 (elimOthers rows rowIdx col) := by
  apply list_ext_getD
  · rw [elimOthers_length, rowsMask0_length, rowsMask0_length, elimOthers_length]
  · intro k hk
    rw [elimOthers_length, rowsMask0_length] at hk
    rw [elimOthers_getD _ _ _ _ (by rw [rowsMask0_length]; omega), rowsMask0_getD,
      rowsMask0_getD, rowsMask0_getD, elimOthers_getD _ _ _ _ hk]
    by_cases hcond : k ≠ rowIdx ∧ (rows.getD k rowDef).1.testBit col
    · rw [if_pos hcond, if_pos hcond]
      simp
    · rw [if_neg hcond, if_neg hcond]

theorem elimCols_mask0 :
    ∀ (cols : List Nat) (rows : List GRow) (pivots : List (Nat × Nat)),
      elimCols (rowsMask0 rows) pivots cols =
        (rowsMask0 (elimCols rows pivots cols).1, (elimCols rows pivots cols).2) := by
  intro cols
  induction cols with
  | nil => intro rows pivots; rfl
  | cons col rest ih =>
    intro rows pivots
    rw [elimCols_cons, elimCols_cons, rowsMask0_length, findPivotFrom_mask0]
    by_cases hfull : rows.length ≤ pivots.length
    · rw [if_pos hfull, if_pos hfull]
    · rw [if_neg hfull, if_neg hfull]
      cases hfind : findPivotFrom rows col pivots.length with
      | none => exact ih rows pivots
      | some p =>
        show elimCols (elimOthers (swapRows (rowsMask0 rows) pivots.length p)
          pivots.length col) (pivots ++ [(pivots.length, col)]) rest = _
        rw [swapRows_mask0, elimOthers_mask0]
        exact ih _ _

theorem gaussElim_mask0 (m : Nat) (rows : List GRow) :
    gaussElim m (rowsMask0 rows) =
      (rowsMask0 (gaussElim m rows).1, (gaussElim m rows).2) := by
  unfold gaussElim
  exact elimCols_mask0 (List.range m) rows []

end Day10

namespace Day10

theorem dotp_def (a b : Nat) : dotp a b = (bitCount (a &&& b) % 2 == 1) := rfl

/-- Clearing one bit of a 64-bit word: `mask & !(1u64 << c)` in the source. -/
def clearBit64 (mask c : Nat) : Nat := mask &&& ((2 ^ 64 - 1) ^^^ 2 ^ c)

theorem any_congr_bool {α : Type} (l : List α) (p q : α → Bool) (h : ∀ a ∈ l, p a = q a) :
    l.any p = l.any q := by
  induction l with
  | nil => rfl
  | cons a rest ih =>
    rw [List.any_cons, List.any_cons, h a (List.mem_cons_self a rest),
      ih (fun b hb => h b (List.mem_cons_of_mem a hb))]

theorem clearBit64_testBit_self (mask c : Nat) (hc : c < 64) :
    (clearBit64 mask c).testBit c = false := by
  unfold clearBit64
  rw [Nat.testBit_and, Nat.testBit_xor, Nat.testBit_two_pow_sub_one, Nat.testBit_two_pow]
  simp [hc]

theorem clearBit64_testBit_ne (mask c i : Nat) (hne : i ≠ c) (hm : mask < 2 ^ 64) :
    (clearBit64 mask c).testBit i = mask.testBit i := by
  unfold clearBit64
  rw [Nat.testBit_and, Nat.testBit_xor, Nat.testBit_two_pow_sub_one, Nat.testBit_two_pow]
  by_cases hi : i < 64
  · have hci : ¬ c = i := fun hh => hne hh.symm
    simp [hi, hci]
  · have hmz : mask.testBit i = false := by
      apply Nat.testBit_lt_two_pow
      calc mask < 2 ^ 64 := hm
      _ ≤ 2 ^ i := Nat.pow_le_pow_right (by norm_num) (by omega)
    simp [hmz]

theorem clearBit64_decomp (mask c : Nat) (hbit : mask.testBit c = true) (hm : mask < 2 ^ 64)
    (hc : c < 64) : mask = 2 ^ c ^^^ clearBit64 mask c := by
  apply Nat.eq_of_testBit_eq
  intro i
  rw [Nat.testBit_xor, Nat.testBit_two_pow]
  by_cases hic : i = c
  · rw [hic, clearBit64_testBit_self mask c hc]
    simp [hbit]
  · rw [clearBit64_testBit_ne mask c i hic hm]
    have hci : ¬ c = i := fun hh => hic hh.symm
    simp [hci]

theorem dotp_clearBit64_decomp (mask c x : Nat) (hbit : mask.testBit c = true)
    (hm : mask < 2 ^ 64) (hc : c < 64) :
    dotp mask x = xor (x.testBit c) (dotp (clearBit64 mask c) x) := by
  conv_lhs => rw [clearBit64_decomp mask c hbit hm hc]
  rw [dotp_xor_left, dotp_comm (2 ^ c) x, dotp_two_pow_right x c hc]

end Day10

namespace Day10.Codex

/-- Default triple for out-of-range reads of a pivot-row list. -/
def prDef : Nat × Nat × Bool := (0, 0, false)

/-- Triples `(pivot, mask_without_pivot, rhs)` for the pivot rows, as built by
the `pivot_rows` loop of codex `solve_gf2`: one triple per row with a recorded
pivot column (rows before the elimination frontier, whose recorded column is
`pivots[idx].2`), skipping rows whose coefficient mask is zero. -/
def pivotRows (rows : List GRow) (pivots : List (Nat × Nat)) : List (Nat × Nat × Bool) :=
  pivots.filterMap fun pc =>
    if (rows.getD pc.1 rowDef).1 = 0 then none
    else some (pc.2, clearBit64 (rows.getD pc.1 rowDef).1 pc.2, (rows.getD pc.1 rowDef).2)

/-- Back-substitution for the particular solution in codex `solve_gf2`: visit
the pivot rows in order and set the pivot bit when `rhs ^ parity` is 1, where
parity is the overlap of the row's non-pivot coefficients with the bits chosen
so far. -/
def particularOf (pr : List (Nat × Nat × Bool)) : Nat :=
  pr.foldl (fun particular t =>
    if xor t.2.2 (bitCount (t.2.1 &&& particular) % 2 == 1) then particular ||| 2 ^ t.1
    else particular) 0

/-- Kernel basis vector for a free column in codex `solve_gf2`: start from the
free bit and set each pivot bit whose row has odd overlap with the vector so
far. -/
def kernelVecOf (pr : List (Nat × Nat × Bool)) (free : Nat) : Nat :=
  pr.foldl (fun v t =>
    if bitCount (t.2.1 &&& v) % 2 == 1 then v ||| 2 ^ t.1 else v) (2 ^ free)

/-- Free columns: step indices that are not pivot columns (`free_vars` in
codex `solve_gf2`). -/
def freeVars (pr : List (Nat × Nat × Bool)) (m : Nat) : List Nat :=
  (List.range m).filter (fun i => !(pr.any (fun t => t.1 == i)))

/-- codex_day10 `solve_gf2`: Gaussian elimination on the augmented system,
consistency check, then particular solution and kernel basis. -/
def solve_gf2 (step_masks : List Nat) (target_mask : Nat) (positions : Nat) :
    Option (Nat × List Nat) :=
  if step_masks.length > 64 then none
  else
    let res := gaussElim step_masks.length (buildRows step_masks target_mask positions)
    if res.1.any (fun r => r.1 == 0 && r.2) then none
    else
      let pr := pivotRows res.1 res.2
      some (particularOf pr, (freeVars pr step_masks.length).map (kernelVecOf pr))

theorem particular_fold (pr : List (Nat × Nat × Bool)) :
    ∀ v0, (∀ t ∈ pr, ∀ t2 ∈ pr, t.2.1.testBit t2.1 = false) →
      (∀ t ∈ pr, t.2.1 &&& v0 = t.2.1 &&& v0) →
      ∀ i, (pr.foldl (fun particular t =>
          if xor t.2.2 (bitCount (t.2.1 &&& particular) % 2 == 1) then particular ||| 2 ^ t.1
          else particular) v0).testBit i =
        (v0.testBit i || pr.any (fun t => t.1 == i && xor t.2.2 (dotp t.2.1 v0))) := by
  induction pr with
  | nil => intro v0 hmw htriv i; simp
  | cons t rest ih =>
    intro v0 hmw htriv i
    rw [List.foldl_cons]
    have hstep : (if xor t.2.2 (bitCount (t.2.1 &&& v0) % 2 == 1) then v0 ||| 2 ^ t.1
        else v0) = (if xor t.2.2 (dotp t.2.1 v0) then v0 ||| 2 ^ t.1 else v0) := rfl
    rw [hstep]
    set v1 := if xor t.2.2 (dotp t.2.1 v0) then v0 ||| 2 ^ t.1 else v0 with hv1
    have hdotsame : ∀ t2 ∈ rest, dotp t2.2.1 v1 = dotp t2.2.1 v0 := by
      intro t2 ht2
      rw [hv1]
      by_cases hcond : xor t.2.2 (dotp t.2.1 v0)
      · rw [if_pos hcond]
        unfold dotp
        rw [Nat.and_or_distrib_left,
          and_two_pow_of_testBit_false
            (hmw t2 (List.mem_cons_of_mem t ht2) t (List.mem_cons_self t rest)),
          Nat.or_zero]
      · rw [if_neg hcond]
    have hv1bit : ∀ i2, v1.testBit i2 =
        (v0.testBit i2 || ((t.1 == i2) && xor t.2.2 (dotp t.2.1 v0))) := by
      intro i2
      rw [hv1]
      by_cases hcond : xor t.2.2 (dotp t.2.1 v0)
      · rw [if_pos hcond, Nat.testBit_or, Nat.testBit_two_pow, hcond]
        by_cases hti : t.1 = i2 <;> simp [hti]
      · rw [if_neg hcond]
        have hcf : xor t.2.2 (dotp t.2.1 v0) = false := by
          cases hx : xor t.2.2 (dotp t.2.1 v0)
          · rfl
          · exact absurd hx hcond
        rw [hcf]
        simp
    have ihr := ih v1 (fun a ha b hb =>
      hmw a (List.mem_cons_of_mem t ha) b (List.mem_cons_of_mem t hb)) (fun a ha => rfl) i
    rw [ihr, hv1bit i, List.any_cons]
    have hany : rest.any (fun t2 => t2.1 == i && xor t2.2.2 (dotp t2.2.1 v1)) =
        rest.any (fun t2 => t2.1 == i && xor t2.2.2 (dotp t2.2.1 v0)) := by
      apply any_congr_bool
      intro t2 ht2
      rw [hdotsame t2 ht2]
    rw [hany]
    cases hb1 : v0.testBit i <;>
      cases hb2 : ((t.1 == i) && xor t.2.2 (dotp t.2.1 v0)) <;>
      cases hb3 : rest.any (fun t2 => t2.1 == i && xor t2.2.2 (dotp t2.2.1 v0)) <;>
      simp [hb1, hb2, hb3]

theorem kernel_fold (pr : List (Nat × Nat × Bool)) :
    ∀ v0, (∀ t ∈ pr, ∀ t2 ∈ pr, t.2.1.testBit t2.1 = false) →
      ∀ i, (pr.foldl (fun v t =>
          if bitCount (t.2.1 &&& v) % 2 == 1 then v ||| 2 ^ t.1 else v) v0).testBit i =
        (v0.testBit i || pr.any (fun t => t.1 == i && dotp t.2.1 v0)) := by
  induction pr with
  | nil => intro v0 hmw i; simp
  | cons t rest ih =>
    intro v0 hmw i
    rw [List.foldl_cons]
    have hstep : (if bitCount (t.2.1 &&& v0) % 2 == 1 then v0 ||| 2 ^ t.1 else v0) =
        (if dotp t.2.1 v0 then v0 ||| 2 ^ t.1 else v0) := rfl
    rw [hstep]
    set v1 := if dotp t.2.1 v0 then v0 ||| 2 ^ t.1 else v0 with hv1
    have hdotsame : ∀ t2 ∈ rest, dotp t2.2.1 v1 = dotp t2.2.1 v0 := by
      intro t2 ht2
      rw [hv1]
      by_cases hcond : dotp t.2.1 v0
      · rw [if_pos hcond]
        unfold dotp
        rw [Nat.and_or_distrib_left,
          and_two_pow_of_testBit_false
            (hmw t2 (List.mem_cons_of_mem t ht2) t (List.mem_cons_self t rest)),
          Nat.or_zero]
      · rw [if_neg hcond]
    have hv1bit : ∀ i2, v1.testBit i2 =
        (v0.testBit i2 || ((t.1 == i2) && dotp t.2.1 v0)) := by
      intro i2
      rw [hv1]
      by_cases hcond : dotp t.2.1 v0
      · rw [if_pos hcond, Nat.testBit_or, Nat.testBit_two_pow, hcond]
        by_cases hti : t.1 = i2 <;> simp [hti]
      · rw [if_neg hcond]
        have hcf : dotp t.2.1 v0 = false := by
          cases hx : dotp t.2.1 v0
          · rfl
          · exact absurd hx hcond
        rw [hcf]
        simp
    have ihr := ih v1 (fun a ha b hb =>
      hmw a (List.mem_cons_of_mem t ha) b (List.mem_cons_of_mem t hb)) i
    rw [ihr, hv1bit i, List.any_cons]
    have hany : rest.any (fun t2 => t2.1 == i && dotp t2.2.1 v1) =
        rest.any (fun t2 => t2.1 == i && dotp t2.2.1 v0) := by
      apply any_congr_bool
      intro t2 ht2
      rw [hdotsame t2 ht2]
    rw [hany]
    cases hb1 : v0.testBit i <;>
      cases hb2 : ((t.1 == i) && dotp t.2.1 v0) <;>
      cases hb3 : rest.any (fun t2 => t2.1 == i && dotp t2.2.1 v0) <;>
      simp [hb1, hb2, hb3]

end Day10.Codex

namespace Day10

theorem filterMap_eq_map_of_some {α β : Type} (f : α → Option β) (g : α → β) (l : List α)
    (h : ∀ a ∈ l, f a = some (g a)) : l.filterMap f = l.map g := by
  induction l with
  | nil => rfl
  | cons a rest ih =>
    rw [List.filterMap_cons, h a (List.mem_cons_self a rest)]
    show g a :: List.filterMap f rest = g a :: rest.map g
    rw [ih (fun b hb => h b (List.mem_cons_of_mem a hb))]

theorem dotp_eq_false_of_and_zero {a b : Nat} (h : a &&& b = 0) : dotp a b = false := by
  unfold dotp
  rw [h]
  rfl

theorem mem_getD_of_lt {α : Type} [Inhabited α] (l : List α) (d : α) (k : Nat)
    (hk : k < l.length) : l.getD k d ∈ l := by
  rw [List.getD_eq_getElem l d hk]
  exact List.getElem_mem hk

theorem mem_to_index {α : Type} (l : List α) (d : α) (a : α) (ha : a ∈ l) :
    ∃ k, k < l.length ∧ l.getD k d = a := by
  rw [List.mem_iff_getElem] at ha
  obtain ⟨k, hk, hka⟩ := ha
  exact ⟨k, hk, by rw [List.getD_eq_getElem l d hk]; exact hka⟩

end Day10

namespace Day10.Codex

/-- Pivot-column distinctness under the elimination invariant. -/
theorem pivot_cols_distinct {m : Nat} {R0 rows : List GRow} {pivots : List (Nat × Nat)}
    (inv : ElimInv m R0 rows pivots m) :
    ∀ idx jdx, idx < pivots.length → jdx < pivots.length → idx ≠ jdx →
      (pivots.getD idx pivDef).2 ≠ (pivots.getD jdx pivDef).2 := by
  intro idx jdx hidx hjdx hne heq
  have hfle : pivots.length ≤ rows.length := inv.frontier_le
  have h1 := inv.pivot_bit idx hidx
  have h2 := inv.pivot_unique jdx hjdx idx (by omega) hne
  rw [← heq] at h2
  rw [h1] at h2
  exact absurd h2 (by simp)

theorem pivotRows_eq {m : Nat} {R0 rows : List GRow} {pivots : List (Nat × Nat)}
    (inv : ElimInv m R0 rows pivots m) :
    pivotRows rows pivots = pivots.map (fun pc =>
      (pc.2, clearBit64 (rows.getD pc.1 rowDef).1 pc.2, (rows.getD pc.1 rowDef).2)) := by
  apply filterMap_eq_map_of_some
  intro pc hpc
  obtain ⟨idx, hidx, hgd⟩ := mem_to_index pivots pivDef pc hpc
  have hfst : pc.1 = idx := by rw [← hgd]; exact inv.fst_eq idx hidx
  have hbit : (rows.getD pc.1 rowDef).1.testBit pc.2 = true := by
    rw [hfst, ← hgd]
    exact inv.pivot_bit idx hidx
  have hne : (rows.getD pc.1 rowDef).1 ≠ 0 := by
    intro h0
    rw [h0, Nat.zero_testBit] at hbit
    exact absurd hbit (by simp)
  rw [if_neg hne]

theorem pivotRows_length {m : Nat} {R0 rows : List GRow} {pivots : List (Nat × Nat)}
    (inv : ElimInv m R0 rows pivots m) :
    (pivotRows rows pivots).length = pivots.length := by
  rw [pivotRows_eq inv, List.length_map]

theorem pivotRows_getD {m : Nat} {R0 rows : List GRow} {pivots : List (Nat × Nat)}
    (inv : ElimInv m R0 rows pivots m) (idx : Nat) (hidx : idx < pivots.length) :
    (pivotRows rows pivots).getD idx prDef =
      ((pivots.getD idx pivDef).2,
        clearBit64 (rows.getD idx rowDef).1 (pivots.getD idx pivDef).2,
        (rows.getD idx rowDef).2) := by
  rw [pivotRows_eq inv, List.getD_eq_getElem _ _ (by rw [List.length_map]; omega),
    List.getElem_map, ← List.getD_eq_getElem pivots pivDef hidx]
  rw [inv.fst_eq idx hidx]

/-- Every member of the pivot-row list is the triple of some index. -/
theorem pivotRows_mem_index {m : Nat} {R0 rows : List GRow} {pivots : List (Nat × Nat)}
    (inv : ElimInv m R0 rows pivots m) (t : Nat × Nat × Bool)
    (ht : t ∈ pivotRows rows pivots) :
    ∃ idx, idx < pivots.length ∧
      t = ((pivots.getD idx pivDef).2,
        clearBit64 (rows.getD idx rowDef).1 (pivots.getD idx pivDef).2,
        (rows.getD idx rowDef).2) := by
  obtain ⟨idx, hidx, hgd⟩ := mem_to_index (pivotRows rows pivots) prDef t ht
  rw [pivotRows_length inv] at hidx
  exact ⟨idx, hidx, by rw [← hgd, pivotRows_getD inv idx hidx]⟩

/-- The non-pivot part of a pivot row has no bit in any pivot column. -/
theorem pivotRows_mw_pivot {m : Nat} {R0 rows : List GRow} {pivots : List (Nat × Nat)}
    (inv : ElimInv m R0 rows pivots m) (hm : m ≤ 64) :
    ∀ t ∈ pivotRows rows pivots, ∀ t2 ∈ pivotRows rows pivots,
      t.2.1.testBit t2.1 = false := by
  intro t ht t2 ht2
  have hfle : pivots.length ≤ rows.length := inv.frontier_le
  obtain ⟨idx, hidx, hteq⟩ := pivotRows_mem_index inv t ht
  obtain ⟨jdx, hjdx, ht2eq⟩ := pivotRows_mem_index inv t2 ht2
  rw [hteq, ht2eq]
  show (clearBit64 (rows.getD idx rowDef).1 (pivots.getD idx pivDef).2).testBit
    (pivots.getD jdx pivDef).2 = false
  have hcj64 : (pivots.getD jdx pivDef).2 < 64 :=
    Nat.lt_of_lt_of_le (inv.snd_lt jdx hjdx) hm
  by_cases hcc : (pivots.getD jdx pivDef).2 = (pivots.getD idx pivDef).2
  · rw [hcc]
    exact clearBit64_testBit_self _ _ (Nat.lt_of_lt_of_le (inv.snd_lt idx hidx) hm)
  · rw [clearBit64_testBit_ne _ _ _ hcc
      (Nat.lt_of_lt_of_le (inv.mask_lt idx (by omega))
        (Nat.pow_le_pow_right (by norm_num) hm))]
    have hij : idx ≠ jdx := by
      intro hij
      exact hcc (by rw [hij])
    exact inv.pivot_unique jdx hjdx idx (by omega) hij

/-- Each set bit of the non-pivot part of a pivot row is a free column. -/
theorem pivotRows_mw_free {m : Nat} {R0 rows : List GRow} {pivots : List (Nat × Nat)}
    (inv : ElimInv m R0 rows pivots m) (hm : m ≤ 64) (idx : Nat)
    (hidx : idx < pivots.length) (i : Nat)
    (hbit : (clearBit64 (rows.getD idx rowDef).1 (pivots.getD idx pivDef).2).testBit i =
      true) :
    i < m ∧ ∀ jdx, jdx < pivots.length → (pivots.getD jdx pivDef).2 ≠ i := by
  have hfle : pivots.length ≤ rows.length := inv.frontier_le
  have hm64 : (rows.getD idx rowDef).1 < 2 ^ 64 :=
    Nat.lt_of_lt_of_le (inv.mask_lt idx (by omega))
      (Nat.pow_le_pow_right (by norm_num) hm)
  have hic : i ≠ (pivots.getD idx pivDef).2 := by
    intro hii
    rw [hii, clearBit64_testBit_self _ _ (Nat.lt_of_lt_of_le (inv.snd_lt idx hidx) hm)]
      at hbit
    exact absurd hbit (by simp)
  rw [clearBit64_testBit_ne _ _ _ hic hm64] at hbit
  constructor
  · by_contra him
    have : (rows.getD idx rowDef).1.testBit i = false := by
      apply Nat.testBit_lt_two_pow
      calc (rows.getD idx rowDef).1 < 2 ^ m := inv.mask_lt idx (by omega)
      _ ≤ 2 ^ i := Nat.pow_le_pow_right (by norm_num) (by omega)
    rw [this] at hbit
    exact absurd hbit (by simp)
  · intro jdx hjdx hcj
    by_cases hij : jdx = idx
    · rw [hij] at hcj
      exact hic hcj.symm
    · have := inv.pivot_unique jdx hjdx idx (by omega) (by omega)
      rw [hcj, hbit] at this
      exact absurd this (by simp)

end Day10.Codex

namespace Day10.Codex

theorem particularOf_testBit {m : Nat} {R0 rows : List GRow} {pivots : List (Nat × Nat)}
    (inv : ElimInv m R0 rows pivots m) (hm : m ≤ 64) (i : Nat) :
    (particularOf (pivotRows rows pivots)).testBit i =
      (pivotRows rows pivots).any (fun t => t.1 == i && t.2.2) := by
  unfold particularOf
  rw [particular_fold (pivotRows rows pivots) 0 (pivotRows_mw_pivot inv hm)
    (fun t ht => rfl) i, Nat.zero_testBit, Bool.false_or]
  apply any_congr_bool
  intro t ht
  rw [dotp_zero_right, Bool.xor_false]

/-- Every set bit of the particular solution is a pivot column. -/
theorem particularOf_pivot {m : Nat} {R0 rows : List GRow} {pivots : List (Nat × Nat)}
    (inv : ElimInv m R0 rows pivots m) (hm : m ≤ 64) (i : Nat)
    (hbit : (particularOf (pivotRows rows pivots)).testBit i = true) :
    ∃ jdx, jdx < pivots.length ∧ (pivots.getD jdx pivDef).2 = i := by
  rw [particularOf_testBit inv hm i, List.any_eq_true] at hbit
  obtain ⟨t, ht, hp⟩ := hbit
  obtain ⟨jdx, hjdx, hteq⟩ := pivotRows_mem_index inv t ht
  refine ⟨jdx, hjdx, ?_⟩
  rw [hteq] at hp
  have hand := (Bool.and_eq_true _ _).mp hp
  have hx : ((pivots.getD jdx pivDef).2 == i) = true := hand.1
  exact beq_iff_eq.mp hx

/-- Bit `c_k` of the particular solution equals the rhs of pivot row `k`. -/
theorem particularOf_pivot_bit {m : Nat} {R0 rows : List GRow} {pivots : List (Nat × Nat)}
    (inv : ElimInv m R0 rows pivots m) (hm : m ≤ 64) (k : Nat) (hk : k < pivots.length) :
    (particularOf (pivotRows rows pivots)).testBit (pivots.getD k pivDef).2 =
      (rows.getD k rowDef).2 := by
  have hfle : pivots.length ≤ rows.length := inv.frontier_le
  rw [particularOf_testBit inv hm, Bool.eq_iff_iff, List.any_eq_true]
  constructor
  · intro hex
    obtain ⟨t, ht, hp⟩ := hex
    obtain ⟨jdx, hjdx, hteq⟩ := pivotRows_mem_index inv t ht
    rw [hteq] at hp
    have hp2 := (Bool.and_eq_true _ _).mp hp
    have hx : ((pivots.getD jdx pivDef).2 == (pivots.getD k pivDef).2) = true := hp2.1
    have hceq : (pivots.getD jdx pivDef).2 = (pivots.getD k pivDef).2 :=
      beq_iff_eq.mp hx
    have hx2 : (((pivots.getD jdx pivDef).2, clearBit64 (rows.getD jdx rowDef).1
      (pivots.getD jdx pivDef).2, (rows.getD jdx rowDef).2).2.2 : Bool) = true := hp2.2
    by_cases hjk : jdx = k
    · rw [hjk] at hx2
      exact hx2
    · exact absurd hceq (pivot_cols_distinct inv jdx k hjdx hk hjk)
  · intro hrhs
    refine ⟨(pivotRows rows pivots).getD k prDef, mem_getD_of_lt _ _ k
      (by rw [pivotRows_length inv]; omega), ?_⟩
    rw [pivotRows_getD inv k hk]
    show (((pivots.getD k pivDef).2 == (pivots.getD k pivDef).2) &&
      (rows.getD k rowDef).2) = true
    rw [hrhs, Bool.and_true]
    simp

end Day10.Codex

namespace Day10.Codex

theorem particular_sats {m : Nat} {R0 rows : List GRow} {pivots : List (Nat × Nat)}
    (inv : ElimInv m R0 rows pivots m) (hm : m ≤ 64)
    (hcons : ∀ k, k < rows.length → (rows.getD k rowDef).1 = 0 →
      (rows.getD k rowDef).2 = false) :
    SatRows rows (particularOf (pivotRows rows pivots)) := by
  intro k hk
  have hfle : pivots.length ≤ rows.length := inv.frontier_le
  by_cases hkf : k < pivots.length
  · have hbit := inv.pivot_bit k hkf
    have hmlt : (rows.getD k rowDef).1 < 2 ^ 64 :=
      Nat.lt_of_lt_of_le (inv.mask_lt k hk) (Nat.pow_le_pow_right (by norm_num) hm)
    have hc64 : (pivots.getD k pivDef).2 < 64 :=
      Nat.lt_of_lt_of_le (inv.snd_lt k hkf) hm
    rw [dotp_clearBit64_decomp _ (pivots.getD k pivDef).2 _ hbit hmlt hc64,
      particularOf_pivot_bit inv hm k hkf]
    have hmw0 : clearBit64 (rows.getD k rowDef).1 (pivots.getD k pivDef).2 &&&
        particularOf (pivotRows rows pivots) = 0 := by
      apply Nat.eq_of_testBit_eq
      intro i
      rw [Nat.testBit_and, Nat.zero_testBit]
      cases hmwb : (clearBit64 (rows.getD k rowDef).1 (pivots.getD k pivDef).2).testBit i
      · simp
      · have hfree := (pivotRows_mw_free inv hm k hkf i hmwb).2
        have hpb : (particularOf (pivotRows rows pivots)).testBit i = false := by
          cases hpb2 : (particularOf (pivotRows rows pivots)).testBit i
          · rfl
          · obtain ⟨jdx, hjdx, hcj⟩ := particularOf_pivot inv hm i hpb2
            exact absurd hcj (hfree jdx hjdx)
        rw [hpb]
        simp
    rw [dotp_eq_false_of_and_zero hmw0, Bool.xor_false]
  · have hz := elimInv_below_frontier_zero m R0 rows pivots inv k (by omega) hk
    rw [hz, dotp_zero_left, hcons k hk hz]

theorem kernelVecOf_testBit {m : Nat} {R0 rows : List GRow} {pivots : List (Nat × Nat)}
    (inv : ElimInv m R0 rows pivots m) (hm : m ≤ 64) (f : Nat) (hf64 : f < 64) (i : Nat) :
    (kernelVecOf (pivotRows rows pivots) f).testBit i =
      (decide (f = i) ||
        (pivotRows rows pivots).any (fun t => t.1 == i && t.2.1.testBit f)) := by
  unfold kernelVecOf
  rw [kernel_fold (pivotRows rows pivots) (2 ^ f) (pivotRows_mw_pivot inv hm) i,
    Nat.testBit_two_pow]
  have hany : (pivotRows rows pivots).any (fun t => t.1 == i && dotp t.2.1 (2 ^ f)) =
      (pivotRows rows pivots).any (fun t => t.1 == i && t.2.1.testBit f) := by
    apply any_congr_bool
    intro t ht
    rw [dotp_two_pow_right _ f hf64]
  rw [hany]

theorem kernelVecOf_free_bit {m : Nat} {R0 rows : List GRow} {pivots : List (Nat × Nat)}
    (inv : ElimInv m R0 rows pivots m) (hm : m ≤ 64) (f i : Nat) (hf64 : f < 64)
    (hfreei : ∀ jdx, jdx < pivots.length → (pivots.getD jdx pivDef).2 ≠ i) :
    (kernelVecOf (pivotRows rows pivots) f).testBit i = decide (f = i) := by
  rw [kernelVecOf_testBit inv hm f hf64 i]
  have hany : (pivotRows rows pivots).any (fun t => t.1 == i && t.2.1.testBit f) = false := by
    cases hc : (pivotRows rows pivots).any (fun t => t.1 == i && t.2.1.testBit f)
    · rfl
    · rw [List.any_eq_true] at hc
      obtain ⟨t, ht, hp⟩ := hc
      obtain ⟨jdx, hjdx, hteq⟩ := pivotRows_mem_index inv t ht
      rw [hteq] at hp
      have hand := (Bool.and_eq_true _ _).mp hp
      have hx : ((pivots.getD jdx pivDef).2 == i) = true := hand.1
      exact absurd (beq_iff_eq.mp hx) (hfreei jdx hjdx)
  rw [hany, Bool.or_false]

theorem kernelVecOf_lt {m : Nat} {R0 rows : List GRow} {pivots : List (Nat × Nat)}
    (inv : ElimInv m R0 rows pivots m) (hm : m ≤ 64) (f : Nat) (hfm : f < m) :
    kernelVecOf (pivotRows rows pivots) f < 2 ^ m := by
  apply Nat.lt_pow_two_of_testBit
  intro i him
  rw [kernelVecOf_testBit inv hm f (by omega) i]
  have h1 : decide (f = i) = false := by
    simp
    omega
  have h2 : (pivotRows rows pivots).any (fun t => t.1 == i && t.2.1.testBit f) = false := by
    cases hc : (pivotRows rows pivots).any (fun t => t.1 == i && t.2.1.testBit f)
    · rfl
    · rw [List.any_eq_true] at hc
      obtain ⟨t, ht, hp⟩ := hc
      obtain ⟨jdx, hjdx, hteq⟩ := pivotRows_mem_index inv t ht
      rw [hteq] at hp
      have hand := (Bool.and_eq_true _ _).mp hp
      have hx : ((pivots.getD jdx pivDef).2 == i) = true := hand.1
      have := beq_iff_eq.mp hx
      have := inv.snd_lt jdx hjdx
      omega
  rw [h1, h2]
  rfl

theorem kernelVecOf_pivot_bit {m : Nat} {R0 rows : List GRow} {pivots : List (Nat × Nat)}
    (inv : ElimInv m R0 rows pivots m) (hm : m ≤ 64) (f : Nat) (hf64 : f < 64)
    (hfreef : ∀ jdx, jdx < pivots.length → (pivots.getD jdx pivDef).2 ≠ f)
    (k : Nat) (hk : k < pivots.length) :
    (kernelVecOf (pivotRows rows pivots) f).testBit (pivots.getD k pivDef).2 =
      (clearBit64 (rows.getD k rowDef).1 (pivots.getD k pivDef).2).testBit f := by
  rw [kernelVecOf_testBit inv hm f hf64]
  have hfc : decide (f = (pivots.getD k pivDef).2) = false := by
    apply decide_eq_false
    intro h
    exact hfreef k hk h.symm
  rw [hfc, Bool.false_or, Bool.eq_iff_iff, List.any_eq_true]
  constructor
  · rintro ⟨t, ht, hp⟩
    obtain ⟨jdx, hjdx, hteq⟩ := pivotRows_mem_index inv t ht
    rw [hteq] at hp
    have hand := (Bool.and_eq_true _ _).mp hp
    have hx : ((pivots.getD jdx pivDef).2 == (pivots.getD k pivDef).2) = true := hand.1
    have hceq := beq_iff_eq.mp hx
    have hx2 : ((clearBit64 (rows.getD jdx rowDef).1 (pivots.getD jdx pivDef).2).testBit f :
      Bool) = true := hand.2
    by_cases hjk : jdx = k
    · rw [hjk] at hx2
      exact hx2
    · exact absurd hceq (pivot_cols_distinct inv jdx k hjdx hk hjk)
  · intro hmwf
    refine ⟨(pivotRows rows pivots).getD k prDef, mem_getD_of_lt _ _ k
      (by rw [pivotRows_length inv]; omega), ?_⟩
    rw [pivotRows_getD inv k hk]
    show (((pivots.getD k pivDef).2 == (pivots.getD k pivDef).2) &&
      (clearBit64 (rows.getD k rowDef).1 (pivots.getD k pivDef).2).testBit f) = true
    rw [hmwf, Bool.and_true]
    simp

theorem kernelVecOf_sats {m : Nat} {R0 rows : List GRow} {pivots : List (Nat × Nat)}
    (inv : ElimInv m R0 rows pivots m) (hm : m ≤ 64) (f : Nat) (hf64 : f < 64)
    (hfreef : ∀ jdx, jdx < pivots.length → (pivots.getD jdx pivDef).2 ≠ f) :
    SatRows (rowsMask0 rows) (kernelVecOf (pivotRows rows pivots) f) := by
  intro k hk
  rw [rowsMask0_length] at hk
  have hfle : pivots.length ≤ rows.length := inv.frontier_le
  rw [rowsMask0_getD, fst_pair, snd_pair]
  by_cases hkf : k < pivots.length
  · have hbit := inv.pivot_bit k hkf
    have hmlt : (rows.getD k rowDef).1 < 2 ^ 64 :=
      Nat.lt_of_lt_of_le (inv.mask_lt k hk) (Nat.pow_le_pow_right (by norm_num) hm)
    have hc64 : (pivots.getD k pivDef).2 < 64 :=
      Nat.lt_of_lt_of_le (inv.snd_lt k hkf) hm
    rw [dotp_clearBit64_decomp _ (pivots.getD k pivDef).2 _ hbit hmlt hc64,
      kernelVecOf_pivot_bit inv hm f hf64 hfreef k hkf]
    have hand : clearBit64 (rows.getD k rowDef).1 (pivots.getD k pivDef).2 &&&
        kernelVecOf (pivotRows rows pivots) f =
        clearBit64 (rows.getD k rowDef).1 (pivots.getD k pivDef).2 &&& 2 ^ f := by
      apply Nat.eq_of_testBit_eq
      intro i
      rw [Nat.testBit_and, Nat.testBit_and, Nat.testBit_two_pow]
      cases hmw : (clearBit64 (rows.getD k rowDef).1 (pivots.getD k pivDef).2).testBit i
      · simp
      · have hfree := (pivotRows_mw_free inv hm k hkf i hmw).2
        rw [kernelVecOf_free_bit inv hm f i hf64 hfree]
    have h2 : dotp (clearBit64 (rows.getD k rowDef).1 (pivots.getD k pivDef).2)
        (kernelVecOf (pivotRows rows pivots) f) =
        (clearBit64 (rows.getD k rowDef).1 (pivots.getD k pivDef).2).testBit f := by
      have hstep : dotp (clearBit64 (rows.getD k rowDef).1 (pivots.getD k pivDef).2)
          (kernelVecOf (pivotRows rows pivots) f) =
          dotp (clearBit64 (rows.getD k rowDef).1 (pivots.getD k pivDef).2) (2 ^ f) := by
        unfold dotp
        rw [hand]
      rw [hstep, dotp_two_pow_right _ f hf64]
    rw [h2, Bool.xor_self]
  · rw [elimInv_below_frontier_zero m R0 rows pivots inv k (by omega) hk, dotp_zero_left]

end Day10.Codex

namespace Day10

/-- Selection mask over a list of column indices: bit `j` is set iff `z` has
the bit of the `j`-th listed column.  Used to exhibit a kernel element as an
XOR-combination of the returned basis. -/
def selBits : List Nat → Nat → Nat
  | [], _ => 0
  | f :: rest, z => (if z.testBit f then 1 else 0) + 2 * selBits rest z

theorem bit_cons_zero (c : Bool) (k : Nat) : ((if c then 1 else 0) + 2 * k).testBit 0 = c := by
  rw [Nat.testBit_zero]
  cases c
  · have hm : ((0 : Nat) + 2 * k) % 2 = 0 := by omega
    simp [hm]
  · have hm : ((1 : Nat) + 2 * k) % 2 = 1 := by omega
    simp [hm]

theorem bit_cons_div (c : Bool) (k : Nat) : ((if c then 1 else 0) + 2 * k) / 2 = k := by
  cases c <;> simp <;> omega

theorem selXor_map_cons (g : Nat → Nat) (f : Nat) (rest : List Nat) (z : Nat) :
    selXor ((f :: rest).map g) (selBits (f :: rest) z) =
      (if z.testBit f then g f else 0) ^^^ selXor (rest.map g) (selBits rest z) := by
  show (if (selBits (f :: rest) z).testBit 0 then g f else 0) ^^^
    selXor (rest.map g) ((selBits (f :: rest) z) / 2) = _
  rw [show selBits (f :: rest) z = (if z.testBit f then 1 else 0) + 2 * selBits rest z
    from rfl, bit_cons_zero, bit_cons_div]

theorem satRows_mask0_zero (rows : List GRow) : SatRows (rowsMask0 rows) 0 := by
  intro k hk
  rw [rowsMask0_getD, fst_pair, snd_pair, dotp_zero_right]

theorem satRows_mask0_xor (rows : List GRow) (a b : Nat)
    (ha : SatRows (rowsMask0 rows) a) (hb : SatRows (rowsMask0 rows) b) :
    SatRows (rowsMask0 rows) (a ^^^ b) := by
  intro k hk
  have h1 := ha k hk
  have h2 := hb k hk
  rw [rowsMask0_getD, fst_pair, snd_pair] at h1 h2 ⊢
  rw [dotp_xor_right, h1, h2]
  rfl

theorem satRows_mask0_selXor (rows : List GRow) (L : List Nat)
    (h : ∀ b ∈ L, SatRows (rowsMask0 rows) b) (c : Nat) :
    SatRows (rowsMask0 rows) (selXor L c) := by
  induction L generalizing c with
  | nil => exact satRows_mask0_zero rows
  | cons b rest ih =>
    show SatRows (rowsMask0 rows) ((if c.testBit 0 then b else 0) ^^^ selXor rest (c / 2))
    apply satRows_mask0_xor
    · by_cases hc : c.testBit 0
      · rw [if_pos hc]
        exact h b (List.mem_cons_self b rest)
      · rw [if_neg hc]
        exact satRows_mask0_zero rows
    · exact ih (fun b2 hb2 => h b2 (List.mem_cons_of_mem b hb2)) (c / 2)

theorem satRows_xor_hom (rows : List GRow) (x y : Nat) (hx : SatRows rows x)
    (hy : SatRows (rowsMask0 rows) y) : SatRows rows (x ^^^ y) := by
  intro k hk
  have h1 := hx k hk
  have h2 := hy k (by rw [rowsMask0_length]; omega)
  rw [rowsMask0_getD, fst_pair, snd_pair] at h2
  rw [dotp_xor_right, h1, h2, Bool.xor_false]

theorem satRows_diff_hom (rows : List GRow) (x y : Nat) (hx : SatRows rows x)
    (hy : SatRows rows y) : SatRows (rowsMask0 rows) (x ^^^ y) := by
  intro k hk
  rw [rowsMask0_length] at hk
  have h1 := hx k hk
  have h2 := hy k hk
  rw [rowsMask0_getD, fst_pair, snd_pair, dotp_xor_right, h1, h2, Bool.xor_self]

theorem buildRows_mask0 (steps : List Nat) (target n : Nat) :
    rowsMask0 (buildRows steps target n) = buildRows steps 0 n := by
  unfold rowsMask0 buildRows
  rw [List.map_map]
  apply List.map_congr_left
  intro pos hpos
  show (colMask steps pos, false) = (colMask steps pos, Nat.testBit 0 pos)
  rw [Nat.zero_testBit]

end Day10

namespace Day10.Codex

theorem mem_freeVars {m : Nat} {R0 rows : List GRow} {pivots : List (Nat × Nat)}
    (inv : ElimInv m R0 rows pivots m) (i : Nat) :
    i ∈ freeVars (pivotRows rows pivots) m ↔
      (i < m ∧ ∀ jdx, jdx < pivots.length → (pivots.getD jdx pivDef).2 ≠ i) := by
  unfold freeVars
  rw [List.mem_filter, List.mem_range]
  constructor
  · rintro ⟨him, hnp⟩
    refine ⟨him, ?_⟩
    intro jdx hjdx hcj
    have hmem : (pivotRows rows pivots).getD jdx prDef ∈ pivotRows rows pivots :=
      mem_getD_of_lt _ _ jdx (by rw [pivotRows_length inv]; omega)
    have hany : (pivotRows rows pivots).any (fun t => t.1 == i) = true := by
      rw [List.any_eq_true]
      refine ⟨_, hmem, ?_⟩
      rw [pivotRows_getD inv jdx hjdx]
      show ((pivots.getD jdx pivDef).2 == i) = true
      rw [hcj]
      simp
    rw [hany] at hnp
    exact absurd hnp (by simp)
  · rintro ⟨him, hnp⟩
    refine ⟨him, ?_⟩
    have hany : (pivotRows rows pivots).any (fun t => t.1 == i) = false := by
      cases hc : (pivotRows rows pivots).any (fun t => t.1 == i)
      · rfl
      · rw [List.any_eq_true] at hc
        obtain ⟨t, ht, hp⟩ := hc
        obtain ⟨jdx, hjdx, hteq⟩ := pivotRows_mem_index inv t ht
        rw [hteq] at hp
        have hx : ((pivots.getD jdx pivDef).2 == i) = true := hp
        exact absurd (beq_iff_eq.mp hx) (hnp jdx hjdx)
    rw [hany]
    rfl

theorem freeVars_nodup (pr : List (Nat × Nat × Bool)) (m : Nat) :
    (freeVars pr m).Nodup :=
  (List.nodup_range m).filter _

theorem selXor_kernel_sats {m : Nat} {R0 rows : List GRow} {pivots : List (Nat × Nat)}
    (inv : ElimInv m R0 rows pivots m) (hm : m ≤ 64) (fv : List Nat)
    (hfv : ∀ f ∈ fv, f < m ∧ ∀ jdx, jdx < pivots.length → (pivots.getD jdx pivDef).2 ≠ f)
    (z : Nat) :
    SatRows (rowsMask0 rows)
      (selXor (fv.map (kernelVecOf (pivotRows rows pivots))) (selBits fv z)) := by
  induction fv with
  | nil => exact satRows_mask0_zero rows
  | cons f rest ih =>
    rw [selXor_map_cons]
    apply satRows_mask0_xor
    · by_cases hz : z.testBit f
      · rw [if_pos hz]
        have hf := hfv f (List.mem_cons_self f rest)
        exact kernelVecOf_sats inv hm f (by omega) hf.2
      · rw [if_neg hz]
        exact satRows_mask0_zero rows
    · exact ih (fun f2 hf2 => hfv f2 (List.mem_cons_of_mem f hf2))

theorem selXor_kernel_lt {m : Nat} {R0 rows : List GRow} {pivots : List (Nat × Nat)}
    (inv : ElimInv m R0 rows pivots m) (hm : m ≤ 64) (fv : List Nat)
    (hfv : ∀ f ∈ fv, f < m) (c : Nat) :
    selXor (fv.map (kernelVecOf (pivotRows rows pivots))) c < 2 ^ m := by
  apply selXor_lt_two_pow
  intro s hs
  rw [List.mem_map] at hs
  obtain ⟨f, hf, hfs⟩ := hs
  rw [← hfs]
  exact kernelVecOf_lt inv hm f (hfv f hf)

theorem selXor_kernel_free_bit {m : Nat} {R0 rows : List GRow} {pivots : List (Nat × Nat)}
    (inv : ElimInv m R0 rows pivots m) (hm : m ≤ 64) (fv : List Nat)
    (hfv : ∀ f ∈ fv, f < m ∧ ∀ jdx, jdx < pivots.length → (pivots.getD jdx pivDef).2 ≠ f)
    (hnd : fv.Nodup) (z i : Nat)
    (hfreei : ∀ jdx, jdx < pivots.length → (pivots.getD jdx pivDef).2 ≠ i) :
    (selXor (fv.map (kernelVecOf (pivotRows rows pivots))) (selBits fv z)).testBit i =
      (decide (i ∈ fv) && z.testBit i) := by
  induction fv with
  | nil =>
    show (0 : Nat).testBit i = (decide (i ∈ ([] : List Nat)) && z.testBit i)
    rw [Nat.zero_testBit]
    simp
  | cons f rest ih =>
    rw [selXor_map_cons, Nat.testBit_xor]
    have hndr : rest.Nodup := hnd.of_cons
    have hfnr : f ∉ rest := by
      intro hc
      exact (List.nodup_cons.mp hnd).1 hc
    have hfm := hfv f (List.mem_cons_self f rest)
    have hihr := ih (fun f2 hf2 => hfv f2 (List.mem_cons_of_mem f hf2)) hndr
    by_cases hif : i = f
    · have hhead : ((if z.testBit f then kernelVecOf (pivotRows rows pivots) f else 0)).testBit
          i = z.testBit f := by
        by_cases hz : z.testBit f
        · rw [if_pos hz, kernelVecOf_free_bit inv hm f i (by omega) hfreei]
          rw [hif]
          simp [hz]
        · rw [if_neg hz, Nat.zero_testBit]
          cases hzz : z.testBit f
          · rfl
          · exact absurd hzz hz
      have hrest : (selXor (rest.map (kernelVecOf (pivotRows rows pivots)))
          (selBits rest z)).testBit i = false := by
        rw [hihr]
        have : decide (i ∈ rest) = false := by
          apply decide_eq_false
          rw [hif]
          exact hfnr
        rw [this]
        simp
      rw [hhead, hrest, Bool.xor_false]
      have : decide (i ∈ f :: rest) = true := by
        apply decide_eq_true
        rw [hif]
        exact List.mem_cons_self f rest
      rw [this, Bool.true_and, hif]
    · have hhead : ((if z.testBit f then kernelVecOf (pivotRows rows pivots) f else 0)).testBit
          i = false := by
        by_cases hz : z.testBit f
        · rw [if_pos hz, kernelVecOf_free_bit inv hm f i (by omega) hfreei]
          apply decide_eq_false
          intro hfi
          exact hif hfi.symm
        · rw [if_neg hz, Nat.zero_testBit]
      rw [hhead, hihr, Bool.false_xor]
      have : decide (i ∈ f :: rest) = decide (i ∈ rest) := by
        by_cases hir : i ∈ rest
        · rw [decide_eq_true (List.mem_cons_of_mem f hir), decide_eq_true hir]
        · rw [decide_eq_false hir, decide_eq_false (by
            intro hc
            rcases List.mem_cons.mp hc with hc1 | hc2
            · exact hif hc1
            · exact hir hc2)]
      rw [this]

/-- Spanning: every homogeneous solution below `2 ^ m` is an XOR-combination
of the returned kernel basis vectors. -/
theorem kernel_span {m : Nat} {R0 rows : List GRow} {pivots : List (Nat × Nat)}
    (inv : ElimInv m R0 rows pivots m) (hm : m ≤ 64) (z : Nat) (hz : z < 2 ^ m)
    (hsat : SatRows (rowsMask0 rows) z) :
    z = selXor ((freeVars (pivotRows rows pivots) m).map
        (kernelVecOf (pivotRows rows pivots)))
      (selBits (freeVars (pivotRows rows pivots) m) z) := by
  have hfle : pivots.length ≤ rows.length := inv.frontier_le
  have hfv : ∀ f ∈ freeVars (pivotRows rows pivots) m,
      f < m ∧ ∀ jdx, jdx < pivots.length → (pivots.getD jdx pivDef).2 ≠ f := by
    intro f hf
    exact (mem_freeVars inv f).mp hf
  have hwsat := selXor_kernel_sats inv hm (freeVars (pivotRows rows pivots) m) hfv z
  apply Nat.eq_of_testBit_eq
  intro i
  by_cases him : i < m
  · by_cases hpiv : ∃ k, k < pivots.length ∧ (pivots.getD k pivDef).2 = i
    · obtain ⟨k, hk, hck⟩ := hpiv
      have hbit := inv.pivot_bit k hk
      have hmlt : (rows.getD k rowDef).1 < 2 ^ 64 :=
        Nat.lt_of_lt_of_le (inv.mask_lt k (by omega))
          (Nat.pow_le_pow_right (by norm_num) hm)
      have hc64 : (pivots.getD k pivDef).2 < 64 :=
        Nat.lt_of_lt_of_le (inv.snd_lt k hk) hm
      have hdet : ∀ y, SatRows (rowsMask0 rows) y →
          y.testBit (pivots.getD k pivDef).2 =
            dotp (clearBit64 (rows.getD k rowDef).1 (pivots.getD k pivDef).2) y := by
        intro y hy
        have hrow := hy k (by rw [rowsMask0_length]; omega)
        rw [rowsMask0_getD, fst_pair, snd_pair,
          dotp_clearBit64_decomp _ (pivots.getD k pivDef).2 _ hbit hmlt hc64] at hrow
        cases hb1 : y.testBit (pivots.getD k pivDef).2 <;>
          cases hb2 : dotp (clearBit64 (rows.getD k rowDef).1 (pivots.getD k pivDef).2) y <;>
          rw [hb1, hb2] at hrow <;> simp at hrow <;> rfl
      have hzd := hdet z hsat
      have hwd := hdet _ hwsat
      rw [← hck, hzd, hwd]
      apply dotp_congr
      intro j hj
      have hfree := pivotRows_mw_free inv hm k hk j hj
      have hjfv : j ∈ freeVars (pivotRows rows pivots) m :=
        (mem_freeVars inv j).mpr hfree
      rw [selXor_kernel_free_bit inv hm _ hfv (freeVars_nodup _ m) z j hfree.2,
        decide_eq_true hjfv, Bool.true_and]
    · have hfreei : ∀ jdx, jdx < pivots.length → (pivots.getD jdx pivDef).2 ≠ i := by
        intro jdx hjdx hcj
        exact hpiv ⟨jdx, hjdx, hcj⟩
      have hifv : i ∈ freeVars (pivotRows rows pivots) m :=
        (mem_freeVars inv i).mpr ⟨him, hfreei⟩
      rw [selXor_kernel_free_bit inv hm _ hfv (freeVars_nodup _ m) z i hfreei,
        decide_eq_true hifv, Bool.true_and]
  · have h1 : z.testBit i = false := by
      apply Nat.testBit_lt_two_pow
      calc z < 2 ^ m := hz
      _ ≤ 2 ^ i := Nat.pow_le_pow_right (by norm_num) (by omega)
    have h2 : (selXor ((freeVars (pivotRows rows pivots) m).map
        (kernelVecOf (pivotRows rows pivots)))
        (selBits (freeVars (pivotRows rows pivots) m) z)).testBit i = false := by
      apply Nat.testBit_lt_two_pow
      calc selXor _ _ < 2 ^ m :=
        selXor_kernel_lt inv hm _ (fun f hf => ((mem_freeVars inv f).mp hf).1) _
      _ ≤ 2 ^ i := Nat.pow_le_pow_right (by norm_num) (by omega)
    rw [h1, h2]

end Day10.Codex

namespace Day10

theorem buildRows_mask_lt (steps : List Nat) (target n : Nat) :
    ∀ k, k < (buildRows steps target n).length →
      ((buildRows steps target n).getD k rowDef).1 < 2 ^ steps.length := by
  intro k hk
  rw [buildRows_length] at hk
  rw [buildRows_getD steps target n k hk, fst_pair]
  exact colMask_lt_two_pow steps k

theorem xor_cancel_left_eq (a b : Nat) : a ^^^ (a ^^^ b) = b := xor_cancel_left a b

end Day10

namespace Day10.Codex

theorem solve_gf2_eq (steps : List Nat) (target n : Nat) (hm : steps.length ≤ 64) :
    solve_gf2 steps target n =
      (if (gaussElim steps.length (buildRows steps target n)).1.any
          (fun r => r.1 == 0 && r.2) then none
        else some
          (particularOf (pivotRows (gaussElim steps.length (buildRows steps target n)).1
            (gaussElim steps.length (buildRows steps target n)).2),
          (freeVars (pivotRows (gaussElim steps.length (buildRows steps target n)).1
            (gaussElim steps.length (buildRows steps target n)).2) steps.length).map
            (kernelVecOf (pivotRows (gaussElim steps.length (buildRows steps target n)).1
              (gaussElim steps.length (buildRows steps target n)).2)))) := by
  unfold solve_gf2
  rw [if_neg (by omega)]

/-- The elimination invariant for the augmented run of `solve_gf2`. -/
theorem solve_gf2_inv (steps : List Nat) (target n : Nat) :
    ElimInv steps.length (buildRows steps target n)
      (gaussElim steps.length (buildRows steps target n)).1
      (gaussElim steps.length (buildRows steps target n)).2 steps.length :=
  gaussElim_inv steps.length (buildRows steps target n)
    (buildRows_mask_lt steps target n)

/-- The elimination invariant for the homogeneous system, transported along
the fact that elimination commutes with clearing the augmented bits. -/
theorem solve_gf2_invH (steps : List Nat) (target n : Nat) :
    ElimInv steps.length (rowsMask0 (buildRows steps target n))
      (rowsMask0 (gaussElim steps.length (buildRows steps target n)).1)
      (gaussElim steps.length (buildRows steps target n)).2 steps.length := by
  have h := gaussElim_inv steps.length (rowsMask0 (buildRows steps target n)) (by
    intro k hk
    rw [rowsMask0_length] at hk
    rw [rowsMask0_getD, fst_pair]
    exact buildRows_mask_lt steps target n k hk)
  rwa [gaussElim_mask0] at h

theorem particularOf_lt {m : Nat} {R0 rows : List GRow} {pivots : List (Nat × Nat)}
    (inv : ElimInv m R0 rows pivots m) (hm : m ≤ 64) :
    particularOf (pivotRows rows pivots) < 2 ^ m := by
  apply Nat.lt_pow_two_of_testBit
  intro i him
  cases hb : (particularOf (pivotRows rows pivots)).testBit i
  · rfl
  · obtain ⟨jdx, hjdx, hcj⟩ := particularOf_pivot inv hm i hb
    have := inv.snd_lt jdx hjdx
    omega

/-- Soundness half of the coset claim: when `solve_gf2` succeeds, the
particular solution XORed with any subset-XOR of the kernel basis selects
steps whose masks XOR to the target, and every basis vector selects steps
whose masks XOR to zero. -/
theorem solve_gf2_sound (steps : List Nat) (target n : Nat) (hm : steps.length ≤ 64)
    (hsteps : ∀ s ∈ steps, s < 2 ^ n) (htarget : target < 2 ^ n)
    (p : Nat) (basis : List Nat) (hres : solve_gf2 steps target n = some (p, basis)) :
    (∀ c, selXor steps (p ^^^ selXor basis c) = target) ∧
      (∀ b ∈ basis, selXor steps b = 0) := by
  rw [solve_gf2_eq steps target n hm] at hres
  by_cases hany : (gaussElim steps.length (buildRows steps target n)).1.any
      (fun r => r.1 == 0 && r.2)
  · rw [if_pos hany] at hres
    exact absurd hres (by simp)
  · rw [if_neg hany] at hres
    have hpeq : p = particularOf (pivotRows (gaussElim steps.length
        (buildRows steps target n)).1 (gaussElim steps.length (buildRows steps target n)).2) := by
      have hinj := Option.some.inj hres
      exact (congrArg Prod.fst hinj).symm
    have hbeq : basis = (freeVars (pivotRows (gaussElim steps.length
        (buildRows steps target n)).1 (gaussElim steps.length
        (buildRows steps target n)).2) steps.length).map
        (kernelVecOf (pivotRows (gaussElim steps.length (buildRows steps target n)).1
          (gaussElim steps.length (buildRows steps target n)).2)) := by
      have hinj := Option.some.inj hres
      exact (congrArg Prod.snd hinj).symm
    have inv := solve_gf2_inv steps target n
    have invH := solve_gf2_invH steps target n
    have hcons : ∀ k, k < (gaussElim steps.length (buildRows steps target n)).1.length →
        ((gaussElim steps.length (buildRows steps target n)).1.getD k rowDef).1 = 0 →
        ((gaussElim steps.length (buildRows steps target n)).1.getD k rowDef).2 = false := by
      intro k hk h0
      cases hrhs : ((gaussElim steps.length (buildRows steps target n)).1.getD k rowDef).2
      · rfl
      · exfalso
        apply hany
        rw [List.any_eq_true]
        refine ⟨_, mem_getD_of_lt _ rowDef k hk, ?_⟩
        rw [h0, hrhs]
        rfl
    have hpsat : SatRows (buildRows steps target n) p := by
      rw [hpeq]
      exact (inv.sat _).mp (particular_sats inv hm hcons)
    have hbsat : ∀ b ∈ basis, SatRows (rowsMask0 (buildRows steps target n)) b := by
      intro b hb
      rw [hbeq] at hb
      rw [List.mem_map] at hb
      obtain ⟨f, hf, hfb⟩ := hb
      have hfree := (mem_freeVars inv f).mp hf
      rw [← hfb]
      exact (invH.sat _).mp (kernelVecOf_sats inv hm f (by omega) hfree.2)
    constructor
    · intro c
      have hsel : SatRows (rowsMask0 (buildRows steps target n)) (selXor basis c) :=
        satRows_mask0_selXor _ basis hbsat c
      have hsat : SatRows (buildRows steps target n) (p ^^^ selXor basis c) :=
        satRows_xor_hom _ p (selXor basis c) hpsat hsel
      exact (satRows_buildRows steps target n _ hsteps hm htarget).mp hsat
    · intro b hb
      have hsb := hbsat b hb
      rw [buildRows_mask0] at hsb
      exact (satRows_buildRows steps 0 n b hsteps hm
        (Nat.pos_pow_of_pos n (by norm_num))).mp hsb

/-- Failure characterisation: with at most 64 steps, `solve_gf2` returns
`None` exactly when the eliminated system has an all-zero coefficient row
with a set augmented bit, which happens exactly when no step subset XORs to
the target. -/
theorem solve_gf2_none_iff (steps : List Nat) (target n : Nat) (hm : steps.length ≤ 64)
    (hsteps : ∀ s ∈ steps, s < 2 ^ n) (htarget : target < 2 ^ n) :
    (solve_gf2 steps target n = none ↔
      (gaussElim steps.length (buildRows steps target n)).1.any
        (fun r => r.1 == 0 && r.2) = true) ∧
    (solve_gf2 steps target n = none ↔ ¬ ∃ x, selXor steps x = target) := by
  have inv := solve_gf2_inv steps target n
  have h1 : solve_gf2 steps target n = none ↔
      (gaussElim steps.length (buildRows steps target n)).1.any
        (fun r => r.1 == 0 && r.2) = true := by
    rw [solve_gf2_eq steps target n hm]
    by_cases hany : (gaussElim steps.length (buildRows steps target n)).1.any
        (fun r => r.1 == 0 && r.2)
    · rw [if_pos hany]
      simp [hany]
    · rw [if_neg hany]
      constructor
      · intro hc
        exact absurd hc (by simp)
      · intro hc
        rw [hc] at hany
        exact absurd rfl hany
  refine ⟨h1, h1.trans ?_⟩
  constructor
  · intro hany hex
    obtain ⟨x, hx⟩ := hex
    rw [List.any_eq_true] at hany
    obtain ⟨r, hr, hrp⟩ := hany
    obtain ⟨k, hk, hkr⟩ := mem_to_index _ rowDef r hr
    have hsat : SatRows (gaussElim steps.length (buildRows steps target n)).1 x :=
      (inv.sat x).mpr ((satRows_buildRows steps target n x hsteps hm htarget).mpr hx)
    have hrow := hsat k hk
    rw [hkr] at hrow
    have hmask : r.1 = 0 := by
      have := (Bool.and_eq_true _ _).mp hrp
      exact beq_iff_eq.mp this.1
    have hrhs : r.2 = true := ((Bool.and_eq_true _ _).mp hrp).2
    rw [hmask, hrhs, dotp_zero_left] at hrow
    exact absurd hrow (by simp)
  · intro hnex
    cases hany : (gaussElim steps.length (buildRows steps target n)).1.any
        (fun r => r.1 == 0 && r.2)
    · exfalso
      apply hnex
      have hcons : ∀ k, k < (gaussElim steps.length (buildRows steps target n)).1.length →
          ((gaussElim steps.length (buildRows steps target n)).1.getD k rowDef).1 = 0 →
          ((gaussElim steps.length (buildRows steps target n)).1.getD k rowDef).2 = false := by
        intro k hk h0
        cases hrhs : ((gaussElim steps.length (buildRows steps target n)).1.getD k rowDef).2
        · rfl
        · exfalso
          have : (gaussElim steps.length (buildRows steps target n)).1.any
              (fun r => r.1 == 0 && r.2) = true := by
            rw [List.any_eq_true]
            refine ⟨_, mem_getD_of_lt _ rowDef k hk, ?_⟩
            rw [h0, hrhs]
            rfl
          rw [this] at hany
          exact absurd hany (by simp)
      refine ⟨particularOf (pivotRows (gaussElim steps.length (buildRows steps target n)).1
        (gaussElim steps.length (buildRows steps target n)).2), ?_⟩
      exact (satRows_buildRows steps target n _ hsteps hm htarget).mp
        ((inv.sat _).mp (particular_sats inv hm hcons))
    · rfl

/-- Completeness half of the coset claim: every solution below `2 ^ m` lies
in the returned coset. -/
theorem solve_gf2_complete (steps : List Nat) (target n : Nat) (hm : steps.length ≤ 64)
    (hsteps : ∀ s ∈ steps, s < 2 ^ n) (htarget : target < 2 ^ n)
    (p : Nat) (basis : List Nat) (hres : solve_gf2 steps target n = some (p, basis))
    (c : Nat) (hc : c < 2 ^ steps.length) (hsol : selXor steps c = target) :
    ∃ cw, c = p ^^^ selXor basis cw := by
  rw [solve_gf2_eq steps target n hm] at hres
  by_cases hany : (gaussElim steps.length (buildRows steps target n)).1.any
      (fun r => r.1 == 0 && r.2)
  · rw [if_pos hany] at hres
    exact absurd hres (by simp)
  · rw [if_neg hany] at hres
    have hpeq : p = particularOf (pivotRows (gaussElim steps.length
        (buildRows steps target n)).1 (gaussElim steps.length (buildRows steps target n)).2) := by
      have hinj := Option.some.inj hres
      exact (congrArg Prod.fst hinj).symm
    have hbeq : basis = (freeVars (pivotRows (gaussElim steps.length
        (buildRows steps target n)).1 (gaussElim steps.length
        (buildRows steps target n)).2) steps.length).map
        (kernelVecOf (pivotRows (gaussElim steps.length (buildRows steps target n)).1
          (gaussElim steps.length (buildRows steps target n)).2)) := by
      have hinj := Option.some.inj hres
      exact (congrArg Prod.snd hinj).symm
    have inv := solve_gf2_inv steps target n
    have invH := solve_gf2_invH steps target n
    have hcons : ∀ k, k < (gaussElim steps.length (buildRows steps target n)).1.length →
        ((gaussElim steps.length (buildRows steps target n)).1.getD k rowDef).1 = 0 →
        ((gaussElim steps.length (buildRows steps target n)).1.getD k rowDef).2 = false := by
      intro k hk h0
      cases hrhs : ((gaussElim steps.length (buildRows steps target n)).1.getD k rowDef).2
      · rfl
      · exfalso
        apply hany
        rw [List.any_eq_true]
        refine ⟨_, mem_getD_of_lt _ rowDef k hk, ?_⟩
        rw [h0, hrhs]
        rfl
    have hpsat : SatRows (buildRows steps target n) p := by
      rw [hpeq]
      exact (inv.sat _).mp (particular_sats inv hm hcons)
    have hcsat : SatRows (buildRows steps target n) c :=
      (satRows_buildRows steps target n c hsteps hm htarget).mpr hsol
    have hzsat : SatRows (rowsMask0 (gaussElim steps.length (buildRows steps target n)).1)
        (c ^^^ p) := by
      apply (invH.sat _).mpr
      exact satRows_diff_hom (buildRows steps target n) c p hcsat hpsat
    have hplt : p < 2 ^ steps.length := by
      rw [hpeq]
      exact particularOf_lt inv hm
    have hzlt : c ^^^ p < 2 ^ steps.length := Nat.xor_lt_two_pow hc hplt
    have hspan := kernel_span inv hm (c ^^^ p) hzlt hzsat
    refine ⟨selBits (freeVars (pivotRows (gaussElim steps.length (buildRows steps target n)).1
      (gaussElim steps.length (buildRows steps target n)).2) steps.length) (c ^^^ p), ?_⟩
    rw [hbeq, ← hspan, Nat.xor_comm c p, xor_cancel_left p c]

end Day10.Codex

namespace Day10

/-- Subset-XOR enumeration by repeated doubling, seeded with one element:
`solutions.push(solutions[i] ^ k_vec)` over each basis vector, as in
`GF2Solver::solve` and in the meet-in-the-middle halves of
`solve_part1_mim`. -/
def subsetXorsFrom (seed : Nat) (basis : List Nat) : List Nat :=
  basis.foldl (fun sols k => sols ++ sols.map (fun v => v ^^^ k)) [seed]

theorem subsetXors_fold_mem (basis : List Nat) :
    ∀ (acc : List Nat) (x : Nat),
      (x ∈ basis.foldl (fun sols k => sols ++ sols.map (fun v => v ^^^ k)) acc ↔
        ∃ y ∈ acc, ∃ c, c < 2 ^ basis.length ∧ x = y ^^^ selXor basis c) := by
  induction basis with
  | nil =>
    intro acc x
    constructor
    · intro hx
      exact ⟨x, hx, 0, by norm_num, by simp [selXor]⟩
    · rintro ⟨y, hy, c, hc, hxy⟩
      have hc1 : c < 1 := by simpa using hc
      have hc0 : c = 0 := by omega
      rw [hxy, hc0]
      simpa [selXor] using hy
  | cons b rest ih =>
    intro acc x
    rw [List.foldl_cons, ih (acc ++ acc.map (fun v => v ^^^ b)) x]
    constructor
    · rintro ⟨y, hy, c, hc, hxy⟩
      rcases List.mem_append.mp hy with hy1 | hy2
      · refine ⟨y, hy1, 2 * c, ?_, ?_⟩
        · rw [List.length_cons, pow_succ]
          omega
        · rw [hxy]
          have hsel : selXor (b :: rest) (2 * c) = selXor rest c := by
            show (if (2 * c).testBit 0 then b else 0) ^^^ selXor rest (2 * c / 2) = _
            rw [testBit_two_mul_zero, if_neg (by simp), Nat.mul_div_cancel_left c (by norm_num),
              Nat.zero_xor]
          rw [hsel]
      · rw [List.mem_map] at hy2
        obtain ⟨y0, hy0, hy0b⟩ := hy2
        refine ⟨y0, hy0, 2 * c + 1, ?_, ?_⟩
        · rw [List.length_cons, pow_succ]
          omega
        · rw [hxy, ← hy0b]
          show y0 ^^^ b ^^^ selXor rest c = y0 ^^^ selXor (b :: rest) (2 * c + 1)
          have hbit : (2 * c + 1).testBit 0 = true := by
            rw [Nat.testBit_zero]
            simp
            omega
          have hdiv : (2 * c + 1) / 2 = c := by omega
          show _ = y0 ^^^ ((if (2 * c + 1).testBit 0 then b else 0) ^^^
            selXor rest ((2 * c + 1) / 2))
          rw [hbit, if_pos rfl, hdiv, Nat.xor_assoc]
    · rintro ⟨y, hy, c, hc, hxy⟩
      by_cases hb0 : c.testBit 0
      · refine ⟨y ^^^ b, List.mem_append.mpr (Or.inr (List.mem_map.mpr ⟨y, hy, rfl⟩)),
          c / 2, ?_, ?_⟩
        · rw [List.length_cons, pow_succ] at hc
          omega
        · rw [hxy]
          show y ^^^ ((if c.testBit 0 then b else 0) ^^^ selXor rest (c / 2)) = _
          rw [hb0, if_pos rfl, ← Nat.xor_assoc]
      · refine ⟨y, List.mem_append.mpr (Or.inl hy), c / 2, ?_, ?_⟩
        · rw [List.length_cons, pow_succ] at hc
          omega
        · rw [hxy]
          show y ^^^ ((if c.testBit 0 then b else 0) ^^^ selXor rest (c / 2)) = _
          rw [if_neg hb0, Nat.zero_xor]

theorem mem_subsetXorsFrom (seed : Nat) (basis : List Nat) (x : Nat) :
    x ∈ subsetXorsFrom seed basis ↔
      ∃ c, c < 2 ^ basis.length ∧ x = seed ^^^ selXor basis c := by
  unfold subsetXorsFrom
  rw [subsetXors_fold_mem basis [seed] x]
  constructor
  · rintro ⟨y, hy, c, hc, hxy⟩
    rw [List.mem_singleton] at hy
    exact ⟨c, hc, by rw [hxy, hy]⟩
  · rintro ⟨c, hc, hxy⟩
    exact ⟨seed, List.mem_singleton.mpr rfl, c, hc, hxy⟩

theorem subsetXorsFrom_length (seed : Nat) (basis : List Nat) :
    (subsetXorsFrom seed basis).length = 2 ^ basis.length := by
  unfold subsetXorsFrom
  have h : ∀ (bs : List Nat) (acc : List Nat),
      (bs.foldl (fun sols k => sols ++ sols.map (fun v => v ^^^ k)) acc).length =
        2 ^ bs.length * acc.length := by
    intro bs
    induction bs with
    | nil => intro acc; simp
    | cons b rest ih =>
      intro acc
      rw [List.foldl_cons, ih, List.length_append, List.length_map, List.length_cons,
        pow_succ]
      ring
  rw [h basis [seed]]
  simp

end Day10

namespace Day10

theorem selBits_lt (fv : List Nat) (z : Nat) : selBits fv z < 2 ^ fv.length := by
  induction fv with
  | nil => simp [selBits]
  | cons f rest ih =>
    show (if z.testBit f then 1 else 0) + 2 * selBits rest z < 2 ^ (rest.length + 1)
    have hp : (2 : Nat) ^ (rest.length + 1) = 2 ^ rest.length * 2 := pow_succ 2 rest.length
    by_cases hz : z.testBit f <;> simp [hz] <;> omega

/-- Bit characterisation of pivot-bit-setting folds (used by gemini_cli_day10,
whose back-substitution conditions do not depend on the accumulator). -/
theorem foldl_or_testBit (l : List (Nat × Nat)) (cond : Nat × Nat → Bool) :
    ∀ (v0 : Nat) (i : Nat),
      (l.foldl (fun v pc => if cond pc then v ||| 2 ^ pc.2 else v) v0).testBit i =
        (v0.testBit i || l.any (fun pc => cond pc && pc.2 == i)) := by
  induction l with
  | nil => intro v0 i; simp
  | cons pc rest ih =>
    intro v0 i
    rw [List.foldl_cons, ih, List.any_cons]
    have hv1 : (if cond pc then v0 ||| 2 ^ pc.2 else v0).testBit i =
        (v0.testBit i || (cond pc && (pc.2 == i))) := by
      by_cases hc : cond pc
      · rw [if_pos hc, Nat.testBit_or, Nat.testBit_two_pow, hc]
        by_cases hpi : pc.2 = i
        · simp [hpi]
        · simp [hpi]
      · have hcf : cond pc = false := by
          cases hx : cond pc
          · rfl
          · exact absurd hx hc
        rw [if_neg hc, hcf]
        simp
    rw [hv1]
    cases hb1 : v0.testBit i <;>
      cases hb2 : (cond pc && (pc.2 == i)) <;>
      cases hb3 : rest.any (fun pc2 => cond pc2 && pc2.2 == i) <;>
      simp [hb1, hb2, hb3]

end Day10

namespace Day10.Gemini

/-- gemini_cli_day10 `GF2Solver`: position count, step count, the steps, and
the kernel basis computed once in `GF2Solver::new` from the homogeneous
system. -/
structure GF2Solver where
  n : Nat
  m : Nat
  steps : List Nat
  kernel_basis : List Nat

/-- Kernel basis vector for free column `c` in `GF2Solver::new`: start from
bit `c` and set pivot bit `p_c` for every pivot row whose eliminated row has
bit `c` set. -/
def kernelVec (rows : List GRow) (pivots : List (Nat × Nat)) (c : Nat) : Nat :=
  pivots.foldl (fun v pc =>
    if (rows.getD pc.1 rowDef).1.testBit c then v ||| 2 ^ pc.2 else v) (2 ^ c)

/-- Particular solution in `GF2Solver::solve`: set each pivot-column bit
according to the augmented bit of its row, visiting the pivots in reverse. -/
def particularG (rows : List GRow) (pivots : List (Nat × Nat)) : Nat :=
  pivots.reverse.foldl (fun part pc =>
    if (rows.getD pc.1 rowDef).2 then part ||| 2 ^ pc.2 else part) 0

/-- `GF2Solver::new`: eliminate the homogeneous system and collect one kernel
basis vector per free column. -/
def GF2Solver.new (steps : List Nat) (n : Nat) : GF2Solver :=
  let res := gaussElim steps.length (buildRows steps 0 n)
  { n := n
    m := steps.length
    steps := steps
    kernel_basis := ((List.range steps.length).filter
        (fun c => !(res.2.any (fun pc => pc.2 == c)))).map (kernelVec res.1 res.2) }

/-- `GF2Solver::solve`: eliminate the augmented system, return the empty list
on inconsistency (a row below the frontier with the augmented bit set), and
otherwise expand the full coset of the particular solution by the kernel
basis via the doubling loop. -/
def GF2Solver.solve (s : GF2Solver) (target_pattern : Nat) : List Nat :=
  let res := gaussElim s.m (buildRows s.steps target_pattern s.n)
  if (res.1.drop res.2.length).any (fun r => r.2) then []
  else subsetXorsFrom (particularG res.1 res.2) s.kernel_basis

theorem particularG_testBit (rows : List GRow) (pivots : List (Nat × Nat)) (i : Nat) :
    (particularG rows pivots).testBit i =
      pivots.any (fun pc => (rows.getD pc.1 rowDef).2 && pc.2 == i) := by
  unfold particularG
  rw [foldl_or_testBit, Nat.zero_testBit, Bool.false_or, List.any_reverse]

theorem kernelVec_testBit (rows : List GRow) (pivots : List (Nat × Nat)) (c i : Nat) :
    (kernelVec rows pivots c).testBit i =
      ((2 ^ c : Nat).testBit i ||
        pivots.any (fun pc => (rows.getD pc.1 rowDef).1.testBit c && pc.2 == i)) := by
  unfold kernelVec
  rw [foldl_or_testBit]

theorem particularG_eq {m : Nat} {R0 rows : List GRow} {pivots : List (Nat × Nat)}
    (inv : ElimInv m R0 rows pivots m) (hm : m ≤ 64) :
    particularG rows pivots = Codex.particularOf (Codex.pivotRows rows pivots) := by
  apply Nat.eq_of_testBit_eq
  intro i
  rw [particularG_testBit, Codex.particularOf_testBit inv hm i, Bool.eq_iff_iff,
    List.any_eq_true, List.any_eq_true]
  constructor
  · rintro ⟨pc, hpc, hp⟩
    obtain ⟨idx, hidx, hgd⟩ := mem_to_index pivots pivDef pc hpc
    have hand := (Bool.and_eq_true _ _).mp hp
    refine ⟨(Codex.pivotRows rows pivots).getD idx Codex.prDef,
      mem_getD_of_lt _ _ idx (by rw [Codex.pivotRows_length inv]; omega), ?_⟩
    rw [Codex.pivotRows_getD inv idx hidx]
    show (((pivots.getD idx pivDef).2 == i) && (rows.getD idx rowDef).2) = true
    have hfst : pc.1 = idx := by rw [← hgd]; exact inv.fst_eq idx hidx
    rw [hgd]
    have h1 : (pc.2 == i) = true := hand.2
    have h2 : (rows.getD idx rowDef).2 = true := by
      rw [← hfst]
      exact hand.1
    rw [h1, h2]
    rfl
  · rintro ⟨t, ht, hp⟩
    obtain ⟨idx, hidx, hteq⟩ := Codex.pivotRows_mem_index inv t ht
    rw [hteq] at hp
    have hand := (Bool.and_eq_true _ _).mp hp
    refine ⟨pivots.getD idx pivDef, mem_getD_of_lt _ _ idx (by omega), ?_⟩
    have hfst : (pivots.getD idx pivDef).1 = idx := inv.fst_eq idx hidx
    rw [hfst]
    have h1 : ((pivots.getD idx pivDef).2 == i) = true := hand.1
    have h2 : ((rows.getD idx rowDef).2 : Bool) = true := hand.2
    rw [h1, h2]
    rfl

theorem foldl_if_congr (l : List (Nat × Nat)) (f g : Nat × Nat → Bool)
    (h : ∀ pc ∈ l, f pc = g pc) :
    ∀ v0, l.foldl (fun v pc => if f pc then v ||| 2 ^ pc.2 else v) v0 =
      l.foldl (fun v pc => if g pc then v ||| 2 ^ pc.2 else v) v0 := by
  induction l with
  | nil => intro v0; rfl
  | cons pc rest ih =>
    intro v0
    rw [List.foldl_cons, List.foldl_cons, h pc (List.mem_cons_self pc rest)]
    exact ih (fun a ha => h a (List.mem_cons_of_mem pc ha)) _

theorem kernelVec_mask0 (rows : List GRow) (pivots : List (Nat × Nat)) (c : Nat) :
    kernelVec (rowsMask0 rows) pivots c = kernelVec rows pivots c := by
  unfold kernelVec
  apply foldl_if_congr
  intro pc hpc
  rw [rowsMask0_getD, fst_pair]

end Day10.Gemini

namespace Day10.Gemini

theorem kernelVec_eq {m : Nat} {R0 rows : List GRow} {pivots : List (Nat × Nat)}
    (inv : ElimInv m R0 rows pivots m) (hm : m ≤ 64) (c : Nat) (hcm : c < m)
    (hfree : ∀ jdx, jdx < pivots.length → (pivots.getD jdx pivDef).2 ≠ c) :
    kernelVec rows pivots c = Codex.kernelVecOf (Codex.pivotRows rows pivots) c := by
  have hfle : pivots.length ≤ rows.length := inv.frontier_le
  apply Nat.eq_of_testBit_eq
  intro i
  rw [kernelVec_testBit, Codex.kernelVecOf_testBit inv hm c (by omega) i]
  rw [Nat.testBit_two_pow]
  have hany : pivots.any (fun pc => (rows.getD pc.1 rowDef).1.testBit c && pc.2 == i) =
      (Codex.pivotRows rows pivots).any (fun t => t.1 == i && t.2.1.testBit c) := by
    rw [Bool.eq_iff_iff, List.any_eq_true, List.any_eq_true]
    constructor
    · rintro ⟨pc, hpc, hp⟩
      obtain ⟨idx, hidx, hgd⟩ := mem_to_index pivots pivDef pc hpc
      have hand := (Bool.and_eq_true _ _).mp hp
      have hfst : pc.1 = idx := by rw [← hgd]; exact inv.fst_eq idx hidx
      refine ⟨(Codex.pivotRows rows pivots).getD idx Codex.prDef,
        mem_getD_of_lt _ _ idx (by rw [Codex.pivotRows_length inv]; omega), ?_⟩
      rw [Codex.pivotRows_getD inv idx hidx]
      show (((pivots.getD idx pivDef).2 == i) &&
        (clearBit64 (rows.getD idx rowDef).1 (pivots.getD idx pivDef).2).testBit c) = true
      have h1 : ((pivots.getD idx pivDef).2 == i) = true := by rw [hgd]; exact hand.2
      have hcc : c ≠ (pivots.getD idx pivDef).2 := fun hc => hfree idx hidx hc.symm
      have h2 : (clearBit64 (rows.getD idx rowDef).1
          (pivots.getD idx pivDef).2).testBit c = true := by
        rw [clearBit64_testBit_ne _ _ _ hcc (Nat.lt_of_lt_of_le (inv.mask_lt idx (by omega))
          (Nat.pow_le_pow_right (by norm_num) hm))]
        rw [← hfst]
        exact hand.1
      rw [h1, h2]
      rfl
    · rintro ⟨t, ht, hp⟩
      obtain ⟨idx, hidx, hteq⟩ := Codex.pivotRows_mem_index inv t ht
      rw [hteq] at hp
      have hand := (Bool.and_eq_true _ _).mp hp
      refine ⟨pivots.getD idx pivDef, mem_getD_of_lt _ _ idx (by omega), ?_⟩
      have hfst : (pivots.getD idx pivDef).1 = idx := inv.fst_eq idx hidx
      rw [hfst]
      have h1 : ((pivots.getD idx pivDef).2 == i) = true := hand.1
      have hcc : c ≠ (pivots.getD idx pivDef).2 := fun hc => hfree idx hidx hc.symm
      have h2 : ((clearBit64 (rows.getD idx rowDef).1
          (pivots.getD idx pivDef).2).testBit c : Bool) = true := hand.2
      rw [clearBit64_testBit_ne _ _ _ hcc (Nat.lt_of_lt_of_le (inv.mask_lt idx (by omega))
        (Nat.pow_le_pow_right (by norm_num) hm))] at h2
      rw [h1, h2]
      rfl
  rw [hany]

theorem freeCols_eq {m : Nat} {R0 rows : List GRow} {pivots : List (Nat × Nat)}
    (inv : ElimInv m R0 rows pivots m) :
    (List.range m).filter (fun c => !(pivots.any (fun pc => pc.2 == c))) =
      Codex.freeVars (Codex.pivotRows rows pivots) m := by
  have hfle : pivots.length ≤ rows.length := inv.frontier_le
  unfold Codex.freeVars
  apply List.filter_congr
  intro c hc
  have hiff : pivots.any (fun pc => pc.2 == c) =
      (Codex.pivotRows rows pivots).any (fun t => t.1 == c) := by
    rw [Bool.eq_iff_iff, List.any_eq_true, List.any_eq_true]
    constructor
    · rintro ⟨pc, hpc, hp⟩
      obtain ⟨idx, hidx, hgd⟩ := mem_to_index pivots pivDef pc hpc
      refine ⟨(Codex.pivotRows rows pivots).getD idx Codex.prDef,
        mem_getD_of_lt _ _ idx (by rw [Codex.pivotRows_length inv]; omega), ?_⟩
      rw [Codex.pivotRows_getD inv idx hidx]
      show ((pivots.getD idx pivDef).2 == c) = true
      rw [hgd]
      exact hp
    · rintro ⟨t, ht, hp⟩
      obtain ⟨idx, hidx, hteq⟩ := Codex.pivotRows_mem_index inv t ht
      rw [hteq] at hp
      refine ⟨pivots.getD idx pivDef, mem_getD_of_lt _ _ idx (by omega), ?_⟩
      exact hp
  rw [hiff]

end Day10.Gemini

namespace Day10.Codex

/-- Elimination result of the augmented system for a given target. -/
def elimRes (steps : List Nat) (target n : Nat) : List GRow × List (Nat × Nat) :=
  gaussElim steps.length (buildRows steps target n)

/-- Pivot-row triples of the augmented run. -/
def prT (steps : List Nat) (target n : Nat) : List (Nat × Nat × Bool) :=
  pivotRows (elimRes steps target n).1 (elimRes steps target n).2

/-- Particular solution of the augmented run. -/
def partT (steps : List Nat) (target n : Nat) : Nat := particularOf (prT steps target n)

/-- Kernel basis of the augmented run (one vector per free column). -/
def basisT (steps : List Nat) (target n : Nat) : List Nat :=
  (freeVars (prT steps target n) steps.length).map (kernelVecOf (prT steps target n))

theorem solve_gf2_eq2 (steps : List Nat) (target n : Nat) (hm : steps.length ≤ 64) :
    solve_gf2 steps target n =
      if (elimRes steps target n).1.any (fun r => r.1 == 0 && r.2) then none
      else some (partT steps target n, basisT steps target n) :=
  solve_gf2_eq steps target n hm

theorem elim_inv (steps : List Nat) (target n : Nat) :
    ElimInv steps.length (buildRows steps target n) (elimRes steps target n).1
      (elimRes steps target n).2 steps.length :=
  solve_gf2_inv steps target n

theorem elim_invH (steps : List Nat) (target n : Nat) :
    ElimInv steps.length (rowsMask0 (buildRows steps target n))
      (rowsMask0 (elimRes steps target n).1) (elimRes steps target n).2 steps.length :=
  solve_gf2_invH steps target n

theorem hcons_of_any_false (steps : List Nat) (target n : Nat)
    (hany : (elimRes steps target n).1.any (fun r => r.1 == 0 && r.2) = false) :
    ∀ k, k < (elimRes steps target n).1.length →
      ((elimRes steps target n).1.getD k rowDef).1 = 0 →
      ((elimRes steps target n).1.getD k rowDef).2 = false := by
  intro k hk h0
  cases hrhs : ((elimRes steps target n).1.getD k rowDef).2
  · rfl
  · exfalso
    have hh : (elimRes steps target n).1.any (fun r => r.1 == 0 && r.2) = true := by
      rw [List.any_eq_true]
      refine ⟨_, mem_getD_of_lt _ rowDef k hk, ?_⟩
      rw [h0, hrhs]
      rfl
    rw [hh] at hany
    exact absurd hany (by simp)

theorem partT_sats (steps : List Nat) (target n : Nat) (hm : steps.length ≤ 64)
    (hany : (elimRes steps target n).1.any (fun r => r.1 == 0 && r.2) = false) :
    SatRows (buildRows steps target n) (partT steps target n) :=
  ((elim_inv steps target n).sat _).mp
    (particular_sats (elim_inv steps target n) hm (hcons_of_any_false steps target n hany))

theorem basisT_sats (steps : List Nat) (target n : Nat) (hm : steps.length ≤ 64) :
    ∀ b ∈ basisT steps target n, SatRows (rowsMask0 (buildRows steps target n)) b := by
  intro b hb
  rw [basisT, List.mem_map] at hb
  obtain ⟨f, hf, hfb⟩ := hb
  have hfree := (mem_freeVars (elim_inv steps target n) f).mp hf
  rw [← hfb]
  exact ((elim_invH steps target n).sat _).mp
    (kernelVecOf_sats (elim_inv steps target n) hm f (by omega) hfree.2)

theorem partT_lt (steps : List Nat) (target n : Nat) (hm : steps.length ≤ 64) :
    partT steps target n < 2 ^ steps.length :=
  particularOf_lt (elim_inv steps target n) hm

theorem basisT_lt (steps : List Nat) (target n : Nat) (hm : steps.length ≤ 64) :
    ∀ b ∈ basisT steps target n, b < 2 ^ steps.length := by
  intro b hb
  rw [basisT, List.mem_map] at hb
  obtain ⟨f, hf, hfb⟩ := hb
  rw [← hfb]
  exact kernelVecOf_lt (elim_inv steps target n) hm f
    ((mem_freeVars (elim_inv steps target n) f).mp hf).1

/-- Soundness of the coset at context level. -/
theorem coset_sound_ctx (steps : List Nat) (target n : Nat) (hm : steps.length ≤ 64)
    (hsteps : ∀ s ∈ steps, s < 2 ^ n) (htarget : target < 2 ^ n)
    (hany : (elimRes steps target n).1.any (fun r => r.1 == 0 && r.2) = false) :
    ∀ cw, selXor steps (partT steps target n ^^^ selXor (basisT steps target n) cw) =
      target := by
  intro cw
  have hsel : SatRows (rowsMask0 (buildRows steps target n))
      (selXor (basisT steps target n) cw) :=
    satRows_mask0_selXor _ _ (basisT_sats steps target n hm) cw
  exact (satRows_buildRows steps target n _ hsteps hm htarget).mp
    (satRows_xor_hom _ _ _ (partT_sats steps target n hm hany) hsel)

theorem basisT_zero (steps : List Nat) (target n : Nat) (hm : steps.length ≤ 64)
    (hsteps : ∀ s ∈ steps, s < 2 ^ n) :
    ∀ b ∈ basisT steps target n, selXor steps b = 0 := by
  intro b hb
  have hsb := basisT_sats steps target n hm b hb
  rw [buildRows_mask0] at hsb
  exact (satRows_buildRows steps 0 n b hsteps hm
    (Nat.pos_pow_of_pos n (by norm_num))).mp hsb

/-- Completeness of the coset at context level, with the selector bounded by
the basis size. -/
theorem coset_complete_ctx (steps : List Nat) (target n : Nat) (hm : steps.length ≤ 64)
    (hsteps : ∀ s ∈ steps, s < 2 ^ n) (htarget : target < 2 ^ n)
    (hany : (elimRes steps target n).1.any (fun r => r.1 == 0 && r.2) = false)
    (c : Nat) (hc : c < 2 ^ steps.length) (hsol : selXor steps c = target) :
    ∃ cw, cw < 2 ^ (basisT steps target n).length ∧
      c = partT steps target n ^^^ selXor (basisT steps target n) cw := by
  have inv := elim_inv steps target n
  have invH := elim_invH steps target n
  have hcsat : SatRows (buildRows steps target n) c :=
    (satRows_buildRows steps target n c hsteps hm htarget).mpr hsol
  have hzsat : SatRows (rowsMask0 (elimRes steps target n).1)
      (c ^^^ partT steps target n) := by
    apply (invH.sat _).mpr
    exact satRows_diff_hom (buildRows steps target n) c _ hcsat
      (partT_sats steps target n hm hany)
  have hzlt : c ^^^ partT steps target n < 2 ^ steps.length :=
    Nat.xor_lt_two_pow hc (partT_lt steps target n hm)
  have hspan := kernel_span inv hm (c ^^^ partT steps target n) hzlt hzsat
  refine ⟨selBits (freeVars (prT steps target n) steps.length)
    (c ^^^ partT steps target n), ?_, ?_⟩
  · have hlen : (basisT steps target n).length =
        (freeVars (prT steps target n) steps.length).length := by
      rw [basisT, List.length_map]
    rw [hlen]
    exact selBits_lt _ _
  · have hgoal : c = partT steps target n ^^^
        selXor ((freeVars (pivotRows (elimRes steps target n).1 (elimRes steps target n).2)
            steps.length).map (kernelVecOf (pivotRows (elimRes steps target n).1
            (elimRes steps target n).2)))
          (selBits (freeVars (pivotRows (elimRes steps target n).1
            (elimRes steps target n).2) steps.length) (c ^^^ partT steps target n)) := by
      rw [← hspan, Nat.xor_comm c (partT steps target n),
        xor_cancel_left (partT steps target n) c]
    exact hgoal

theorem any_true_unsolvable (steps : List Nat) (target n : Nat) (hm : steps.length ≤ 64)
    (hsteps : ∀ s ∈ steps, s < 2 ^ n) (htarget : target < 2 ^ n)
    (hany : (elimRes steps target n).1.any (fun r => r.1 == 0 && r.2) = true) :
    ¬ ∃ x, selXor steps x = target := by
  rintro ⟨x, hx⟩
  rw [List.any_eq_true] at hany
  obtain ⟨r, hr, hrp⟩ := hany
  obtain ⟨k, hk, hkr⟩ := mem_to_index _ rowDef r hr
  have hsat : SatRows (elimRes steps target n).1 x :=
    ((elim_inv steps target n).sat x).mpr
      ((satRows_buildRows steps target n x hsteps hm htarget).mpr hx)
  have hrow := hsat k hk
  rw [hkr] at hrow
  have hand := (Bool.and_eq_true _ _).mp hrp
  have hmask : r.1 = 0 := beq_iff_eq.mp hand.1
  rw [hmask, hand.2, dotp_zero_left] at hrow
  exact absurd hrow (by simp)

theorem any_false_solvable (steps : List Nat) (target n : Nat) (hm : steps.length ≤ 64)
    (hsteps : ∀ s ∈ steps, s < 2 ^ n) (htarget : target < 2 ^ n)
    (hany : (elimRes steps target n).1.any (fun r => r.1 == 0 && r.2) = false) :
    selXor steps (partT steps target n) = target := by
  have h := coset_sound_ctx steps target n hm hsteps htarget hany 0
  rwa [selXor_zero, Nat.xor_zero] at h

end Day10.Codex

namespace Day10

theorem getD_drop {α : Type} [Inhabited α] (l : List α) (d : α) (k j : Nat)
    (h : k + j < l.length) : (l.drop k).getD j d = l.getD (k + j) d := by
  have hj : j < (l.drop k).length := by rw [List.length_drop]; omega
  rw [List.getD_eq_getElem _ d hj, List.getD_eq_getElem l d h]
  rw [List.getElem_drop]

/-- After full elimination, gemini's inconsistency check (an augmented bit set
in a row below the pivot frontier) agrees with codex's (a row with a zero mask
and a set augmented bit). -/
theorem drop_check_eq {m : Nat} {R0 rows : List GRow} {pivots : List (Nat × Nat)}
    (inv : ElimInv m R0 rows pivots m) :
    ((rows.drop pivots.length).any (fun r => r.2)) =
      (rows.any (fun r => r.1 == 0 && r.2)) := by
  have hfle : pivots.length ≤ rows.length := inv.frontier_le
  rw [Bool.eq_iff_iff, List.any_eq_true, List.any_eq_true]
  constructor
  · rintro ⟨r, hr, hrhs⟩
    obtain ⟨j, hj, hjr⟩ := mem_to_index _ rowDef r hr
    rw [List.length_drop] at hj
    have hlt : pivots.length + j < rows.length := by omega
    rw [getD_drop rows rowDef pivots.length j hlt] at hjr
    have hzero : (rows.getD (pivots.length + j) rowDef).1 = 0 :=
      elimInv_below_frontier_zero m R0 rows pivots inv _ (by omega) hlt
    refine ⟨rows.getD (pivots.length + j) rowDef, mem_getD_of_lt _ _ _ hlt, ?_⟩
    rw [hzero, hjr, hrhs]
    rfl
  · rintro ⟨r, hr, hp⟩
    obtain ⟨k, hk, hkr⟩ := mem_to_index _ rowDef r hr
    have hand := (Bool.and_eq_true _ _).mp hp
    have hmask : r.1 = 0 := beq_iff_eq.mp hand.1
    have hkf : pivots.length ≤ k := by
      by_contra hlt
      push_neg at hlt
      have hbit := inv.pivot_bit k hlt
      rw [hkr, hmask, Nat.zero_testBit] at hbit
      exact absurd hbit (by simp)
    refine ⟨r, ?_, hand.2⟩
    have hjlt : k - pivots.length < (rows.drop pivots.length).length := by
      rw [List.length_drop]; omega
    have hgd : (rows.drop pivots.length).getD (k - pivots.length) rowDef = r := by
      rw [getD_drop rows rowDef pivots.length (k - pivots.length) (by omega)]
      rw [show pivots.length + (k - pivots.length) = k from by omega]
      exact hkr
    rw [← hgd]
    exact mem_getD_of_lt _ _ _ hjlt

end Day10

namespace Day10.Gemini

/-- The kernel basis computed by `GF2Solver::new` from the homogeneous system
equals the codex-style basis of the augmented run for any target, because
elimination performs the same row operations on the masks. -/
theorem new_kernel_basis (steps : List Nat) (n target : Nat) (hm : steps.length ≤ 64) :
    (GF2Solver.new steps n).kernel_basis = Codex.basisT steps target n := by
  have inv := Codex.elim_inv steps target n
  have hres : gaussElim steps.length (buildRows steps 0 n) =
      (rowsMask0 (Codex.elimRes steps target n).1, (Codex.elimRes steps target n).2) := by
    rw [← buildRows_mask0 steps target n]
    exact gaussElim_mask0 steps.length (buildRows steps target n)
  show ((List.range steps.length).filter
      (fun c => !((gaussElim steps.length (buildRows steps 0 n)).2.any
        (fun pc => pc.2 == c)))).map
      (kernelVec (gaussElim steps.length (buildRows steps 0 n)).1
        (gaussElim steps.length (buildRows steps 0 n)).2) = Codex.basisT steps target n
  rw [hres]
  show ((List.range steps.length).filter
      (fun c => !((Codex.elimRes steps target n).2.any (fun pc => pc.2 == c)))).map
      (kernelVec (rowsMask0 (Codex.elimRes steps target n).1)
        (Codex.elimRes steps target n).2) = Codex.basisT steps target n
  rw [freeCols_eq inv]
  apply List.map_congr_left
  intro c hc
  have hcf := (Codex.mem_freeVars inv c).mp hc
  rw [kernelVec_mask0]
  exact kernelVec_eq inv hm c hcf.1 hcf.2

/-- Unfolding of `GF2Solver::solve` through the codex-side abbreviations. -/
theorem solve_eq (steps : List Nat) (n target : Nat) (hm : steps.length ≤ 64) :
    (GF2Solver.new steps n).solve target =
      if ((Codex.elimRes steps target n).1.any (fun r => r.1 == 0 && r.2)) then []
      else subsetXorsFrom (Codex.partT steps target n) (Codex.basisT steps target n) := by
  have inv := Codex.elim_inv steps target n
  show (if ((Codex.elimRes steps target n).1.drop
        (Codex.elimRes steps target n).2.length).any (fun r => r.2) then []
      else subsetXorsFrom (particularG (Codex.elimRes steps target n).1
        (Codex.elimRes steps target n).2) (GF2Solver.new steps n).kernel_basis) = _
  rw [drop_check_eq inv, particularG_eq inv hm, new_kernel_basis steps n target hm]
  rfl

/-- Membership in the list returned by gemini's `solve`: exactly the selection
patterns below `2^m` whose steps XOR to the target. -/
theorem solve_mem (steps : List Nat) (n target : Nat) (hm : steps.length ≤ 64)
    (hsteps : ∀ s ∈ steps, s < 2 ^ n) (htarget : target < 2 ^ n) (c : Nat) :
    c ∈ (GF2Solver.new steps n).solve target ↔
      (c < 2 ^ steps.length ∧ selXor steps c = target) := by
  rw [solve_eq steps n target hm]
  cases hany : (Codex.elimRes steps target n).1.any (fun r => r.1 == 0 && r.2)
  · rw [if_neg (by simp)]
    rw [mem_subsetXorsFrom]
    constructor
    · rintro ⟨cw, hcw, hceq⟩
      constructor
      · rw [hceq]
        exact Nat.xor_lt_two_pow (Codex.partT_lt steps target n hm)
          (selXor_lt_two_pow (Codex.basisT_lt steps target n hm) cw)
      · rw [hceq]
        exact Codex.coset_sound_ctx steps target n hm hsteps htarget hany cw
    · rintro ⟨hc, hsol⟩
      obtain ⟨cw, hcwlt, hceq⟩ :=
        Codex.coset_complete_ctx steps target n hm hsteps htarget hany c hc hsol
      exact ⟨cw, hcwlt, hceq⟩
  · rw [if_pos rfl]
    constructor
    · intro hmem
      exact absurd hmem (List.not_mem_nil c)
    · rintro ⟨hc, hsol⟩
      exact absurd ⟨c, hsol⟩
        (Codex.any_true_unsolvable steps target n hm hsteps htarget hany)

/-- Gemini's `solve` returns the empty list exactly on unsolvable targets. -/
theorem solve_nil_iff (steps : List Nat) (n target : Nat) (hm : steps.length ≤ 64)
    (hsteps : ∀ s ∈ steps, s < 2 ^ n) (htarget : target < 2 ^ n) :
    (GF2Solver.new steps n).solve target = [] ↔ ¬ ∃ x, selXor steps x = target := by
  rw [solve_eq steps n target hm]
  cases hany : (Codex.elimRes steps target n).1.any (fun r => r.1 == 0 && r.2)
  · rw [if_neg (by simp)]
    constructor
    · intro hnil
      have hlen := subsetXorsFrom_length (Codex.partT steps target n)
        (Codex.basisT steps target n)
      rw [hnil, List.length_nil] at hlen
      have hpos : 0 < 2 ^ (Codex.basisT steps target n).length :=
        Nat.pos_pow_of_pos _ (by norm_num)
      omega
    · intro hno
      exact absurd ⟨Codex.partT steps target n,
        Codex.any_false_solvable steps target n hm hsteps htarget hany⟩ hno
  · rw [if_pos rfl]
    constructor
    · intro _
      exact Codex.any_true_unsolvable steps target n hm hsteps htarget hany
    · intro _
      rfl

end Day10.Gemini

namespace Day10

/-- C2: whenever the GF(2) linear solver succeeds — codex `solve_gf2`
returning a particular solution and kernel basis — every member of the coset
(the particular solution XORed with any subset of the kernel basis) selects a
set of steps whose masks XOR from the all-off state to exactly the target
pattern, each kernel basis vector alone selects steps XORing to zero, and in
gemini's `GF2Solver::solve` every returned coset member likewise solves the
target and every vector of `kernel_basis` solves zero. -/
theorem claim_C2 (steps : List Nat) (target n : Nat) (hm : steps.length ≤ 64)
    (hsteps : ∀ s ∈ steps, s < 2 ^ n) (htarget : target < 2 ^ n)
    (p : Nat) (basis : List Nat)
    (hres : Codex.solve_gf2 steps target n = some (p, basis)) :
    (∀ cw, selXor steps (p ^^^ selXor basis cw) = target) ∧
    (∀ b ∈ basis, selXor steps b = 0) ∧
    (∀ c ∈ (Gemini.GF2Solver.new steps n).solve target, selXor steps c = target) ∧
    (∀ b ∈ (Gemini.GF2Solver.new steps n).kernel_basis, selXor steps b = 0) := by
  obtain ⟨h1, h2⟩ := Codex.solve_gf2_sound steps target n hm hsteps htarget p basis hres
  refine ⟨h1, h2, ?_, ?_⟩
  · intro c hc
    exact ((Gemini.solve_mem steps n target hm hsteps htarget c).mp hc).2
  · intro b hb
    rw [Gemini.new_kernel_basis steps n target hm] at hb
    exact Codex.basisT_zero steps target n hm hsteps b hb

theorem claim_C2_witness :
    (∀ cw, selXor [1] (1 ^^^ selXor [] cw) = 1) ∧
    (∀ b ∈ ([] : List Nat), selXor [1] b = 0) ∧
    (∀ c ∈ (Gemini.GF2Solver.new [1] 1).solve 1, selXor [1] c = 1) ∧
    (∀ b ∈ (Gemini.GF2Solver.new [1] 1).kernel_basis, selXor [1] b = 0) :=
  claim_C2 [1] 1 1 (by decide) (by decide) (by decide) 1 [] (by
    simp [Codex.solve_gf2, gaussElim, buildRows, colMask, elimCols, findPivotFrom,
      swapRows, elimOthers, rowDef, Codex.pivotRows, Codex.particularOf,
      Codex.kernelVecOf, Codex.freeVars, clearBit64, bitCount_zero,
      List.range_succ])

/-- C5: the GF(2) solver reports no solution exactly when the reduced system
has a row with an all-zero coefficient mask and a set augmented bit
(codex's check over all rows, gemini's check over the rows below the pivot
frontier), equivalently exactly when no subset of the step masks XORs to the
target; this is the sole failure mode, and the outcome is a deterministic
function of `n`, the steps and the target since both solvers are embedded as
pure functions of exactly those inputs. -/
theorem claim_C5 (steps : List Nat) (target n : Nat) (hm : steps.length ≤ 64)
    (hsteps : ∀ s ∈ steps, s < 2 ^ n) (htarget : target < 2 ^ n) :
    (Codex.solve_gf2 steps target n = none ↔
      (gaussElim steps.length (buildRows steps target n)).1.any
        (fun r => r.1 == 0 && r.2) = true) ∧
    (Codex.solve_gf2 steps target n = none ↔ ¬ ∃ x, selXor steps x = target) ∧
    ((Gemini.GF2Solver.new steps n).solve target = [] ↔
      ((Codex.elimRes steps target n).1.drop
        (Codex.elimRes steps target n).2.length).any (fun r => r.2) = true) ∧
    ((Gemini.GF2Solver.new steps n).solve target = [] ↔
      ¬ ∃ x, selXor steps x = target) := by
  obtain ⟨h1, h2⟩ := Codex.solve_gf2_none_iff steps target n hm hsteps htarget
  refine ⟨h1, h2, ?_, Gemini.solve_nil_iff steps n target hm hsteps htarget⟩
  rw [Gemini.solve_eq steps n target hm,
    Day10.drop_check_eq (Codex.elim_inv steps target n)]
  cases hany : (Codex.elimRes steps target n).1.any (fun r => r.1 == 0 && r.2)
  · rw [if_neg (by simp)]
    constructor
    · intro hnil
      have hlen := subsetXorsFrom_length (Codex.partT steps target n)
        (Codex.basisT steps target n)
      rw [hnil, List.length_nil] at hlen
      have hpos : 0 < 2 ^ (Codex.basisT steps target n).length :=
        Nat.pos_pow_of_pos _ (by norm_num)
      omega
    · intro hfls
      exact absurd hfls (by simp)
  · rw [if_pos rfl]
    simp

theorem claim_C5_witness :
    ((Codex.solve_gf2 [2] 1 2 = none ↔
      (gaussElim ([2] : List Nat).length (buildRows [2] 1 2)).1.any
        (fun r => r.1 == 0 && r.2) = true) ∧
    (Codex.solve_gf2 [2] 1 2 = none ↔ ¬ ∃ x, selXor [2] x = 1) ∧
    ((Gemini.GF2Solver.new [2] 2).solve 1 = [] ↔
      ((Codex.elimRes [2] 1 2).1.drop
        (Codex.elimRes [2] 1 2).2.length).any (fun r => r.2) = true) ∧
    ((Gemini.GF2Solver.new [2] 2).solve 1 = [] ↔
      ¬ ∃ x, selXor [2] x = 1)) :=
  claim_C5 [2] 1 2 (by decide) (by decide) (by decide)

end Day10

namespace Day10

theorem bitCount_le (x : Nat) : bitCount x ≤ 64 := by
  unfold bitCount
  exact (List.countP_le_length _).trans (by simp)

/-- Splitting a selector XOR at position `j`: the low bits select from the
prefix and the shifted selector selects from the suffix. -/
theorem selXor_take_drop (j : Nat) : ∀ (L : List Nat) (c : Nat),
    selXor L c = selXor (L.take j) c ^^^ selXor (L.drop j) (c / 2 ^ j) := by
  induction j with
  | zero =>
    intro L c
    rw [List.take_zero, List.drop_zero, selXor_nil, Nat.zero_xor, pow_zero, Nat.div_one]
  | succ j ih =>
    intro L c
    cases L with
    | nil =>
      rw [List.take_nil, List.drop_nil, selXor_nil, Nat.zero_xor, selXor_nil]
    | cons s rest =>
      rw [List.take_succ_cons, List.drop_succ_cons]
      show (if c.testBit 0 then s else 0) ^^^ selXor rest (c / 2) =
        ((if c.testBit 0 then s else 0) ^^^ selXor (rest.take j) (c / 2)) ^^^
          selXor (rest.drop j) (c / 2 ^ (j + 1))
      have hdiv : c / 2 ^ (j + 1) = c / 2 / 2 ^ j := by
        rw [Nat.div_div_eq_div_mul, pow_succ, Nat.mul_comm (2 : Nat) (2 ^ j)]
      rw [hdiv, ih rest (c / 2), Nat.xor_assoc]

theorem low_bits_of_add_mul (c1 c2 k i : Nat) (hc1 : c1 < 2 ^ k) (hi : i < k) :
    (c1 + 2 ^ k * c2).testBit i = c1.testBit i := by
  have hmod : (c1 + 2 ^ k * c2) % 2 ^ k = c1 := by
    rw [Nat.add_mul_mod_self_left, Nat.mod_eq_of_lt hc1]
  have h := Nat.testBit_mod_two_pow (c1 + 2 ^ k * c2) k i
  rw [hmod] at h
  rw [h]
  simp [hi]

theorem div_of_add_mul (c1 c2 k : Nat) (hc1 : c1 < 2 ^ k) :
    (c1 + 2 ^ k * c2) / 2 ^ k = c2 := by
  rw [Nat.add_mul_div_left _ _ (Nat.pos_pow_of_pos k (by norm_num)),
    Nat.div_eq_of_lt hc1]
  omega

theorem minFold_le_init (f : Nat → Nat) (L : List Nat) :
    ∀ init, L.foldl (fun mw v => if f v < mw then f v else mw) init ≤ init := by
  induction L with
  | nil => intro init; exact Nat.le_refl init
  | cons v rest ih =>
    intro init
    rw [List.foldl_cons]
    refine (ih _).trans ?_
    by_cases h : f v < init
    · rw [if_pos h]; omega
    · rw [if_neg h]

theorem minFold_le_mem (f : Nat → Nat) (L : List Nat) (x : Nat) (hx : x ∈ L) :
    ∀ init, L.foldl (fun mw v => if f v < mw then f v else mw) init ≤ f x := by
  induction L with
  | nil => exact absurd hx (List.not_mem_nil x)
  | cons v rest ih =>
    intro init
    rw [List.foldl_cons]
    rcases List.mem_cons.mp hx with hxv | hxr
    · refine (minFold_le_init f rest _).trans ?_
      rw [hxv]
      by_cases h : f v < init
      · rw [if_pos h]
      · rw [if_neg h]; omega
    · exact ih hxr _

theorem minFold_shape (f : Nat → Nat) (L : List Nat) :
    ∀ init, L.foldl (fun mw v => if f v < mw then f v else mw) init = init ∨
      ∃ x ∈ L, L.foldl (fun mw v => if f v < mw then f v else mw) init = f x := by
  induction L with
  | nil => intro init; exact Or.inl rfl
  | cons v rest ih =>
    intro init
    rw [List.foldl_cons]
    by_cases h : f v < init
    · rw [if_pos h]
      rcases ih (f v) with heq | ⟨x, hx, hfx⟩
      · exact Or.inr ⟨v, List.mem_cons_self v rest, heq⟩
      · exact Or.inr ⟨x, List.mem_cons_of_mem v hx, hfx⟩
    · rw [if_neg h]
      rcases ih init with heq | ⟨x, hx, hfx⟩
      · exact Or.inl heq
      · exact Or.inr ⟨x, List.mem_cons_of_mem v hx, hfx⟩

end Day10

namespace Day10.Gemini

/-- `d_mask` of `solve_part1_mim`: the particular solution assembled by
visiting the pivots in order and setting the pivot-column bit when the row's
augmented bit is set. -/
def dMask (rows : List GRow) (pivots : List (Nat × Nat)) : Nat :=
  pivots.foldl (fun d pc => if (rows.getD pc.1 rowDef).2 then d ||| 2 ^ pc.2 else d) 0

/-- The double loop of `solve_part1_mim` over the two subset-XOR tables,
tracking the least Hamming weight seen, from the initial `u32::MAX`. -/
def mimMin (d_mask : Nat) (sums1 sums2 : List Nat) : Nat :=
  sums1.foldl (fun mw v1 =>
    sums2.foldl (fun mw2 v2 =>
      if bitCount ((d_mask ^^^ v1) ^^^ v2) < mw2 then bitCount ((d_mask ^^^ v1) ^^^ v2)
      else mw2) mw) (2 ^ 32 - 1)

/-- The meet-in-the-middle tail of `solve_part1_mim`: weight of `d_mask` when
the kernel is trivial, otherwise the split into halves of sizes `k / 2` and
`k - k / 2`, the two doubling enumerations, and the double minimum loop. -/
def mimSearch (d_mask : Nat) (kernel_basis : List Nat) : Nat :=
  if kernel_basis.length = 0 then bitCount d_mask
  else
    mimMin d_mask
      (subsetXorsFrom 0 (kernel_basis.take (kernel_basis.length / 2)))
      (subsetXorsFrom 0 (kernel_basis.drop (kernel_basis.length / 2)))

/-- gemini_cli_day10 `solve_part1_mim`: eliminate the augmented system, check
consistency below the pivot frontier, build `d_mask` and the kernel basis, and
run the meet-in-the-middle search. -/
def solve_part1_mim (steps : List Nat) (target n : Nat) : Option Nat :=
  let res := gaussElim steps.length (buildRows steps target n)
  if (res.1.drop res.2.length).any (fun r => r.2) then none
  else
    some (mimSearch (dMask res.1 res.2)
      (((List.range steps.length).filter
        (fun c => !(res.2.any (fun pc => pc.2 == c)))).map (kernelVec res.1 res.2)))

theorem dMask_eq_particularG (rows : List GRow) (pivots : List (Nat × Nat)) :
    dMask rows pivots = particularG rows pivots := by
  apply Nat.eq_of_testBit_eq
  intro i
  rw [particularG_testBit]
  unfold dMask
  rw [foldl_or_testBit, Nat.zero_testBit, Bool.false_or]

theorem mimMin_le_init_aux (d : Nat) (s2 : List Nat) (l1 : List Nat) :
    ∀ init, l1.foldl (fun mw w1 =>
        s2.foldl (fun mw2 w2 =>
          if bitCount ((d ^^^ w1) ^^^ w2) < mw2 then bitCount ((d ^^^ w1) ^^^ w2)
          else mw2) mw) init ≤ init := by
  induction l1 with
  | nil => intro init; exact Nat.le_refl init
  | cons u us ih =>
    intro init
    rw [List.foldl_cons]
    exact (ih _).trans (minFold_le_init _ s2 init)

theorem mimMin_le_pair (d : Nat) (s1 s2 : List Nat) (v1 v2 : Nat)
    (h1 : v1 ∈ s1) (h2 : v2 ∈ s2) :
    mimMin d s1 s2 ≤ bitCount ((d ^^^ v1) ^^^ v2) := by
  unfold mimMin
  have houter : ∀ (l1 : List Nat) (init : Nat), v1 ∈ l1 →
      l1.foldl (fun mw w1 =>
        s2.foldl (fun mw2 w2 =>
          if bitCount ((d ^^^ w1) ^^^ w2) < mw2 then bitCount ((d ^^^ w1) ^^^ w2)
          else mw2) mw) init ≤ bitCount ((d ^^^ v1) ^^^ v2) := by
    intro l1
    induction l1 with
    | nil => intro init h; exact absurd h (List.not_mem_nil v1)
    | cons w1 rest ih =>
      intro init h
      rw [List.foldl_cons]
      rcases List.mem_cons.mp h with hv | hv
      · have hstep := minFold_le_mem (fun w2 => bitCount ((d ^^^ w1) ^^^ w2)) s2 v2 h2 init
        rw [hv]
        exact (mimMin_le_init_aux d s2 rest _).trans hstep
      · exact ih _ hv
  exact houter s1 _ h1

theorem mimMin_shape (d : Nat) (s1 s2 : List Nat) :
    mimMin d s1 s2 = 2 ^ 32 - 1 ∨
      ∃ v1 ∈ s1, ∃ v2 ∈ s2, mimMin d s1 s2 = bitCount ((d ^^^ v1) ^^^ v2) := by
  unfold mimMin
  have houter : ∀ (l1 : List Nat) (init : Nat),
      l1.foldl (fun mw w1 =>
        s2.foldl (fun mw2 w2 =>
          if bitCount ((d ^^^ w1) ^^^ w2) < mw2 then bitCount ((d ^^^ w1) ^^^ w2)
          else mw2) mw) init = init ∨
      ∃ v1 ∈ l1, ∃ v2 ∈ s2,
        l1.foldl (fun mw w1 =>
          s2.foldl (fun mw2 w2 =>
            if bitCount ((d ^^^ w1) ^^^ w2) < mw2 then bitCount ((d ^^^ w1) ^^^ w2)
            else mw2) mw) init = bitCount ((d ^^^ v1) ^^^ v2) := by
    intro l1
    induction l1 with
    | nil => intro init; exact Or.inl rfl
    | cons w1 rest ih =>
      intro init
      rw [List.foldl_cons]
      rcases ih (s2.foldl (fun mw2 w2 =>
          if bitCount ((d ^^^ w1) ^^^ w2) < mw2 then bitCount ((d ^^^ w1) ^^^ w2)
          else mw2) init) with heq | ⟨v1, hv1, v2, hv2, hfx⟩
      · rcases minFold_shape (fun w2 => bitCount ((d ^^^ w1) ^^^ w2)) s2 init with
          hinit | ⟨v2, hv2, hval⟩
        · rw [heq, hinit]
          exact Or.inl rfl
        · rw [heq, hval]
          exact Or.inr ⟨w1, List.mem_cons_self w1 rest, v2, hv2, rfl⟩
      · exact Or.inr ⟨v1, List.mem_cons_of_mem w1 hv1, v2, hv2, hfx⟩
  exact houter s1 _

end Day10.Gemini

namespace Day10.Gemini

theorem selXor_split_mod (basis : List Nat) (k1 : Nat) (cw : Nat) :
    selXor basis cw = selXor (basis.take k1) (cw % 2 ^ k1) ^^^
      selXor (basis.drop k1) ((cw / 2 ^ k1) % 2 ^ (basis.length - k1)) := by
  rw [selXor_take_drop k1 basis cw]
  congr 1
  · apply selXor_congr
    intro i hi
    rw [List.length_take] at hi
    have hik : i < k1 := lt_of_lt_of_le hi (min_le_left _ _)
    rw [Nat.testBit_mod_two_pow]
    simp [hik]
  · apply selXor_congr
    intro i hi
    rw [List.length_drop] at hi
    rw [Nat.testBit_mod_two_pow]
    simp [hi]

theorem selXor_combine (basis : List Nat) (k1 c1 c2 : Nat) (hc1 : c1 < 2 ^ k1) :
    selXor basis (c1 + 2 ^ k1 * c2) =
      selXor (basis.take k1) c1 ^^^ selXor (basis.drop k1) c2 := by
  rw [selXor_take_drop k1 basis (c1 + 2 ^ k1 * c2), div_of_add_mul c1 c2 k1 hc1]
  congr 1
  apply selXor_congr
  intro i hi
  rw [List.length_take] at hi
  exact low_bits_of_add_mul c1 c2 k1 i hc1 (lt_of_lt_of_le hi (min_le_left _ _))

/-- The meet-in-the-middle search returns the least coset weight. -/
theorem mimSearch_least (p : Nat) (basis : List Nat) :
    IsLeast {w | ∃ cw, w = bitCount (p ^^^ selXor basis cw)} (mimSearch p basis) ∧
    (basis = [] → mimSearch p basis = bitCount p) := by
  refine ⟨?_, ?_⟩
  case refine_2 =>
    intro h
    rw [h]
    rfl
  by_cases h0 : basis.length = 0
  · have hb : basis = [] := List.length_eq_zero.mp h0
    subst hb
    constructor
    · exact ⟨0, by rw [selXor_nil, Nat.xor_zero]; rfl⟩
    · rintro w ⟨cw, hw⟩
      rw [hw, selXor_nil, Nat.xor_zero]
      exact Nat.le_of_eq rfl
  · have hsearch : mimSearch p basis =
        mimMin p (subsetXorsFrom 0 (basis.take (basis.length / 2)))
          (subsetXorsFrom 0 (basis.drop (basis.length / 2))) := by
      unfold mimSearch
      rw [if_neg h0]
    have hlen1 : (basis.take (basis.length / 2)).length = basis.length / 2 := by
      rw [List.length_take]
      exact Nat.min_eq_left (Nat.div_le_self _ _)
    have hlen2 : (basis.drop (basis.length / 2)).length =
        basis.length - basis.length / 2 := List.length_drop _ _
    have hz1 : (0 : Nat) ∈ subsetXorsFrom 0 (basis.take (basis.length / 2)) :=
      (mem_subsetXorsFrom _ _ _).mpr
        ⟨0, Nat.pos_pow_of_pos _ (by norm_num), by simp [selXor_zero]⟩
    have hz2 : (0 : Nat) ∈ subsetXorsFrom 0 (basis.drop (basis.length / 2)) :=
      (mem_subsetXorsFrom _ _ _).mpr
        ⟨0, Nat.pos_pow_of_pos _ (by norm_num), by simp [selXor_zero]⟩
    constructor
    · rcases mimMin_shape p (subsetXorsFrom 0 (basis.take (basis.length / 2)))
        (subsetXorsFrom 0 (basis.drop (basis.length / 2))) with hinit | hex
      · exfalso
        have hle := mimMin_le_pair p _ _ 0 0 hz1 hz2
        rw [hinit] at hle
        have hbc := bitCount_le ((p ^^^ 0) ^^^ 0)
        have h32 : (2 : Nat) ^ 32 - 1 = 4294967295 := by norm_num
        omega
      · obtain ⟨v1, hv1, v2, hv2, hval⟩ := hex
        obtain ⟨c1, hc1lt, hv1eq⟩ := (mem_subsetXorsFrom _ _ _).mp hv1
        obtain ⟨c2, hc2lt, hv2eq⟩ := (mem_subsetXorsFrom _ _ _).mp hv2
        rw [Nat.zero_xor] at hv1eq hv2eq
        rw [hlen1] at hc1lt
        refine ⟨c1 + 2 ^ (basis.length / 2) * c2, ?_⟩
        rw [hsearch, hval, selXor_combine basis (basis.length / 2) c1 c2 hc1lt,
          hv1eq, hv2eq, Nat.xor_assoc]
    · rintro w ⟨cw, hw⟩
      have hm1 : selXor (basis.take (basis.length / 2)) (cw % 2 ^ (basis.length / 2)) ∈
          subsetXorsFrom 0 (basis.take (basis.length / 2)) := by
        refine (mem_subsetXorsFrom _ _ _).mpr ⟨cw % 2 ^ (basis.length / 2), ?_, ?_⟩
        · rw [hlen1]
          exact Nat.mod_lt _ (Nat.pos_pow_of_pos _ (by norm_num))
        · rw [Nat.zero_xor]
      have hm2 : selXor (basis.drop (basis.length / 2))
          ((cw / 2 ^ (basis.length / 2)) % 2 ^ (basis.length - basis.length / 2)) ∈
          subsetXorsFrom 0 (basis.drop (basis.length / 2)) := by
        refine (mem_subsetXorsFrom _ _ _).mpr
          ⟨(cw / 2 ^ (basis.length / 2)) % 2 ^ (basis.length - basis.length / 2), ?_, ?_⟩
        · rw [hlen2]
          exact Nat.mod_lt _ (Nat.pos_pow_of_pos _ (by norm_num))
        · rw [Nat.zero_xor]
      have hle := mimMin_le_pair p _ _ _ _ hm1 hm2
      rw [hsearch, hw, selXor_split_mod basis (basis.length / 2) cw, ← Nat.xor_assoc]
      exact hle

/-- C3: the meet-in-the-middle search of `solve_part1_mim` — splitting the
kernel basis into halves of sizes `k / 2` and `k - k / 2` and enumerating all
XOR combinations of each half — returns exactly the minimum Hamming weight
over the coset of the particular solution by the kernel basis, and the weight
of the particular solution itself when the basis is empty. -/
theorem claim_C3 (p : Nat) (basis : List Nat) :
    IsLeast {w | ∃ cw, w = bitCount (p ^^^ selXor basis cw)} (mimSearch p basis) ∧
    (basis = [] → mimSearch p basis = bitCount p) :=
  mimSearch_least p basis

theorem claim_C3_witness :
    IsLeast {w | ∃ cw, w = bitCount (5 ^^^ selXor [] cw)} (mimSearch 5 []) ∧
    (([] : List Nat) = [] → mimSearch 5 [] = bitCount 5) :=
  claim_C3 5 []

end Day10.Gemini

namespace Day10.Codex

/-- u64 `checked_add`: the exact sum when it fits in 64 bits, `None` on
overflow. -/
def checked_add64 (a b : Nat) : Option Nat :=
  if a + b < 2 ^ 64 then some (a + b) else none

/-- The accumulation loop of codex `part1`/`part2` over the per-line answers:
`total = total.checked_add(steps)?`, propagating the error. -/
def sumChecked (answers : List Nat) : Option Nat :=
  answers.foldl (fun acc v => acc.bind (fun t => checked_add64 t v)) (some 0)

theorem sumChecked_fold_none (answers : List Nat) :
    answers.foldl (fun acc v => acc.bind (fun t => checked_add64 t v)) none = none := by
  induction answers with
  | nil => rfl
  | cons v rest ih => rw [List.foldl_cons]; exact ih

theorem sumChecked_fold_eq (answers : List Nat) :
    ∀ acc, acc < 2 ^ 64 →
      answers.foldl (fun acc v => acc.bind (fun t => checked_add64 t v)) (some acc) =
        if acc + answers.sum < 2 ^ 64 then some (acc + answers.sum) else none := by
  induction answers with
  | nil =>
    intro acc hacc
    rw [List.sum_nil, List.foldl_nil, Nat.add_zero, if_pos hacc]
  | cons v rest ih =>
    intro acc hacc
    rw [List.foldl_cons, List.sum_cons]
    show rest.foldl (fun acc v => acc.bind (fun t => checked_add64 t v))
      (checked_add64 acc v) = _
    by_cases hov : acc + v < 2 ^ 64
    · rw [show checked_add64 acc v = some (acc + v) from if_pos hov, ih (acc + v) hov]
      by_cases hall : acc + v + rest.sum < 2 ^ 64
      · rw [if_pos hall, if_pos (by omega)]
        congr 1
        omega
      · rw [if_neg hall, if_neg (by omega)]
    · rw [show checked_add64 acc v = none from if_neg hov, sumChecked_fold_none,
        if_neg (by omega)]

theorem sumChecked_eq (answers : List Nat) :
    sumChecked answers =
      if answers.sum < 2 ^ 64 then some answers.sum else none := by
  unfold sumChecked
  rw [sumChecked_fold_eq answers 0 (by norm_num)]
  simp

end Day10.Codex

namespace Day10.Gemini

/-- The summation `results?.iter().sum()` of gemini `part1`/`part2` over u64
per-line answers: each addition wraps modulo `2^64` (release-mode Rust
semantics), with no overflow signal. -/
def sumWrap (answers : List Nat) : Nat :=
  answers.foldl (fun acc v => (acc + v) % 2 ^ 64) 0

theorem sumWrap_fold_eq (answers : List Nat) :
    ∀ acc, acc < 2 ^ 64 →
      answers.foldl (fun acc v => (acc + v) % 2 ^ 64) acc =
        (acc + answers.sum) % 2 ^ 64 := by
  induction answers with
  | nil =>
    intro acc hacc
    rw [List.foldl_nil, List.sum_nil, Nat.add_zero, Nat.mod_eq_of_lt hacc]
  | cons v rest ih =>
    intro acc hacc
    rw [List.foldl_cons, List.sum_cons,
      ih ((acc + v) % 2 ^ 64) (Nat.mod_lt _ (by norm_num)), Nat.mod_add_mod,
      ← Nat.add_assoc]

theorem sumWrap_eq (answers : List Nat) :
    sumWrap answers = answers.sum % 2 ^ 64 := by
  unfold sumWrap
  rw [sumWrap_fold_eq answers 0 (by norm_num), Nat.zero_add]

end Day10.Gemini

namespace Day10

/-- C8 counterexample: on the per-line answers `[2^63, 2^63]` — each a valid
u64 value — gemini's unchecked `iter().sum()` silently wraps to 0 instead of
failing, while the exact total is `2^64`; codex's checked accumulation does
return an error. The claim that both drivers use checked arithmetic is
therefore false. -/
theorem claim_C8_counterexample :
    Gemini.sumWrap [2 ^ 63, 2 ^ 63] = 0 ∧
    ([2 ^ 63, 2 ^ 63] : List Nat).sum = 2 ^ 64 ∧
    Codex.sumChecked [2 ^ 63, 2 ^ 63] = none := by
  refine ⟨by decide, by decide, by decide⟩

/-- C8 (amended): only codex's drivers sum the per-line answers with checked
arithmetic — returning the exact total when it fits in u64 and an error
(`None`) exactly on overflow; gemini's `part1`/`part2` sum with the unchecked
`iter().sum()`, which reduces the exact total modulo `2^64` and signals
nothing. -/
theorem claim_C8 (answers : List Nat) :
    (Codex.sumChecked answers =
      if answers.sum < 2 ^ 64 then some answers.sum else none) ∧
    Gemini.sumWrap answers = answers.sum % 2 ^ 64 :=
  ⟨Codex.sumChecked_eq answers, Gemini.sumWrap_eq answers⟩

end Day10

namespace Day10

/-- Number of applications hitting position `pos` when step `k` of `steps` is
applied `xs k` times: the left side of the exact-count constraint of
part (b). -/
def appliedCount : List Nat → List Nat → Nat → Nat
  | s :: ss, x :: xx, pos => (if s.testBit pos then x else 0) + appliedCount ss xx pos
  | _, _, _ => 0

/-- `xs` is a vector of non-negative multiplicities, one per step, under which
every position receives exactly its target count of applications. -/
def IsSolution (steps target xs : List Nat) : Prop :=
  xs.length = steps.length ∧
    ∀ pos, pos < target.length → appliedCount steps xs pos = target.getD pos 0

/-- The attainable total application counts for part (b): the sums of the
valid multiplicity vectors. -/
def SolCosts (steps target : List Nat) : Set Nat :=
  {w | ∃ xs, IsSolution steps target xs ∧ w = xs.sum}

/-- The parity bit pattern of a count vector: bit `i` set when entry `i` is
odd (`pattern` in `solve_part2_recursive_parity`; also the odd-use mask of a
multiplicity vector). -/
def parityPattern : List Nat → Nat
  | [] => 0
  | t :: rest => t % 2 + 2 * parityPattern rest

/-- Number of steps selected by bitmask `c` that touch position `pos`. -/
def selTouch : List Nat → Nat → Nat → Nat
  | [], _, _ => 0
  | s :: ss, c, pos =>
    (if c.testBit 0 && s.testBit pos then 1 else 0) + selTouch ss (c / 2) pos

/-- Multiplicity vector assembled from an odd-use bitmask and halved
residual multiplicities: entry `k` is `bit k of c + 2 * ys k`. -/
def combine : Nat → List Nat → List Nat
  | c, y :: ys => (c % 2 + 2 * y) :: combine (c / 2) ys
  | _, [] => []

theorem parityPattern_testBit (t : List Nat) : ∀ i : Nat,
    (parityPattern t).testBit i = decide (t.getD i 0 % 2 = 1) := by
  induction t with
  | nil =>
    intro i
    show (0 : Nat).testBit i = decide (([] : List Nat).getD i 0 % 2 = 1)
    rw [Nat.zero_testBit]
    simp
  | cons v rest ih =>
    intro i
    show (v % 2 + 2 * parityPattern rest).testBit i = _
    cases i with
    | zero =>
      rw [Nat.testBit_zero]
      have hmod : (v % 2 + 2 * parityPattern rest) % 2 = v % 2 := by omega
      rw [hmod]
      show decide (v % 2 = 1) = decide ((v :: rest).getD 0 0 % 2 = 1)
      rfl
    | succ k =>
      rw [Nat.testBit_succ]
      have hdiv : (v % 2 + 2 * parityPattern rest) / 2 = parityPattern rest := by omega
      rw [hdiv]
      show (parityPattern rest).testBit k = decide ((v :: rest).getD (k + 1) 0 % 2 = 1)
      rw [List.getD_cons_succ]
      exact ih k

theorem parityPattern_lt (t : List Nat) : parityPattern t < 2 ^ t.length := by
  induction t with
  | nil => show 0 < 2 ^ 0; norm_num
  | cons v rest ih =>
    show v % 2 + 2 * parityPattern rest < 2 ^ (rest.length + 1)
    have hp : (2 : Nat) ^ (rest.length + 1) = 2 * 2 ^ rest.length := by
      rw [pow_succ]; omega
    omega

theorem selXor_testBit_parity (steps : List Nat) : ∀ (c pos : Nat),
    (selXor steps c).testBit pos = decide (selTouch steps c pos % 2 = 1) := by
  induction steps with
  | nil =>
    intro c pos
    show (0 : Nat).testBit pos = decide ((0 : Nat) % 2 = 1)
    rw [Nat.zero_testBit]
    simp
  | cons s ss ih =>
    intro c pos
    show ((if c.testBit 0 then s else 0) ^^^ selXor ss (c / 2)).testBit pos =
      decide (((if c.testBit 0 && s.testBit pos then 1 else 0) +
        selTouch ss (c / 2) pos) % 2 = 1)
    rw [Nat.testBit_xor, ih (c / 2) pos]
    have hbit : (if c.testBit 0 then s else 0).testBit pos =
        (c.testBit 0 && s.testBit pos) := by
      cases hc : c.testBit 0 <;> simp [hc, Nat.zero_testBit]
    rw [hbit]
    cases hb : (c.testBit 0 && s.testBit pos)
    · rw [if_neg Bool.false_ne_true, Nat.zero_add, Bool.false_xor]
    · rw [if_pos rfl, Bool.true_xor]
      rcases Nat.mod_two_eq_zero_or_one (selTouch ss (c / 2) pos) with hr | hr
      · rw [decide_eq_false (by omega), decide_eq_true (by omega : (1 + selTouch ss (c / 2) pos) % 2 = 1)]
        rfl
      · rw [decide_eq_true hr, decide_eq_false (by omega : ¬ (1 + selTouch ss (c / 2) pos) % 2 = 1)]
        rfl

theorem appliedCount_combine (steps : List Nat) : ∀ (c : Nat) (ys : List Nat) (pos : Nat),
    ys.length = steps.length →
    appliedCount steps (combine c ys) pos =
      selTouch steps c pos + 2 * appliedCount steps ys pos := by
  induction steps with
  | nil =>
    intro c ys pos hlen
    have hys : ys = [] := List.length_eq_zero.mp hlen
    subst hys
    rfl
  | cons s ss ih =>
    intro c ys pos hlen
    cases ys with
    | nil => exact absurd hlen (by simp)
    | cons y yy =>
      show (if s.testBit pos then c % 2 + 2 * y else 0) +
          appliedCount ss (combine (c / 2) yy) pos =
        ((if c.testBit 0 && s.testBit pos then 1 else 0) + selTouch ss (c / 2) pos) +
          2 * ((if s.testBit pos then y else 0) + appliedCount ss yy pos)
      rw [ih (c / 2) yy pos (by simpa using hlen)]
      rw [Nat.testBit_zero]
      rcases Nat.mod_two_eq_zero_or_one c with hc | hc <;>
        cases hs : s.testBit pos <;> simp [hc, hs] <;> omega

theorem combine_length : ∀ (c : Nat) (ys : List Nat), (combine c ys).length = ys.length := by
  intro c ys
  induction ys generalizing c with
  | nil => rfl
  | cons y yy ih =>
    show (combine (c / 2) yy).length + 1 = yy.length + 1
    rw [ih (c / 2)]

theorem countBits_succ_low (x : Nat) : ∀ w, countBits (w + 1) x = x % 2 + countBits w (x / 2) := by
  intro w
  induction w generalizing x with
  | zero =>
    show countBits 1 x = x % 2 + countBits 0 (x / 2)
    have h0 : countBits 0 (x / 2) = 0 := rfl
    rw [h0, Nat.add_zero]
    show List.countP x.testBit (List.range 1) = x % 2
    rw [show List.range 1 = [0] from rfl]
    simp only [List.countP_cons, List.countP_nil]
    rw [Nat.testBit_zero]
    rcases Nat.mod_two_eq_zero_or_one x with h | h <;> simp [h]
  | succ k ih =>
    rw [countBits_succ (k + 1) x, ih x, countBits_succ k (x / 2), Nat.testBit_succ]
    omega

theorem countBits_zero_w (x : Nat) : countBits 0 x = 0 := rfl

theorem combine_sum : ∀ (c : Nat) (ys : List Nat),
    (combine c ys).sum = countBits ys.length c + 2 * ys.sum := by
  intro c ys
  induction ys generalizing c with
  | nil =>
    show (0 : Nat) = countBits 0 c + 2 * 0
    rw [countBits_zero_w]
  | cons y yy ih =>
    show (c % 2 + 2 * y) + (combine (c / 2) yy).sum = countBits (yy.length + 1) c + 2 * (y + yy.sum)
    rw [ih (c / 2), countBits_succ_low c yy.length]
    omega

theorem combine_parity_self (xs : List Nat) :
    combine (parityPattern xs) (xs.map (fun x => x / 2)) = xs := by
  induction xs with
  | nil => rfl
  | cons x xx ih =>
    show ((x % 2 + 2 * parityPattern xx) % 2 + 2 * (x / 2)) ::
        combine ((x % 2 + 2 * parityPattern xx) / 2) (xx.map (fun x => x / 2)) = x :: xx
    have h1 : (x % 2 + 2 * parityPattern xx) % 2 = x % 2 := by omega
    have h2 : (x % 2 + 2 * parityPattern xx) / 2 = parityPattern xx := by omega
    rw [h1, h2, ih]
    congr 1
    omega

theorem appliedCount_replicate_zero (steps : List Nat) (pos : Nat) :
    appliedCount steps (List.replicate steps.length 0) pos = 0 := by
  induction steps with
  | nil => rfl
  | cons s ss ih =>
    show (if s.testBit pos then 0 else 0) + appliedCount ss (List.replicate ss.length 0) pos = 0
    rw [ih]
    simp

end Day10

namespace Day10.Gemini

/-- Subtract one application of a step with mask `mask` from the count vector,
position by position: fail (the `possible = false` branch of
`solve_part2_recursive_parity`) if a touched position is already zero. -/
def applyStep : List Nat → Nat → Option (List Nat)
  | [], _ => some []
  | v :: rest, mask =>
    if mask.testBit 0 then
      if v = 0 then none
      else (applyStep rest (mask / 2)).map (fun r => (v - 1) :: r)
    else (applyStep rest (mask / 2)).map (fun r => v :: r)

/-- Apply once each step selected by `cmask`, in step order, accumulating the
residual count vector (`next_target` loop of `solve_part2_recursive_parity`
and the residual loop of codex `min_steps_part2_seeded`). -/
def applyCandidate : List Nat → Nat → List Nat → Option (List Nat)
  | [], _, t => some t
  | s :: rest, cmask, t =>
    if cmask.testBit 0 then
      match applyStep t s with
      | none => none
      | some t2 => applyCandidate rest (cmask / 2) t2
    else applyCandidate rest (cmask / 2) t

theorem applyStep_some (t : List Nat) : ∀ (mask : Nat),
    (∀ pos, pos < t.length → mask.testBit pos = true → 0 < t.getD pos 0) →
    ∃ t', applyStep t mask = some t' ∧ t'.length = t.length ∧
      ∀ pos, pos < t.length →
        t'.getD pos 0 = t.getD pos 0 - (if mask.testBit pos then 1 else 0) := by
  induction t with
  | nil =>
    intro mask _
    exact ⟨[], rfl, rfl, fun pos hpos => absurd hpos (by simp)⟩
  | cons v rest ih =>
    intro mask h
    obtain ⟨r, hr, hrlen, hrval⟩ := ih (mask / 2) (fun pos hpos hbit => by
      have := h (pos + 1) (by simpa using Nat.succ_lt_succ hpos)
        (by rwa [Nat.testBit_div_two] at hbit)
      simpa using this)
    cases hb : mask.testBit 0
    · refine ⟨v :: r, ?_, by simpa using hrlen, ?_⟩
      · show applyStep (v :: rest) mask = some (v :: r)
        unfold applyStep
        rw [hb, hr]
        rfl
      · intro pos hpos
        cases pos with
        | zero =>
          show v = v - (if mask.testBit 0 then 1 else 0)
          rw [hb]
          simp
        | succ k =>
          show r.getD k 0 = rest.getD k 0 - (if mask.testBit (k + 1) then 1 else 0)
          rw [← Nat.testBit_div_two]
          exact hrval k (by simpa using Nat.lt_of_succ_lt_succ hpos)
    · have hv : 0 < v := by
        have := h 0 (by simp) hb
        simpa using this
      refine ⟨(v - 1) :: r, ?_, by simpa using hrlen, ?_⟩
      · show applyStep (v :: rest) mask = some ((v - 1) :: r)
        unfold applyStep
        rw [hb, if_pos rfl, if_neg (by omega : ¬ v = 0), hr]
        rfl
      · intro pos hpos
        cases pos with
        | zero =>
          show v - 1 = v - (if mask.testBit 0 then 1 else 0)
          rw [hb]
          simp
        | succ k =>
          show r.getD k 0 = rest.getD k 0 - (if mask.testBit (k + 1) then 1 else 0)
          rw [← Nat.testBit_div_two]
          exact hrval k (by simpa using Nat.lt_of_succ_lt_succ hpos)

theorem applyStep_of_some (t : List Nat) : ∀ (mask : Nat) (t' : List Nat),
    applyStep t mask = some t' →
    t'.length = t.length ∧ ∀ pos, pos < t.length →
      (mask.testBit pos = true → 0 < t.getD pos 0) ∧
      t'.getD pos 0 = t.getD pos 0 - (if mask.testBit pos then 1 else 0) := by
  induction t with
  | nil =>
    intro mask t' h
    have ht' : t' = [] := by
      have : some ([] : List Nat) = some t' := h
      exact (Option.some.inj this).symm
    subst ht'
    exact ⟨rfl, fun pos hpos => absurd hpos (by simp)⟩
  | cons v rest ih =>
    intro mask t' h
    unfold applyStep at h
    cases hb : mask.testBit 0 <;> rw [hb] at h
    · simp only [Bool.false_eq_true, if_false] at h
      cases hs : applyStep rest (mask / 2) <;> rw [hs] at h
      · exact absurd h (by simp)
      · rename_i r
        have ht' : t' = v :: r := by
          have : some (v :: r) = some t' := h
          exact (Option.some.inj this).symm
        subst ht'
        obtain ⟨hrlen, hrval⟩ := ih (mask / 2) r hs
        refine ⟨by simpa using hrlen, ?_⟩
        intro pos hpos
        cases pos with
        | zero =>
          constructor
          · intro hbit
            rw [hb] at hbit
            exact absurd hbit (by simp)
          · show v = v - (if mask.testBit 0 then 1 else 0)
            rw [hb]
            simp
        | succ k =>
          have hk := hrval k (by simpa using Nat.lt_of_succ_lt_succ hpos)
          constructor
          · intro hbit
            rw [Nat.testBit_succ] at hbit
            exact (hk.1 hbit)
          · show r.getD k 0 = rest.getD k 0 - (if mask.testBit (k + 1) then 1 else 0)
            rw [← Nat.testBit_div_two]
            exact hk.2
    · simp only [if_true] at h
      by_cases hv : v = 0
      · rw [if_pos hv] at h
        exact absurd h (by simp)
      · rw [if_neg hv] at h
        cases hs : applyStep rest (mask / 2) <;> rw [hs] at h
        · exact absurd h (by simp)
        · rename_i r
          have ht' : t' = (v - 1) :: r := by
            have : some ((v - 1) :: r) = some t' := h
            exact (Option.some.inj this).symm
          subst ht'
          obtain ⟨hrlen, hrval⟩ := ih (mask / 2) r hs
          refine ⟨by simpa using hrlen, ?_⟩
          intro pos hpos
          cases pos with
          | zero =>
            constructor
            · intro _
              show 0 < v
              omega
            · show v - 1 = v - (if mask.testBit 0 then 1 else 0)
              rw [hb]
              simp
          | succ k =>
            have hk := hrval k (by simpa using Nat.lt_of_succ_lt_succ hpos)
            constructor
            · intro hbit
              rw [Nat.testBit_succ] at hbit
              exact (hk.1 hbit)
            · show r.getD k 0 = rest.getD k 0 - (if mask.testBit (k + 1) then 1 else 0)
              rw [← Nat.testBit_div_two]
              exact hk.2

end Day10.Gemini

namespace Day10.Gemini

theorem applyCandidate_some (steps : List Nat) : ∀ (c : Nat) (t : List Nat),
    (∀ pos, pos < t.length → selTouch steps c pos ≤ t.getD pos 0) →
    ∃ t2, applyCandidate steps c t = some t2 ∧ t2.length = t.length ∧
      ∀ pos, pos < t.length → t2.getD pos 0 = t.getD pos 0 - selTouch steps c pos := by
  induction steps with
  | nil =>
    intro c t _
    exact ⟨t, rfl, rfl, fun pos hpos => by
      show t.getD pos 0 = t.getD pos 0 - 0
      omega⟩
  | cons s ss ih =>
    intro c t h
    have hsel : ∀ pos, selTouch (s :: ss) c pos =
        (if c.testBit 0 && s.testBit pos then 1 else 0) + selTouch ss (c / 2) pos :=
      fun pos => rfl
    cases hb : c.testBit 0
    · have h' : ∀ pos, pos < t.length → selTouch ss (c / 2) pos ≤ t.getD pos 0 := by
        intro pos hpos
        have := h pos hpos
        rw [hsel pos, hb] at this
        simpa using this
      obtain ⟨t2, ht2, hlen, hval⟩ := ih (c / 2) t h'
      refine ⟨t2, ?_, hlen, ?_⟩
      · show applyCandidate (s :: ss) c t = some t2
        unfold applyCandidate
        rw [hb]
        simpa using ht2
      · intro pos hpos
        rw [hsel pos, hb]
        simpa using hval pos hpos
    · have hstep : ∀ pos, pos < t.length → s.testBit pos = true → 0 < t.getD pos 0 := by
        intro pos hpos hbit
        have := h pos hpos
        rw [hsel pos, hb, hbit] at this
        simp only [Bool.and_self, if_pos] at this
        omega
      obtain ⟨t1, ht1, h1len, h1val⟩ := applyStep_some t s hstep
      have h' : ∀ pos, pos < t1.length → selTouch ss (c / 2) pos ≤ t1.getD pos 0 := by
        intro pos hpos
        rw [h1len] at hpos
        have hh := h pos hpos
        rw [hsel pos, hb] at hh
        rw [h1val pos hpos]
        cases hsb : s.testBit pos <;> rw [hsb] at hh <;> simp at hh ⊢ <;> omega
      obtain ⟨t2, ht2, hlen, hval⟩ := ih (c / 2) t1 h'
      refine ⟨t2, ?_, by rw [hlen, h1len], ?_⟩
      · show applyCandidate (s :: ss) c t = some t2
        unfold applyCandidate
        rw [hb, ht1]
        exact ht2
      · intro pos hpos
        have hv2 := hval pos (by rw [h1len]; exact hpos)
        rw [h1val pos hpos] at hv2
        rw [hv2, hsel pos, hb]
        have hh := h pos hpos
        rw [hsel pos, hb] at hh
        cases hsb : s.testBit pos <;> rw [hsb] at hh <;> simp at hh ⊢ <;> omega

theorem applyCandidate_of_some (steps : List Nat) : ∀ (c : Nat) (t t2 : List Nat),
    applyCandidate steps c t = some t2 →
    t2.length = t.length ∧ ∀ pos, pos < t.length →
      selTouch steps c pos ≤ t.getD pos 0 ∧
      t2.getD pos 0 = t.getD pos 0 - selTouch steps c pos := by
  induction steps with
  | nil =>
    intro c t t2 h
    have ht2 : t2 = t := by
      have : some t = some t2 := h
      exact (Option.some.inj this).symm
    subst ht2
    exact ⟨rfl, fun pos hpos => ⟨by
      show (0 : Nat) ≤ t2.getD pos 0
      omega, by
      show t2.getD pos 0 = t2.getD pos 0 - 0
      omega⟩⟩
  | cons s ss ih =>
    intro c t t2 h
    have hsel : ∀ pos, selTouch (s :: ss) c pos =
        (if c.testBit 0 && s.testBit pos then 1 else 0) + selTouch ss (c / 2) pos :=
      fun pos => rfl
    unfold applyCandidate at h
    cases hb : c.testBit 0 <;> rw [hb] at h
    · simp only [Bool.false_eq_true, if_false] at h
      obtain ⟨hlen, hval⟩ := ih (c / 2) t t2 h
      refine ⟨hlen, ?_⟩
      intro pos hpos
      have := hval pos hpos
      rw [hsel pos, hb]
      simpa using this
    · simp only [if_true] at h
      cases hs : applyStep t s <;> rw [hs] at h
      · exact absurd h (by simp)
      · rename_i t1
        obtain ⟨h1len, h1val⟩ := applyStep_of_some t s t1 hs
        obtain ⟨hlen, hval⟩ := ih (c / 2) t1 t2 h
        refine ⟨by rw [hlen, h1len], ?_⟩
        intro pos hpos
        have h1 := h1val pos hpos
        have h2 := hval pos (by rw [h1len]; exact hpos)
        rw [h1.2] at h2
        rw [hsel pos, hb]
        cases hsb : s.testBit pos <;> rw [hsb] at h1 h2
        · constructor
          · simpa using h2.1
          · simp only [Bool.true_and, Bool.false_and, Bool.false_eq_true, if_false]
            have := h2.2
            simp at this ⊢
            omega
        · have hpos0 : 0 < t.getD pos 0 := h1.1 rfl
          have h21 : selTouch ss (c / 2) pos ≤ t.getD pos 0 - 1 := by
            have := h2.1
            rwa [show (if (true : Bool) = true then (1 : Nat) else 0) = 1 from rfl] at this
          have h22 : t2.getD pos 0 = (t.getD pos 0 - 1) - selTouch ss (c / 2) pos := by
            have := h2.2
            rwa [show (if (true : Bool) = true then (1 : Nat) else 0) = 1 from rfl] at this
          constructor
          · show (if (true && true : Bool) = true then 1 else 0) +
              selTouch ss (c / 2) pos ≤ t.getD pos 0
            rw [show (if (true && true : Bool) = true then (1 : Nat) else 0) = 1 from rfl]
            omega
          · show t2.getD pos 0 = t.getD pos 0 -
              ((if (true && true : Bool) = true then 1 else 0) + selTouch ss (c / 2) pos)
            rw [show (if (true && true : Bool) = true then (1 : Nat) else 0) = 1 from rfl,
              h22]
            omega

end Day10.Gemini

namespace Day10

theorem sum_le_sum_getD : ∀ (a b : List Nat), a.length = b.length →
    (∀ pos, pos < a.length → a.getD pos 0 ≤ b.getD pos 0) → a.sum ≤ b.sum := by
  intro a
  induction a with
  | nil =>
    intro b _ _
    show (0 : Nat) ≤ b.sum
    omega
  | cons x xx ih =>
    intro b hlen h
    cases b with
    | nil => exact absurd hlen (by simp)
    | cons y yy =>
      rw [List.sum_cons, List.sum_cons]
      have h0 : x ≤ y := h 0 (by simp)
      have hr : xx.sum ≤ yy.sum := by
        apply ih yy (by simpa using hlen)
        intro pos hpos
        exact h (pos + 1) (by simpa using Nat.succ_lt_succ hpos)
      omega

theorem sum_lt_sum_getD : ∀ (a b : List Nat), a.length = b.length →
    (∀ pos, pos < a.length → a.getD pos 0 ≤ b.getD pos 0) →
    (∃ pos, pos < a.length ∧ a.getD pos 0 < b.getD pos 0) → a.sum < b.sum := by
  intro a
  induction a with
  | nil =>
    rintro b _ _ ⟨pos, hpos, _⟩
    exact absurd hpos (by simp)
  | cons x xx ih =>
    rintro b hlen h ⟨pos, hpos, hstrict⟩
    cases b with
    | nil => exact absurd hlen (by simp)
    | cons y yy =>
      rw [List.sum_cons, List.sum_cons]
      have h0 : x ≤ y := h 0 (by simp)
      cases pos with
      | zero =>
        have hx : x < y := hstrict
        have hr : xx.sum ≤ yy.sum := by
          apply sum_le_sum_getD xx yy (by simpa using hlen)
          intro p hp
          exact h (p + 1) (by simpa using Nat.succ_lt_succ hp)
        omega
      | succ k =>
        have hr : xx.sum < yy.sum := by
          apply ih yy (by simpa using hlen)
          · intro p hp
            exact h (p + 1) (by simpa using Nat.succ_lt_succ hp)
          · exact ⟨k, by simpa using Nat.lt_of_succ_lt_succ hpos, hstrict⟩
        omega

theorem sum_map_div2 (t : List Nat) : 2 * (t.map (fun x => x / 2)).sum ≤ t.sum := by
  induction t with
  | nil => simp
  | cons x xx ih =>
    rw [List.map_cons, List.sum_cons, List.sum_cons]
    omega

theorem sum_map_div2_lt (t : List Nat) (h : 0 < t.sum) :
    (t.map (fun x => x / 2)).sum < t.sum := by
  have := sum_map_div2 t
  omega

theorem getD_map_div2 (t : List Nat) (pos : Nat) (h : pos < t.length) :
    (t.map (fun x => x / 2)).getD pos 0 = t.getD pos 0 / 2 := by
  have hm : pos < (t.map (fun x => x / 2)).length := by
    rw [List.length_map]; exact h
  rw [List.getD_eq_getElem _ 0 hm, List.getD_eq_getElem _ 0 h, List.getElem_map]

theorem selTouch_pos (steps : List Nat) : ∀ (c k pos : Nat), k < steps.length →
    c.testBit k = true → (steps.getD k 0).testBit pos = true →
    0 < selTouch steps c pos := by
  induction steps with
  | nil =>
    intro c k pos hk _ _
    exact absurd hk (by simp)
  | cons s ss ih =>
    intro c k pos hk hc hs
    show 0 < (if c.testBit 0 && s.testBit pos then 1 else 0) + selTouch ss (c / 2) pos
    cases k with
    | zero =>
      have hs0 : s.testBit pos = true := hs
      rw [hc, hs0]
      simp
    | succ j =>
      have := ih (c / 2) j pos (by simpa using Nat.lt_of_succ_lt_succ hk)
        (by rw [Nat.testBit_div_two]; exact hc) hs
      omega

theorem exists_testBit_of_ne_zero (c : Nat) (h : c ≠ 0) : ∃ i, c.testBit i = true := by
  by_contra hno
  push_neg at hno
  apply h
  apply Nat.eq_of_testBit_eq
  intro i
  rw [Nat.zero_testBit]
  cases hb : c.testBit i
  · rfl
  · exact absurd hb (hno i)

theorem testBit_lt_of_lt_pow (c i m : Nat) (hb : c.testBit i = true) (hc : c < 2 ^ m) :
    i < m := by
  by_contra hge
  push_neg at hge
  have h1 : 2 ^ i ≤ c := Nat.testBit_implies_ge hb
  have h2 : (2 : Nat) ^ m ≤ 2 ^ i := Nat.pow_le_pow_right (by norm_num) hge
  omega

end Day10

namespace Day10.Gemini

/-- gemini_cli_day10 `solve_part2_recursive_parity`: base case on the all-zero
target, parity pattern, coset candidates from the solver, per-candidate
residual subtraction, halving, recursion and running minimum.  The memo table
is dropped (it caches a pure function of the target vector) and recursion
depth is bounded by an explicit fuel parameter; `target.sum + 1` fuel always
suffices, as each recursive call strictly decreases the target sum. -/
def solveP2Rec (steps : List Nat) (n : Nat) : Nat → List Nat → Option Nat
  | 0, _ => none
  | fuel + 1, target =>
    if target.all (fun x => x == 0) then some 0
    else
      ((GF2Solver.new steps n).solve (parityPattern target)).foldl
        (fun acc c =>
          match applyCandidate steps c target with
          | none => acc
          | some t2 =>
            match solveP2Rec steps n fuel (t2.map (fun x => x / 2)) with
            | none => acc
            | some sub =>
              match acc with
              | none => some (countBits steps.length c + 2 * sub)
              | some mt =>
                if countBits steps.length c + 2 * sub < mt then
                  some (countBits steps.length c + 2 * sub)
                else some mt) none

/-- The value one candidate mask contributes: `step_cost + 2 * sub_cost` when
the residual subtraction is feasible and the halved residual is solvable. -/
def candTotal (steps : List Nat) (n fuel : Nat) (target : List Nat) (c : Nat) :
    Option Nat :=
  match applyCandidate steps c target with
  | none => none
  | some t2 =>
    match solveP2Rec steps n fuel (t2.map (fun x => x / 2)) with
    | none => none
    | some sub => some (countBits steps.length c + 2 * sub)

/-- Running-minimum update over optional per-candidate values. -/
def optMinStep (G : Nat → Option Nat) (acc : Option Nat) (c : Nat) : Option Nat :=
  match G c with
  | none => acc
  | some tot =>
    match acc with
    | none => some tot
    | some mt => if tot < mt then some tot else some mt

theorem solveP2Rec_body (steps : List Nat) (n fuel : Nat) (target : List Nat)
    (acc : Option Nat) (c : Nat) :
    (match applyCandidate steps c target with
      | none => acc
      | some t2 =>
        match solveP2Rec steps n fuel (t2.map (fun x => x / 2)) with
        | none => acc
        | some sub =>
          match acc with
          | none => some (countBits steps.length c + 2 * sub)
          | some mt =>
            if countBits steps.length c + 2 * sub < mt then
              some (countBits steps.length c + 2 * sub)
            else some mt) =
    optMinStep (candTotal steps n fuel target) acc c := by
  have opt_min_reduce : ∀ (o : Option Nat) (acc2 : Option Nat) (g : Nat → Nat),
      (match o with
        | none => acc2
        | some sub =>
          match acc2 with
          | none => some (g sub)
          | some mt => if g sub < mt then some (g sub) else some mt) =
      (match (match o with | none => none | some sub => some (g sub)) with
        | none => acc2
        | some tot =>
          match acc2 with
          | none => some tot
          | some mt => if tot < mt then some tot else some mt) := by
    intro o acc2 g
    cases o with
    | none => rfl
    | some sub => rfl
  unfold optMinStep candTotal
  cases h1 : applyCandidate steps c target with
  | none => rfl
  | some t2 =>
    show (match solveP2Rec steps n fuel (t2.map (fun x => x / 2)) with
      | none => acc
      | some sub =>
        match acc with
        | none => some (countBits steps.length c + 2 * sub)
        | some mt =>
          if countBits steps.length c + 2 * sub < mt then
            some (countBits steps.length c + 2 * sub)
          else some mt) = _
    rw [opt_min_reduce (solveP2Rec steps n fuel (t2.map (fun x => x / 2))) acc
      (fun sub => countBits steps.length c + 2 * sub)]

theorem solveP2Rec_eq (steps : List Nat) (n fuel : Nat) (target : List Nat) :
    solveP2Rec steps n (fuel + 1) target =
      if target.all (fun x => x == 0) then some 0
      else ((GF2Solver.new steps n).solve (parityPattern target)).foldl
        (optMinStep (candTotal steps n fuel target)) none := by
  show (if target.all (fun x => x == 0) then some 0
      else ((GF2Solver.new steps n).solve (parityPattern target)).foldl
        (fun acc c =>
          match applyCandidate steps c target with
          | none => acc
          | some t2 =>
            match solveP2Rec steps n fuel (t2.map (fun x => x / 2)) with
            | none => acc
            | some sub =>
              match acc with
              | none => some (countBits steps.length c + 2 * sub)
              | some mt =>
                if countBits steps.length c + 2 * sub < mt then
                  some (countBits steps.length c + 2 * sub)
                else some mt) none) = _
  by_cases hz : target.all (fun x => x == 0)
  · rw [if_pos hz, if_pos hz]
  · rw [if_neg hz, if_neg hz]
    congr 1
    funext acc c
    exact solveP2Rec_body steps n fuel target acc c

theorem optMinStep_none (G : Nat → Option Nat) (acc : Option Nat) (c : Nat)
    (hg : G c = none) : optMinStep G acc c = acc := by
  unfold optMinStep
  rw [hg]

theorem optMinStep_some_none (G : Nat → Option Nat) (acc : Option Nat) (c t : Nat)
    (hg : G c = some t) (ha : acc = none) : optMinStep G acc c = some t := by
  unfold optMinStep
  rw [hg, ha]

theorem optMinStep_some_some (G : Nat → Option Nat) (acc : Option Nat) (c t a : Nat)
    (hg : G c = some t) (ha : acc = some a) :
    optMinStep G acc c = if t < a then some t else some a := by
  unfold optMinStep
  rw [hg, ha]

theorem optMinStep_cases (G : Nat → Option Nat) (acc : Option Nat) (c : Nat) :
    ∀ b, optMinStep G acc c = some b →
      ((∀ a, acc = some a → b ≤ a) ∧ (∀ t, G c = some t → b ≤ t) ∧
        (acc = some b ∨ G c = some b)) := by
  intro b hb
  cases hg : G c with
  | none =>
    rw [optMinStep_none G acc c hg] at hb
    refine ⟨?_, ?_, Or.inl hb⟩
    · intro a ha
      have := Option.some.inj (ha.symm.trans hb)
      omega
    · intro t ht
      exact absurd ht (by simp)
  | some t0 =>
    cases hac : acc with
    | none =>
      rw [hac] at hb
      rw [optMinStep_some_none G none c t0 hg rfl] at hb
      have hbt : b = t0 := (Option.some.inj hb).symm
      refine ⟨?_, ?_, Or.inr (by rw [hbt])⟩
      · intro a ha
        exact absurd ha (by simp)
      · intro t ht
        have := Option.some.inj ht
        omega
    | some a0 =>
      rw [hac] at hb
      rw [optMinStep_some_some G (some a0) c t0 a0 hg rfl] at hb
      by_cases hlt : t0 < a0
      · rw [if_pos hlt] at hb
        have hbt : b = t0 := (Option.some.inj hb).symm
        refine ⟨?_, ?_, Or.inr (by rw [hbt])⟩
        · intro a ha
          have := Option.some.inj ha
          omega
        · intro t ht
          have := Option.some.inj ht
          omega
      · rw [if_neg hlt] at hb
        have hba : b = a0 := (Option.some.inj hb).symm
        refine ⟨?_, ?_, Or.inl (by rw [hba])⟩
        · intro a ha
          have := Option.some.inj ha
          omega
        · intro t ht
          have := Option.some.inj ht
          omega

theorem optMinStep_some_exists (G : Nat → Option Nat) (acc : Option Nat) (c : Nat) :
    ∀ w, (acc = some w ∨ G c = some w) →
      ∃ b, optMinStep G acc c = some b ∧ b ≤ w := by
  intro w hw
  cases hg : G c with
  | none =>
    rcases hw with hw | hw
    · exact ⟨w, by rw [optMinStep_none G acc c hg, hw], Nat.le_refl w⟩
    · exact absurd (hg.symm.trans hw) (by simp)
  | some t0 =>
    cases hac : acc with
    | none =>
      rcases hw with hw | hw
      · exact absurd (hac.symm.trans hw) (by simp)
      · have hwt : w = t0 := (Option.some.inj (hg.symm.trans hw)).symm
        exact ⟨t0, optMinStep_some_none G none c t0 hg rfl, by omega⟩
    | some a0 =>
      have hstep := optMinStep_some_some G (some a0) c t0 a0 hg rfl
      by_cases hlt : t0 < a0
      · rw [if_pos hlt] at hstep
        rcases hw with hw | hw
        · have : w = a0 := (Option.some.inj (hac.symm.trans hw)).symm
          exact ⟨t0, hstep, by omega⟩
        · have : w = t0 := (Option.some.inj (hg.symm.trans hw)).symm
          exact ⟨t0, hstep, by omega⟩
      · rw [if_neg hlt] at hstep
        rcases hw with hw | hw
        · have : w = a0 := (Option.some.inj (hac.symm.trans hw)).symm
          exact ⟨a0, hstep, by omega⟩
        · have : w = t0 := (Option.some.inj (hg.symm.trans hw)).symm
          exact ⟨a0, hstep, by omega⟩

theorem optMinFold_none_iff (G : Nat → Option Nat) (L : List Nat) :
    ∀ acc, L.foldl (optMinStep G) acc = none ↔
      (acc = none ∧ ∀ c ∈ L, G c = none) := by
  induction L with
  | nil =>
    intro acc
    constructor
    · intro h
      exact ⟨h, fun c hc => absurd hc (List.not_mem_nil c)⟩
    · intro h
      exact h.1
  | cons c cs ih =>
    intro acc
    rw [List.foldl_cons, ih]
    have hstep : optMinStep G acc c = none ↔ (acc = none ∧ G c = none) := by
      constructor
      · intro hnone
        cases hg : G c with
        | none =>
          rw [optMinStep_none G acc c hg] at hnone
          exact ⟨hnone, rfl⟩
        | some t0 =>
          cases hac : acc with
          | none =>
            rw [optMinStep_some_none G acc c t0 hg hac] at hnone
            exact absurd hnone (by simp)
          | some a0 =>
            rw [optMinStep_some_some G acc c t0 a0 hg hac] at hnone
            by_cases hlt : t0 < a0
            · rw [if_pos hlt] at hnone
              exact absurd hnone (by simp)
            · rw [if_neg hlt] at hnone
              exact absurd hnone (by simp)
      · rintro ⟨ha, hgc⟩
        rw [optMinStep_none G acc c hgc]
        exact ha
    constructor
    · rintro ⟨h1, h2⟩
      obtain ⟨ha, hgc⟩ := hstep.mp h1
      exact ⟨ha, fun d hd => by
        rcases List.mem_cons.mp hd with hdc | hdc
        · rw [hdc]; exact hgc
        · exact h2 d hdc⟩
    · rintro ⟨ha, hall⟩
      refine ⟨hstep.mpr ⟨ha, hall c (List.mem_cons_self c cs)⟩, ?_⟩
      exact fun d hd => hall d (List.mem_cons_of_mem c hd)

theorem optMinFold_le (G : Nat → Option Nat) (L : List Nat) :
    ∀ acc v, L.foldl (optMinStep G) acc = some v →
      (∀ a, acc = some a → v ≤ a) ∧ (∀ c ∈ L, ∀ t, G c = some t → v ≤ t) := by
  induction L with
  | nil =>
    intro acc v h
    refine ⟨?_, fun c hc => absurd hc (List.not_mem_nil c)⟩
    intro a ha
    rw [ha] at h
    have := Option.some.inj h
    omega
  | cons c cs ih =>
    intro acc v h
    rw [List.foldl_cons] at h
    obtain ⟨hacc, hrest⟩ := ih (optMinStep G acc c) v h
    constructor
    · intro a ha
      obtain ⟨b, hb, hba⟩ := optMinStep_some_exists G acc c a (Or.inl ha)
      have := hacc b hb
      omega
    · intro d hd t ht
      rcases List.mem_cons.mp hd with hdc | hdc
      · rw [hdc] at ht
        obtain ⟨b, hb, hbt⟩ := optMinStep_some_exists G acc c t (Or.inr ht)
        have := hacc b hb
        omega
      · exact hrest d hdc t ht

theorem optMinFold_mem (G : Nat → Option Nat) (L : List Nat) :
    ∀ acc v, L.foldl (optMinStep G) acc = some v →
      (acc = some v ∨ ∃ c ∈ L, G c = some v) := by
  induction L with
  | nil =>
    intro acc v h
    exact Or.inl h
  | cons c cs ih =>
    intro acc v h
    rw [List.foldl_cons] at h
    rcases ih (optMinStep G acc c) v h with hstep | ⟨d, hd, hgd⟩
    · rcases (optMinStep_cases G acc c v hstep).2.2 with hl | hr
      · exact Or.inl hl
      · exact Or.inr ⟨c, List.mem_cons_self c cs, hr⟩
    · exact Or.inr ⟨d, List.mem_cons_of_mem c hd, hgd⟩

theorem optMinFold_some_exists (G : Nat → Option Nat) (L : List Nat) :
    ∀ acc w c, c ∈ L → G c = some w →
      ∃ v, L.foldl (optMinStep G) acc = some v ∧ v ≤ w := by
  intro acc w c hc hw
  cases hres : L.foldl (optMinStep G) acc with
  | none =>
    have := (optMinFold_none_iff G L acc).mp hres
    exact absurd (this.2 c hc) (by rw [hw]; simp)
  | some v =>
    have := (optMinFold_le G L acc v hres).2 c hc w hw
    exact ⟨v, rfl, this⟩

end Day10.Gemini

namespace Day10

theorem selTouch_zero_of_ge (steps : List Nat) (n : Nat)
    (hlt : ∀ s ∈ steps, s < 2 ^ n) : ∀ (c pos : Nat), n ≤ pos →
    selTouch steps c pos = 0 := by
  induction steps with
  | nil => intro c pos _; rfl
  | cons s ss ih =>
    intro c pos hpos
    show (if c.testBit 0 && s.testBit pos then 1 else 0) + selTouch ss (c / 2) pos = 0
    have hs : s.testBit pos = false := by
      apply Nat.testBit_lt_two_pow
      have h1 : s < 2 ^ n := hlt s (List.mem_cons_self s ss)
      have h2 : (2 : Nat) ^ n ≤ 2 ^ pos := Nat.pow_le_pow_right (by norm_num) hpos
      omega
    rw [hs, Bool.and_false, if_neg (by simp)]
    rw [ih (fun t ht => hlt t (List.mem_cons_of_mem s ht)) (c / 2) pos hpos]

/-- The parity mask of any valid multiplicity vector solves the parity system:
the mod-2 reduction of the exact-count constraints. -/
theorem parity_of_solution (steps target xs : List Nat) (n : Nat)
    (hlt : ∀ s ∈ steps, s < 2 ^ n) (hlen : target.length = n)
    (hsol : IsSolution steps target xs) :
    selXor steps (parityPattern xs) = parityPattern target := by
  obtain ⟨hxlen, hcount⟩ := hsol
  apply Nat.eq_of_testBit_eq
  intro pos
  rw [selXor_testBit_parity, parityPattern_testBit]
  by_cases hpos : pos < target.length
  · have hdecomp : appliedCount steps xs pos =
        selTouch steps (parityPattern xs) pos +
          2 * appliedCount steps (xs.map (fun x => x / 2)) pos := by
      conv_lhs => rw [← combine_parity_self xs]
      exact appliedCount_combine steps (parityPattern xs) (xs.map (fun x => x / 2)) pos
        (by rw [List.length_map, hxlen])
    have hc := hcount pos hpos
    rw [decide_eq_decide]
    omega
  · push_neg at hpos
    rw [selTouch_zero_of_ge steps n hlt (parityPattern xs) pos (by omega),
      List.getD_eq_default target 0 hpos]

/-- Pointwise bound below the target for the selected-touch counts of a
solution's parity mask. -/
theorem selTouch_le_of_solution (steps target xs : List Nat)
    (hsol : IsSolution steps target xs) :
    ∀ pos, pos < target.length →
      selTouch steps (parityPattern xs) pos ≤ target.getD pos 0 := by
  obtain ⟨hxlen, hcount⟩ := hsol
  intro pos hpos
  have hdecomp : appliedCount steps xs pos =
      selTouch steps (parityPattern xs) pos +
        2 * appliedCount steps (xs.map (fun x => x / 2)) pos := by
    conv_lhs => rw [← combine_parity_self xs]
    exact appliedCount_combine steps (parityPattern xs) (xs.map (fun x => x / 2)) pos
      (by rw [List.length_map, hxlen])
  have hc := hcount pos hpos
  omega

end Day10

namespace Day10.Gemini

theorem candTotal_none (steps : List Nat) (n fuel : Nat) (target : List Nat) (c : Nat)
    (h : applyCandidate steps c target = none) :
    candTotal steps n fuel target c = none := by
  unfold candTotal
  rw [h]

theorem candTotal_some_none (steps : List Nat) (n fuel : Nat) (target : List Nat)
    (c : Nat) (t2 : List Nat) (h : applyCandidate steps c target = some t2)
    (h2 : solveP2Rec steps n fuel (t2.map (fun x => x / 2)) = none) :
    candTotal steps n fuel target c = none := by
  unfold candTotal
  rw [h]
  show (match solveP2Rec steps n fuel (t2.map (fun x => x / 2)) with
    | none => none
    | some sub => some (countBits steps.length c + 2 * sub)) = none
  rw [h2]

theorem candTotal_some_some (steps : List Nat) (n fuel : Nat) (target : List Nat)
    (c : Nat) (t2 : List Nat) (sub : Nat) (h : applyCandidate steps c target = some t2)
    (h2 : solveP2Rec steps n fuel (t2.map (fun x => x / 2)) = some sub) :
    candTotal steps n fuel target c = some (countBits steps.length c + 2 * sub) := by
  unfold candTotal
  rw [h]
  show (match solveP2Rec steps n fuel (t2.map (fun x => x / 2)) with
    | none => none
    | some sub => some (countBits steps.length c + 2 * sub)) = _
  rw [h2]

/-- Full correctness of the fuel-bounded parity recursion: with fuel above the
target sum it returns `none` exactly when no multiplicity vector meets the
target counts, and `some v` exactly when `v` is the least attainable total
number of applications. -/
theorem solveP2Rec_correct (steps : List Nat) (n : Nat)
    (hm : steps.length ≤ 64) (hlt : ∀ s ∈ steps, s < 2 ^ n) :
    ∀ fuel target, target.length = n → target.sum < fuel →
      ((solveP2Rec steps n fuel target = none ↔ SolCosts steps target = ∅) ∧
       (∀ v, solveP2Rec steps n fuel target = some v ↔
          IsLeast (SolCosts steps target) v)) := by
  intro fuel
  induction fuel with
  | zero =>
    intro target _ hsum
    exact absurd hsum (by omega)
  | succ fuel ih =>
    intro target hlen hsum
    rw [solveP2Rec_eq]
    by_cases hz : target.all (fun x => x == 0) = true
    · rw [if_pos hz]
      have hzero : ∀ pos, pos < target.length → target.getD pos 0 = 0 := by
        intro pos hpos
        exact beq_iff_eq.mp ((List.all_eq_true.mp hz) (target.getD pos 0)
          (mem_getD_of_lt target 0 pos hpos))
      have hmem : 0 ∈ SolCosts steps target := by
        refine ⟨List.replicate steps.length 0, ⟨List.length_replicate _ _, ?_⟩, ?_⟩
        · intro pos hpos
          rw [appliedCount_replicate_zero, hzero pos hpos]
        · simp
      constructor
      · constructor
        · intro h
          exact absurd h (by simp)
        · intro h
          rw [Set.eq_empty_iff_forall_not_mem] at h
          exact absurd hmem (h 0)
      · intro v
        constructor
        · intro h
          have hv : v = 0 := (Option.some.inj h).symm
          rw [hv]
          exact ⟨hmem, fun w _ => Nat.zero_le w⟩
        · rintro ⟨hv, hlb⟩
          have := hlb hmem
          have hv0 : v = 0 := by omega
          rw [hv0]
    · rw [if_neg hz]
      have hpos : 0 < target.sum := by
        rw [List.all_eq_true] at hz
        push_neg at hz
        obtain ⟨x, hx, hxne⟩ := hz
        have hx0 : 0 < x := by
          by_contra h0
          push_neg at h0
          have : x = 0 := by omega
          rw [this] at hxne
          exact hxne rfl
        have := List.single_le_sum (fun y _ => Nat.zero_le y) x hx
        omega
      have hpat_lt : parityPattern target < 2 ^ n := by
        have := parityPattern_lt target
        rwa [hlen] at this
      have hhalf : ∀ c t2, applyCandidate steps c target = some t2 →
          ((t2.map (fun x => x / 2)).length = n ∧
            (t2.map (fun x => x / 2)).sum < fuel) := by
        intro c t2 happ
        obtain ⟨hlen2, hval⟩ := applyCandidate_of_some steps c target t2 happ
        refine ⟨by rw [List.length_map, hlen2, hlen], ?_⟩
        have h1 := sum_map_div2 t2
        have h2 : t2.sum ≤ target.sum := by
          apply sum_le_sum_getD t2 target hlen2
          intro pos hp
          rw [hlen2] at hp
          have := (hval pos hp).2
          omega
        omega
      have hsound : ∀ c tot,
          c ∈ (GF2Solver.new steps n).solve (parityPattern target) →
          candTotal steps n fuel target c = some tot →
          tot ∈ SolCosts steps target := by
        intro c tot hc htot
        obtain ⟨hclt, hcsel⟩ :=
          (solve_mem steps n (parityPattern target) hm hlt hpat_lt c).mp hc
        cases happ : applyCandidate steps c target with
        | none =>
          rw [candTotal_none steps n fuel target c happ] at htot
          exact absurd htot (by simp)
        | some t2 =>
          cases hrec : solveP2Rec steps n fuel (t2.map (fun x => x / 2)) with
          | none =>
            rw [candTotal_some_none steps n fuel target c t2 happ hrec] at htot
            exact absurd htot (by simp)
          | some sub =>
            rw [candTotal_some_some steps n fuel target c t2 sub happ hrec] at htot
            have htot' : tot = countBits steps.length c + 2 * sub :=
              (Option.some.inj htot).symm
            obtain ⟨hh1, hh2⟩ := hhalf c t2 happ
            have hsub := ((ih (t2.map (fun x => x / 2)) hh1 hh2).2 sub).mp hrec
            obtain ⟨ys, hys, hyssum⟩ := hsub.1
            obtain ⟨hyslen, hyscount⟩ := hys
            obtain ⟨ht2len, ht2val⟩ := applyCandidate_of_some steps c target t2 happ
            refine ⟨combine c ys, ⟨?_, ?_⟩, ?_⟩
            · rw [combine_length, hyslen]
            · intro pos hpos
              rw [appliedCount_combine steps c ys pos (by rw [hyslen])]
              have hY : appliedCount steps ys pos = (t2.map (fun x => x / 2)).getD pos 0 := by
                apply hyscount pos
                rw [List.length_map, ht2len]
                exact hpos
              rw [hY, getD_map_div2 t2 pos (by rw [ht2len]; exact hpos)]
              have hv := ht2val pos hpos
              have hpar : selTouch steps c pos % 2 = target.getD pos 0 % 2 := by
                have hb := congrArg (fun x => x.testBit pos) hcsel
                simp only at hb
                rw [selXor_testBit_parity, parityPattern_testBit] at hb
                rw [decide_eq_decide] at hb
                omega
              rw [hv.2]
              have := hv.1
              omega
            · rw [combine_sum, hyslen, htot', hyssum]
      have hcomplete : ∀ w, w ∈ SolCosts steps target →
          ∃ c ∈ (GF2Solver.new steps n).solve (parityPattern target),
            ∃ tot, candTotal steps n fuel target c = some tot ∧ tot ≤ w := by
        rintro w ⟨xs, hxs, hwsum⟩
        obtain ⟨hxlen, hxcount⟩ := hxs
        have hcsel : selXor steps (parityPattern xs) = parityPattern target :=
          parity_of_solution steps target xs n hlt hlen ⟨hxlen, hxcount⟩
        have hclt : parityPattern xs < 2 ^ steps.length := by
          have := parityPattern_lt xs
          rwa [hxlen] at this
        have hc : parityPattern xs ∈
            (GF2Solver.new steps n).solve (parityPattern target) :=
          (solve_mem steps n (parityPattern target) hm hlt hpat_lt _).mpr ⟨hclt, hcsel⟩
        have hbound := selTouch_le_of_solution steps target xs ⟨hxlen, hxcount⟩
        obtain ⟨t2, happ, ht2len, ht2val⟩ :=
          applyCandidate_some steps (parityPattern xs) target hbound
        have hdecomp : ∀ pos, appliedCount steps xs pos =
            selTouch steps (parityPattern xs) pos +
              2 * appliedCount steps (xs.map (fun x => x / 2)) pos := by
          intro pos
          conv_lhs => rw [← combine_parity_self xs]
          exact appliedCount_combine steps (parityPattern xs) _ pos
            (by rw [List.length_map, hxlen])
        have hys : IsSolution steps (t2.map (fun x => x / 2))
            (xs.map (fun x => x / 2)) := by
          refine ⟨by rw [List.length_map, hxlen], ?_⟩
          intro pos hpos
          rw [List.length_map, ht2len] at hpos
          rw [getD_map_div2 t2 pos (by rw [ht2len]; exact hpos)]
          rw [ht2val pos hpos]
          have h1 := hdecomp pos
          have h2 := hxcount pos hpos
          omega
        obtain ⟨hh1, hh2⟩ := hhalf (parityPattern xs) t2 happ
        have hcosts : (xs.map (fun x => x / 2)).sum ∈
            SolCosts steps (t2.map (fun x => x / 2)) :=
          ⟨xs.map (fun x => x / 2), hys, rfl⟩
        cases hrec : solveP2Rec steps n fuel (t2.map (fun x => x / 2)) with
        | none =>
          have hemp := ((ih _ hh1 hh2).1).mp hrec
          rw [Set.eq_empty_iff_forall_not_mem] at hemp
          exact absurd hcosts (hemp _)
        | some sub =>
          have hleast := ((ih _ hh1 hh2).2 sub).mp hrec
          have hsuble : sub ≤ (xs.map (fun x => x / 2)).sum := hleast.2 hcosts
          refine ⟨parityPattern xs, hc,
            countBits steps.length (parityPattern xs) + 2 * sub,
            candTotal_some_some steps n fuel target _ t2 sub happ hrec, ?_⟩
          have hw : w = countBits xs.length (parityPattern xs) +
              2 * (xs.map (fun x => x / 2)).sum := by
            rw [hwsum]
            conv_lhs => rw [← combine_parity_self xs]
            rw [combine_sum, List.length_map]
          rw [hw, hxlen]
          omega
      constructor
      · rw [optMinFold_none_iff]
        constructor
        · rintro ⟨_, hall⟩
          rw [Set.eq_empty_iff_forall_not_mem]
          intro w hw
          obtain ⟨c, hc, tot, htot, _⟩ := hcomplete w hw
          rw [hall c hc] at htot
          exact absurd htot (by simp)
        · intro hempty
          refine ⟨rfl, ?_⟩
          intro c hc
          cases hg : candTotal steps n fuel target c with
          | none => rfl
          | some tot =>
            have := hsound c tot hc hg
            rw [Set.eq_empty_iff_forall_not_mem] at hempty
            exact absurd this (hempty tot)
      · intro v
        constructor
        · intro h
          rcases optMinFold_mem _ _ none v h with habs | ⟨c, hc, hg⟩
          · exact absurd habs (by simp)
          · refine ⟨hsound c v hc hg, ?_⟩
            intro w hw
            obtain ⟨d, hd, tot, htot, htotw⟩ := hcomplete w hw
            have := (optMinFold_le _ _ none v h).2 d hd tot htot
            omega
        · rintro ⟨hvmem, hlb⟩
          obtain ⟨c, hc, tot, htot, htotv⟩ := hcomplete v hvmem
          obtain ⟨v', hv', hv'le⟩ := optMinFold_some_exists _ _ none tot c hc htot
          have hfwd : IsLeast (SolCosts steps target) v' := by
            rcases optMinFold_mem _ _ none v' hv' with habs | ⟨d, hd, hg⟩
            · exact absurd habs (by simp)
            · refine ⟨hsound d v' hd hg, ?_⟩
              intro w hw
              obtain ⟨e, he, tot2, htot2, htot2w⟩ := hcomplete w hw
              have := (optMinFold_le _ _ none v' hv').2 e he tot2 htot2
              omega
          have hvv : v = v' := le_antisymm (hlb hfwd.1) (hfwd.2 hvmem)
          rw [hvv]
          exact hv'

end Day10.Gemini

namespace Day10

/-- Solutions over a sublist of the step list lift to the full list by giving
every skipped step multiplicity zero: same sum, same per-position counts. -/
theorem sublist_sol {l' l : List Nat} (hsl : l'.Sublist l) :
    ∀ xs', xs'.length = l'.length →
      ∃ xs, xs.length = l.length ∧ xs.sum = xs'.sum ∧
        ∀ pos, appliedCount l xs pos = appliedCount l' xs' pos := by
  induction hsl with
  | slnil =>
    intro xs' hlen
    have : xs' = [] := List.length_eq_zero.mp hlen
    subst this
    exact ⟨[], rfl, rfl, fun pos => rfl⟩
  | cons a hsl ih =>
    intro xs' hlen
    obtain ⟨xs, hxlen, hxsum, hxcount⟩ := ih xs' hlen
    refine ⟨0 :: xs, by simpa using hxlen, by simpa using hxsum, ?_⟩
    intro pos
    show (if a.testBit pos then 0 else 0) + appliedCount _ xs pos = _
    rw [hxcount pos]
    simp
  | cons₂ a hsl ih =>
    intro xs' hlen
    cases xs' with
    | nil => exact absurd hlen (by simp)
    | cons y ys' =>
      obtain ⟨xs, hxlen, hxsum, hxcount⟩ := ih ys' (by simpa using hlen)
      refine ⟨y :: xs, by simpa using hxlen, by simp [hxsum], ?_⟩
      intro pos
      show (if a.testBit pos then y else 0) + appliedCount _ xs pos =
        (if a.testBit pos then y else 0) + appliedCount _ ys' pos
      rw [hxcount pos]

/-- Solutions transport along permutations of the step list. -/
theorem perm_sol {steps steps' : List Nat} (hp : steps.Perm steps') :
    ∀ xs, xs.length = steps.length →
      ∃ xs', xs'.length = steps'.length ∧ xs'.sum = xs.sum ∧
        ∀ pos, appliedCount steps' xs' pos = appliedCount steps xs pos := by
  induction hp with
  | nil =>
    intro xs hlen
    have : xs = [] := List.length_eq_zero.mp hlen
    subst this
    exact ⟨[], rfl, rfl, fun pos => rfl⟩
  | cons x hp ih =>
    intro xs hlen
    cases xs with
    | nil => exact absurd hlen (by simp)
    | cons y ys =>
      obtain ⟨ys', hlen', hsum', hcount'⟩ := ih ys (by simpa using hlen)
      refine ⟨y :: ys', by simpa using hlen', by simp [hsum'], ?_⟩
      intro pos
      show (if x.testBit pos then y else 0) + appliedCount _ ys' pos =
        (if x.testBit pos then y else 0) + appliedCount _ ys pos
      rw [hcount' pos]
  | swap x y l =>
    intro xs hlen
    cases xs with
    | nil => exact absurd hlen (by simp)
    | cons a bs =>
      cases bs with
      | nil => exact absurd hlen (by simp)
      | cons b rest =>
        refine ⟨b :: a :: rest, by simpa using hlen, by simp; omega, ?_⟩
        intro pos
        show (if x.testBit pos then b else 0) + ((if y.testBit pos then a else 0) +
          appliedCount l rest pos) =
          (if y.testBit pos then a else 0) + ((if x.testBit pos then b else 0) +
          appliedCount l rest pos)
        omega
  | trans hp1 hp2 ih1 ih2 =>
    intro xs hlen
    obtain ⟨xs1, h1len, h1sum, h1count⟩ := ih1 xs hlen
    obtain ⟨xs2, h2len, h2sum, h2count⟩ := ih2 xs1 h1len
    refine ⟨xs2, h2len, by rw [h2sum, h1sum], ?_⟩
    intro pos
    rw [h2count pos, h1count pos]

/-- Dropping the zero-mask steps dominates: the multiplicities of the dropped
steps touch no position, so removing them keeps every count and can only
lower the sum. -/
theorem filter_zero_sol (steps : List Nat) :
    ∀ xs, xs.length = steps.length →
      ∃ xs', xs'.length = (steps.filter (fun s => s != 0)).length ∧
        xs'.sum ≤ xs.sum ∧
        ∀ pos, appliedCount (steps.filter (fun s => s != 0)) xs' pos =
          appliedCount steps xs pos := by
  induction steps with
  | nil =>
    intro xs hlen
    have : xs = [] := List.length_eq_zero.mp hlen
    subst this
    exact ⟨[], rfl, Nat.le_refl 0, fun pos => rfl⟩
  | cons s ss ih =>
    intro xs hlen
    cases xs with
    | nil => exact absurd hlen (by simp)
    | cons y ys =>
      obtain ⟨ys', hlen', hsum', hcount'⟩ := ih ys (by simpa using hlen)
      by_cases hs : s = 0
      · have hfil : (s :: ss).filter (fun s => s != 0) = ss.filter (fun s => s != 0) := by
          rw [List.filter_cons, if_neg (by simp [hs])]
        refine ⟨ys', by rw [hfil]; exact hlen', ?_, ?_⟩
        · have : (y :: ys).sum = y + ys.sum := by simp
          omega
        · intro pos
          rw [hfil, hcount' pos]
          show appliedCount ss ys pos = (if s.testBit pos then y else 0) +
            appliedCount ss ys pos
          rw [hs, Nat.zero_testBit]
          simp
      · have hfil : (s :: ss).filter (fun s => s != 0) =
            s :: ss.filter (fun s => s != 0) := by
          rw [List.filter_cons, if_pos (by simp [hs])]
        refine ⟨y :: ys', by rw [hfil]; simpa using hlen', ?_, ?_⟩
        · have h1 : (y :: ys').sum = y + ys'.sum := by simp
          have h2 : (y :: ys).sum = y + ys.sum := by simp
          omega
        · intro pos
          rw [hfil]
          show (if s.testBit pos then y else 0) + appliedCount _ ys' pos =
            (if s.testBit pos then y else 0) + appliedCount ss ys pos
          rw [hcount' pos]

/-- Merging adjacent duplicate steps: a solution over `a :: l` maps to one
over `destutter' (· ≠ ·) a l` with the same sum and the same counts, by
adding the multiplicities of merged duplicates. -/
theorem destutter_merge : ∀ (l : List Nat) (a : Nat) (xs : List Nat),
    xs.length = l.length + 1 →
    ∃ xs', xs'.length = (List.destutter' (· ≠ ·) a l).length ∧
      xs'.sum = xs.sum ∧
      ∀ pos, appliedCount (List.destutter' (· ≠ ·) a l) xs' pos =
        appliedCount (a :: l) xs pos := by
  intro l
  induction l with
  | nil =>
    intro a xs hlen
    cases xs with
    | nil => exact absurd hlen (by simp)
    | cons x xs0 =>
      have : xs0 = [] := List.length_eq_zero.mp (by simpa using hlen)
      subst this
      exact ⟨[x], rfl, rfl, fun pos => rfl⟩
  | cons b l2 ih =>
    intro a xs hlen
    cases xs with
    | nil => exact absurd hlen (by simp)
    | cons x xs1 =>
      have hxs1 : xs1.length = l2.length + 1 := by simpa using hlen
      have hdef : List.destutter' (· ≠ ·) a (b :: l2) =
          if a ≠ b then a :: List.destutter' (· ≠ ·) b l2
          else List.destutter' (· ≠ ·) a l2 := rfl
      by_cases hab : a ≠ b
      · rw [hdef, if_pos hab]
        obtain ⟨ys', hlen', hsum', hcount'⟩ := ih b xs1 hxs1
        refine ⟨x :: ys', by simpa using hlen', by simp [hsum'], ?_⟩
        intro pos
        show (if a.testBit pos then x else 0) + appliedCount _ ys' pos =
          (if a.testBit pos then x else 0) + appliedCount (b :: l2) xs1 pos
        rw [hcount' pos]
      · rw [hdef, if_neg hab]
        push_neg at hab
        cases xs1 with
        | nil => exact absurd hxs1 (by simp)
        | cons y rest =>
          have hmlen : ((x + y) :: rest).length = l2.length + 1 := by
            simpa using hxs1
          obtain ⟨ys', hlen', hsum', hcount'⟩ := ih a ((x + y) :: rest) hmlen
          refine ⟨ys', hlen', ?_, ?_⟩
          · rw [hsum']
            simp
            omega
          · intro pos
            rw [hcount' pos]
            show (if a.testBit pos then x + y else 0) + appliedCount l2 rest pos =
              (if a.testBit pos then x else 0) + ((if b.testBit pos then y else 0) +
                appliedCount l2 rest pos)
            rw [← hab]
            cases hbit : a.testBit pos <;> simp [hbit]
            omega

/-- Solutions over a list map to its deduplicated form with the same sum and
counts. -/
theorem destutter_sol (l : List Nat) (xs : List Nat) (hlen : xs.length = l.length) :
    ∃ xs', xs'.length = (List.destutter (· ≠ ·) l).length ∧ xs'.sum = xs.sum ∧
      ∀ pos, appliedCount (List.destutter (· ≠ ·) l) xs' pos =
        appliedCount l xs pos := by
  cases l with
  | nil =>
    have : xs = [] := List.length_eq_zero.mp hlen
    subst this
    exact ⟨[], rfl, rfl, fun pos => rfl⟩
  | cons a l2 =>
    have : List.destutter (· ≠ ·) (a :: l2) = List.destutter' (· ≠ ·) a l2 := rfl
    rw [this]
    exact destutter_merge l2 a xs (by simpa using hlen)

/-- Transfer of least elements (and emptiness) between a set and a superset
that it dominates from below. -/
theorem least_transfer (S S' : Set Nat) (hsub : S ⊆ S')
    (hdom : ∀ w ∈ S', ∃ u ∈ S, u ≤ w) :
    ((S = ∅ ↔ S' = ∅) ∧ ∀ v, (IsLeast S v ↔ IsLeast S' v)) := by
  constructor
  · constructor
    · intro hS
      rw [Set.eq_empty_iff_forall_not_mem] at hS ⊢
      intro w hw
      obtain ⟨u, hu, _⟩ := hdom w hw
      exact hS u hu
    · intro hS'
      rw [Set.eq_empty_iff_forall_not_mem] at hS' ⊢
      intro u hu
      exact hS' u (hsub hu)
  · intro v
    constructor
    · rintro ⟨hv, hlb⟩
      refine ⟨hsub hv, ?_⟩
      intro w hw
      obtain ⟨u, hu, hle⟩ := hdom w hw
      exact (hlb hu).trans hle
    · rintro ⟨hv, hlb⟩
      obtain ⟨u, hu, hle⟩ := hdom v hv
      have hvu : v ≤ u := hlb (hsub hu)
      have : u = v := by omega
      rw [← this]
      refine ⟨hu, ?_⟩
      intro w hw
      rw [this]
      exact hlb (hsub hw)

end Day10

namespace Day10.Gemini

/-- The preprocessing of gemini `solve_part2`: drop zero masks
(`retain(|&s| s != 0)`), sort (`sort_unstable`), and remove the now-adjacent
duplicates (`dedup`). -/
def distinctSteps (steps : List Nat) : List Nat :=
  ((steps.filter (fun s => s != 0)).mergeSort (fun a b => a ≤ b)).destutter (· ≠ ·)

/-- gemini_cli_day10 `solve_part2`: preprocessing, the `m == 0` base case, and
the memoised parity recursion over the distinct steps. -/
def solve_part2 (steps target_counts : List Nat) (n : Nat) : Option Nat :=
  if (distinctSteps steps).length = 0 then
    (if target_counts.all (fun x => x == 0) then some 0 else none)
  else
    solveP2Rec (distinctSteps steps) n (target_counts.sum + 1) target_counts

theorem distinctSteps_mem (steps : List Nat) : ∀ s ∈ distinctSteps steps, s ∈ steps := by
  intro s hs
  have h1 : s ∈ (steps.filter (fun s => s != 0)).mergeSort (fun a b => a ≤ b) :=
    (List.destutter_sublist _ _).subset hs
  have h2 : s ∈ steps.filter (fun s => s != 0) :=
    (List.mergeSort_perm _ _).mem_iff.mp h1
  exact (List.filter_sublist _).subset h2

theorem distinctSteps_length_le (steps : List Nat) :
    (distinctSteps steps).length ≤ steps.length := by
  have h1 := (List.destutter_sublist (· ≠ ·)
    ((steps.filter (fun s => s != 0)).mergeSort (fun a b => a ≤ b))).length_le
  have h2 := (List.mergeSort_perm (steps.filter (fun s => s != 0))
    (fun a b => a ≤ b)).length_eq
  have h3 := (List.filter_sublist (p := fun s => s != 0) steps).length_le
  show (distinctSteps steps).length ≤ steps.length
  unfold distinctSteps
  omega

/-- The preprocessing preserves both unsolvability and the minimum sum: the
distinct step set and the original step set have equivalent cost sets. -/
theorem distinct_sol_equiv (steps target : List Nat) :
    ((SolCosts (distinctSteps steps) target = ∅ ↔ SolCosts steps target = ∅) ∧
     ∀ v, (IsLeast (SolCosts (distinctSteps steps) target) v ↔
        IsLeast (SolCosts steps target) v)) := by
  apply least_transfer
  · rintro w ⟨xs0, ⟨hlen0, hcount0⟩, hw⟩
    obtain ⟨xs1, hlen1, hsum1, hcount1⟩ :=
      sublist_sol (List.destutter_sublist (· ≠ ·)
        ((steps.filter (fun s => s != 0)).mergeSort (fun a b => a ≤ b))) xs0 hlen0
    obtain ⟨xs2, hlen2, hsum2, hcount2⟩ :=
      perm_sol (List.mergeSort_perm (steps.filter (fun s => s != 0))
        (fun a b => a ≤ b)) xs1 hlen1
    obtain ⟨xs3, hlen3, hsum3, hcount3⟩ :=
      sublist_sol (List.filter_sublist (p := fun s => s != 0) steps) xs2 hlen2
    refine ⟨xs3, ⟨hlen3, ?_⟩, ?_⟩
    · intro pos hpos
      rw [hcount3 pos, hcount2 pos, hcount1 pos]
      exact hcount0 pos hpos
    · rw [hw, ← hsum1, ← hsum2, ← hsum3]
  · unfold distinctSteps
    rintro w ⟨xs0, ⟨hlen0, hcount0⟩, hw⟩
    obtain ⟨xs1, hlen1, hsum1, hcount1⟩ := filter_zero_sol steps xs0 hlen0
    obtain ⟨xs2, hlen2, hsum2, hcount2⟩ :=
      perm_sol (List.mergeSort_perm (steps.filter (fun s => s != 0))
        (fun a b => a ≤ b)).symm xs1 hlen1
    obtain ⟨xs3, hlen3, hsum3, hcount3⟩ :=
      destutter_sol ((steps.filter (fun s => s != 0)).mergeSort (fun a b => a ≤ b))
        xs2 hlen2
    refine ⟨xs3.sum, ⟨xs3, ⟨hlen3, ?_⟩, rfl⟩, ?_⟩
    · intro pos hpos
      rw [hcount3 pos, hcount2 pos, hcount1 pos]
      exact hcount0 pos hpos
    · rw [hw, hsum3, hsum2]
      exact hsum1

theorem solCosts_empty_iff (steps target : List Nat) :
    SolCosts steps target = ∅ ↔ ¬ ∃ xs, IsSolution steps target xs := by
  rw [Set.eq_empty_iff_forall_not_mem]
  constructor
  · rintro h ⟨xs, hxs⟩
    exact h xs.sum ⟨xs, hxs, rfl⟩
  · rintro h w ⟨xs, hxs, _⟩
    exact h ⟨xs, hxs⟩

end Day10.Gemini

namespace Day10.Gemini

/-- Characterization of `solve_part2`: `none` on unsolvable targets, least
attainable sum otherwise. -/
theorem solve_part2_char (steps target : List Nat) (n : Nat)
    (hm : steps.length ≤ 64) (hlt : ∀ s ∈ steps, s < 2 ^ n)
    (hlen : target.length = n) :
    (solve_part2 steps target n = none ↔ ¬ ∃ xs, IsSolution steps target xs) ∧
    (∀ v, solve_part2 steps target n = some v ↔
      IsLeast (SolCosts steps target) v) := by
  obtain ⟨hempty_iff, hleast_iff⟩ := distinct_sol_equiv steps target
  have hds_len : (distinctSteps steps).length ≤ 64 :=
    (distinctSteps_length_le steps).trans hm
  have hds_lt : ∀ s ∈ distinctSteps steps, s < 2 ^ n :=
    fun s hs => hlt s (distinctSteps_mem steps s hs)
  have solve_part2_eq : solve_part2 steps target n =
      if (distinctSteps steps).length = 0 then
        (if target.all (fun x => x == 0) then some 0 else none)
      else solveP2Rec (distinctSteps steps) n (target.sum + 1) target := rfl
  rw [solve_part2_eq]
  by_cases hds0 : (distinctSteps steps).length = 0
  · rw [if_pos hds0]
    have hdsnil : distinctSteps steps = [] := List.length_eq_zero.mp hds0
    by_cases hz : target.all (fun x => x == 0) = true
    · rw [if_pos hz]
      have hzero : ∀ pos, pos < target.length → target.getD pos 0 = 0 := by
        intro pos hpos
        exact beq_iff_eq.mp ((List.all_eq_true.mp hz) (target.getD pos 0)
          (mem_getD_of_lt target 0 pos hpos))
      have hsol : IsSolution steps target (List.replicate steps.length 0) := by
        refine ⟨List.length_replicate _ _, ?_⟩
        intro pos hpos
        rw [appliedCount_replicate_zero, hzero pos hpos]
      have hmem : 0 ∈ SolCosts steps target :=
        ⟨List.replicate steps.length 0, hsol, by simp⟩
      constructor
      · constructor
        · intro h
          exact absurd h (by simp)
        · intro h
          exact absurd ⟨List.replicate steps.length 0, hsol⟩ h
      · intro v
        constructor
        · intro h
          have hv : v = 0 := (Option.some.inj h).symm
          rw [hv]
          exact ⟨hmem, fun w _ => Nat.zero_le w⟩
        · rintro ⟨hv, hlb⟩
          have := hlb hmem
          have hv0 : v = 0 := by omega
          rw [hv0]
    · rw [if_neg hz]
      have hds_empty : SolCosts (distinctSteps steps) target = ∅ := by
        rw [Set.eq_empty_iff_forall_not_mem]
        rintro w ⟨xs, ⟨hxlen, hxcount⟩, _⟩
        rw [hdsnil] at hxlen
        have hxnil : xs = [] := List.length_eq_zero.mp hxlen
        rw [List.all_eq_true] at hz
        push_neg at hz
        obtain ⟨x, hx, hxne⟩ := hz
        obtain ⟨k, hk, hkx⟩ := mem_to_index target 0 x hx
        have := hxcount k hk
        rw [hxnil, hdsnil] at this
        have h0 : appliedCount ([] : List Nat) ([] : List Nat) k = 0 := rfl
        rw [h0] at this
        rw [hkx] at this
        rw [← this] at hxne
        exact hxne rfl
      have hsteps_empty : SolCosts steps target = ∅ := hempty_iff.mp hds_empty
      constructor
      · constructor
        · intro _
          rw [← solCosts_empty_iff]
          exact hsteps_empty
        · intro _
          rfl
      · intro v
        constructor
        · intro h
          exact absurd h (by simp)
        · rintro ⟨hv, _⟩
          rw [Set.eq_empty_iff_forall_not_mem] at hsteps_empty
          exact absurd hv (hsteps_empty v)
  · rw [if_neg hds0]
    obtain ⟨hnone, hsome⟩ := solveP2Rec_correct (distinctSteps steps) n hds_len hds_lt
      (target.sum + 1) target hlen (by omega)
    constructor
    · rw [hnone, ← solCosts_empty_iff]
      exact hempty_iff
    · intro v
      rw [hsome v]
      exact hleast_iff v

end Day10.Gemini

namespace Day10

/-- Any parity-matching candidate that survives the subtract-one feasibility
check leaves an even residual at every position. -/
theorem residual_even (steps target : List Nat) (c : Nat)
    (hsel : selXor steps c = parityPattern target) (t2 : List Nat)
    (happ : Gemini.applyCandidate steps c target = some t2) :
    ∀ pos, pos < target.length → t2.getD pos 0 % 2 = 0 := by
  intro pos hpos
  obtain ⟨hlen2, hval⟩ := Gemini.applyCandidate_of_some steps c target t2 happ
  have hv := hval pos hpos
  have hpar : selTouch steps c pos % 2 = target.getD pos 0 % 2 := by
    have hb := congrArg (fun x => x.testBit pos) hsel
    simp only at hb
    rw [selXor_testBit_parity, parityPattern_testBit] at hb
    rw [decide_eq_decide] at hb
    omega
  have h1 := hv.1
  rw [hv.2]
  omega

/-- C6: in the parity-decomposition solvers, every candidate odd-use subset
obtained from the GF(2) solver for the target's parity pattern that survives
the subtract-one feasibility check leaves an even residual count at every
position.  Hence gemini's unchecked halving of the residual is exact, and the
odd-residual rejection applied to codex's coset seeds
(`particular ^ basis subset`) can never fire. -/
theorem claim_C6 (steps target : List Nat) (n : Nat)
    (hm : steps.length ≤ 64) (hlt : ∀ s ∈ steps, s < 2 ^ n)
    (hlen : target.length = n) :
    (∀ c ∈ (Gemini.GF2Solver.new steps n).solve (parityPattern target),
      ∀ t2, Gemini.applyCandidate steps c target = some t2 →
        ∀ pos, pos < target.length →
          t2.getD pos 0 % 2 = 0 ∧
          2 * ((t2.map (fun x => x / 2)).getD pos 0) = t2.getD pos 0) ∧
    (∀ p basis, Codex.solve_gf2 steps (parityPattern target) n = some (p, basis) →
      ∀ cw t2, Gemini.applyCandidate steps (p ^^^ selXor basis cw) target = some t2 →
        ∀ pos, pos < target.length → t2.getD pos 0 % 2 = 0) := by
  have hpat_lt : parityPattern target < 2 ^ n := by
    have := parityPattern_lt target
    rwa [hlen] at this
  constructor
  · intro c hc t2 happ pos hpos
    have hsel := ((Gemini.solve_mem steps n (parityPattern target) hm hlt hpat_lt c).mp
      hc).2
    have heven := residual_even steps target c hsel t2 happ pos hpos
    refine ⟨heven, ?_⟩
    obtain ⟨hlen2, _⟩ := Gemini.applyCandidate_of_some steps c target t2 happ
    rw [getD_map_div2 t2 pos (by rw [hlen2]; exact hpos)]
    omega
  · intro p basis hres cw t2 happ pos hpos
    have hsel := (Codex.solve_gf2_sound steps (parityPattern target) n hm hlt hpat_lt
      p basis hres).1 cw
    exact residual_even steps target (p ^^^ selXor basis cw) hsel t2 happ pos hpos

theorem claim_C6_witness :
    ((∀ c ∈ (Gemini.GF2Solver.new [1] 1).solve (parityPattern [2]),
      ∀ t2, Gemini.applyCandidate [1] c [2] = some t2 →
        ∀ pos, pos < ([2] : List Nat).length →
          t2.getD pos 0 % 2 = 0 ∧
          2 * ((t2.map (fun x => x / 2)).getD pos 0) = t2.getD pos 0) ∧
    (∀ p basis, Codex.solve_gf2 [1] (parityPattern [2]) 1 = some (p, basis) →
      ∀ cw t2, Gemini.applyCandidate [1] (p ^^^ selXor basis cw) [2] = some t2 →
        ∀ pos, pos < ([2] : List Nat).length → t2.getD pos 0 % 2 = 0)) :=
  claim_C6 [1] [2] 1 (by decide) (by decide) (by decide)

end Day10

namespace Day10.Gemini

/-- Characterization of `solve_part1_mim`: `none` exactly on unsolvable
patterns, otherwise the least Hamming weight of a solving subset. -/
theorem solve_part1_mim_char (steps : List Nat) (target n : Nat)
    (hm : steps.length ≤ 64) (hlt : ∀ s ∈ steps, s < 2 ^ n)
    (htarget : target < 2 ^ n) :
    (solve_part1_mim steps target n = none ↔ ¬ ∃ x, selXor steps x = target) ∧
    (∀ v, solve_part1_mim steps target n = some v ↔
      IsLeast {w | ∃ c, c < 2 ^ steps.length ∧ selXor steps c = target ∧
        w = bitCount c} v) := by
  have inv := Codex.elim_inv steps target n
  have heq : solve_part1_mim steps target n =
      if (Codex.elimRes steps target n).1.any (fun r => r.1 == 0 && r.2) then none
      else some (mimSearch (Codex.partT steps target n)
        (Codex.basisT steps target n)) := by
    show (if ((Codex.elimRes steps target n).1.drop
          (Codex.elimRes steps target n).2.length).any (fun r => r.2) then none
        else some (mimSearch (dMask (Codex.elimRes steps target n).1
            (Codex.elimRes steps target n).2)
          (((List.range steps.length).filter
            (fun c => !((Codex.elimRes steps target n).2.any
              (fun pc => pc.2 == c)))).map
            (kernelVec (Codex.elimRes steps target n).1
              (Codex.elimRes steps target n).2)))) = _
    rw [Day10.drop_check_eq inv, dMask_eq_particularG, particularG_eq inv hm,
      freeCols_eq inv]
    have hbasis : (Codex.freeVars (Codex.pivotRows (Codex.elimRes steps target n).1
          (Codex.elimRes steps target n).2) steps.length).map
        (kernelVec (Codex.elimRes steps target n).1
          (Codex.elimRes steps target n).2) = Codex.basisT steps target n := by
      apply List.map_congr_left
      intro c hc
      have hcf := (Codex.mem_freeVars inv c).mp hc
      exact kernelVec_eq inv hm c hcf.1 hcf.2
    rw [hbasis]
    rfl
  rw [heq]
  cases hany : (Codex.elimRes steps target n).1.any (fun r => r.1 == 0 && r.2)
  · rw [if_neg (by simp)]
    have hset : {w | ∃ cw, w = bitCount (Codex.partT steps target n ^^^
        selXor (Codex.basisT steps target n) cw)} =
        {w | ∃ c, c < 2 ^ steps.length ∧ selXor steps c = target ∧
          w = bitCount c} := by
      apply Set.ext
      intro w
      constructor
      · rintro ⟨cw, hw⟩
        refine ⟨Codex.partT steps target n ^^^
          selXor (Codex.basisT steps target n) cw, ?_, ?_, hw⟩
        · exact Nat.xor_lt_two_pow (Codex.partT_lt steps target n hm)
            (selXor_lt_two_pow (Codex.basisT_lt steps target n hm) cw)
        · exact Codex.coset_sound_ctx steps target n hm hlt htarget hany cw
      · rintro ⟨c, hc, hsol, hw⟩
        obtain ⟨cw, _, hceq⟩ :=
          Codex.coset_complete_ctx steps target n hm hlt htarget hany c hc hsol
        exact ⟨cw, by rw [hw, hceq]⟩
    have hl := (mimSearch_least (Codex.partT steps target n)
      (Codex.basisT steps target n)).1
    rw [hset] at hl
    constructor
    · constructor
      · intro h
        exact absurd h (by simp)
      · intro hno
        exact absurd ⟨Codex.partT steps target n,
          Codex.any_false_solvable steps target n hm hlt htarget hany⟩ hno
    · intro v
      constructor
      · intro h
        have hv := Option.some.inj h
        rw [← hv]
        exact hl
      · intro hv
        have hvv : v = mimSearch (Codex.partT steps target n)
            (Codex.basisT steps target n) :=
          le_antisymm (hv.2 hl.1) (hl.2 hv.1)
        rw [hvv]
  · rw [if_pos rfl]
    constructor
    · constructor
      · intro _
        exact Codex.any_true_unsolvable steps target n hm hlt htarget hany
      · intro _
        rfl
    · intro v
      constructor
      · intro h
        exact absurd h (by simp)
      · rintro ⟨⟨c, _, hsol, _⟩, _⟩
        exact absurd ⟨c, hsol⟩
          (Codex.any_true_unsolvable steps target n hm hlt htarget hany)

end Day10.Gemini

namespace Day10

theorem bitCount_bit (b x : Nat) (hb : b ≤ 1) (hx : x < 2 ^ 63) :
    bitCount (b + 2 * x) = b + bitCount x := by
  have hlt : b + 2 * x < 2 ^ 64 := by
    have : (2 : Nat) ^ 64 = 2 * 2 ^ 63 := by norm_num
    omega
  rw [bitCount_eq_countBits_of_lt 64 (b + 2 * x) hlt (le_refl 64),
    bitCount_eq_countBits_of_lt 63 x hx (by norm_num)]
  have h64 : (64 : Nat) = 63 + 1 := rfl
  rw [h64, countBits_succ_low]
  congr 1
  · omega
  · congr 1
    omega

/-- A selection over the list with index `k` erased lifts to a selection over
the full list of the same weight: insert a zero bit at position `k`. -/
theorem erase_lift (steps : List Nat) (hm : steps.length ≤ 64) :
    ∀ (k : Nat), k < steps.length →
    ∀ c', c' < 2 ^ (steps.length - 1) →
    ∃ c, c < 2 ^ steps.length ∧
      selXor steps c = selXor (steps.eraseIdx k) c' ∧ bitCount c = bitCount c' := by
  induction steps with
  | nil =>
    intro k hk
    exact absurd hk (by simp)
  | cons s ss ih =>
    intro k hk c' hc'
    have hlen1 : (s :: ss).length = ss.length + 1 := by simp
    have hlen2 : (s :: ss).length - 1 = ss.length := by simp
    rw [hlen2] at hc'
    have hssm : ss.length ≤ 64 := by omega
    have hpow : (2 : Nat) ^ (s :: ss).length = 2 * 2 ^ ss.length := by
      rw [hlen1, pow_succ]
      omega
    have hc63 : c' < 2 ^ 63 := by
      have hle : ss.length ≤ 63 := by omega
      have := Nat.pow_le_pow_right (show 1 ≤ 2 by norm_num) hle
      omega
    cases k with
    | zero =>
      have her : (s :: ss).eraseIdx 0 = ss := rfl
      refine ⟨2 * c', by omega, ?_, ?_⟩
      · rw [her]
        show (if (2 * c').testBit 0 then s else 0) ^^^ selXor ss (2 * c' / 2) =
          selXor ss c'
        rw [testBit_two_mul_zero, if_neg (by simp)]
        have h2 : 2 * c' / 2 = c' := by omega
        rw [h2, Nat.zero_xor]
      · have := bitCount_bit 0 c' (by omega) hc63
        simpa using this
    | succ j =>
      have her : (s :: ss).eraseIdx (j + 1) = s :: ss.eraseIdx j := rfl
      have hj : j < ss.length := by omega
      have hc2' : c' / 2 < 2 ^ (ss.length - 1) := by
        have hp1 : 1 ≤ ss.length := by omega
        have hp2 : ss.length = (ss.length - 1) + 1 := by omega
        have hp3 : (2 : Nat) ^ ss.length = 2 * 2 ^ (ss.length - 1) := by
          conv_lhs => rw [hp2]
          rw [pow_succ]
          omega
        omega
      obtain ⟨d, hd, hdsel, hdcount⟩ := ih hssm j hj (c' / 2) hc2'
      have hd63 : d < 2 ^ 63 := by
        have hle : ss.length ≤ 63 := by omega
        have := Nat.pow_le_pow_right (show 1 ≤ 2 by norm_num) hle
        omega
      refine ⟨c' % 2 + 2 * d, by omega, ?_, ?_⟩
      · rw [her]
        show (if (c' % 2 + 2 * d).testBit 0 then s else 0) ^^^
            selXor ss ((c' % 2 + 2 * d) / 2) =
          (if c'.testBit 0 then s else 0) ^^^ selXor (ss.eraseIdx j) (c' / 2)
        have hb0 : (c' % 2 + 2 * d).testBit 0 = c'.testBit 0 := by
          rw [Nat.testBit_zero, Nat.testBit_zero]
          have h5 : (c' % 2 + 2 * d) % 2 = c' % 2 := by omega
          rw [h5]
        have hdv : (c' % 2 + 2 * d) / 2 = d := by omega
        rw [hb0, hdv, hdsel]
      · rw [bitCount_bit (c' % 2) d (by omega) hd63]
        have hdec : bitCount c' = c' % 2 + bitCount (c' / 2) := by
          have h6 : c' = c' % 2 + 2 * (c' / 2) := by omega
          conv_lhs => rw [h6]
          exact bitCount_bit (c' % 2) (c' / 2) (by omega) (by omega)
        rw [hdec, hdcount]

end Day10

namespace Day10

/-- C10: removing a step never decreases the minimum answer, for question (a)
(`solve_part1_mim`, the minimum number of distinct steps) and for question (b)
(`solve_part2`, the minimum total number of applications): a target reachable
with the reduced step set is reachable with the full set, and the full-set
minimum is at most the reduced-set minimum. -/
theorem claim_C10 (steps target2 : List Nat) (target1 n k : Nat)
    (hm : steps.length ≤ 64) (hlt : ∀ s ∈ steps, s < 2 ^ n)
    (htarget1 : target1 < 2 ^ n) (hlen : target2.length = n)
    (hk : k < steps.length) :
    ((Gemini.solve_part1_mim steps target1 n = none →
        Gemini.solve_part1_mim (steps.eraseIdx k) target1 n = none) ∧
     (∀ v v', Gemini.solve_part1_mim steps target1 n = some v →
        Gemini.solve_part1_mim (steps.eraseIdx k) target1 n = some v' → v ≤ v')) ∧
    ((Gemini.solve_part2 steps target2 n = none →
        Gemini.solve_part2 (steps.eraseIdx k) target2 n = none) ∧
     (∀ v v', Gemini.solve_part2 steps target2 n = some v →
        Gemini.solve_part2 (steps.eraseIdx k) target2 n = some v' → v ≤ v')) := by
  have hesub : (steps.eraseIdx k).Sublist steps := List.eraseIdx_sublist steps k
  have hem : (steps.eraseIdx k).length ≤ 64 := hesub.length_le.trans hm
  have helt : ∀ s ∈ steps.eraseIdx k, s < 2 ^ n := fun s hs => hlt s (hesub.subset hs)
  have helen : (steps.eraseIdx k).length = steps.length - 1 := by
    rw [List.length_eraseIdx]
    simp [hk]
  obtain ⟨hfa_none, hfa_some⟩ := Gemini.solve_part1_mim_char steps target1 n hm hlt htarget1
  obtain ⟨hea_none, hea_some⟩ :=
    Gemini.solve_part1_mim_char (steps.eraseIdx k) target1 n hem helt htarget1
  obtain ⟨hfb_none, hfb_some⟩ := Gemini.solve_part2_char steps target2 n hm hlt hlen
  obtain ⟨heb_none, heb_some⟩ :=
    Gemini.solve_part2_char (steps.eraseIdx k) target2 n hem helt hlen
  constructor
  · constructor
    · intro hnone
      have hunsol := hfa_none.mp hnone
      apply hea_none.mpr
      rintro ⟨x', hx'⟩
      apply hunsol
      have hx'' : selXor (steps.eraseIdx k) (x' % 2 ^ (steps.eraseIdx k).length) =
          target1 := by
        rw [← hx']
        apply selXor_congr
        intro i hi
        rw [Nat.testBit_mod_two_pow]
        simp [hi]
      have hbound : x' % 2 ^ (steps.eraseIdx k).length < 2 ^ (steps.length - 1) := by
        rw [← helen]
        exact Nat.mod_lt _ (Nat.pos_pow_of_pos _ (by norm_num))
      obtain ⟨c, _, hcsel, _⟩ := erase_lift steps hm k hk _ hbound
      exact ⟨c, by rw [hcsel, hx'']⟩
    · intro v v' hv hv'
      have hleast := (hfa_some v).mp hv
      have hleast' := (hea_some v').mp hv'
      obtain ⟨c', hc'lt, hc'sol, hw'⟩ := hleast'.1
      rw [helen] at hc'lt
      obtain ⟨c, hclt, hcsel, hccount⟩ := erase_lift steps hm k hk c' hc'lt
      exact hleast.2 ⟨c, hclt, by rw [hcsel, hc'sol], by rw [hw', hccount]⟩
  · constructor
    · intro hnone
      have hunsol := hfb_none.mp hnone
      apply heb_none.mpr
      rintro ⟨xs', hxs'⟩
      apply hunsol
      obtain ⟨hlen', hcount'⟩ := hxs'
      obtain ⟨xs, hxlen, _, hxcount⟩ := sublist_sol hesub xs' hlen'
      refine ⟨xs, hxlen, ?_⟩
      intro pos hpos
      rw [hxcount pos]
      exact hcount' pos hpos
    · intro v v' hv hv'
      have hleast := (hfb_some v).mp hv
      have hleast' := (heb_some v').mp hv'
      obtain ⟨xs', hxs', hw'⟩ := hleast'.1
      obtain ⟨hlen', hcount'⟩ := hxs'
      obtain ⟨xs, hxlen, hxsum, hxcount⟩ := sublist_sol hesub xs' hlen'
      refine hleast.2 ⟨xs, ⟨hxlen, ?_⟩, by rw [hw', ← hxsum]⟩
      intro pos hpos
      rw [hxcount pos]
      exact hcount' pos hpos

theorem claim_C10_witness :
    (((Gemini.solve_part1_mim [1, 2] 1 2 = none →
        Gemini.solve_part1_mim ([1, 2].eraseIdx 1) 1 2 = none) ∧
     (∀ v v', Gemini.solve_part1_mim [1, 2] 1 2 = some v →
        Gemini.solve_part1_mim ([1, 2].eraseIdx 1) 1 2 = some v' → v ≤ v')) ∧
    ((Gemini.solve_part2 [1, 2] [1, 0] 2 = none →
        Gemini.solve_part2 ([1, 2].eraseIdx 1) [1, 0] 2 = none) ∧
     (∀ v v', Gemini.solve_part2 [1, 2] [1, 0] 2 = some v →
        Gemini.solve_part2 ([1, 2].eraseIdx 1) [1, 0] 2 = some v' → v ≤ v'))) :=
  claim_C10 [1, 2] [1, 0] 1 2 1 (by decide) (by decide) (by decide) (by decide)
    (by decide)

end Day10

namespace Day10.Gemini

/-- The parity recursion reaches its answer within `target.sum + 1` levels:
any two sufficient fuel amounts give the same result, so the fuel-free Rust
recursion terminates with that value. -/
theorem solveP2Rec_fuel_stable (steps : List Nat) (n : Nat)
    (hm : steps.length ≤ 64) (hlt : ∀ s ∈ steps, s < 2 ^ n)
    (target : List Nat) (hlen : target.length = n)
    (fuel1 fuel2 : Nat) (h1 : target.sum < fuel1) (h2 : target.sum < fuel2) :
    solveP2Rec steps n fuel1 target = solveP2Rec steps n fuel2 target := by
  obtain ⟨hnone1, hsome1⟩ := solveP2Rec_correct steps n hm hlt fuel1 target hlen h1
  obtain ⟨hnone2, hsome2⟩ := solveP2Rec_correct steps n hm hlt fuel2 target hlen h2
  cases hres : solveP2Rec steps n fuel1 target with
  | none =>
    have := hnone1.mp hres
    exact (hnone2.mpr this).symm
  | some v =>
    have := (hsome1 v).mp hres
    exact ((hsome2 v).mpr this).symm

end Day10.Gemini

namespace Day10.Codex

/-- Membership in the GF(2) span of a list of masks, written through the
subset-XOR selector. -/
def SpanM (L : List Nat) (x : Nat) : Prop := ∃ c, selXor L c = x

/-- One insertion pass of codex `reachable_mod2`: reduce `value` by the
basis entry at its leading-bit slot until the slot is free (store) or the
value vanishes (discard).  The Rust `while` loop is modelled with explicit
fuel; under the leading-bit invariant the pivot strictly decreases, so fuel
`33` is never exhausted for 32-bit values. -/
def insertVecF : Nat → List Nat → Nat → List Nat
  | 0, basis, _ => basis
  | fuel + 1, basis, value =>
    if value = 0 then basis
    else
      if basis.getD (Nat.log2 value) 0 = 0 then basis.set (Nat.log2 value) value
      else insertVecF fuel basis (value ^^^ basis.getD (Nat.log2 value) 0)

/-- The 32-slot XOR basis built from the step masks (the `basis` array of
codex `reachable_mod2`). -/
def buildBasis (masks : List Nat) : List Nat :=
  masks.foldl (fun b mask => insertVecF 33 b mask) (List.replicate 32 0)

/-- The membership pass of codex `reachable_mod2`: reduce the target by the
leading-bit slots; an empty slot on a nonzero value means unreachable. -/
def reduceChk (basis : List Nat) : Nat → Nat → Bool
  | 0, _ => false
  | fuel + 1, value =>
    if value = 0 then true
    else
      if basis.getD (Nat.log2 value) 0 = 0 then false
      else reduceChk basis fuel (value ^^^ basis.getD (Nat.log2 value) 0)

/-- codex `reachable_mod2`: greedy leading-bit XOR basis over the step
masks, then reduction of the target parity mask. -/
def reachable_mod2 (step_masks : List Nat) (target_mask : Nat) : Bool :=
  reduceChk (buildBasis step_masks) 33 target_mask

/-- Leading-bit invariant of the 32-slot basis: every occupied slot holds a
value whose top bit is the slot index. -/
def BasisInv (basis : List Nat) : Prop :=
  basis.length = 32 ∧
    ∀ p, p < 32 → basis.getD p 0 = 0 ∨ Nat.log2 (basis.getD p 0) = p

theorem getD_set_self (l : List Nat) (i v : Nat) (h : i < l.length) :
    (l.set i v).getD i 0 = v := by
  unfold List.getD
  rw [List.get?_eq_getElem?, List.getElem?_set_self (by simpa using h)]
  rfl

theorem getD_set_ne (l : List Nat) (i k v : Nat) (h : i ≠ k) :
    (l.set i v).getD k 0 = l.getD k 0 := by
  unfold List.getD
  rw [List.get?_eq_getElem?, List.get?_eq_getElem?, List.getElem?_set_ne h]

theorem log2_bracket (v p : Nat) (h1 : 2 ^ p ≤ v) (h2 : v < 2 ^ (p + 1)) :
    Nat.log2 v = p := by
  have hne : v ≠ 0 := by
    have : (0 : Nat) < 2 ^ p := Nat.pos_pow_of_pos p (by norm_num)
    omega
  have ha := Nat.log2_self_le hne
  have hb := Nat.lt_log2_self (n := v)
  by_contra hne2
  rcases Nat.lt_or_ge (Nat.log2 v) p with h | h
  · have : (2 : Nat) ^ (v.log2 + 1) ≤ 2 ^ p := Nat.pow_le_pow_right (by norm_num) (by omega)
    omega
  · have hgt : p < v.log2 := by omega
    have : (2 : Nat) ^ (p + 1) ≤ 2 ^ v.log2 := Nat.pow_le_pow_right (by norm_num) (by omega)
    omega

theorem log2_testBit_self (v : Nat) (h : v ≠ 0) : v.testBit (Nat.log2 v) = true := by
  have ha := Nat.log2_self_le h
  have hb := Nat.lt_log2_self (n := v)
  rw [Nat.testBit_to_div_mod]
  have hdiv : v / 2 ^ v.log2 = 1 := by
    have h2 : (2 : Nat) ^ (v.log2 + 1) = 2 * 2 ^ v.log2 := by rw [pow_succ]; omega
    have hp : (0 : Nat) < 2 ^ v.log2 := Nat.pos_pow_of_pos _ (by norm_num)
    have hlow : 1 ≤ v / 2 ^ v.log2 := (Nat.le_div_iff_mul_le hp).mpr (by omega)
    have hhigh : v / 2 ^ v.log2 < 2 := Nat.div_lt_of_lt_mul (by omega)
    omega
  rw [hdiv]
  rfl

/-- XOR against a strictly lower value keeps the top bit and the bracket. -/
theorem xor_top (a b q : Nat) (ha : a < 2 ^ q) (hb1 : 2 ^ q ≤ b) (hb2 : b < 2 ^ (q + 1)) :
    2 ^ q ≤ a ^^^ b ∧ a ^^^ b < 2 ^ (q + 1) := by
  constructor
  · apply Nat.testBit_implies_ge
    rw [Nat.testBit_xor, Nat.testBit_lt_two_pow ha, Bool.false_xor,
      Nat.testBit_to_div_mod]
    have h2 : (2 : Nat) ^ (q + 1) = 2 * 2 ^ q := by rw [pow_succ]; omega
    have hp : (0 : Nat) < 2 ^ q := Nat.pos_pow_of_pos _ (by norm_num)
    have hlow : 1 ≤ b / 2 ^ q := (Nat.le_div_iff_mul_le hp).mpr (by omega)
    have hhigh : b / 2 ^ q < 2 := Nat.div_lt_of_lt_mul (by omega)
    have hdiv : b / 2 ^ q = 1 := by omega
    rw [hdiv]
    rfl
  · exact Nat.xor_lt_two_pow (by omega) hb2

/-- Two values sharing the same top bit XOR to something strictly below it. -/
theorem xor_same_top (a b q : Nat) (ha1 : 2 ^ q ≤ a) (ha2 : a < 2 ^ (q + 1))
    (hb1 : 2 ^ q ≤ b) (hb2 : b < 2 ^ (q + 1)) : a ^^^ b < 2 ^ q := by
  apply Nat.lt_pow_two_of_testBit
  intro i hi
  rw [Nat.testBit_xor]
  rcases Nat.eq_or_lt_of_le hi with hq | hq
  · subst hq
    have hpq : (0:Nat) < 2 ^ q := Nat.pos_pow_of_pos _ (by norm_num)
    have hla : Nat.log2 a = q := log2_bracket a q ha1 ha2
    have hlb : Nat.log2 b = q := log2_bracket b q hb1 hb2
    have hta := log2_testBit_self a (by omega)
    have htb := log2_testBit_self b (by omega)
    rw [hla] at hta
    rw [hlb] at htb
    rw [hta, htb]
    rfl
  · have h2 : (2:Nat) ^ (q + 1) ≤ 2 ^ i := Nat.pow_le_pow_right (by norm_num) (by omega)
    rw [Nat.testBit_lt_two_pow (by omega), Nat.testBit_lt_two_pow (by omega)]
    rfl

/-- The top bit of a subset XOR of leading-bit-normalised entries (shifted by
`base`) lands on a selected, occupied slot. -/
theorem selXor_top_shift : ∀ (L : List Nat) (base : Nat),
    (∀ i, i < L.length → L.getD i 0 = 0 ∨ Nat.log2 (L.getD i 0) = base + i) →
    ∀ c, selXor L c = 0 ∨
      (2 ^ base ≤ selXor L c ∧ ∃ p, p < L.length ∧ L.getD p 0 ≠ 0 ∧
        Nat.log2 (selXor L c) = base + p) := by
  intro L
  induction L with
  | nil =>
    intro base _ c
    left
    rfl
  | cons s ss ih =>
    intro base hinv c
    have htail : ∀ i, i < ss.length → ss.getD i 0 = 0 ∨
        Nat.log2 (ss.getD i 0) = (base + 1) + i := by
      intro i hi
      have hstep := hinv (i + 1) (by simpa using Nat.succ_lt_succ hi)
      rw [List.getD_cons_succ] at hstep
      rcases hstep with h | h
      · left; exact h
      · right; omega
    have hhead := hinv 0 (by simp)
    have hsh : (s :: ss).getD 0 0 = s := rfl
    rw [hsh] at hhead
    have hrec := ih (base + 1) htail (c / 2)
    have hexp : selXor (s :: ss) c =
        (if c.testBit 0 then s else 0) ^^^ selXor ss (c / 2) := rfl
    have hhlt : (if c.testBit 0 then s else 0) = 0 ∨
        (2 ^ base ≤ (if c.testBit 0 then s else 0) ∧
         (if c.testBit 0 then s else 0) < 2 ^ (base + 1) ∧ s ≠ 0) := by
      by_cases hsz : s = 0
      · left
        rw [hsz]
        cases hc : c.testBit 0 <;> simp
      · by_cases hc : c.testBit 0 = true
        · rw [if_pos hc]
          rcases hhead with h0 | hl
          · exact absurd h0 hsz
          · right
            have hl2 : Nat.log2 s = base := by omega
            refine ⟨?_, ?_, hsz⟩
            · have := Nat.log2_self_le hsz
              rw [hl2] at this
              exact this
            · have := Nat.lt_log2_self (n := s)
              rw [hl2] at this
              exact this
        · rw [if_neg hc]
          left
          rfl
    rcases hrec with hr0 | ⟨hrge, p, hp, hpz, hptop⟩
    · rw [hexp, hr0, Nat.xor_zero]
      rcases hhlt with h0 | ⟨hge, hlt2, hsz⟩
      · left; exact h0
      · right
        refine ⟨hge, 0, by simp, by simpa using hsz, ?_⟩
        have : Nat.log2 (if c.testBit 0 then s else 0) = base :=
          log2_bracket _ base hge hlt2
        omega
    · right
      have hz : selXor ss (c / 2) ≠ 0 := by
        intro hzz
        rw [hzz] at hrge
        have : (0:Nat) < 2 ^ (base+1) := Nat.pos_pow_of_pos _ (by norm_num)
        omega
      have hq : 2 ^ ((base + 1) + p) ≤ selXor ss (c / 2) := by
        have := Nat.log2_self_le hz
        rw [hptop] at this
        exact this
      have hq2 : selXor ss (c / 2) < 2 ^ ((base + 1) + p + 1) := by
        have := Nat.lt_log2_self (n := selXor ss (c / 2))
        rw [hptop] at this
        exact this
      have hhsmall : (if c.testBit 0 then s else 0) < 2 ^ ((base + 1) + p) := by
        rcases hhlt with h0 | ⟨_, hlt2, _⟩
        · rw [h0]
          exact Nat.pos_pow_of_pos _ (by norm_num)
        · have : (2:Nat) ^ (base + 1) ≤ 2 ^ ((base + 1) + p) :=
            Nat.pow_le_pow_right (by norm_num) (by omega)
          omega
      obtain ⟨hxge, hxlt⟩ := xor_top _ (selXor ss (c / 2)) ((base + 1) + p) hhsmall hq hq2
      rw [hexp]
      constructor
      · have : (2:Nat) ^ base ≤ 2 ^ ((base+1)+p) :=
          Nat.pow_le_pow_right (by norm_num) (by omega)
        omega
      · refine ⟨p + 1, by simpa using Nat.succ_lt_succ hp, ?_, ?_⟩
        · rw [List.getD_cons_succ]
          exact hpz
        · have := log2_bracket _ ((base + 1) + p) hxge hxlt
          omega

/-- In a leading-bit basis, a nonzero span member's top-bit slot is
occupied. -/
theorem span_top_slot (basis : List Nat) (hinv : BasisInv basis) (x : Nat)
    (hx : SpanM basis x) (hne : x ≠ 0) :
    basis.getD (Nat.log2 x) 0 ≠ 0 ∧
      Nat.log2 (basis.getD (Nat.log2 x) 0) = Nat.log2 x ∧ Nat.log2 x < 32 := by
  obtain ⟨c, hc⟩ := hx
  obtain ⟨hlen, hslots⟩ := hinv
  have hsh := selXor_top_shift basis 0 (by
    intro i hi
    have := hslots i (by omega)
    simpa using this) c
  rw [hc] at hsh
  rcases hsh with h0 | ⟨_, p, hp, hpz, htop⟩
  · exact absurd h0 hne
  · have hplt : p < 32 := by omega
    have heq : Nat.log2 x = p := by omega
    rw [heq]
    refine ⟨hpz, ?_, hplt⟩
    rcases hslots p hplt with h | h
    · exact absurd h hpz
    · exact h

theorem span_zero (L : List Nat) : SpanM L 0 := ⟨0, selXor_zero L⟩

theorem span_xor (L : List Nat) (a b : Nat) (ha : SpanM L a) (hb : SpanM L b) :
    SpanM L (a ^^^ b) := by
  obtain ⟨c, hc⟩ := ha
  obtain ⟨d, hd⟩ := hb
  exact ⟨c ^^^ d, by rw [selXor_xor, hc, hd]⟩

theorem span_entry (L : List Nat) (i : Nat) : SpanM L (L.getD i 0) :=
  ⟨2 ^ i, selXor_two_pow L i⟩

theorem span_mem (L : List Nat) (v : Nat) (hv : v ∈ L) : SpanM L v := by
  obtain ⟨k, _, hk⟩ := mem_to_index L 0 v hv
  rw [← hk]
  exact span_entry L k

/-- Spans are monotone under entrywise span membership. -/
theorem span_mono (L L' : List Nat) (h : ∀ i, i < L.length → SpanM L' (L.getD i 0)) :
    ∀ c, SpanM L' (selXor L c) := by
  induction L with
  | nil =>
    intro c
    exact span_zero L'
  | cons s ss ih =>
    intro c
    have hhead : SpanM L' (if c.testBit 0 then s else 0) := by
      by_cases hc : c.testBit 0 = true
      · rw [if_pos hc]
        have := h 0 (by simp)
        simpa using this
      · rw [if_neg hc]
        exact span_zero L'
    have htail : SpanM L' (selXor ss (c / 2)) := by
      apply ih
      intro i hi
      have := h (i + 1) (by simpa using Nat.succ_lt_succ hi)
      rw [List.getD_cons_succ] at this
      exact this
    exact span_xor L' _ _ hhead htail

theorem span_sub (L L' : List Nat) (h : ∀ i, i < L.length → SpanM L' (L.getD i 0))
    (x : Nat) (hx : SpanM L x) : SpanM L' x := by
  obtain ⟨c, hc⟩ := hx
  rw [← hc]
  exact span_mono L L' h c

theorem span_cons_of (a : Nat) (L : List Nat) (x : Nat) (hx : SpanM L x) :
    SpanM (a :: L) x := by
  obtain ⟨c, hc⟩ := hx
  refine ⟨2 * c, ?_⟩
  show (if (2 * c).testBit 0 then a else 0) ^^^ selXor L (2 * c / 2) = x
  have hb : (2 * c).testBit 0 = false := by
    rw [Nat.testBit_to_div_mod]
    simp only [pow_zero, Nat.div_one]
    apply decide_eq_false
    omega
  rw [hb, if_neg (by simp), Nat.zero_xor]
  have h2 : 2 * c / 2 = c := by omega
  rw [h2, hc]

theorem span_cons_xor (a : Nat) (L : List Nat) (x : Nat) (hx : SpanM L x) :
    SpanM (a :: L) (a ^^^ x) := by
  obtain ⟨c, hc⟩ := hx
  refine ⟨1 + 2 * c, ?_⟩
  show (if (1 + 2 * c).testBit 0 then a else 0) ^^^ selXor L ((1 + 2 * c) / 2) = a ^^^ x
  have hb : (1 + 2 * c).testBit 0 = true := by
    rw [Nat.testBit_to_div_mod]
    simp only [pow_zero, Nat.div_one]
    apply decide_eq_true
    omega
  rw [hb, if_pos rfl]
  have h2 : (1 + 2 * c) / 2 = c := by omega
  rw [h2, hc]

theorem span_cons_split (a : Nat) (L : List Nat) (x : Nat) (hx : SpanM (a :: L) x) :
    SpanM L x ∨ SpanM L (x ^^^ a) := by
  obtain ⟨c, hc⟩ := hx
  have hexp : selXor (a :: L) c = (if c.testBit 0 then a else 0) ^^^ selXor L (c / 2) := rfl
  by_cases hb : c.testBit 0 = true
  · right
    rw [hexp, if_pos hb] at hc
    refine ⟨c / 2, ?_⟩
    rw [← hc, Nat.xor_comm a (selXor L (c / 2)), Nat.xor_assoc, Nat.xor_self,
      Nat.xor_zero]
  · left
    rw [hexp, if_neg hb, Nat.zero_xor] at hc
    exact ⟨c / 2, hc⟩

/-- `selXor` over a pointwise update. -/
theorem selXor_set (L : List Nat) : ∀ (i : Nat), i < L.length → ∀ (v c : Nat),
    selXor (L.set i v) c =
      selXor L c ^^^ (if c.testBit i then L.getD i 0 ^^^ v else 0) := by
  induction L with
  | nil =>
    intro i hi
    exact absurd hi (by simp)
  | cons s ss ih =>
    intro i hi v c
    cases i with
    | zero =>
      show (if c.testBit 0 then v else 0) ^^^ selXor ss (c / 2) = _
      have hget : (s :: ss).getD 0 0 = s := rfl
      rw [hget]
      show _ = ((if c.testBit 0 then s else 0) ^^^ selXor ss (c / 2)) ^^^
        (if c.testBit 0 then s ^^^ v else 0)
      by_cases hb : c.testBit 0 = true
      · rw [if_pos hb, if_pos hb, if_pos hb]
        rw [Nat.xor_comm s (selXor ss (c / 2)), Nat.xor_assoc,
          ← Nat.xor_assoc s s v, Nat.xor_self, Nat.zero_xor,
          Nat.xor_comm (selXor ss (c / 2)) v]
      · rw [if_neg hb, if_neg hb, if_neg hb, Nat.xor_zero]
    | succ k =>
      have hset : (s :: ss).set (k + 1) v = s :: ss.set k v := rfl
      rw [hset]
      show (if c.testBit 0 then s else 0) ^^^ selXor (ss.set k v) (c / 2) = _
      rw [ih k (by simpa using hi) v (c / 2)]
      have hbit : (c / 2).testBit k = c.testBit (k + 1) := by
        rw [Nat.testBit_div_two]
      rw [hbit]
      have hget : (s :: ss).getD (k + 1) 0 = ss.getD k 0 := by
        rw [List.getD_cons_succ]
      rw [hget]
      show _ = ((if c.testBit 0 then s else 0) ^^^ selXor ss (c / 2)) ^^^ _
      rw [Nat.xor_assoc]

theorem insertVecF_zero (fuel : Nat) (basis : List Nat) :
    insertVecF fuel basis 0 = basis := by
  cases fuel with
  | zero => rfl
  | succ f =>
    show (if (0:Nat) = 0 then basis else _) = basis
    rw [if_pos rfl]

/-- Occupied slot at the pivot: the reduced value stays 32-bit. -/
theorem pivot_reduce_lt (basis : List Nat) (hinv : BasisInv basis) (value : Nat)
    (hz : value ≠ 0) (hlt : value < 2 ^ 32)
    (hslot : basis.getD (Nat.log2 value) 0 ≠ 0) :
    value ^^^ basis.getD (Nat.log2 value) 0 < 2 ^ Nat.log2 value ∧
      Nat.log2 value < 32 := by
  obtain ⟨hlen, hslots⟩ := hinv
  have hpiv : Nat.log2 value < 32 := (Nat.log2_lt hz).mpr hlt
  have hbtop : Nat.log2 (basis.getD (Nat.log2 value) 0) = Nat.log2 value := by
    rcases hslots (Nat.log2 value) hpiv with h | h
    · exact absurd h hslot
    · exact h
  have hb1 : 2 ^ Nat.log2 value ≤ basis.getD (Nat.log2 value) 0 := by
    have := Nat.log2_self_le hslot
    rw [hbtop] at this
    exact this
  have hb2 : basis.getD (Nat.log2 value) 0 < 2 ^ (Nat.log2 value + 1) := by
    have := Nat.lt_log2_self (n := basis.getD (Nat.log2 value) 0)
    rw [hbtop] at this
    exact this
  have hv1 : 2 ^ Nat.log2 value ≤ value := Nat.log2_self_le hz
  have hv2 : value < 2 ^ (Nat.log2 value + 1) := Nat.lt_log2_self
  exact ⟨xor_same_top value _ (Nat.log2 value) hv1 hv2 hb1 hb2, hpiv⟩

/-- Insertion preserves the leading-bit invariant. -/
theorem insertVecF_inv : ∀ (fuel : Nat) (basis : List Nat) (value : Nat),
    BasisInv basis → value < 2 ^ 32 →
    BasisInv (insertVecF fuel basis value) := by
  intro fuel
  induction fuel with
  | zero =>
    intro basis value hinv _
    exact hinv
  | succ f ih =>
    intro basis value hinv hlt
    show BasisInv (if value = 0 then basis else _)
    by_cases hz : value = 0
    · rw [if_pos hz]; exact hinv
    · rw [if_neg hz]
      by_cases hslot : basis.getD (Nat.log2 value) 0 = 0
      · rw [if_pos hslot]
        obtain ⟨hlen, hslots⟩ := hinv
        have hpiv : Nat.log2 value < 32 := (Nat.log2_lt hz).mpr hlt
        constructor
        · rw [List.length_set]; exact hlen
        · intro p hp
          by_cases hpe : Nat.log2 value = p
          · right
            rw [← hpe, getD_set_self basis _ value (by omega)]
          · rw [getD_set_ne basis _ p value hpe]
            exact hslots p hp
      · rw [if_neg hslot]
        obtain ⟨hred, hpiv⟩ := pivot_reduce_lt basis hinv value hz hlt hslot
        apply ih basis _ hinv
        have : (2:Nat) ^ Nat.log2 value ≤ 2 ^ 32 :=
          Nat.pow_le_pow_right (by norm_num) (by omega)
        omega

/-- Insertion preserves the old span upward. -/
theorem insertVecF_span_up : ∀ (fuel : Nat) (basis : List Nat) (value : Nat),
    BasisInv basis → value < 2 ^ 32 →
    ∀ x, SpanM basis x → SpanM (insertVecF fuel basis value) x := by
  intro fuel
  induction fuel with
  | zero =>
    intro basis value _ _ x hx
    exact hx
  | succ f ih =>
    intro basis value hinv hlt x hx
    show SpanM (if value = 0 then basis else _) x
    by_cases hz : value = 0
    · rw [if_pos hz]; exact hx
    · rw [if_neg hz]
      by_cases hslot : basis.getD (Nat.log2 value) 0 = 0
      · rw [if_pos hslot]
        have hpiv : Nat.log2 value < 32 := (Nat.log2_lt hz).mpr hlt
        apply span_sub basis _ ?_ x hx
        intro i hi
        by_cases hpe : Nat.log2 value = i
        · rw [← hpe, hslot]
          exact span_zero _
        · have : (basis.set (Nat.log2 value) value).getD i 0 = basis.getD i 0 :=
            getD_set_ne basis _ i value hpe
          rw [← this]
          exact span_entry _ i
      · rw [if_neg hslot]
        obtain ⟨hred, hpiv⟩ := pivot_reduce_lt basis hinv value hz hlt hslot
        apply ih basis _ hinv ?_ x hx
        have : (2:Nat) ^ Nat.log2 value ≤ 2 ^ 32 :=
          Nat.pow_le_pow_right (by norm_num) (by omega)
        omega

/-- Everything in the span of the updated basis is in the span of the old
basis extended by the inserted value. -/
theorem insertVecF_span_down : ∀ (fuel : Nat) (basis : List Nat) (value : Nat),
    BasisInv basis → value < 2 ^ 32 →
    ∀ x, SpanM (insertVecF fuel basis value) x → SpanM (value :: basis) x := by
  intro fuel
  induction fuel with
  | zero =>
    intro basis value _ _ x hx
    exact span_cons_of value basis x hx
  | succ f ih =>
    intro basis value hinv hlt x hx
    rw [show insertVecF (f + 1) basis value = (if value = 0 then basis else
      if basis.getD (Nat.log2 value) 0 = 0 then basis.set (Nat.log2 value) value
      else insertVecF f basis (value ^^^ basis.getD (Nat.log2 value) 0)) from rfl] at hx
    by_cases hz : value = 0
    · rw [if_pos hz] at hx
      exact span_cons_of value basis x hx
    · rw [if_neg hz] at hx
      by_cases hslot : basis.getD (Nat.log2 value) 0 = 0
      · rw [if_pos hslot] at hx
        have hpiv : Nat.log2 value < 32 := (Nat.log2_lt hz).mpr hlt
        have hblen : basis.length = 32 := hinv.1
        obtain ⟨c, hc⟩ := hx
        rw [selXor_set basis (Nat.log2 value) (by omega) value c] at hc
        rw [hslot, Nat.zero_xor] at hc
        by_cases hb : c.testBit (Nat.log2 value) = true
        · rw [if_pos hb] at hc
          rw [← hc, Nat.xor_comm (selXor basis c) value]
          exact span_cons_xor value basis _ ⟨c, rfl⟩
        · rw [if_neg hb, Nat.xor_zero] at hc
          rw [← hc]
          exact span_cons_of value basis _ ⟨c, rfl⟩
      · rw [if_neg hslot] at hx
        obtain ⟨hred, hpiv⟩ := pivot_reduce_lt basis hinv value hz hlt hslot
        have hlt2 : value ^^^ basis.getD (Nat.log2 value) 0 < 2 ^ 32 := by
          have : (2:Nat) ^ Nat.log2 value ≤ 2 ^ 32 :=
            Nat.pow_le_pow_right (by norm_num) (by omega)
          omega
        have hrec := ih basis _ hinv hlt2 x hx
        -- convert span over (value', basis) to span over (value, basis)
        apply span_sub _ _ ?_ x hrec
        intro i hi
        cases i with
        | zero =>
          have hget : ((value ^^^ basis.getD (Nat.log2 value) 0) :: basis).getD 0 0 =
              value ^^^ basis.getD (Nat.log2 value) 0 := rfl
          rw [hget]
          apply span_xor
          · exact ⟨1, by
              show (if (1:Nat).testBit 0 then value else 0) ^^^ selXor basis (1 / 2) = value
              rw [if_pos (by rfl)]
              have h12 : (1:Nat) / 2 = 0 := rfl
              rw [h12, selXor_zero, Nat.xor_zero]⟩
          · exact span_cons_of value basis _ (span_entry basis (Nat.log2 value))
        | succ k =>
          rw [List.getD_cons_succ]
          exact span_cons_of value basis _ (span_entry basis k)

/-- With enough fuel, the inserted value itself lands in the span of the
updated basis. -/
theorem insertVecF_span_value : ∀ (fuel : Nat) (basis : List Nat) (value : Nat),
    BasisInv basis → value < 2 ^ 32 → Nat.log2 value < fuel →
    SpanM (insertVecF fuel basis value) value := by
  intro fuel
  induction fuel with
  | zero =>
    intro basis value _ _ hf
    exact absurd hf (by omega)
  | succ f ih =>
    intro basis value hinv hlt hf
    show SpanM (if value = 0 then basis else _) value
    by_cases hz : value = 0
    · rw [if_pos hz, hz]
      exact span_zero basis
    · rw [if_neg hz]
      by_cases hslot : basis.getD (Nat.log2 value) 0 = 0
      · rw [if_pos hslot]
        have hpiv : Nat.log2 value < 32 := (Nat.log2_lt hz).mpr hlt
        have hget : (basis.set (Nat.log2 value) value).getD (Nat.log2 value) 0 = value := by
          apply getD_set_self
          have : basis.length = 32 := hinv.1
          omega
        have hsp := span_entry (basis.set (Nat.log2 value) value) (Nat.log2 value)
        rw [hget] at hsp
        exact hsp
      · rw [if_neg hslot]
        obtain ⟨hred, hpiv⟩ := pivot_reduce_lt basis hinv value hz hlt hslot
        by_cases hz2 : value ^^^ basis.getD (Nat.log2 value) 0 = 0
        · rw [hz2, insertVecF_zero]
          have hvb : value = basis.getD (Nat.log2 value) 0 := by
            have h5 := congrArg (fun t => t ^^^ basis.getD (Nat.log2 value) 0) hz2
            simp only [Nat.xor_assoc, Nat.xor_self, Nat.xor_zero, Nat.zero_xor] at h5
            exact h5
          rw [hvb]
          exact span_entry basis (Nat.log2 value)
        · have hlt2 : value ^^^ basis.getD (Nat.log2 value) 0 < 2 ^ 32 := by
            have : (2:Nat) ^ Nat.log2 value ≤ 2 ^ 32 :=
              Nat.pow_le_pow_right (by norm_num) (by omega)
            omega
          have hlog2 : Nat.log2 (value ^^^ basis.getD (Nat.log2 value) 0) <
              Nat.log2 value := (Nat.log2_lt hz2).mpr hred
          have hrec := ih basis _ hinv hlt2 (by omega)
          have hb : SpanM (insertVecF f basis (value ^^^ basis.getD (Nat.log2 value) 0))
              (basis.getD (Nat.log2 value) 0) :=
            insertVecF_span_up f basis _ hinv hlt2 _ (span_entry basis (Nat.log2 value))
          have := span_xor _ _ _ hrec hb
          rw [Nat.xor_assoc, Nat.xor_self, Nat.xor_zero] at this
          exact this

theorem replicate_inv : BasisInv (List.replicate 32 0) := by
  constructor
  · rfl
  · intro p hp
    left
    rw [List.getD_eq_getElem?_getD, List.getElem?_replicate]
    rw [if_pos hp]
    rfl

theorem buildBasis_fold_inv : ∀ (rest : List Nat) (basis : List Nat),
    BasisInv basis → (∀ s ∈ rest, s < 2 ^ 32) →
    BasisInv (rest.foldl (fun b mask => insertVecF 33 b mask) basis) := by
  intro rest
  induction rest with
  | nil =>
    intro basis hinv _
    exact hinv
  | cons s ss ih =>
    intro basis hinv hlt
    show BasisInv (ss.foldl _ (insertVecF 33 basis s))
    apply ih
    · exact insertVecF_inv 33 basis s hinv (hlt s (List.mem_cons_self s ss))
    · intro t ht
      exact hlt t (List.mem_cons_of_mem s ht)

theorem buildBasis_inv (masks : List Nat) (hlt : ∀ s ∈ masks, s < 2 ^ 32) :
    BasisInv (buildBasis masks) :=
  buildBasis_fold_inv masks (List.replicate 32 0) replicate_inv hlt

/-- Fold lemma: spans only grow along the insertion fold. -/
theorem buildBasis_fold_up : ∀ (rest : List Nat) (basis : List Nat),
    BasisInv basis → (∀ s ∈ rest, s < 2 ^ 32) →
    ∀ x, SpanM basis x →
      SpanM (rest.foldl (fun b mask => insertVecF 33 b mask) basis) x := by
  intro rest
  induction rest with
  | nil =>
    intro basis _ _ x hx
    exact hx
  | cons s ss ih =>
    intro basis hinv hlt x hx
    show SpanM (ss.foldl _ (insertVecF 33 basis s)) x
    apply ih
    · exact insertVecF_inv 33 basis s hinv (hlt s (List.mem_cons_self s ss))
    · intro t ht
      exact hlt t (List.mem_cons_of_mem s ht)
    · exact insertVecF_span_up 33 basis s hinv (hlt s (List.mem_cons_self s ss)) x hx

/-- Every processed mask is in the span of the final basis. -/
theorem buildBasis_fold_masks : ∀ (rest : List Nat) (basis : List Nat),
    BasisInv basis → (∀ s ∈ rest, s < 2 ^ 32) →
    ∀ v ∈ rest, SpanM (rest.foldl (fun b mask => insertVecF 33 b mask) basis) v := by
  intro rest
  induction rest with
  | nil =>
    intro basis _ _ v hv
    exact absurd hv (by simp)
  | cons s ss ih =>
    intro basis hinv hlt v hv
    have hinv1 : BasisInv (insertVecF 33 basis s) :=
      insertVecF_inv 33 basis s hinv (hlt s (List.mem_cons_self s ss))
    have hlt1 : ∀ t ∈ ss, t < 2 ^ 32 := fun t ht => hlt t (List.mem_cons_of_mem s ht)
    rcases List.mem_cons.mp hv with hvs | hvm
    · rw [hvs]
      show SpanM (ss.foldl _ (insertVecF 33 basis s)) s
      apply buildBasis_fold_up ss _ hinv1 hlt1
      apply insertVecF_span_value 33 basis s hinv (hlt s (List.mem_cons_self s ss))
      have : Nat.log2 s < 32 ∨ s = 0 := by
        by_cases hz : s = 0
        · right; exact hz
        · left; exact (Nat.log2_lt hz).mpr (hlt s (List.mem_cons_self s ss))
      rcases this with h | h
      · omega
      · rw [h]
        show Nat.log2 0 < 33
        have : Nat.log2 0 = 0 := Nat.log2_zero
        omega
    · exact ih (insertVecF 33 basis s) hinv1 hlt1 v hvm

/-- Every entry of the final basis is in the span of the masks. -/
theorem buildBasis_fold_entries : ∀ (rest : List Nat) (basis : List Nat) (M : List Nat),
    BasisInv basis → (∀ s ∈ rest, s < 2 ^ 32) →
    (∀ i, i < basis.length → SpanM M (basis.getD i 0)) →
    (∀ v ∈ rest, SpanM M v) →
    ∀ i, i < (rest.foldl (fun b mask => insertVecF 33 b mask) basis).length →
      SpanM M ((rest.foldl (fun b mask => insertVecF 33 b mask) basis).getD i 0) := by
  intro rest
  induction rest with
  | nil =>
    intro basis M _ _ hent _ i hi
    exact hent i hi
  | cons s ss ih =>
    intro basis M hinv hlt hent hmem i hi
    have hinv1 : BasisInv (insertVecF 33 basis s) :=
      insertVecF_inv 33 basis s hinv (hlt s (List.mem_cons_self s ss))
    apply ih (insertVecF 33 basis s) M hinv1
      (fun t ht => hlt t (List.mem_cons_of_mem s ht)) ?_
      (fun v hv => hmem v (List.mem_cons_of_mem s hv)) i hi
    intro j hj
    have hsp : SpanM (insertVecF 33 basis s) ((insertVecF 33 basis s).getD j 0) :=
      span_entry _ j
    have hdown := insertVecF_span_down 33 basis s hinv
      (hlt s (List.mem_cons_self s ss)) _ hsp
    rcases span_cons_split s basis _ hdown with h | h
    · exact span_sub basis M (fun k hk => hent k hk) _ h
    · have h1 : SpanM M ((insertVecF 33 basis s).getD j 0 ^^^ s) :=
        span_sub basis M (fun k hk => hent k hk) _ h
      have h2 : SpanM M s := hmem s (List.mem_cons_self s ss)
      have := span_xor M _ _ h1 h2
      rw [Nat.xor_assoc, Nat.xor_self, Nat.xor_zero] at this
      exact this

/-- Soundness of the membership pass: success implies span membership. -/
theorem reduceChk_sound (basis : List Nat) : ∀ (fuel value : Nat),
    reduceChk basis fuel value = true → SpanM basis value := by
  intro fuel
  induction fuel with
  | zero =>
    intro value h
    exact absurd h (by
      show ¬ (false = true)
      simp)
  | succ f ih =>
    intro value h
    rw [show reduceChk basis (f + 1) value = (if value = 0 then true else
      if basis.getD (Nat.log2 value) 0 = 0 then false
      else reduceChk basis f (value ^^^ basis.getD (Nat.log2 value) 0)) from rfl] at h
    by_cases hz : value = 0
    · rw [hz]
      exact span_zero basis
    · rw [if_neg hz] at h
      by_cases hslot : basis.getD (Nat.log2 value) 0 = 0
      · rw [if_pos hslot] at h
        exact absurd h (by simp)
      · rw [if_neg hslot] at h
        have hrec := ih _ h
        have hb : SpanM basis (basis.getD (Nat.log2 value) 0) :=
          span_entry basis (Nat.log2 value)
        have := span_xor basis _ _ hrec hb
        rw [Nat.xor_assoc, Nat.xor_self, Nat.xor_zero] at this
        exact this

/-- Completeness of the membership pass: span members reduce to zero within
the fuel bound. -/
theorem reduceChk_complete (basis : List Nat) (hinv : BasisInv basis) :
    ∀ (fuel k value : Nat), value < 2 ^ k → k < fuel → SpanM basis value →
    reduceChk basis fuel value = true := by
  intro fuel
  induction fuel with
  | zero =>
    intro k value _ hk _
    exact absurd hk (by omega)
  | succ f ih =>
    intro k value hvk hk hsp
    show (if value = 0 then true else _) = true
    by_cases hz : value = 0
    · rw [if_pos hz]
    · rw [if_neg hz]
      obtain ⟨hocc, hbtop, hpiv32⟩ := span_top_slot basis hinv value hsp hz
      rw [if_neg hocc]
      have hpiv : Nat.log2 value < k := (Nat.log2_lt hz).mpr hvk
      have hb1 : 2 ^ Nat.log2 value ≤ basis.getD (Nat.log2 value) 0 := by
        have := Nat.log2_self_le hocc
        rw [hbtop] at this
        exact this
      have hb2 : basis.getD (Nat.log2 value) 0 < 2 ^ (Nat.log2 value + 1) := by
        have := Nat.lt_log2_self (n := basis.getD (Nat.log2 value) 0)
        rw [hbtop] at this
        exact this
      have hv1 : 2 ^ Nat.log2 value ≤ value := Nat.log2_self_le hz
      have hv2 : value < 2 ^ (Nat.log2 value + 1) := Nat.lt_log2_self
      have hred : value ^^^ basis.getD (Nat.log2 value) 0 < 2 ^ Nat.log2 value :=
        xor_same_top value _ (Nat.log2 value) hv1 hv2 hb1 hb2
      have hsp2 : SpanM basis (value ^^^ basis.getD (Nat.log2 value) 0) :=
        span_xor basis _ _ hsp (span_entry basis (Nat.log2 value))
      exact ih (Nat.log2 value) _ hred (by omega) hsp2

/-- codex `reachable_mod2` decides exactly GF(2) span membership of the
target parity mask: `true` iff some subset of the step masks XORs to it. -/
theorem reachable_mod2_iff (masks : List Nat) (t : Nat)
    (hmask : ∀ s ∈ masks, s < 2 ^ 32) (ht : t < 2 ^ 32) :
    reachable_mod2 masks t = true ↔ ∃ x, selXor masks x = t := by
  have hinv : BasisInv (buildBasis masks) := buildBasis_inv masks hmask
  constructor
  · intro h
    have hsp : SpanM (buildBasis masks) t := reduceChk_sound (buildBasis masks) 33 t h
    have hent : ∀ i, i < (buildBasis masks).length →
        SpanM masks ((buildBasis masks).getD i 0) := by
      intro i hi
      apply buildBasis_fold_entries masks (List.replicate 32 0) masks replicate_inv
        hmask ?_ ?_ i hi
      · intro j hj
        have hrep : (List.replicate 32 (0:Nat)).getD j 0 = 0 := by
          rw [List.getD_eq_getElem?_getD, List.getElem?_replicate]
          rw [List.length_replicate] at hj
          rw [if_pos hj]
          rfl
        rw [hrep]
        exact span_zero masks
      · intro v hv
        exact span_mem masks v hv
    exact span_sub (buildBasis masks) masks hent t hsp
  · rintro ⟨x, hx⟩
    apply reduceChk_complete (buildBasis masks) hinv 33 32 t ht (by omega)
    have hmem : ∀ v ∈ masks, SpanM (buildBasis masks) v :=
      buildBasis_fold_masks masks (List.replicate 32 0) replicate_inv hmask
    have hsp : SpanM (buildBasis masks) (selXor masks x) := by
      apply span_mono masks (buildBasis masks) ?_ x
      intro i hi
      exact hmem _ (mem_getD_of_lt masks 0 i hi)
    rw [hx] at hsp
    exact hsp

end Day10.Codex

namespace Day10.Codex

/-- codex `step_indices`: for each step mask, the ascending list of touched
positions below `positions`. -/
def stepIndices (step_masks : List Nat) (positions : Nat) : List (List Nat) :=
  step_masks.map (fun mask => (List.range positions).filter (fun idx => mask.testBit idx))

/-- The A* neighbour update: subtract one from each touched position
(`next[idx] -= 1`). -/
def applyIdx (st : List Nat) (indices : List Nat) : List Nat :=
  indices.foldl (fun s idx => s.set idx (s.getD idx 0 - 1)) st

/-- The A* applicability check: every touched position is nonzero. -/
def canApply (st : List Nat) (indices : List Nat) : Bool :=
  indices.all (fun idx => !(st.getD idx 0 == 0))

/-- Sequential reachability of the A* search: `PathTo steps positions st z k`
says `k` legal step applications (each decrementing its touched positions,
all of them nonzero beforehand) lead from count vector `st` to `z`.  Steps
touching no position below `positions` are not legal moves, matching the
`indices.is_empty()` skip. -/
inductive PathTo (steps : List Nat) (positions : Nat) : List Nat → List Nat → Nat → Prop
  | refl (st : List Nat) : PathTo steps positions st st 0
  | step (st z : List Nat) (k i : Nat) (hi : i < steps.length)
      (hne : (stepIndices steps positions).getD i [] ≠ [])
      (happ : canApply st ((stepIndices steps positions).getD i []) = true)
      (htail : PathTo steps positions
        (applyIdx st ((stepIndices steps positions).getD i [])) z k) :
      PathTo steps positions st z (k + 1)

/-- The costs of full decompositions of `target` into legal step plays. -/
def PathCosts (steps : List Nat) (positions : Nat) (target : List Nat) : Set Nat :=
  {k | PathTo steps positions target (List.replicate positions 0) k}

theorem stepIndices_getD (steps : List Nat) (positions i : Nat) (hi : i < steps.length) :
    (stepIndices steps positions).getD i [] =
      (List.range positions).filter (fun idx => (steps.getD i 0).testBit idx) := by
  induction steps generalizing i with
  | nil => exact absurd hi (by simp)
  | cons s ss ih =>
    cases i with
    | zero => rfl
    | succ k =>
      show (stepIndices ss positions).getD k [] = _
      rw [ih k (by simpa using hi)]
      rfl

theorem stepIndices_mem (steps : List Nat) (positions i p : Nat) (hi : i < steps.length) :
    p ∈ (stepIndices steps positions).getD i [] ↔
      p < positions ∧ (steps.getD i 0).testBit p = true := by
  rw [stepIndices_getD steps positions i hi, List.mem_filter, List.mem_range]

theorem stepIndices_nodup (steps : List Nat) (positions i : Nat) (hi : i < steps.length) :
    ((stepIndices steps positions).getD i []).Nodup := by
  rw [stepIndices_getD steps positions i hi]
  exact (List.nodup_range positions).filter _

theorem stepIndices_length (steps : List Nat) (positions : Nat) :
    (stepIndices steps positions).length = steps.length := by
  rw [stepIndices, List.length_map]

theorem canApply_iff (st indices : List Nat) :
    canApply st indices = true ↔ ∀ p ∈ indices, st.getD p 0 ≠ 0 := by
  rw [canApply, List.all_eq_true]
  constructor
  · intro h p hp
    have := h p hp
    simpa using this
  · intro h p hp
    have := h p hp
    simpa using this

theorem applyIdx_length (st : List Nat) : ∀ indices : List Nat,
    (applyIdx st indices).length = st.length := by
  intro indices
  induction indices generalizing st with
  | nil => rfl
  | cons a rest ih =>
    show (applyIdx (st.set a (st.getD a 0 - 1)) rest).length = st.length
    rw [ih, List.length_set]

theorem applyIdx_getD (st : List Nat) : ∀ indices : List Nat, indices.Nodup →
    ∀ p, (applyIdx st indices).getD p 0 =
      st.getD p 0 - (if p ∈ indices then 1 else 0) := by
  intro indices
  induction indices generalizing st with
  | nil =>
    intro _ p
    show st.getD p 0 = st.getD p 0 - 0
    omega
  | cons a rest ih =>
    intro hnd p
    have hna : a ∉ rest := (List.nodup_cons.mp hnd).1
    have hndr : rest.Nodup := (List.nodup_cons.mp hnd).2
    show (applyIdx (st.set a (st.getD a 0 - 1)) rest).getD p 0 = _
    rw [ih _ hndr p]
    by_cases hpa : p = a
    · subst hpa
      have hpr : p ∉ rest := hna
      rw [if_neg hpr, if_pos (List.mem_cons_self p rest)]
      by_cases hlt : p < st.length
      · rw [getD_set_self st p _ hlt]
        omega
      · rw [List.set_eq_of_length_le (by omega)]
        have : st.getD p 0 = 0 := List.getD_eq_default st 0 (by omega)
        omega
    · rw [getD_set_ne st a p _ (fun h => hpa h.symm)]
      have : p ∈ a :: rest ↔ p ∈ rest := by
        constructor
        · intro h
          rcases List.mem_cons.mp h with h | h
          · exact absurd h hpa
          · exact h
        · exact List.mem_cons_of_mem a
      by_cases hpr : p ∈ rest
      · rw [if_pos hpr, if_pos (this.mpr hpr)]
      · rw [if_neg hpr, if_neg (fun h => hpr (this.mp h))]

theorem sum_set_getD (l : List Nat) : ∀ (i w : Nat), i < l.length →
    (l.set i w).sum + l.getD i 0 = l.sum + w := by
  induction l with
  | nil =>
    intro i w hi
    exact absurd hi (by simp)
  | cons a rest ih =>
    intro i w hi
    cases i with
    | zero =>
      show (w :: rest).sum + a = (a :: rest).sum + w
      simp
      omega
    | succ k =>
      show (a :: rest.set k w).sum + rest.getD k 0 = (a :: rest).sum + w
      have h1 : (a :: rest.set k w).sum = a + (rest.set k w).sum := by simp
      have h2 : (a :: rest).sum = a + rest.sum := by simp
      have := ih k w (by simpa using hi)
      omega

theorem applyIdx_sum (st : List Nat) : ∀ indices : List Nat, indices.Nodup →
    (∀ p ∈ indices, p < st.length) → (∀ p ∈ indices, 0 < st.getD p 0) →
    (applyIdx st indices).sum + indices.length = st.sum := by
  intro indices
  induction indices generalizing st with
  | nil =>
    intro _ _ _
    show st.sum + 0 = st.sum
    omega
  | cons a rest ih =>
    intro hnd hlt hpos
    have hna : a ∉ rest := (List.nodup_cons.mp hnd).1
    have hndr : rest.Nodup := (List.nodup_cons.mp hnd).2
    have halt : a < st.length := hlt a (List.mem_cons_self a rest)
    have hapos : 0 < st.getD a 0 := hpos a (List.mem_cons_self a rest)
    show (applyIdx (st.set a (st.getD a 0 - 1)) rest).sum + (rest.length + 1) = st.sum
    have hrec := ih (st.set a (st.getD a 0 - 1)) hndr ?_ ?_
    · have hsum := sum_set_getD st a (st.getD a 0 - 1) halt
      omega
    · intro p hp
      rw [List.length_set]
      exact hlt p (List.mem_cons_of_mem a hp)
    · intro p hp
      have hpa : p ≠ a := fun h => hna (h ▸ hp)
      rw [getD_set_ne st a p _ (fun h => hpa h.symm)]
      exact hpos p (List.mem_cons_of_mem a hp)

/-- States along a path keep their length. -/
theorem pathTo_length {steps : List Nat} {positions : Nat} {st z : List Nat} {k : Nat}
    (hp : PathTo steps positions st z k) : z.length = st.length := by
  induction hp with
  | refl => rfl
  | step st z k i hi hne happ htail ih =>
    rw [ih, applyIdx_length]

/-- Positions at or above `positions` are never touched along a path. -/
theorem pathTo_high {steps : List Nat} {positions : Nat} {st z : List Nat} {k : Nat}
    (hp : PathTo steps positions st z k) :
    ∀ p, positions ≤ p → z.getD p 0 = st.getD p 0 := by
  induction hp with
  | refl => intro p _; rfl
  | step st z k i hi hne happ htail ih =>
    intro p hpp
    rw [ih p hpp, applyIdx_getD st _ (stepIndices_nodup steps positions i hi) p]
    have hnm : p ∉ (stepIndices steps positions).getD i [] := by
      intro hmem
      have := (stepIndices_mem steps positions i p hi).mp hmem
      omega
    rw [if_neg hnm]
    omega

/-- Increment of a single multiplicity shifts the applied count by the
step's touch indicator. -/
theorem appliedCount_set_inc (steps : List Nat) : ∀ (xs : List Nat) (i : Nat),
    i < steps.length → xs.length = steps.length → ∀ p,
    appliedCount steps (xs.set i (xs.getD i 0 + 1)) p =
      appliedCount steps xs p + (if (steps.getD i 0).testBit p then 1 else 0) := by
  induction steps with
  | nil =>
    intro xs i hi
    exact absurd hi (by simp)
  | cons s ss ih =>
    intro xs i hi hlen p
    cases xs with
    | nil => exact absurd hlen (by simp)
    | cons x xx =>
      cases i with
      | zero =>
        show (if s.testBit p then x + 1 else 0) + appliedCount ss xx p =
          ((if s.testBit p then x else 0) + appliedCount ss xx p) +
            (if s.testBit p then 1 else 0)
        by_cases hs : s.testBit p = true
        · rw [if_pos hs, if_pos hs, if_pos hs]
          omega
        · rw [if_neg hs, if_neg hs, if_neg hs]
          omega
      | succ j =>
        show (if s.testBit p then x else 0) + appliedCount ss (xx.set j (xx.getD j 0 + 1)) p = _
        rw [ih xx j (by simpa using hi) (by simpa using hlen) p]
        show _ = ((if s.testBit p then x else 0) + appliedCount ss xx p) +
          (if ((s :: ss).getD (j + 1) 0).testBit p then 1 else 0)
        rw [List.getD_cons_succ]
        omega

/-- Decrement of a single positive multiplicity shifts the applied count
down by the touch indicator. -/
theorem appliedCount_set_dec (steps : List Nat) : ∀ (xs : List Nat) (i : Nat),
    i < steps.length → xs.length = steps.length → 0 < xs.getD i 0 → ∀ p,
    appliedCount steps (xs.set i (xs.getD i 0 - 1)) p +
        (if (steps.getD i 0).testBit p then 1 else 0) =
      appliedCount steps xs p := by
  intro xs i hi hlen hpos p
  have hset := appliedCount_set_inc steps (xs.set i (xs.getD i 0 - 1)) i hi
    (by rw [List.length_set]; exact hlen) p
  have hg : (xs.set i (xs.getD i 0 - 1)).getD i 0 = xs.getD i 0 - 1 :=
    getD_set_self xs i _ (by omega)
  rw [hg] at hset
  have hlift : (xs.set i (xs.getD i 0 - 1)).set i (xs.getD i 0 - 1 + 1) = xs := by
    rw [List.set_set]
    have : xs.getD i 0 - 1 + 1 = xs.getD i 0 := by omega
    rw [this]
    apply List.ext_getElem
    · rw [List.length_set]
    · intro n h1 h2
      by_cases hn : i = n
      · subst hn
        rw [List.getElem_set_self]
        have hgl : xs.getD i 0 = xs[i] := by
          rw [List.getD_eq_getElem?_getD, List.getElem?_eq_getElem h2]
          rfl
        rw [hgl]
      · rw [List.getElem_set_ne hn]
  rw [hlift] at hset
  rw [hset]

/-- A single-step contribution bounds the applied count from below. -/
theorem appliedCount_ge_single (steps : List Nat) : ∀ (xs : List Nat) (i : Nat),
    i < steps.length → xs.length = steps.length → ∀ p,
    (if (steps.getD i 0).testBit p then xs.getD i 0 else 0) ≤
      appliedCount steps xs p := by
  induction steps with
  | nil =>
    intro xs i hi
    exact absurd hi (by simp)
  | cons s ss ih =>
    intro xs i hi hlen p
    cases xs with
    | nil => exact absurd hlen (by simp)
    | cons x xx =>
      cases i with
      | zero =>
        show (if s.testBit p then x else 0) ≤
          (if s.testBit p then x else 0) + appliedCount ss xx p
        omega
      | succ j =>
        have := ih xx j (by simpa using hi) (by simpa using hlen) p
        show (if ((s :: ss).getD (j + 1) 0).testBit p then (x :: xx).getD (j + 1) 0 else 0) ≤
          (if s.testBit p then x else 0) + appliedCount ss xx p
        rw [List.getD_cons_succ, List.getD_cons_succ]
        omega

theorem sum_set_dec (xs : List Nat) (i : Nat) (hi : i < xs.length) (hpos : 0 < xs.getD i 0) :
    (xs.set i (xs.getD i 0 - 1)).sum + 1 = xs.sum := by
  have := sum_set_getD xs i (xs.getD i 0 - 1) hi
  omega

theorem sum_set_inc (xs : List Nat) (i : Nat) (hi : i < xs.length) :
    (xs.set i (xs.getD i 0 + 1)).sum = xs.sum + 1 := by
  have := sum_set_getD xs i (xs.getD i 0 + 1) hi
  omega

/-- Converting a play sequence into a multiplicity vector: the number of
plays equals the total multiplicity, and each position below `positions`
receives exactly the drop of its count. -/
theorem pathTo_counts {steps : List Nat} {positions : Nat} {st z : List Nat} {k : Nat}
    (hp : PathTo steps positions st z k) :
    ∃ xs, xs.length = steps.length ∧ xs.sum = k ∧
      ∀ p, p < positions → appliedCount steps xs p + z.getD p 0 = st.getD p 0 := by
  induction hp with
  | refl st =>
    refine ⟨List.replicate steps.length 0, List.length_replicate _ _, by simp, ?_⟩
    intro p _
    rw [appliedCount_replicate_zero]
    omega
  | step st z k i hi hne happ htail ih =>
    obtain ⟨xs, hxlen, hxsum, hxcnt⟩ := ih
    refine ⟨xs.set i (xs.getD i 0 + 1), by rw [List.length_set]; exact hxlen, ?_, ?_⟩
    · rw [sum_set_inc xs i (by omega)]
      omega
    · intro p hpp
      rw [appliedCount_set_inc steps xs i hi hxlen p]
      have hcnt := hxcnt p hpp
      rw [applyIdx_getD st _ (stepIndices_nodup steps positions i hi) p] at hcnt
      have hmem := stepIndices_mem steps positions i p hi
      by_cases hb : (steps.getD i 0).testBit p = true
      · rw [if_pos hb]
        have hin : p ∈ (stepIndices steps positions).getD i [] := hmem.mpr ⟨hpp, hb⟩
        rw [if_pos hin] at hcnt
        have hnz : st.getD p 0 ≠ 0 := ((canApply_iff st _).mp happ) p hin
        omega
      · rw [if_neg hb]
        have hnin : p ∉ (stepIndices steps positions).getD i [] := by
          intro hcon
          exact hb (hmem.mp hcon).2
        rw [if_neg hnin] at hcnt
        omega

theorem list_eq_replicate_zero (st : List Nat) (positions : Nat)
    (hlen : st.length = positions) (hz : ∀ p, p < positions → st.getD p 0 = 0) :
    st = List.replicate positions 0 := by
  apply List.ext_getElem
  · rw [hlen, List.length_replicate]
  · intro n h1 h2
    have hg : st.getD n 0 = st[n] := by
      rw [List.getD_eq_getElem?_getD, List.getElem?_eq_getElem h1]
      rfl
    have hz2 := hz n (by omega)
    rw [hg] at hz2
    rw [hz2, List.getElem_replicate]

theorem appliedCount_le_sum (steps : List Nat) : ∀ (xs : List Nat) (p : Nat),
    appliedCount steps xs p ≤ xs.sum := by
  induction steps with
  | nil =>
    intro xs p
    show 0 ≤ xs.sum
    omega
  | cons s ss ih =>
    intro xs p
    cases xs with
    | nil =>
      show 0 ≤ ([] : List Nat).sum
      omega
    | cons x xx =>
      show (if s.testBit p then x else 0) + appliedCount ss xx p ≤ (x :: xx).sum
      have h1 : (x :: xx).sum = x + xx.sum := by simp
      have h2 := ih xx p
      by_cases hb : s.testBit p = true
      · rw [if_pos hb]
        omega
      · rw [if_neg hb]
        omega

theorem appliedCount_eq_zero (steps : List Nat) : ∀ (xs : List Nat) (p : Nat),
    xs.length = steps.length →
    (∀ i, i < steps.length → (steps.getD i 0).testBit p = true → xs.getD i 0 = 0) →
    appliedCount steps xs p = 0 := by
  induction steps with
  | nil =>
    intro xs p _ _
    rfl
  | cons s ss ih =>
    intro xs p hlen hzero
    cases xs with
    | nil => exact absurd hlen (by simp)
    | cons x xx =>
      show (if s.testBit p then x else 0) + appliedCount ss xx p = 0
      have htail : appliedCount ss xx p = 0 := by
        apply ih xx p (by simpa using hlen)
        intro i hi hbit
        have := hzero (i + 1) (by simpa using Nat.succ_lt_succ hi)
          (by rw [List.getD_cons_succ]; exact hbit)
        rw [List.getD_cons_succ] at this
        exact this
      by_cases hb : s.testBit p = true
      · rw [if_pos hb]
        have hx : x = 0 := hzero 0 (by simp) (by rw [List.getD_cons_zero]; exact hb)
        omega
      · rw [if_neg hb]
        omega

/-- Converting a multiplicity vector into a play sequence of no greater
total: multiplicities on steps that touch nothing below `positions` are
dropped, every other step is played its multiplicity of times (any order
works: a pending play keeps its touched counts positive). -/
theorem counts_to_path (steps : List Nat) (positions : Nat) :
    ∀ (N : Nat) (xs st : List Nat), xs.sum ≤ N → xs.length = steps.length →
    st.length = positions →
    (∀ p, p < positions → appliedCount steps xs p = st.getD p 0) →
    ∃ k, k ≤ xs.sum ∧ PathTo steps positions st (List.replicate positions 0) k := by
  intro N
  induction N with
  | zero =>
    intro xs st hsum hxlen hstlen hcnt
    refine ⟨0, by omega, ?_⟩
    have hz : ∀ p, p < positions → st.getD p 0 = 0 := by
      intro p hpp
      have h1 := hcnt p hpp
      have h2 : appliedCount steps xs p = 0 := by
        have := appliedCount_le_sum steps xs p
        omega
      omega
    rw [list_eq_replicate_zero st positions hstlen hz]
    exact PathTo.refl _
  | succ M ih =>
    intro xs st hsum hxlen hstlen hcnt
    by_cases hact : ∃ i, i < steps.length ∧
        (stepIndices steps positions).getD i [] ≠ [] ∧ 0 < xs.getD i 0
    · obtain ⟨i, hi, hne, hpos⟩ := hact
      have happ : canApply st ((stepIndices steps positions).getD i []) = true := by
        rw [canApply_iff]
        intro p hpmem
        obtain ⟨hpp, hbit⟩ := (stepIndices_mem steps positions i p hi).mp hpmem
        have hge := appliedCount_ge_single steps xs i hi hxlen p
        rw [if_pos hbit] at hge
        have := hcnt p hpp
        omega
      set st2 := applyIdx st ((stepIndices steps positions).getD i []) with hst2
      set xs2 := xs.set i (xs.getD i 0 - 1) with hxs2
      have hsum2 : xs2.sum + 1 = xs.sum := sum_set_dec xs i (by omega) hpos
      have hcnt2 : ∀ p, p < positions → appliedCount steps xs2 p = st2.getD p 0 := by
        intro p hpp
        have hdec := appliedCount_set_dec steps xs i hi hxlen hpos p
        rw [← hxs2] at hdec
        rw [hst2, applyIdx_getD st _ (stepIndices_nodup steps positions i hi) p]
        have hmem := stepIndices_mem steps positions i p hi
        by_cases hb : (steps.getD i 0).testBit p = true
        · rw [if_pos hb] at hdec
          have hin : p ∈ (stepIndices steps positions).getD i [] := hmem.mpr ⟨hpp, hb⟩
          rw [if_pos hin]
          have := hcnt p hpp
          omega
        · rw [if_neg hb] at hdec
          have hnin : p ∉ (stepIndices steps positions).getD i [] := by
            intro hcon
            exact hb (hmem.mp hcon).2
          rw [if_neg hnin]
          have := hcnt p hpp
          omega
      obtain ⟨k2, hk2, hpath2⟩ := ih xs2 st2 (by omega)
        (by rw [hxs2, List.length_set]; exact hxlen)
        (by rw [hst2, applyIdx_length]; exact hstlen) hcnt2
      exact ⟨k2 + 1, by omega, PathTo.step st _ k2 i hi hne happ hpath2⟩
    · push_neg at hact
      refine ⟨0, by omega, ?_⟩
      have hz : ∀ p, p < positions → st.getD p 0 = 0 := by
        intro p hpp
        rw [← hcnt p hpp]
        apply appliedCount_eq_zero steps xs p hxlen
        intro i hi hbit
        by_cases hne : (stepIndices steps positions).getD i [] = []
        · exfalso
          have hin : p ∈ (stepIndices steps positions).getD i [] :=
            (stepIndices_mem steps positions i p hi).mpr ⟨hpp, hbit⟩
          rw [hne] at hin
          exact absurd hin (by simp)
        · have := hact i hi hne
          omega
      rw [list_eq_replicate_zero st positions hstlen hz]
      exact PathTo.refl _

end Day10.Codex

namespace Day10.Codex

theorem replicate_getD_zero (n p : Nat) : (List.replicate n (0:Nat)).getD p 0 = 0 := by
  rw [List.getD_eq_getElem?_getD, List.getElem?_replicate]
  by_cases hp : p < n
  · rw [if_pos hp]
    rfl
  · rw [if_neg hp]
    rfl

/-- Every full play decomposition yields a multiplicity solution of equal
total. -/
theorem pathCosts_sub (steps : List Nat) (positions : Nat) (target : List Nat)
    (hlen : target.length = positions) :
    PathCosts steps positions target ⊆ SolCosts steps target := by
  intro k hk
  obtain ⟨xs, hxlen, hxsum, hxcnt⟩ := pathTo_counts hk
  refine ⟨xs, ⟨hxlen, ?_⟩, hxsum.symm⟩
  intro pos hpos
  have := hxcnt pos (by omega)
  rw [replicate_getD_zero] at this
  omega

/-- Every multiplicity solution is dominated by a play decomposition. -/
theorem pathCosts_dom (steps : List Nat) (positions : Nat) (target : List Nat)
    (hlen : target.length = positions) :
    ∀ w ∈ SolCosts steps target, ∃ k ∈ PathCosts steps positions target, k ≤ w := by
  rintro w ⟨xs, ⟨hxlen, hxcnt⟩, hw⟩
  have hcnt : ∀ p, p < positions → appliedCount steps xs p = target.getD p 0 := by
    intro p hpp
    exact hxcnt p (by omega)
  obtain ⟨k, hk, hpath⟩ := counts_to_path steps positions xs.sum xs target
    (Nat.le_refl _) hxlen hlen hcnt
  exact ⟨k, hpath, by omega⟩

/-- Play decompositions and multiplicity solutions have the same emptiness
and the same minimum. -/
theorem pathCosts_equiv (steps : List Nat) (positions : Nat) (target : List Nat)
    (hlen : target.length = positions) :
    ((PathCosts steps positions target = ∅ ↔ SolCosts steps target = ∅) ∧
     ∀ v, (IsLeast (PathCosts steps positions target) v ↔
        IsLeast (SolCosts steps target) v)) :=
  least_transfer _ _ (pathCosts_sub steps positions target hlen)
    (pathCosts_dom steps positions target hlen)

end Day10.Codex

namespace Day10.Codex

/-- codex `heuristic`: the max of the largest remaining count and the
ceiling of the remaining total divided by the largest step size. -/
def heurC (mss : Nat) (st : List Nat) : Nat :=
  max (st.foldl (fun a v => max a v) 0) ((st.sum + mss - 1) / mss)

/-- `step_indices.iter().map(len).max().unwrap_or(1)`. -/
def mssOf (si : List (List Nat)) : Nat :=
  match si with
  | [] => 1
  | _ => si.foldl (fun a l => max a l.length) 0

/-- `steps_order`: the step indexes sorted by descending index-list length
(`sort_by_key(Reverse(len))`, a stable sort). -/
def stepsOrder (si : List (List Nat)) : List Nat :=
  (List.range si.length).mergeSort
    (fun i j => decide ((si.getD j []).length ≤ (si.getD i []).length))

/-- Pop a binary-heap minimum: `Node`'s order compares `f`, then `g` (the
state never takes part in the comparison), so the popped element is some
entry with minimal `(f, g)`; which one among equal keys is unspecified in
the source (heap order), and the proofs below only use minimality of `f`. -/
def popMin : List (Nat × Nat × List Nat) →
    Option ((Nat × Nat × List Nat) × List (Nat × Nat × List Nat))
  | [] => none
  | nd :: rest =>
    match popMin rest with
    | none => some (nd, [])
    | some (m, rest2) =>
      if nd.1 < m.1 ∨ (nd.1 = m.1 ∧ nd.2.1 ≤ m.2.1) then some (nd, rest)
      else some (m, nd :: rest2)

/-- `best_g` lookup (`HashMap::get`). -/
def bgLookup (bg : List (List Nat × Nat)) (st : List Nat) : Option Nat :=
  (bg.find? (fun pr => pr.1 == st)).map (fun pr => pr.2)

/-- `best_g` update (`HashMap` entry write). -/
def bgInsert (bg : List (List Nat × Nat)) (st : List Nat) (g : Nat) :
    List (List Nat × Nat) :=
  (st, g) :: bg.filter (fun pr => !(pr.1 == st))

/-- One neighbour consideration of the A* expansion: skip untouched or
inapplicable steps, then push the decremented state whenever it improves
`best_g` (`or_insert(u64::MAX)` makes an absent entry always improvable:
`next_g` is at most the target total, far below `u64::MAX`). -/
def expandStep (si : List (List Nat)) (mss : Nat) (g : Nat) (st : List Nat)
    (acc : List (Nat × Nat × List Nat) × List (List Nat × Nat)) (stepIdx : Nat) :
    List (Nat × Nat × List Nat) × List (List Nat × Nat) :=
  let indices := si.getD stepIdx []
  if indices.isEmpty then acc
  else if !(canApply st indices) then acc
  else
    let next := applyIdx st indices
    match bgLookup acc.2 next with
    | some e =>
      if g + 1 < e then
        ((g + 1 + heurC mss next, g + 1, next) :: acc.1, bgInsert acc.2 next (g + 1))
      else acc
    | none =>
      ((g + 1 + heurC mss next, g + 1, next) :: acc.1, bgInsert acc.2 next (g + 1))

/-- The A* loop of codex `min_steps_part2`: pop a minimal node; return its
`g` at a goal state; skip stale entries (`g` differing from the recorded
best); otherwise expand every step in order.  The `best_solution`-based
pruning branches of the source are unreachable (`best_solution` is only
assigned immediately before `break`), so they are not modelled.  The Rust
`while` loop is modelled with explicit fuel; the fuel passed by
`min_steps_part2` is proven sufficient. -/
def aStarLoop (si : List (List Nat)) (ord : List Nat) (mss : Nat) :
    Nat → List (Nat × Nat × List Nat) → List (List Nat × Nat) → Option Nat
  | 0, _, _ => none
  | fuel + 1, heap, bg =>
    match popMin heap with
    | none => none
    | some (nd, rest) =>
      if nd.2.2.all (fun v => v == 0) then some nd.2.1
      else
        match bgLookup bg nd.2.2 with
        | some known =>
          if nd.2.1 = known then
            let hb := ord.foldl (expandStep si mss nd.2.1 nd.2.2) (rest, bg)
            aStarLoop si ord mss fuel hb.1 hb.2
          else aStarLoop si ord mss fuel rest bg
        | none =>
          let hb := ord.foldl (expandStep si mss nd.2.1 nd.2.2) (rest, bg)
          aStarLoop si ord mss fuel hb.1 hb.2

/-- Number of count vectors dominated by `targets`: bounds the number of
distinct `best_g` keys. -/
def stateCount (targets : List Nat) : Nat := (targets.map (fun v => v + 1)).prod

theorem div_ceil_le (sum mss k : Nat) (hle : sum ≤ k * mss) :
    (sum + mss - 1) / mss ≤ k := by
  rcases Nat.eq_zero_or_pos mss with h0 | hpos
  · rw [h0]
    simp
  · have h1 : sum + mss - 1 ≤ k * mss + (mss - 1) := by omega
    have h2 : (sum + mss - 1) / mss ≤ (k * mss + (mss - 1)) / mss :=
      Nat.div_le_div_right h1
    have h3 : (k * mss + (mss - 1)) / mss = k + (mss - 1) / mss := by
      rw [Nat.mul_comm k mss]
      exact Nat.mul_add_div hpos k (mss - 1)
    have h4 : (mss - 1) / mss = 0 := Nat.div_eq_of_lt (by omega)
    omega

theorem foldl_max_le (k : Nat) : ∀ (l : List Nat) (a : Nat), a ≤ k →
    (∀ v ∈ l, v ≤ k) → l.foldl (fun a v => max a v) a ≤ k := by
  intro l
  induction l with
  | nil =>
    intro a ha _
    exact ha
  | cons v rest ih =>
    intro a ha hv
    show rest.foldl _ (max a v) ≤ k
    apply ih
    · have := hv v (List.mem_cons_self v rest)
      omega
    · intro w hw
      exact hv w (List.mem_cons_of_mem v hw)

theorem foldl_max_ge_init : ∀ (l : List Nat) (a : Nat),
    a ≤ l.foldl (fun a v => max a v) a := by
  intro l
  induction l with
  | nil =>
    intro a
    exact Nat.le_refl a
  | cons w rest ih =>
    intro a
    show a ≤ rest.foldl _ (max a w)
    have := ih (max a w)
    omega

theorem foldl_max_ge : ∀ (l : List Nat) (a : Nat) (v : Nat), v ∈ l →
    v ≤ l.foldl (fun a v => max a v) a := by
  intro l
  induction l with
  | nil =>
    intro a v hv
    exact absurd hv (by simp)
  | cons w rest ih =>
    intro a v hv
    show v ≤ rest.foldl (fun a v => max a v) (max a w)
    rcases List.mem_cons.mp hv with h | h
    · have := foldl_max_ge_init rest (max a w)
      omega
    · exact ih (max a w) v h

theorem getD_map_length (si : List (List Nat)) (i : Nat) (hi : i < si.length) :
    (si.map List.length).getD i 0 = (si.getD i []).length := by
  induction si generalizing i with
  | nil => exact absurd hi (by simp)
  | cons l rest ih =>
    cases i with
    | zero => rfl
    | succ k =>
      show (rest.map List.length).getD k 0 = (rest.getD k []).length
      exact ih k (by simpa using hi)

theorem mssOf_ge (si : List (List Nat)) (i : Nat) (hi : i < si.length) :
    (si.getD i []).length ≤ mssOf si := by
  cases si with
  | nil => exact absurd hi (by simp)
  | cons l rest =>
    show (((l :: rest).getD i []).length) ≤
      (l :: rest).foldl (fun a t => max a t.length) 0
    have hmap : ((l :: rest).map List.length).foldl (fun a v => max a v) 0 =
        (l :: rest).foldl (fun a t => max a t.length) 0 := List.foldl_map _ _ _ _
    rw [← hmap, ← getD_map_length (l :: rest) i hi]
    apply foldl_max_ge
    apply mem_getD_of_lt
    rw [List.length_map]
    exact hi

theorem all_zero_iff (st : List Nat) :
    st.all (fun v => v == 0) = true ↔ ∀ v ∈ st, v = 0 := by
  rw [List.all_eq_true]
  constructor
  · intro h v hv
    have := h v hv
    simpa using this
  · intro h v hv
    have := h v hv
    simp [this]

theorem all_zero_getD (st : List Nat) (h : ∀ v ∈ st, v = 0) (p : Nat) :
    st.getD p 0 = 0 := by
  by_cases hp : p < st.length
  · exact h _ (mem_getD_of_lt st 0 p hp)
  · exact List.getD_eq_default st 0 (by omega)

theorem heurC_zero (mss : Nat) (st : List Nat) (h : ∀ v ∈ st, v = 0) :
    heurC mss st = 0 := by
  have hmax : st.foldl (fun a v => max a v) 0 = 0 := by
    have := foldl_max_le 0 st 0 (Nat.le_refl 0) (fun v hv => by rw [h v hv])
    omega
  have hsum : st.sum = 0 := by
    rw [List.sum_eq_zero]
    exact h
  rw [heurC, hmax, hsum]
  have h9 : (0 + mss - 1) / mss = 0 := by
    rcases Nat.eq_zero_or_pos mss with h0 | hpos
    · rw [h0]
    · exact Nat.div_eq_of_lt (by omega)
  rw [h9]
  omega

/-- The sum drops by at most `mssOf si` per play. -/
theorem pathTo_sum_le (steps : List Nat) (positions : Nat)
    {st z : List Nat} {k : Nat}
    (hp : PathTo steps positions st z k) :
    st.length = positions →
    st.sum ≤ k * mssOf (stepIndices steps positions) + z.sum := by
  induction hp with
  | refl st =>
    intro _
    omega
  | step st z k i hi hne happ htail ih =>
    intro hstlen
    have hnd := stepIndices_nodup steps positions i hi
    have hsum := applyIdx_sum st ((stepIndices steps positions).getD i []) hnd ?_ ?_
    · have hlen2 : (applyIdx st ((stepIndices steps positions).getD i [])).length =
          positions := by
        rw [applyIdx_length]
        exact hstlen
      have hrec := ih hlen2
      have hmss := mssOf_ge (stepIndices steps positions) i
        (by rw [stepIndices_length]; exact hi)
      have hmul : (k + 1) * mssOf (stepIndices steps positions) =
          k * mssOf (stepIndices steps positions) +
            mssOf (stepIndices steps positions) := by ring
      omega
    · intro p hp
      have := (stepIndices_mem steps positions i p hi).mp hp
      omega
    · intro p hp
      have := (canApply_iff st _).mp happ p hp
      omega

/-- Admissibility: the heuristic never exceeds the length of any play
decomposition reaching the all-zero state. -/
theorem heur_admissible (steps : List Nat) (positions : Nat)
    {st : List Nat} {k : Nat}
    (hstlen : st.length = positions)
    (hp : PathTo steps positions st (List.replicate positions 0) k) :
    heurC (mssOf (stepIndices steps positions)) st ≤ k := by
  rw [heurC]
  have hmax : st.foldl (fun a v => max a v) 0 ≤ k := by
    apply foldl_max_le k st 0 (by omega)
    intro v hv
    obtain ⟨p, hplen, hpv⟩ := mem_to_index st 0 v hv
    obtain ⟨xs, hxlen, hxsum, hxcnt⟩ := pathTo_counts hp
    have hple : p < positions := by omega
    have := hxcnt p hple
    rw [replicate_getD_zero] at this
    have hle := appliedCount_le_sum steps xs p
    omega
  have hsum : (st.sum + mssOf (stepIndices steps positions) - 1) /
      mssOf (stepIndices steps positions) ≤ k := by
    apply div_ceil_le
    have := pathTo_sum_le steps positions hp hstlen
    have hz : (List.replicate positions (0:Nat)).sum = 0 := by
      rw [List.sum_eq_zero]
      intro v hv
      exact (List.eq_of_mem_replicate hv)
    omega
  omega

end Day10.Codex

namespace Day10.Codex

theorem popMin_none_iff (heap : List (Nat × Nat × List Nat)) :
    popMin heap = none ↔ heap = [] := by
  cases heap with
  | nil =>
    constructor
    · intro _; rfl
    · intro _; rfl
  | cons nd rest =>
    constructor
    · intro h
      rw [show popMin (nd :: rest) = (match popMin rest with
        | none => some (nd, [])
        | some (m, rest2) =>
          if nd.1 < m.1 ∨ (nd.1 = m.1 ∧ nd.2.1 ≤ m.2.1) then some (nd, rest)
          else some (m, nd :: rest2)) from rfl] at h
      cases hr : popMin rest with
      | none =>
        rw [hr] at h
        have h2 : some (nd, []) = (none : Option ((Nat × Nat × List Nat) ×
          List (Nat × Nat × List Nat))) := h
        exact absurd h2 (by simp)
      | some pr =>
        rw [hr] at h
        obtain ⟨m, rest2⟩ := pr
        have h2 : (if nd.1 < m.1 ∨ (nd.1 = m.1 ∧ nd.2.1 ≤ m.2.1) then some (nd, rest)
          else some (m, nd :: rest2)) = none := h
        by_cases hc : nd.1 < m.1 ∨ (nd.1 = m.1 ∧ nd.2.1 ≤ m.2.1)
        · rw [if_pos hc] at h2
          exact absurd h2 (by simp)
        · rw [if_neg hc] at h2
          exact absurd h2 (by simp)
    · intro h
      exact absurd h (by simp)

theorem popMin_spec (heap : List (Nat × Nat × List Nat)) :
    ∀ (nd : Nat × Nat × List Nat) (rest2 : List (Nat × Nat × List Nat)),
    popMin heap = some (nd, rest2) →
    nd ∈ heap ∧ (∀ x ∈ heap, nd.1 ≤ x.1) ∧ (∀ x ∈ rest2, x ∈ heap) ∧
      (∀ x ∈ heap, x ≠ nd → x ∈ rest2) ∧ rest2.length + 1 = heap.length := by
  induction heap with
  | nil =>
    intro nd rest2 h
    exact absurd h (by simp [popMin])
  | cons a tail ih =>
    intro nd rest2 h
    rw [show popMin (a :: tail) = (match popMin tail with
      | none => some (a, [])
      | some (m, rest3) =>
        if a.1 < m.1 ∨ (a.1 = m.1 ∧ a.2.1 ≤ m.2.1) then some (a, tail)
        else some (m, a :: rest3)) from rfl] at h
    cases hr : popMin tail with
    | none =>
      rw [hr] at h
      have h2 : some (a, ([] : List (Nat × Nat × List Nat))) = some (nd, rest2) := h
      have htail : tail = [] := (popMin_none_iff tail).mp hr
      have hna : nd = a ∧ rest2 = [] := by
        have := Option.some.inj h2
        exact ⟨(congrArg Prod.fst this).symm, (congrArg Prod.snd this).symm⟩
      obtain ⟨hnd, hrest⟩ := hna
      subst hnd
      subst hrest
      subst htail
      refine ⟨List.mem_cons_self _ _, ?_, ?_, ?_, rfl⟩
      · intro x hx
        rcases List.mem_cons.mp hx with h1 | h1
        · rw [h1]
        · exact absurd h1 (by simp)
      · intro x hx
        exact absurd hx (by simp)
      · intro x hx hne
        rcases List.mem_cons.mp hx with h1 | h1
        · exact absurd h1 hne
        · exact absurd h1 (by simp)
    | some pr =>
      rw [hr] at h
      obtain ⟨m, rest3⟩ := pr
      obtain ⟨hmem, hmin, hsub, hcomp, hlen⟩ := ih m rest3 hr
      have h2 : (if a.1 < m.1 ∨ (a.1 = m.1 ∧ a.2.1 ≤ m.2.1) then some (a, tail)
        else some (m, a :: rest3)) = some (nd, rest2) := h
      by_cases hc : a.1 < m.1 ∨ (a.1 = m.1 ∧ a.2.1 ≤ m.2.1)
      · rw [if_pos hc] at h2
        have hna : nd = a ∧ rest2 = tail := by
          have := Option.some.inj h2
          exact ⟨(congrArg Prod.fst this).symm, (congrArg Prod.snd this).symm⟩
        obtain ⟨hnd, hrest⟩ := hna
        subst hnd
        subst hrest
        refine ⟨List.mem_cons_self _ _, ?_, ?_, ?_, rfl⟩
        · intro x hx
          rcases List.mem_cons.mp hx with h1 | h1
          · rw [h1]
          · have := hmin x h1
            omega
        · intro x hx
          exact List.mem_cons_of_mem _ hx
        · intro x hx hne
          rcases List.mem_cons.mp hx with h1 | h1
          · exact absurd h1 hne
          · exact h1
      · rw [if_neg hc] at h2
        have hna : nd = m ∧ rest2 = a :: rest3 := by
          have := Option.some.inj h2
          exact ⟨(congrArg Prod.fst this).symm, (congrArg Prod.snd this).symm⟩
        obtain ⟨hnd, hrest⟩ := hna
        subst hnd
        subst hrest
        have hma : nd.1 ≤ a.1 := by
          push_neg at hc
          omega
        refine ⟨List.mem_cons_of_mem _ hmem, ?_, ?_, ?_, ?_⟩
        · intro x hx
          rcases List.mem_cons.mp hx with h1 | h1
          · rw [h1]
            exact hma
          · exact hmin x h1
        · intro x hx
          rcases List.mem_cons.mp hx with h1 | h1
          · rw [h1]
            exact List.mem_cons_self _ _
          · exact List.mem_cons_of_mem _ (hsub x h1)
        · intro x hx hne
          rcases List.mem_cons.mp hx with h1 | h1
          · rw [h1]
            exact List.mem_cons_self _ _
          · exact List.mem_cons_of_mem _ (hcomp x h1 hne)
        · have h3 : rest3.length + 1 = tail.length := hlen
          have h4 : ∀ (y : Nat × Nat × List Nat) (l : List (Nat × Nat × List Nat)),
              (y :: l).length = l.length + 1 := fun _ _ => rfl
          rw [h4, h4]
          omega

theorem bgLookup_mem (bg : List (List Nat × Nat)) (st : List Nat) (e : Nat)
    (h : bgLookup bg st = some e) : (st, e) ∈ bg := by
  rw [bgLookup] at h
  cases hf : bg.find? (fun pr => pr.1 == st) with
  | none =>
    rw [hf] at h
    exact absurd h (by simp)
  | some pr =>
    rw [hf] at h
    have hkey : pr.1 = st := by
      have := List.find?_some hf
      simpa using this
    have hval : pr.2 = e := by
      simpa using h
    have hmem := List.mem_of_find?_eq_some hf
    have : pr = (st, e) := by
      obtain ⟨k, v⟩ := pr
      simp at hkey hval
      rw [hkey, hval]
    rw [← this]
    exact hmem

theorem bgLookup_of_mem_nodup (bg : List (List Nat × Nat)) (st : List Nat) (e : Nat)
    (hnd : (bg.map Prod.fst).Nodup) (hmem : (st, e) ∈ bg) :
    bgLookup bg st = some e := by
  induction bg with
  | nil => exact absurd hmem (by simp)
  | cons pr tail ih =>
    have hnd2 : (tail.map Prod.fst).Nodup := (List.nodup_cons.mp hnd).2
    have hhd : pr.1 ∉ tail.map Prod.fst := (List.nodup_cons.mp hnd).1
    rcases List.mem_cons.mp hmem with h1 | h1
    · have hpr : pr = (st, e) := h1.symm
      subst hpr
      rw [bgLookup]
      rw [List.find?_cons_of_pos _ (by simp)]
      rfl
    · have hne : pr.1 ≠ st := by
        intro hcon
        apply hhd
        rw [hcon]
        exact List.mem_map_of_mem Prod.fst h1
      rw [bgLookup, List.find?_cons_of_neg _ (by simpa using hne)]
      rw [bgLookup] at ih
      exact ih hnd2 h1

theorem bgLookup_insert_self (bg : List (List Nat × Nat)) (st : List Nat) (g : Nat) :
    bgLookup (bgInsert bg st g) st = some g := by
  rw [bgInsert, bgLookup, List.find?_cons_of_pos _ (by simp)]
  rfl

theorem bgLookup_insert_ne (bg : List (List Nat × Nat)) (st st' : List Nat) (g : Nat)
    (h : st' ≠ st) : bgLookup (bgInsert bg st g) st' = bgLookup bg st' := by
  rw [bgInsert, bgLookup, List.find?_cons_of_neg _ (by simpa using fun x => h x.symm)]
  rw [bgLookup]
  congr 1
  induction bg with
  | nil => rfl
  | cons pr tail ih =>
    by_cases hk : pr.1 = st
    · rw [List.filter_cons_of_neg (by simpa using hk)]
      rw [List.find?_cons_of_neg _ (by
        simp
        intro hcon
        exact h (hcon.symm.trans hk))]
      exact ih
    · rw [List.filter_cons_of_pos (by simpa using hk)]
      by_cases hk2 : pr.1 = st'
      · rw [List.find?_cons_of_pos _ (by simpa using hk2),
          List.find?_cons_of_pos _ (by simpa using hk2)]
      · rw [List.find?_cons_of_neg _ (by simpa using hk2),
          List.find?_cons_of_neg _ (by simpa using hk2)]
        exact ih

theorem bgInsert_nodup (bg : List (List Nat × Nat)) (st : List Nat) (g : Nat)
    (hnd : (bg.map Prod.fst).Nodup) :
    ((bgInsert bg st g).map Prod.fst).Nodup := by
  rw [bgInsert]
  rw [List.map_cons]
  rw [List.nodup_cons]
  constructor
  · intro hcon
    rw [List.mem_map] at hcon
    obtain ⟨pr, hpr, hkey⟩ := hcon
    have := List.of_mem_filter hpr
    rw [hkey] at this
    simp at this
  · have hsl : (bg.filter (fun pr => !(pr.1 == st))).Sublist bg := List.filter_sublist bg
    exact (hsl.map Prod.fst).nodup hnd

theorem bgInsert_keys_sub (bg : List (List Nat × Nat)) (st : List Nat) (g : Nat) :
    ∀ k ∈ (bgInsert bg st g).map Prod.fst, k = st ∨ k ∈ bg.map Prod.fst := by
  intro k hk
  rw [bgInsert, List.map_cons] at hk
  rcases List.mem_cons.mp hk with h1 | h1
  · left
    exact h1
  · right
    rw [List.mem_map] at h1
    obtain ⟨pr, hpr, hkey⟩ := h1
    rw [← hkey]
    exact List.mem_map_of_mem Prod.fst (List.mem_of_mem_filter hpr)

end Day10.Codex

namespace Day10.Codex

/-- Fuel accounting weight of the `best_g` map. -/
def bgWeight (bg : List (List Nat × Nat)) : Nat :=
  (bg.map (fun pr => pr.2 + 1)).sum

theorem bgInsert_absent (bg : List (List Nat × Nat)) (st : List Nat) (g : Nat)
    (h : bgLookup bg st = none) : bgInsert bg st g = (st, g) :: bg := by
  rw [bgInsert]
  congr 1
  rw [List.filter_eq_self]
  intro pr hpr
  rw [bgLookup] at h
  cases hf : bg.find? (fun pr => pr.1 == st) with
  | none =>
    have := List.find?_eq_none.mp hf pr hpr
    simpa using this
  | some x =>
    rw [hf] at h
    exact absurd h (by simp)

theorem bgInsert_present_counts (bg : List (List Nat × Nat)) (st : List Nat)
    (g e : Nat) (hnd : (bg.map Prod.fst).Nodup) (h : bgLookup bg st = some e) :
    (bgInsert bg st g).length = bg.length ∧
      bgWeight (bgInsert bg st g) + (e + 1) = bgWeight bg + (g + 1) := by
  induction bg with
  | nil =>
    exact absurd h (by simp [bgLookup])
  | cons pr tail ih =>
    have hnd2 : (tail.map Prod.fst).Nodup := (List.nodup_cons.mp hnd).2
    have hhd : pr.1 ∉ tail.map Prod.fst := (List.nodup_cons.mp hnd).1
    by_cases hk : pr.1 = st
    · -- the present pair is the head
      have he : pr.2 = e := by
        rw [bgLookup, List.find?_cons_of_pos _ (by simpa using hk)] at h
        simpa using h
      have hfil : (pr :: tail).filter (fun q => !(q.1 == st)) =
          tail.filter (fun q => !(q.1 == st)) := by
        rw [List.filter_cons_of_neg (by simp [hk])]
      have hfil2 : tail.filter (fun q => !(q.1 == st)) = tail := by
        rw [List.filter_eq_self]
        intro q hq
        have hqk : q.1 ≠ st := by
          intro hcon
          apply hhd
          rw [hk, ← hcon]
          exact List.mem_map_of_mem Prod.fst hq
        simpa using hqk
      constructor
      · rw [bgInsert, hfil, hfil2]
        rfl
      · rw [bgInsert, hfil, hfil2]
        show ((g + 1) + (tail.map (fun pr => pr.2 + 1)).sum) + (e + 1) =
          ((pr.2 + 1) + (tail.map (fun pr => pr.2 + 1)).sum) + (g + 1)
        rw [he]
        omega
    · -- the present pair is in the tail
      have htl : bgLookup tail st = some e := by
        rw [bgLookup, List.find?_cons_of_neg _ (by simpa using hk)] at h
        exact h
      obtain ⟨ihl, ihw⟩ := ih hnd2 htl
      have hfil : (pr :: tail).filter (fun q => !(q.1 == st)) =
          pr :: tail.filter (fun q => !(q.1 == st)) := by
        rw [List.filter_cons_of_pos (by simpa using hk)]
      constructor
      · rw [bgInsert, hfil]
        rw [bgInsert] at ihl
        have h1 : ((st, g) :: pr :: tail.filter (fun q => !(q.1 == st))).length =
          ((st, g) :: tail.filter (fun q => !(q.1 == st))).length + 1 := rfl
        have h2 : (pr :: tail).length = tail.length + 1 := rfl
        omega
      · rw [bgInsert, hfil]
        rw [bgInsert] at ihw
        show ((g + 1) + ((pr.2 + 1) +
          ((tail.filter (fun q => !(q.1 == st))).map (fun pr => pr.2 + 1)).sum)) + (e + 1) =
          ((pr.2 + 1) + (tail.map (fun pr => pr.2 + 1)).sum) + (g + 1)
        have h3 : bgWeight ((st, g) :: tail.filter (fun q => !(q.1 == st))) =
          (g + 1) + ((tail.filter (fun q => !(q.1 == st))).map (fun pr => pr.2 + 1)).sum := by
          rw [bgWeight]
          rfl
        have h4 : bgWeight tail = (tail.map (fun pr => pr.2 + 1)).sum := rfl
        rw [h3, h4] at ihw
        omega

/-- Appending play sequences. -/
theorem pathTo_append {steps : List Nat} {positions : Nat} {a b c : List Nat}
    {k1 k2 : Nat} (h1 : PathTo steps positions a b k1)
    (h2 : PathTo steps positions b c k2) : PathTo steps positions a c (k1 + k2) := by
  induction h1 with
  | refl st =>
    show PathTo steps positions st c (0 + k2)
    rw [Nat.zero_add]
    exact h2
  | step st z k i hi hne happ htail ih =>
    have := PathTo.step st c (k + k2) i hi hne happ (ih h2)
    have harith : k + k2 + 1 = k + 1 + k2 := by omega
    rw [harith] at this
    exact this

/-- Pointwise monotonicity along a play sequence. -/
theorem pathTo_le {steps : List Nat} {positions : Nat} {st z : List Nat} {k : Nat}
    (hp : PathTo steps positions st z k) : ∀ p, z.getD p 0 ≤ st.getD p 0 := by
  intro p
  by_cases hpp : p < positions
  · obtain ⟨xs, _, _, hcnt⟩ := pathTo_counts hp
    have := hcnt p hpp
    omega
  · rw [pathTo_high hp p (by omega)]

theorem stepsOrder_mem (si : List (List Nat)) (j : Nat) (hj : j < si.length) :
    j ∈ stepsOrder si := by
  rw [stepsOrder]
  rw [(List.mergeSort_perm (List.range si.length) _).mem_iff]
  rw [List.mem_range]
  exact hj

/-- Enumeration of all count vectors dominated by `target`. -/
def allStates : List Nat → List (List Nat)
  | [] => [[]]
  | t :: rest =>
    (List.range (t + 1)).flatMap (fun v => (allStates rest).map (fun tl => v :: tl))

theorem allStates_length : ∀ target : List Nat,
    (allStates target).length = stateCount target := by
  intro target
  induction target with
  | nil => rfl
  | cons t rest ih =>
    show ((List.range (t + 1)).flatMap
      (fun v => (allStates rest).map (fun tl => v :: tl))).length = _
    rw [List.length_flatMap]
    have hmap : (List.map (List.length ∘ fun v => (allStates rest).map
        (fun tl => v :: tl)) (List.range (t + 1))) =
        List.map (fun _ => (allStates rest).length) (List.range (t + 1)) := by
      apply List.map_congr_left
      intro v _
      show ((allStates rest).map (fun tl => v :: tl)).length = (allStates rest).length
      rw [List.length_map]
    rw [hmap, ih]
    have hconst : (List.map (fun _ => stateCount rest) (List.range (t + 1))).sum =
        (t + 1) * stateCount rest := by
      induction (t + 1) with
      | zero => simp
      | succ n ihn =>
        rw [List.range_succ, List.map_append, List.sum_append]
        have h1 : (List.map (fun _ => stateCount rest) [n]).sum = stateCount rest := by
          show stateCount rest + 0 = stateCount rest
          omega
        rw [ihn, h1]
        ring
    rw [hconst]
    show (t + 1) * stateCount rest = ((t :: rest).map (fun v => v + 1)).prod
    have : ((t :: rest).map (fun v => v + 1)).prod =
        (t + 1) * (rest.map (fun v => v + 1)).prod := by
      rw [List.map_cons, List.prod_cons]
    rw [this]
    rfl

theorem allStates_mem : ∀ (target st : List Nat),
    st ∈ allStates target ↔
      st.length = target.length ∧ ∀ p, st.getD p 0 ≤ target.getD p 0 := by
  intro target
  induction target with
  | nil =>
    intro st
    constructor
    · intro h
      have hst : st = [] := by
        have : st ∈ [([] : List Nat)] := h
        simpa using this
      subst hst
      exact ⟨rfl, fun p => Nat.le_refl _⟩
    · rintro ⟨hlen, _⟩
      have hst : st = [] := List.length_eq_zero.mp hlen
      subst hst
      show ([] : List Nat) ∈ [([] : List Nat)]
      exact List.mem_singleton.mpr rfl
  | cons t rest ih =>
    intro st
    constructor
    · intro h
      rw [show allStates (t :: rest) = (List.range (t + 1)).flatMap
        (fun v => (allStates rest).map (fun tl => v :: tl)) from rfl] at h
      rw [List.mem_flatMap] at h
      obtain ⟨v, hv, hmem⟩ := h
      rw [List.mem_map] at hmem
      obtain ⟨tl, htl, hst⟩ := hmem
      obtain ⟨hlen, hbnd⟩ := (ih tl).mp htl
      subst hst
      constructor
      · show tl.length + 1 = rest.length + 1
        omega
      · intro p
        cases p with
        | zero =>
          show v ≤ t
          rw [List.mem_range] at hv
          omega
        | succ q =>
          rw [List.getD_cons_succ, List.getD_cons_succ]
          exact hbnd q
    · rintro ⟨hlen, hbnd⟩
      cases st with
      | nil => exact absurd hlen (by simp)
      | cons x xs =>
        rw [show allStates (t :: rest) = (List.range (t + 1)).flatMap
          (fun v => (allStates rest).map (fun tl => v :: tl)) from rfl]
        rw [List.mem_flatMap]
        refine ⟨x, ?_, ?_⟩
        · rw [List.mem_range]
          have := hbnd 0
          show x < t + 1
          have h0 : (x :: xs).getD 0 0 = x := rfl
          have h1 : (t :: rest).getD 0 0 = t := rfl
          omega
        · rw [List.mem_map]
          refine ⟨xs, ?_, rfl⟩
          apply (ih xs).mpr
          constructor
          · have h2 : (x :: xs).length = xs.length + 1 := rfl
            have h3 : (t :: rest).length = rest.length + 1 := rfl
            omega
          · intro p
            have := hbnd (p + 1)
            rw [List.getD_cons_succ, List.getD_cons_succ] at this
            exact this

/-- `best_g` can never hold more keys than there are dominated states. -/
theorem bg_card_le (bg : List (List Nat × Nat)) (target : List Nat)
    (hnd : (bg.map Prod.fst).Nodup)
    (hval : ∀ pr ∈ bg, pr.1.length = target.length ∧
      ∀ p, pr.1.getD p 0 ≤ target.getD p 0) :
    bg.length ≤ stateCount target := by
  have h1 : bg.length = (bg.map Prod.fst).length := by rw [List.length_map]
  have h2 : (bg.map Prod.fst).length = (bg.map Prod.fst).toFinset.card :=
    (List.toFinset_card_of_nodup hnd).symm
  have h3 : (bg.map Prod.fst).toFinset ⊆ (allStates target).toFinset := by
    intro st hst
    rw [List.mem_toFinset] at hst ⊢
    rw [List.mem_map] at hst
    obtain ⟨pr, hpr, hkey⟩ := hst
    rw [allStates_mem]
    rw [← hkey]
    exact hval pr hpr
  have h4 := Finset.card_le_card h3
  have h5 := List.toFinset_card_le (allStates target)
  have h6 := allStates_length target
  omega

end Day10.Codex

namespace Day10.Codex

/-- `ku` is the exact distance (minimal play count) from `start` to `u`. -/
def MinPath (steps : List Nat) (positions : Nat) (start u : List Nat) (ku : Nat) : Prop :=
  PathTo steps positions start u ku ∧
    ∀ k2, PathTo steps positions start u k2 → ku ≤ k2

/-- Every play removes at least one unit of count. -/
theorem pathTo_k_le (steps : List Nat) (positions : Nat)
    {st z : List Nat} {k : Nat}
    (hp : PathTo steps positions st z k) :
    st.length = positions → k + z.sum ≤ st.sum := by
  induction hp with
  | refl st =>
    intro _
    omega
  | step st z k i hi hne happ htail ih =>
    intro hstlen
    have hnd := stepIndices_nodup steps positions i hi
    have hsum := applyIdx_sum st ((stepIndices steps positions).getD i []) hnd ?_ ?_
    · have hrec := ih (by rw [applyIdx_length]; exact hstlen)
      have hlen1 : 0 < ((stepIndices steps positions).getD i []).length :=
        List.length_pos.mpr hne
      omega
    · intro p hp2
      have := (stepIndices_mem steps positions i p hi).mp hp2
      omega
    · intro p hp2
      have := (canApply_iff st _).mp happ p hp2
      omega

/-- A state with a legal move is not the all-zero state. -/
theorem not_all_zero_of_move (steps : List Nat) (positions : Nat) (u : List Nat)
    (i : Nat) (hi : i < steps.length) (hulen : u.length = positions)
    (hne : (stepIndices steps positions).getD i [] ≠ [])
    (happ : canApply u ((stepIndices steps positions).getD i []) = true) :
    u.all (fun v => v == 0) = false := by
  obtain ⟨p, hp⟩ := List.exists_mem_of_ne_nil _ hne
  have hplt := ((stepIndices_mem steps positions i p hi).mp hp).1
  have hnz := (canApply_iff u _).mp happ p hp
  cases hall : u.all (fun v => v == 0) with
  | false => rfl
  | true =>
    exfalso
    have hz := (all_zero_iff u).mp hall
    have hmem : u.getD p 0 ∈ u := mem_getD_of_lt u 0 p (by omega)
    exact hnz (hz _ hmem)

/-- The loop invariant of the A* search.  `exp_inv` says every state reached
at its true distance either still has its optimal entry on the heap or has
already been expanded, leaving all its successors recorded within
distance-plus-one. -/
structure AInv (steps : List Nat) (positions : Nat) (start : List Nat) (mss : Nat)
    (heap : List (Nat × Nat × List Nat)) (bg : List (List Nat × Nat)) : Prop where
  heap_path : ∀ nd ∈ heap, PathTo steps positions start nd.2.2 nd.2.1
  heap_f : ∀ nd ∈ heap, nd.1 = nd.2.1 + heurC mss nd.2.2
  heap_bg : ∀ nd ∈ heap, ∃ e, bgLookup bg nd.2.2 = some e
  bg_path : ∀ st e, bgLookup bg st = some e → PathTo steps positions start st e
  zero_entry : ∀ st e, bgLookup bg st = some e → st.all (fun v => v == 0) = true →
    ∃ nd ∈ heap, nd.2.2 = st ∧ nd.2.1 = e
  exp_inv : ∀ u ku, bgLookup bg u = some ku →
    MinPath steps positions start u ku → u.all (fun v => v == 0) = false →
    (∃ nd ∈ heap, nd.2.2 = u ∧ nd.2.1 = ku) ∨
    (∀ j, j < steps.length → (stepIndices steps positions).getD j [] ≠ [] →
      canApply u ((stepIndices steps positions).getD j []) = true →
      ∃ e2, bgLookup bg (applyIdx u ((stepIndices steps positions).getD j [])) =
          some e2 ∧ e2 ≤ ku + 1)
  bg_start : bgLookup bg start = some 0
  bg_nodup : (bg.map Prod.fst).Nodup

/-- Walking down an optimal play decomposition: some heap node has `f` at
most the optimal total. -/
theorem astar_walk (steps : List Nat) (positions : Nat) (start : List Nat)
    (hstart : start.length = positions)
    (heap : List (Nat × Nat × List Nat)) (bg : List (List Nat × Nat))
    (inv : AInv steps positions start (mssOf (stepIndices steps positions)) heap bg) :
    ∀ kz u ku, bgLookup bg u = some ku →
      MinPath steps positions start u ku →
      PathTo steps positions u (List.replicate positions 0) kz →
      (∀ w, PathTo steps positions start (List.replicate positions 0) w →
        ku + kz ≤ w) →
      ∃ nd ∈ heap, nd.1 ≤ ku + kz := by
  intro kz
  induction kz using Nat.strong_induction_on with
  | _ kz ih =>
    intro u ku hlook hmin hp hopt
    have hulen : u.length = positions := by
      have := pathTo_length hmin.1
      omega
    cases kz with
    | zero =>
      -- the anchor itself is the all-zero state
      have hu : u = List.replicate positions 0 := by
        cases hp
        rfl
      have hz : u.all (fun v => v == 0) = true := by
        rw [all_zero_iff]
        intro v hv
        rw [hu] at hv
        exact List.eq_of_mem_replicate hv
      obtain ⟨nd, hnd, hstate, hg⟩ := inv.zero_entry u ku hlook hz
      refine ⟨nd, hnd, ?_⟩
      have hf := inv.heap_f nd hnd
      have hheur : heurC (mssOf (stepIndices steps positions)) nd.2.2 = 0 := by
        apply heurC_zero
        intro v hv
        rw [hstate, hu] at hv
        exact List.eq_of_mem_replicate hv
      omega
    | succ kz2 =>
      cases hp with
      | step _ _ _ i hi hne happ htail =>
        have hnz : u.all (fun v => v == 0) = false :=
          not_all_zero_of_move steps positions u i hi hulen hne happ
        rcases inv.exp_inv u ku hlook hmin hnz with ⟨nd, hnd, hstate, hg⟩ | hsucc
        · -- optimal entry still on the heap
          refine ⟨nd, hnd, ?_⟩
          have hf := inv.heap_f nd hnd
          have hadm : heurC (mssOf (stepIndices steps positions)) u ≤ kz2 + 1 :=
            heur_admissible steps positions hulen (PathTo.step _ _ _ i hi hne happ htail)
          rw [hstate] at hf
          omega
        · -- already expanded: its successor on the play decomposition is
          -- recorded at its true distance
          obtain ⟨e2, hlook2, he2⟩ := hsucc i hi hne happ
          have hmin2 : MinPath steps positions start
              (applyIdx u ((stepIndices steps positions).getD i [])) (ku + 1) := by
            constructor
            · exact pathTo_append hmin.1
                (PathTo.step _ _ _ i hi hne happ (PathTo.refl _))
            · intro b hb
              have hcomb := pathTo_append hb htail
              have := hopt (b + kz2) hcomb
              omega
          have he2eq : e2 = ku + 1 := by
            have hge := hmin2.2 e2 (inv.bg_path _ e2 hlook2)
            omega
          rw [he2eq] at hlook2
          have hres := ih kz2 (by omega) _ (ku + 1) hlook2 hmin2 htail ?_
          · obtain ⟨nd, hnd, hf⟩ := hres
            exact ⟨nd, hnd, by omega⟩
          · intro w hw
            have := hopt w hw
            omega

end Day10.Codex

namespace Day10.Codex

/-- State of the accumulator along the neighbour fold of one A* expansion,
relative to the popped node `(g0, st0)` and the pre-expansion `(rest, bg)`. -/
structure ExpOut (steps : List Nat) (positions : Nat) (start : List Nat)
    (mss g0 : Nat) (st0 : List Nat) (rest : List (Nat × Nat × List Nat))
    (bg : List (List Nat × Nat))
    (cur : List (Nat × Nat × List Nat) × List (List Nat × Nat)) : Prop where
  old_heap : ∀ nd ∈ rest, nd ∈ cur.1
  new_heap : ∀ nd ∈ cur.1, nd ∈ rest ∨
    ∃ j, j < steps.length ∧ (stepIndices steps positions).getD j [] ≠ [] ∧
      canApply st0 ((stepIndices steps positions).getD j []) = true ∧
      nd = (g0 + 1 + heurC mss (applyIdx st0 ((stepIndices steps positions).getD j [])),
        g0 + 1, applyIdx st0 ((stepIndices steps positions).getD j [])) ∧
      bgLookup cur.2 nd.2.2 = some (g0 + 1)
  bg_mono : ∀ st e, bgLookup bg st = some e →
    ∃ e2, bgLookup cur.2 st = some e2 ∧ e2 ≤ e
  bg_new : ∀ st e2, bgLookup cur.2 st = some e2 → bgLookup bg st = some e2 ∨
    (e2 = g0 + 1 ∧ ∃ j, j < steps.length ∧
      (stepIndices steps positions).getD j [] ≠ [] ∧
      canApply st0 ((stepIndices steps positions).getD j []) = true ∧
      st = applyIdx st0 ((stepIndices steps positions).getD j []) ∧
      (g0 + 1 + heurC mss st, g0 + 1, st) ∈ cur.1)
  nodup : (cur.2.map Prod.fst).Nodup
  keys_val : ∀ pr ∈ cur.2, pr.1.length = start.length ∧
    ∀ p, pr.1.getD p 0 ≤ start.getD p 0
  phi : cur.1.length + bgWeight cur.2 +
      (stateCount start - cur.2.length) * (start.sum + 3) ≤
    rest.length + bgWeight bg + (stateCount start - bg.length) * (start.sum + 3)

theorem getD_ne_nil_lt {α : Type} (l : List (List α)) (j : Nat)
    (h : l.getD j [] ≠ []) : j < l.length := by
  by_contra hcon
  push_neg at hcon
  rw [List.getD_eq_default l [] hcon] at h
  exact h rfl

/-- One neighbour consideration preserves the fold state. -/
theorem expandStep_pres (steps : List Nat) (positions : Nat) (start : List Nat)
    (mss g0 : Nat) (st0 : List Nat) (rest : List (Nat × Nat × List Nat))
    (bg : List (List Nat × Nat))
    (hg0 : g0 ≤ start.sum)
    (hpath0 : PathTo steps positions start st0 g0)
    (cur : List (Nat × Nat × List Nat) × List (List Nat × Nat)) (j : Nat)
    (hout : ExpOut steps positions start mss g0 st0 rest bg cur) :
    ExpOut steps positions start mss g0 st0 rest bg
      (expandStep (stepIndices steps positions) mss g0 st0 cur j) := by
  have hdef : expandStep (stepIndices steps positions) mss g0 st0 cur j =
    (if ((stepIndices steps positions).getD j []).isEmpty then cur
    else if !(canApply st0 ((stepIndices steps positions).getD j [])) then cur
    else match bgLookup cur.2
        (applyIdx st0 ((stepIndices steps positions).getD j [])) with
      | some e =>
        if g0 + 1 < e then
          ((g0 + 1 + heurC mss (applyIdx st0 ((stepIndices steps positions).getD j [])),
            g0 + 1, applyIdx st0 ((stepIndices steps positions).getD j [])) :: cur.1,
           bgInsert cur.2 (applyIdx st0 ((stepIndices steps positions).getD j []))
             (g0 + 1))
        else cur
      | none =>
        ((g0 + 1 + heurC mss (applyIdx st0 ((stepIndices steps positions).getD j [])),
          g0 + 1, applyIdx st0 ((stepIndices steps positions).getD j [])) :: cur.1,
         bgInsert cur.2 (applyIdx st0 ((stepIndices steps positions).getD j []))
           (g0 + 1))) := rfl
  by_cases hemp : ((stepIndices steps positions).getD j []).isEmpty = true
  · rw [hdef, if_pos hemp]
    exact hout
  · rw [hdef, if_neg hemp]
    by_cases happ : canApply st0 ((stepIndices steps positions).getD j []) = true
    · rw [if_neg (by rw [happ]; simp)]
      -- valid move: the push analysis
      have hjne : (stepIndices steps positions).getD j [] ≠ [] := by
        intro hcon
        rw [hcon] at hemp
        exact hemp rfl
      have hjlt : j < steps.length := by
        have := getD_ne_nil_lt (stepIndices steps positions) j hjne
        rw [stepIndices_length] at this
        exact this
      set next := applyIdx st0 ((stepIndices steps positions).getD j []) with hnext
      have hnpath : PathTo steps positions start next (g0 + 1) :=
        pathTo_append hpath0 (PathTo.step _ _ _ j hjlt hjne happ (PathTo.refl _))
      have hpush : ∀ (hcur2 : List (List Nat × Nat)),
          hcur2 = bgInsert cur.2 next (g0 + 1) →
          (∀ st e2, bgLookup hcur2 st = some e2 →
            (st = next ∧ e2 = g0 + 1) ∨ (st ≠ next ∧ bgLookup cur.2 st = some e2)) := by
        intro hcur2 hc st e2 hlk
        by_cases hst : st = next
        · left
          refine ⟨hst, ?_⟩
          rw [hc, hst, bgLookup_insert_self] at hlk
          exact (Option.some.inj hlk).symm
        · right
          refine ⟨hst, ?_⟩
          rw [hc, bgLookup_insert_ne _ _ _ _ hst] at hlk
          exact hlk
      cases hbq : bgLookup cur.2 next with
      | some e =>
        show ExpOut steps positions start mss g0 st0 rest bg
          (if g0 + 1 < e then
            ((g0 + 1 + heurC mss next, g0 + 1, next) :: cur.1,
              bgInsert cur.2 next (g0 + 1))
          else cur)
        by_cases hlt : g0 + 1 < e
        · rw [if_pos hlt]
          -- push with an existing worse entry
          refine ⟨?_, ?_, ?_, ?_, ?_, ?_, ?_⟩
          · intro nd hnd
            exact List.mem_cons_of_mem _ (hout.old_heap nd hnd)
          · intro nd hnd
            rcases List.mem_cons.mp hnd with h1 | h1
            · right
              refine ⟨j, hjlt, hjne, happ, h1, ?_⟩
              rw [h1]
              show bgLookup (bgInsert cur.2 next (g0 + 1)) next = some (g0 + 1)
              exact bgLookup_insert_self _ _ _
            · rcases hout.new_heap nd h1 with h2 | ⟨j2, hj2, hne2, happ2, hnd2, hlk2⟩
              · left; exact h2
              · right
                refine ⟨j2, hj2, hne2, happ2, hnd2, ?_⟩
                by_cases hst : nd.2.2 = next
                · show bgLookup (bgInsert cur.2 next (g0 + 1)) nd.2.2 = some (g0 + 1)
                  rw [hst]
                  exact bgLookup_insert_self _ _ _
                · show bgLookup (bgInsert cur.2 next (g0 + 1)) nd.2.2 = some (g0 + 1)
                  rw [bgLookup_insert_ne _ _ _ _ hst]
                  exact hlk2
          · intro st e0 hlk0
            obtain ⟨e2, hlk2, hle2⟩ := hout.bg_mono st e0 hlk0
            by_cases hst : st = next
            · refine ⟨g0 + 1, ?_, ?_⟩
              · show bgLookup (bgInsert cur.2 next (g0 + 1)) st = some (g0 + 1)
                rw [hst]
                exact bgLookup_insert_self _ _ _
              · rw [hst] at hlk2
                rw [hbq] at hlk2
                have : e = e2 := Option.some.inj hlk2
                omega
            · refine ⟨e2, ?_, hle2⟩
              show bgLookup (bgInsert cur.2 next (g0 + 1)) st = some e2
              rw [bgLookup_insert_ne _ _ _ _ hst]
              exact hlk2
          · intro st e2 hlk2
            rcases hpush _ rfl st e2 hlk2 with ⟨hst, he2⟩ | ⟨hst, hlk3⟩
            · right
              refine ⟨he2, j, hjlt, hjne, happ, hst, ?_⟩
              rw [hst]
              exact List.mem_cons_self _ _
            · rcases hout.bg_new st e2 hlk3 with h2 | ⟨he2, j2, hj2, hne2, happ2, hst2, hmem2⟩
              · left; exact h2
              · right
                exact ⟨he2, j2, hj2, hne2, happ2, hst2,
                  List.mem_cons_of_mem _ hmem2⟩
          · exact bgInsert_nodup cur.2 next (g0 + 1) hout.nodup
          · intro pr hpr
            rcases List.mem_cons.mp hpr with h1 | h1
            · rw [h1]
              constructor
              · show next.length = start.length
                rw [hnext, applyIdx_length]
                exact (pathTo_length hpath0)
              · intro p
                show next.getD p 0 ≤ start.getD p 0
                exact pathTo_le hnpath p
            · exact hout.keys_val pr (List.mem_of_mem_filter h1)
          · show ((g0 + 1 + heurC mss next, g0 + 1, next) :: cur.1).length +
                bgWeight (bgInsert cur.2 next (g0 + 1)) +
                (stateCount start - (bgInsert cur.2 next (g0 + 1)).length) *
                  (start.sum + 3) ≤
              rest.length + bgWeight bg +
                (stateCount start - bg.length) * (start.sum + 3)
            obtain ⟨hlen2, hw2⟩ :=
              bgInsert_present_counts cur.2 next (g0 + 1) e hout.nodup hbq
            have hph := hout.phi
            have h1 : ((g0 + 1 + heurC mss next, g0 + 1, next) :: cur.1).length =
              cur.1.length + 1 := rfl
            rw [h1, hlen2]
            omega
        · rw [if_neg hlt]
          exact hout
      | none =>
        -- push with no existing entry
        show ExpOut steps positions start mss g0 st0 rest bg
          ((g0 + 1 + heurC mss next, g0 + 1, next) :: cur.1,
            bgInsert cur.2 next (g0 + 1))
        refine ⟨?_, ?_, ?_, ?_, ?_, ?_, ?_⟩
        · intro nd hnd
          exact List.mem_cons_of_mem _ (hout.old_heap nd hnd)
        · intro nd hnd
          rcases List.mem_cons.mp hnd with h1 | h1
          · right
            refine ⟨j, hjlt, hjne, happ, h1, ?_⟩
            rw [h1]
            show bgLookup (bgInsert cur.2 next (g0 + 1)) next = some (g0 + 1)
            exact bgLookup_insert_self _ _ _
          · rcases hout.new_heap nd h1 with h2 | ⟨j2, hj2, hne2, happ2, hnd2, hlk2⟩
            · left; exact h2
            · right
              refine ⟨j2, hj2, hne2, happ2, hnd2, ?_⟩
              by_cases hst : nd.2.2 = next
              · show bgLookup (bgInsert cur.2 next (g0 + 1)) nd.2.2 = some (g0 + 1)
                rw [hst]
                exact bgLookup_insert_self _ _ _
              · show bgLookup (bgInsert cur.2 next (g0 + 1)) nd.2.2 = some (g0 + 1)
                rw [bgLookup_insert_ne _ _ _ _ hst]
                exact hlk2
        · intro st e0 hlk0
          obtain ⟨e2, hlk2, hle2⟩ := hout.bg_mono st e0 hlk0
          by_cases hst : st = next
          · exfalso
            rw [hst, hbq] at hlk2
            exact absurd hlk2 (by simp)
          · refine ⟨e2, ?_, hle2⟩
            show bgLookup (bgInsert cur.2 next (g0 + 1)) st = some e2
            rw [bgLookup_insert_ne _ _ _ _ hst]
            exact hlk2
        · intro st e2 hlk2
          rcases hpush _ rfl st e2 hlk2 with ⟨hst, he2⟩ | ⟨hst, hlk3⟩
          · right
            refine ⟨he2, j, hjlt, hjne, happ, hst, ?_⟩
            rw [hst]
            exact List.mem_cons_self _ _
          · rcases hout.bg_new st e2 hlk3 with h2 | ⟨he2, j2, hj2, hne2, happ2, hst2, hmem2⟩
            · left; exact h2
            · right
              exact ⟨he2, j2, hj2, hne2, happ2, hst2,
                List.mem_cons_of_mem _ hmem2⟩
        · exact bgInsert_nodup cur.2 next (g0 + 1) hout.nodup
        · intro pr hpr
          rcases List.mem_cons.mp hpr with h1 | h1
          · rw [h1]
            constructor
            · show next.length = start.length
              rw [hnext, applyIdx_length]
              exact (pathTo_length hpath0)
            · intro p
              show next.getD p 0 ≤ start.getD p 0
              exact pathTo_le hnpath p
          · exact hout.keys_val pr (List.mem_of_mem_filter h1)
        · have habs := bgInsert_absent cur.2 next (g0 + 1) hbq
          have hnodup2 : (((next, g0 + 1) :: cur.2).map Prod.fst).Nodup := by
            rw [← habs]
            exact bgInsert_nodup cur.2 next (g0 + 1) hout.nodup
          have hval2 : ∀ pr ∈ (next, g0 + 1) :: cur.2,
              pr.1.length = start.length ∧ ∀ p, pr.1.getD p 0 ≤ start.getD p 0 := by
            intro pr hpr
            rcases List.mem_cons.mp hpr with h1 | h1
            · rw [h1]
              refine ⟨?_, ?_⟩
              · show next.length = start.length
                rw [hnext, applyIdx_length]
                exact (pathTo_length hpath0)
              · intro p
                show next.getD p 0 ≤ start.getD p 0
                exact pathTo_le hnpath p
            · exact hout.keys_val pr h1
          have hcard : ((next, g0 + 1) :: cur.2).length ≤ stateCount start :=
            bg_card_le _ start hnodup2 hval2
          have hph := hout.phi
          have h1 : ((g0 + 1 + heurC mss next, g0 + 1, next) :: cur.1).length =
            cur.1.length + 1 := rfl
          have h2 : ((next, g0 + 1) :: cur.2).length = cur.2.length + 1 := rfl
          have h3 : bgWeight ((next, g0 + 1) :: cur.2) =
              (g0 + 1 + 1) + bgWeight cur.2 := by
            show ((g0 + 1 + 1) + (cur.2.map (fun pr => pr.2 + 1)).sum) = _
            rfl
          have hS : (stateCount start - cur.2.length) * (start.sum + 3) =
              (stateCount start - (cur.2.length + 1)) * (start.sum + 3) +
                (start.sum + 3) := by
            have h4 : stateCount start - cur.2.length =
                (stateCount start - (cur.2.length + 1)) + 1 := by omega
            rw [h4, Nat.succ_mul]
          show ((g0 + 1 + heurC mss next, g0 + 1, next) :: cur.1).length +
              bgWeight (bgInsert cur.2 next (g0 + 1)) +
              (stateCount start - (bgInsert cur.2 next (g0 + 1)).length) *
                (start.sum + 3) ≤
            rest.length + bgWeight bg +
              (stateCount start - bg.length) * (start.sum + 3)
          rw [habs, h1, h2, h3]
          omega
    · have happ2 : canApply st0 ((stepIndices steps positions).getD j []) = false :=
        Bool.eq_false_iff.mpr happ
      rw [if_pos (by rw [happ2]; rfl)]
      exact hout

end Day10.Codex

namespace Day10.Codex

theorem expandFold_out (steps : List Nat) (positions : Nat) (start : List Nat)
    (mss g0 : Nat) (st0 : List Nat) (rest : List (Nat × Nat × List Nat))
    (bg : List (List Nat × Nat))
    (hg0 : g0 ≤ start.sum)
    (hpath0 : PathTo steps positions start st0 g0) :
    ∀ (l : List Nat) (cur : List (Nat × Nat × List Nat) × List (List Nat × Nat)),
    ExpOut steps positions start mss g0 st0 rest bg cur →
    ExpOut steps positions start mss g0 st0 rest bg
      (l.foldl (expandStep (stepIndices steps positions) mss g0 st0) cur) := by
  intro l
  induction l with
  | nil =>
    intro cur hout
    exact hout
  | cons j tail ih =>
    intro cur hout
    exact ih _ (expandStep_pres steps positions start mss g0 st0 rest bg
      hg0 hpath0 cur j hout)

/-- `best_g` values never worsen along one expansion step. -/
theorem expandStep_mono (steps : List Nat) (positions : Nat)
    (mss g0 : Nat) (st0 : List Nat)
    (cur : List (Nat × Nat × List Nat) × List (List Nat × Nat)) (j : Nat)
    (st : List Nat) (e : Nat) (h : bgLookup cur.2 st = some e) :
    ∃ e2, bgLookup ((expandStep (stepIndices steps positions) mss g0 st0 cur j).2) st =
      some e2 ∧ e2 ≤ e := by
  have hdef : expandStep (stepIndices steps positions) mss g0 st0 cur j =
    (if ((stepIndices steps positions).getD j []).isEmpty then cur
    else if !(canApply st0 ((stepIndices steps positions).getD j [])) then cur
    else match bgLookup cur.2
        (applyIdx st0 ((stepIndices steps positions).getD j [])) with
      | some e =>
        if g0 + 1 < e then
          ((g0 + 1 + heurC mss (applyIdx st0 ((stepIndices steps positions).getD j [])),
            g0 + 1, applyIdx st0 ((stepIndices steps positions).getD j [])) :: cur.1,
           bgInsert cur.2 (applyIdx st0 ((stepIndices steps positions).getD j []))
             (g0 + 1))
        else cur
      | none =>
        ((g0 + 1 + heurC mss (applyIdx st0 ((stepIndices steps positions).getD j [])),
          g0 + 1, applyIdx st0 ((stepIndices steps positions).getD j [])) :: cur.1,
         bgInsert cur.2 (applyIdx st0 ((stepIndices steps positions).getD j []))
           (g0 + 1))) := rfl
  by_cases hemp : ((stepIndices steps positions).getD j []).isEmpty = true
  · rw [hdef, if_pos hemp]
    exact ⟨e, h, Nat.le_refl e⟩
  · rw [hdef, if_neg hemp]
    by_cases happ : canApply st0 ((stepIndices steps positions).getD j []) = true
    · rw [if_neg (by rw [happ]; simp)]
      set next := applyIdx st0 ((stepIndices steps positions).getD j []) with hnext
      cases hbq : bgLookup cur.2 next with
      | some ec =>
        show ∃ e2, bgLookup (if g0 + 1 < ec then
            ((g0 + 1 + heurC mss next, g0 + 1, next) :: cur.1,
              bgInsert cur.2 next (g0 + 1))
          else cur).2 st = some e2 ∧ e2 ≤ e
        by_cases hlt : g0 + 1 < ec
        · rw [if_pos hlt]
          by_cases hst : st = next
          · refine ⟨g0 + 1, ?_, ?_⟩
            · show bgLookup (bgInsert cur.2 next (g0 + 1)) st = some (g0 + 1)
              rw [hst]
              exact bgLookup_insert_self _ _ _
            · rw [hst, hbq] at h
              have : ec = e := Option.some.inj h
              omega
          · refine ⟨e, ?_, Nat.le_refl e⟩
            show bgLookup (bgInsert cur.2 next (g0 + 1)) st = some e
            rw [bgLookup_insert_ne _ _ _ _ hst]
            exact h
        · rw [if_neg hlt]
          exact ⟨e, h, Nat.le_refl e⟩
      | none =>
        show ∃ e2, bgLookup (bgInsert cur.2 next (g0 + 1)) st = some e2 ∧ e2 ≤ e
        by_cases hst : st = next
        · exfalso
          rw [hst, hbq] at h
          exact absurd h (by simp)
        · refine ⟨e, ?_, Nat.le_refl e⟩
          rw [bgLookup_insert_ne _ _ _ _ hst]
          exact h
    · have happ2 : canApply st0 ((stepIndices steps positions).getD j []) = false :=
        Bool.eq_false_iff.mpr happ
      rw [if_pos (by rw [happ2]; rfl)]
      exact ⟨e, h, Nat.le_refl e⟩

/-- Processing a legal move records its successor within `g0 + 1`. -/
theorem expandStep_covers (steps : List Nat) (positions : Nat)
    (mss g0 : Nat) (st0 : List Nat)
    (cur : List (Nat × Nat × List Nat) × List (List Nat × Nat)) (j : Nat)
    (hne : (stepIndices steps positions).getD j [] ≠ [])
    (happ : canApply st0 ((stepIndices steps positions).getD j []) = true) :
    ∃ e2, bgLookup ((expandStep (stepIndices steps positions) mss g0 st0 cur j).2)
        (applyIdx st0 ((stepIndices steps positions).getD j [])) = some e2 ∧
      e2 ≤ g0 + 1 := by
  have hdef : expandStep (stepIndices steps positions) mss g0 st0 cur j =
    (if ((stepIndices steps positions).getD j []).isEmpty then cur
    else if !(canApply st0 ((stepIndices steps positions).getD j [])) then cur
    else match bgLookup cur.2
        (applyIdx st0 ((stepIndices steps positions).getD j [])) with
      | some e =>
        if g0 + 1 < e then
          ((g0 + 1 + heurC mss (applyIdx st0 ((stepIndices steps positions).getD j [])),
            g0 + 1, applyIdx st0 ((stepIndices steps positions).getD j [])) :: cur.1,
           bgInsert cur.2 (applyIdx st0 ((stepIndices steps positions).getD j []))
             (g0 + 1))
        else cur
      | none =>
        ((g0 + 1 + heurC mss (applyIdx st0 ((stepIndices steps positions).getD j [])),
          g0 + 1, applyIdx st0 ((stepIndices steps positions).getD j [])) :: cur.1,
         bgInsert cur.2 (applyIdx st0 ((stepIndices steps positions).getD j []))
           (g0 + 1))) := rfl
  have hemp : ((stepIndices steps positions).getD j []).isEmpty = false := by
    cases hx : ((stepIndices steps positions).getD j []) with
    | nil => exact absurd hx hne
    | cons a t => rfl
  rw [hdef, if_neg (by rw [hemp]; simp), if_neg (by rw [happ]; simp)]
  set next := applyIdx st0 ((stepIndices steps positions).getD j []) with hnext
  cases hbq : bgLookup cur.2 next with
  | some ec =>
    show ∃ e2, bgLookup (if g0 + 1 < ec then
        ((g0 + 1 + heurC mss next, g0 + 1, next) :: cur.1,
          bgInsert cur.2 next (g0 + 1))
      else cur).2 next = some e2 ∧ e2 ≤ g0 + 1
    by_cases hlt : g0 + 1 < ec
    · rw [if_pos hlt]
      refine ⟨g0 + 1, ?_, Nat.le_refl _⟩
      exact bgLookup_insert_self _ _ _
    · rw [if_neg hlt]
      exact ⟨ec, hbq, by omega⟩
  | none =>
    show ∃ e2, bgLookup (bgInsert cur.2 next (g0 + 1)) next = some e2 ∧ e2 ≤ g0 + 1
    exact ⟨g0 + 1, bgLookup_insert_self _ _ _, Nat.le_refl _⟩

theorem expandFold_mono (steps : List Nat) (positions : Nat)
    (mss g0 : Nat) (st0 : List Nat) :
    ∀ (l : List Nat) (cur : List (Nat × Nat × List Nat) × List (List Nat × Nat))
      (st : List Nat) (e : Nat), bgLookup cur.2 st = some e →
    ∃ e2, bgLookup
        ((l.foldl (expandStep (stepIndices steps positions) mss g0 st0) cur).2) st =
      some e2 ∧ e2 ≤ e := by
  intro l
  induction l with
  | nil =>
    intro cur st e h
    exact ⟨e, h, Nat.le_refl e⟩
  | cons j tail ih =>
    intro cur st e h
    obtain ⟨e2, h2, hle2⟩ := expandStep_mono steps positions mss g0 st0 cur j st e h
    obtain ⟨e3, h3, hle3⟩ := ih _ st e2 h2
    exact ⟨e3, h3, by omega⟩

theorem expandFold_covers (steps : List Nat) (positions : Nat)
    (mss g0 : Nat) (st0 : List Nat) :
    ∀ (l : List Nat) (cur : List (Nat × Nat × List Nat) × List (List Nat × Nat)),
    ∀ j ∈ l, (stepIndices steps positions).getD j [] ≠ [] →
      canApply st0 ((stepIndices steps positions).getD j []) = true →
    ∃ e2, bgLookup
        ((l.foldl (expandStep (stepIndices steps positions) mss g0 st0) cur).2)
        (applyIdx st0 ((stepIndices steps positions).getD j [])) = some e2 ∧
      e2 ≤ g0 + 1 := by
  intro l
  induction l with
  | nil =>
    intro cur j hj
    exact absurd hj (by simp)
  | cons j0 tail ih =>
    intro cur j hj hne happ
    rcases List.mem_cons.mp hj with h1 | h1
    · subst h1
      obtain ⟨e2, h2, hle2⟩ :=
        expandStep_covers steps positions mss g0 st0 cur j hne happ
      obtain ⟨e3, h3, hle3⟩ := expandFold_mono steps positions mss g0 st0 tail _ _ e2 h2
      exact ⟨e3, h3, by omega⟩
    · exact ih _ j h1 hne happ

end Day10.Codex

namespace Day10.Codex

/-- Expanding a non-stale, non-goal popped node preserves the invariant and
does not increase the fuel potential. -/
theorem expand_branch (steps : List Nat) (positions : Nat) (start : List Nat)
    (mss : Nat) (heap : List (Nat × Nat × List Nat)) (bg : List (List Nat × Nat))
    (nd : Nat × Nat × List Nat) (rest : List (Nat × Nat × List Nat))
    (inv : AInv steps positions start mss heap bg)
    (hstart : start.length = positions)
    (hpop : popMin heap = some (nd, rest))
    (hnz : nd.2.2.all (fun v => v == 0) = false)
    (hnonstale : bgLookup bg nd.2.2 = some nd.2.1) :
    AInv steps positions start mss
      ((stepsOrder (stepIndices steps positions)).foldl
        (expandStep (stepIndices steps positions) mss nd.2.1 nd.2.2) (rest, bg)).1
      ((stepsOrder (stepIndices steps positions)).foldl
        (expandStep (stepIndices steps positions) mss nd.2.1 nd.2.2) (rest, bg)).2 ∧
    ((stepsOrder (stepIndices steps positions)).foldl
        (expandStep (stepIndices steps positions) mss nd.2.1 nd.2.2) (rest, bg)).1.length +
      bgWeight ((stepsOrder (stepIndices steps positions)).foldl
        (expandStep (stepIndices steps positions) mss nd.2.1 nd.2.2) (rest, bg)).2 +
      (stateCount start - ((stepsOrder (stepIndices steps positions)).foldl
        (expandStep (stepIndices steps positions) mss nd.2.1 nd.2.2) (rest, bg)).2.length) *
        (start.sum + 3) ≤
    rest.length + bgWeight bg + (stateCount start - bg.length) * (start.sum + 3) := by
  obtain ⟨hnmem, hmin, hsub, hcomp, hlen⟩ := popMin_spec heap nd rest hpop
  have hpath0 := inv.heap_path nd hnmem
  have hg0 : nd.2.1 ≤ start.sum := by
    have := pathTo_k_le steps positions hpath0 (by omega)
    omega
  have hinit : ExpOut steps positions start mss nd.2.1 nd.2.2 rest bg (rest, bg) := by
    refine ⟨fun x h => h, fun x h => Or.inl h, fun st e h => ⟨e, h, Nat.le_refl e⟩,
      fun st e h => Or.inl h, inv.bg_nodup, ?_, Nat.le_refl _⟩
    intro pr hpr
    have hlook := bgLookup_of_mem_nodup bg pr.1 pr.2 inv.bg_nodup hpr
    have hpath := inv.bg_path pr.1 pr.2 hlook
    exact ⟨pathTo_length hpath, pathTo_le hpath⟩
  have hout := expandFold_out steps positions start mss nd.2.1 nd.2.2 rest bg
    hg0 hpath0 (stepsOrder (stepIndices steps positions)) (rest, bg) hinit
  have hcov : ∀ j, j < steps.length → (stepIndices steps positions).getD j [] ≠ [] →
      canApply nd.2.2 ((stepIndices steps positions).getD j []) = true →
      ∃ e2, bgLookup (((stepsOrder (stepIndices steps positions)).foldl
        (expandStep (stepIndices steps positions) mss nd.2.1 nd.2.2) (rest, bg)).2)
        (applyIdx nd.2.2 ((stepIndices steps positions).getD j [])) = some e2 ∧
        e2 ≤ nd.2.1 + 1 := by
    intro j hj hne happ
    exact expandFold_covers steps positions mss nd.2.1 nd.2.2
      (stepsOrder (stepIndices steps positions)) (rest, bg) j
      (stepsOrder_mem _ j (by rw [stepIndices_length]; exact hj)) hne happ
  refine ⟨⟨?_, ?_, ?_, ?_, ?_, ?_, ?_, ?_⟩, hout.phi⟩
  · -- heap_path
    intro x hx
    rcases hout.new_heap x hx with h1 | ⟨j, hj, hne, happ, hxe, _⟩
    · exact inv.heap_path x (hsub x h1)
    · rw [hxe]
      exact pathTo_append hpath0 (PathTo.step _ _ _ j hj hne happ (PathTo.refl _))
  · -- heap_f
    intro x hx
    rcases hout.new_heap x hx with h1 | ⟨j, hj, hne, happ, hxe, _⟩
    · exact inv.heap_f x (hsub x h1)
    · rw [hxe]
  · -- heap_bg
    intro x hx
    rcases hout.new_heap x hx with h1 | ⟨j, hj, hne, happ, hxe, hlk⟩
    · obtain ⟨e, he⟩ := inv.heap_bg x (hsub x h1)
      obtain ⟨e2, he2, _⟩ := hout.bg_mono x.2.2 e he
      exact ⟨e2, he2⟩
    · exact ⟨nd.2.1 + 1, hlk⟩
  · -- bg_path
    intro st e hlk
    rcases hout.bg_new st e hlk with h1 | ⟨he, j, hj, hne, happ, hst, _⟩
    · exact inv.bg_path st e h1
    · rw [hst, he]
      exact pathTo_append hpath0 (PathTo.step _ _ _ j hj hne happ (PathTo.refl _))
  · -- zero_entry
    intro st e hlk hz
    rcases hout.bg_new st e hlk with h1 | ⟨he, j, hj, hne, happ, hst, hmem⟩
    · obtain ⟨m, hm, hms, hmg⟩ := inv.zero_entry st e h1 hz
      have hmnd : m ≠ nd := by
        intro hcon
        rw [hcon] at hms
        rw [hms] at hnz
        rw [hz] at hnz
        exact absurd hnz (by simp)
      exact ⟨m, hout.old_heap m (hcomp m hm hmnd), hms, hmg⟩
    · refine ⟨(nd.2.1 + 1 + heurC mss st, nd.2.1 + 1, st), ?_, rfl, he.symm⟩
      rw [hst]
      rw [hst] at hmem
      exact hmem
  · -- exp_inv
    intro u ku hlk hmin2 hnz2
    rcases hout.bg_new u ku hlk with h1 | ⟨he, j, hj, hne, happ, hst, hmem⟩
    · rcases inv.exp_inv u ku h1 hmin2 hnz2 with ⟨m, hm, hms, hmg⟩ | hsucc
      · by_cases hmnd : m = nd
        · -- the popped node was the optimal entry for u: u was just expanded
          right
          intro j hj hne happ
          have hu : u = nd.2.2 := by rw [← hms, hmnd]
          have hku : ku = nd.2.1 := by rw [← hmg, hmnd]
          rw [hu, hku]
          exact hcov j hj hne (by rw [← hu]; exact happ)
        · left
          exact ⟨m, hout.old_heap m (hcomp m hm hmnd), hms, hmg⟩
      · right
        intro j hj hne happ
        obtain ⟨e, helk, hele⟩ := hsucc j hj hne happ
        obtain ⟨e2, he2, hle2⟩ := hout.bg_mono _ e helk
        exact ⟨e2, he2, by omega⟩
    · left
      refine ⟨(nd.2.1 + 1 + heurC mss u, nd.2.1 + 1, u), ?_, rfl, he.symm⟩
      rw [hst]
      rw [hst] at hmem
      exact hmem
  · -- bg_start
    obtain ⟨e2, he2, hle2⟩ := hout.bg_mono start 0 inv.bg_start
    have : e2 = 0 := by omega
    rw [this] at he2
    exact he2
  · exact hout.nodup

end Day10.Codex

namespace Day10.Codex

/-- Correctness of the A* loop under the invariant and sufficient fuel:
`none` is returned only when no full play decomposition exists, and any
returned value is the minimum decomposition length. -/
theorem aStarLoop_correct (steps : List Nat) (positions : Nat) (start : List Nat)
    (hstart : start.length = positions) :
    ∀ (fuel : Nat) (heap : List (Nat × Nat × List Nat)) (bg : List (List Nat × Nat)),
    AInv steps positions start (mssOf (stepIndices steps positions)) heap bg →
    heap.length + bgWeight bg +
      (stateCount start - bg.length) * (start.sum + 3) < fuel →
    ((aStarLoop (stepIndices steps positions)
        (stepsOrder (stepIndices steps positions))
        (mssOf (stepIndices steps positions)) fuel heap bg = none →
        PathCosts steps positions start = ∅) ∧
     (∀ v, aStarLoop (stepIndices steps positions)
        (stepsOrder (stepIndices steps positions))
        (mssOf (stepIndices steps positions)) fuel heap bg = some v →
        IsLeast (PathCosts steps positions start) v)) := by
  intro fuel
  induction fuel with
  | zero =>
    intro heap bg _ hphi
    exact absurd hphi (by omega)
  | succ fuel ih =>
    intro heap bg inv hphi
    have h0 : aStarLoop (stepIndices steps positions)
        (stepsOrder (stepIndices steps positions))
        (mssOf (stepIndices steps positions)) (fuel + 1) heap bg =
      (match popMin heap with
      | none => none
      | some (nd, rest) =>
        if nd.2.2.all (fun v => v == 0) then some nd.2.1
        else
          match bgLookup bg nd.2.2 with
          | some known =>
            if nd.2.1 = known then
              let hb := (stepsOrder (stepIndices steps positions)).foldl
                (expandStep (stepIndices steps positions)
                  (mssOf (stepIndices steps positions)) nd.2.1 nd.2.2) (rest, bg)
              aStarLoop (stepIndices steps positions)
                (stepsOrder (stepIndices steps positions))
                (mssOf (stepIndices steps positions)) fuel hb.1 hb.2
            else aStarLoop (stepIndices steps positions)
              (stepsOrder (stepIndices steps positions))
              (mssOf (stepIndices steps positions)) fuel rest bg
          | none =>
            let hb := (stepsOrder (stepIndices steps positions)).foldl
              (expandStep (stepIndices steps positions)
                (mssOf (stepIndices steps positions)) nd.2.1 nd.2.2) (rest, bg)
            aStarLoop (stepIndices steps positions)
              (stepsOrder (stepIndices steps positions))
              (mssOf (stepIndices steps positions)) fuel hb.1 hb.2) := rfl
    cases hpop : popMin heap with
    | none =>
      rw [hpop] at h0
      have hres : aStarLoop (stepIndices steps positions)
          (stepsOrder (stepIndices steps positions))
          (mssOf (stepIndices steps positions)) (fuel + 1) heap bg = none := h0
      have hempty : PathCosts steps positions start = ∅ := by
        rw [Set.eq_empty_iff_forall_not_mem]
        intro k hk
        have hne : (PathCosts steps positions start).Nonempty := ⟨k, hk⟩
        have hmem := Nat.sInf_mem hne
        have hle : ∀ w2 ∈ PathCosts steps positions start,
            sInf (PathCosts steps positions start) ≤ w2 :=
          fun w2 hw2 => Nat.sInf_le hw2
        obtain ⟨nd, hnd, _⟩ := astar_walk steps positions start hstart heap bg inv
          (sInf (PathCosts steps positions start)) start 0 inv.bg_start
          ⟨PathTo.refl start, fun k2 _ => Nat.zero_le k2⟩ hmem
          (fun w hw => by
            have h9 := hle w hw
            omega)
        rw [(popMin_none_iff heap).mp hpop] at hnd
        exact absurd hnd (by simp)
      constructor
      · intro _
        exact hempty
      · intro v hv
        rw [hres] at hv
        exact absurd hv (by simp)
    | some pr =>
      obtain ⟨nd, rest⟩ := pr
      rw [hpop] at h0
      have h0b : aStarLoop (stepIndices steps positions)
          (stepsOrder (stepIndices steps positions))
          (mssOf (stepIndices steps positions)) (fuel + 1) heap bg =
        (if nd.2.2.all (fun v => v == 0) = true then some nd.2.1
        else
          match bgLookup bg nd.2.2 with
          | some known =>
            if nd.2.1 = known then
              aStarLoop (stepIndices steps positions)
                (stepsOrder (stepIndices steps positions))
                (mssOf (stepIndices steps positions)) fuel
                ((stepsOrder (stepIndices steps positions)).foldl
                  (expandStep (stepIndices steps positions)
                    (mssOf (stepIndices steps positions)) nd.2.1 nd.2.2) (rest, bg)).1
                ((stepsOrder (stepIndices steps positions)).foldl
                  (expandStep (stepIndices steps positions)
                    (mssOf (stepIndices steps positions)) nd.2.1 nd.2.2) (rest, bg)).2
            else aStarLoop (stepIndices steps positions)
              (stepsOrder (stepIndices steps positions))
              (mssOf (stepIndices steps positions)) fuel rest bg
          | none =>
            aStarLoop (stepIndices steps positions)
              (stepsOrder (stepIndices steps positions))
              (mssOf (stepIndices steps positions)) fuel
              ((stepsOrder (stepIndices steps positions)).foldl
                (expandStep (stepIndices steps positions)
                  (mssOf (stepIndices steps positions)) nd.2.1 nd.2.2) (rest, bg)).1
              ((stepsOrder (stepIndices steps positions)).foldl
                (expandStep (stepIndices steps positions)
                  (mssOf (stepIndices steps positions)) nd.2.1 nd.2.2) (rest, bg)).2) := h0
      obtain ⟨hnmem, hmin, hsub, hcomp, hlen⟩ := popMin_spec heap nd rest hpop
      by_cases hz : nd.2.2.all (fun v => v == 0) = true
      · -- goal pop: return g
        have hres : aStarLoop (stepIndices steps positions)
            (stepsOrder (stepIndices steps positions))
            (mssOf (stepIndices steps positions)) (fuel + 1) heap bg =
            some nd.2.1 := by
          rw [h0b]
          rw [if_pos hz]
        have hzero : nd.2.2 = List.replicate positions 0 := by
          apply list_eq_replicate_zero
          · have := pathTo_length (inv.heap_path nd hnmem)
            omega
          · intro p _
            exact all_zero_getD nd.2.2 ((all_zero_iff nd.2.2).mp hz) p
        have hmem2 : nd.2.1 ∈ PathCosts steps positions start := by
          have := inv.heap_path nd hnmem
          rw [hzero] at this
          exact this
        have hleast : IsLeast (PathCosts steps positions start) nd.2.1 := by
          refine ⟨hmem2, ?_⟩
          intro k hk
          have hne : (PathCosts steps positions start).Nonempty := ⟨k, hk⟩
          have hoptmem := Nat.sInf_mem hne
          have hle : ∀ w2 ∈ PathCosts steps positions start,
              sInf (PathCosts steps positions start) ≤ w2 :=
            fun w2 hw2 => Nat.sInf_le hw2
          obtain ⟨w, hw, hwf⟩ := astar_walk steps positions start hstart heap bg inv
            (sInf (PathCosts steps positions start)) start 0 inv.bg_start
            ⟨PathTo.refl start, fun k2 _ => Nat.zero_le k2⟩ hoptmem
            (fun w2 hw2 => by
              have h9 := hle w2 hw2
              omega)
          have hf := inv.heap_f nd hnmem
          have hheur : heurC (mssOf (stepIndices steps positions)) nd.2.2 = 0 :=
            heurC_zero _ _ ((all_zero_iff nd.2.2).mp hz)
          have hndle := hmin w hw
          have hinf_le := Nat.sInf_le hk
          omega
        constructor
        · intro hcon
          rw [hres] at hcon
          exact absurd hcon (by simp)
        · intro v hv
          rw [hres] at hv
          have : nd.2.1 = v := Option.some.inj hv
          rw [← this]
          exact hleast
      · -- not a goal state
        have hz2 : nd.2.2.all (fun v => v == 0) = false := Bool.eq_false_iff.mpr hz
        have h1 : aStarLoop (stepIndices steps positions)
            (stepsOrder (stepIndices steps positions))
            (mssOf (stepIndices steps positions)) (fuel + 1) heap bg =
          (match bgLookup bg nd.2.2 with
          | some known =>
            if nd.2.1 = known then
              aStarLoop (stepIndices steps positions)
                (stepsOrder (stepIndices steps positions))
                (mssOf (stepIndices steps positions)) fuel
                ((stepsOrder (stepIndices steps positions)).foldl
                  (expandStep (stepIndices steps positions)
                    (mssOf (stepIndices steps positions)) nd.2.1 nd.2.2) (rest, bg)).1
                ((stepsOrder (stepIndices steps positions)).foldl
                  (expandStep (stepIndices steps positions)
                    (mssOf (stepIndices steps positions)) nd.2.1 nd.2.2) (rest, bg)).2
            else aStarLoop (stepIndices steps positions)
              (stepsOrder (stepIndices steps positions))
              (mssOf (stepIndices steps positions)) fuel rest bg
          | none =>
            aStarLoop (stepIndices steps positions)
              (stepsOrder (stepIndices steps positions))
              (mssOf (stepIndices steps positions)) fuel
              ((stepsOrder (stepIndices steps positions)).foldl
                (expandStep (stepIndices steps positions)
                  (mssOf (stepIndices steps positions)) nd.2.1 nd.2.2) (rest, bg)).1
              ((stepsOrder (stepIndices steps positions)).foldl
                (expandStep (stepIndices steps positions)
                  (mssOf (stepIndices steps positions)) nd.2.1 nd.2.2) (rest, bg)).2) := by
          rw [h0b]
          rw [if_neg (by rw [hz2]; simp)]
        cases hlk : bgLookup bg nd.2.2 with
        | none =>
          obtain ⟨e, he⟩ := inv.heap_bg nd hnmem
          rw [hlk] at he
          exact absurd he (by simp)
        | some known =>
          rw [hlk] at h1
          have h1b : aStarLoop (stepIndices steps positions)
              (stepsOrder (stepIndices steps positions))
              (mssOf (stepIndices steps positions)) (fuel + 1) heap bg =
            (if nd.2.1 = known then
              aStarLoop (stepIndices steps positions)
                (stepsOrder (stepIndices steps positions))
                (mssOf (stepIndices steps positions)) fuel
                ((stepsOrder (stepIndices steps positions)).foldl
                  (expandStep (stepIndices steps positions)
                    (mssOf (stepIndices steps positions)) nd.2.1 nd.2.2) (rest, bg)).1
                ((stepsOrder (stepIndices steps positions)).foldl
                  (expandStep (stepIndices steps positions)
                    (mssOf (stepIndices steps positions)) nd.2.1 nd.2.2) (rest, bg)).2
            else aStarLoop (stepIndices steps positions)
              (stepsOrder (stepIndices steps positions))
              (mssOf (stepIndices steps positions)) fuel rest bg) := h1
          by_cases hgk : nd.2.1 = known
          · -- non-stale: expand
            have h2 : aStarLoop (stepIndices steps positions)
                (stepsOrder (stepIndices steps positions))
                (mssOf (stepIndices steps positions)) (fuel + 1) heap bg =
              aStarLoop (stepIndices steps positions)
                (stepsOrder (stepIndices steps positions))
                (mssOf (stepIndices steps positions)) fuel
                ((stepsOrder (stepIndices steps positions)).foldl
                  (expandStep (stepIndices steps positions)
                    (mssOf (stepIndices steps positions)) nd.2.1 nd.2.2) (rest, bg)).1
                ((stepsOrder (stepIndices steps positions)).foldl
                  (expandStep (stepIndices steps positions)
                    (mssOf (stepIndices steps positions)) nd.2.1 nd.2.2) (rest, bg)).2 := by
              rw [h1b]
              rw [if_pos hgk]
            obtain ⟨inv2, hphi2⟩ := expand_branch steps positions start
              (mssOf (stepIndices steps positions)) heap bg nd rest inv hstart hpop hz2
              (by rw [hlk, hgk])
            have hrec := ih _ _ inv2 (by omega)
            rw [h2]
            exact hrec
          · -- stale entry: skip
            have h2 : aStarLoop (stepIndices steps positions)
                (stepsOrder (stepIndices steps positions))
                (mssOf (stepIndices steps positions)) (fuel + 1) heap bg =
              aStarLoop (stepIndices steps positions)
                (stepsOrder (stepIndices steps positions))
                (mssOf (stepIndices steps positions)) fuel rest bg := by
              rw [h1b]
              rw [if_neg hgk]
            have inv2 : AInv steps positions start
                (mssOf (stepIndices steps positions)) rest bg := by
              refine ⟨?_, ?_, ?_, inv.bg_path, ?_, ?_, inv.bg_start, inv.bg_nodup⟩
              · intro x hx
                exact inv.heap_path x (hsub x hx)
              · intro x hx
                exact inv.heap_f x (hsub x hx)
              · intro x hx
                exact inv.heap_bg x (hsub x hx)
              · intro st e hlk2 hz3
                obtain ⟨m, hm, hms, hmg⟩ := inv.zero_entry st e hlk2 hz3
                have hmnd : m ≠ nd := by
                  intro hcon
                  rw [hcon] at hms
                  rw [hms] at hz2
                  rw [hz3] at hz2
                  exact absurd hz2 (by simp)
                exact ⟨m, hcomp m hm hmnd, hms, hmg⟩
              · intro u ku hlk2 hmin2 hnz2
                rcases inv.exp_inv u ku hlk2 hmin2 hnz2 with ⟨m, hm, hms, hmg⟩ | hsucc
                · left
                  have hmnd : m ≠ nd := by
                    intro hcon
                    apply hgk
                    rw [hcon] at hms hmg
                    rw [← hms] at hlk2
                    rw [hlk2] at hlk
                    have h8 : ku = known := Option.some.inj hlk
                    omega
                  exact ⟨m, hcomp m hm hmnd, hms, hmg⟩
                · right
                  exact hsucc
            have hrec := ih rest bg inv2 (by omega)
            rw [h2]
            exact hrec

end Day10.Codex

namespace Day10.Codex

/-- codex `min_steps_part2`: all-zero shortcut, coverage check, GF(2) parity
reachability check, then A* search over residual count vectors.  The
`target_mask` fold `acc | ((v & 1) << idx)` is `parityPattern`; the fuel
passed to the loop is proven sufficient below. -/
def min_steps_part2 (step_masks targets : List Nat) (positions : Nat) : Option Nat :=
  if targets.all (fun v => v == 0) then some 0
  else if (List.range targets.length).any (fun idx =>
      decide (0 < targets.getD idx 0) &&
        (step_masks.countP (fun mk => mk.testBit idx) == 0)) then none
  else if !(reachable_mod2 step_masks (parityPattern targets)) then none
  else
    aStarLoop (stepIndices step_masks positions)
      (stepsOrder (stepIndices step_masks positions))
      (mssOf (stepIndices step_masks positions))
      (stateCount targets * (targets.sum + 3) + 3)
      [(heurC (mssOf (stepIndices step_masks positions)) targets, 0, targets)]
      [(targets, 0)]

theorem appliedCount_no_touch (steps : List Nat) (pos : Nat)
    (h : ∀ s ∈ steps, s.testBit pos = false) :
    ∀ xs, appliedCount steps xs pos = 0 := by
  induction steps with
  | nil =>
    intro xs
    rfl
  | cons s ss ih =>
    intro xs
    cases xs with
    | nil => rfl
    | cons x xx =>
      show (if s.testBit pos then x else 0) + appliedCount ss xx pos = 0
      rw [h s (List.mem_cons_self s ss)]
      rw [if_neg (by simp)]
      rw [ih (fun t ht => h t (List.mem_cons_of_mem s ht)) xx]

theorem stateCount_pos (targets : List Nat) : 1 ≤ stateCount targets := by
  induction targets with
  | nil => exact Nat.le_refl 1
  | cons t rest ih =>
    show 1 ≤ ((t :: rest).map (fun v => v + 1)).prod
    rw [List.map_cons, List.prod_cons]
    have : 1 * 1 ≤ (t + 1) * (rest.map (fun v => v + 1)).prod :=
      Nat.mul_le_mul (by omega) ih
    omega

/-- Characterization of codex `min_steps_part2`: `none` exactly on
unsolvable instances, otherwise the least attainable multiplicity sum. -/
theorem min_steps_part2_char (steps target : List Nat) (positions : Nat)
    (hn : positions ≤ 32) (hlt : ∀ s ∈ steps, s < 2 ^ positions)
    (hlen : target.length = positions) :
    (min_steps_part2 steps target positions = none ↔
      ¬ ∃ xs, IsSolution steps target xs) ∧
    (∀ v, min_steps_part2 steps target positions = some v ↔
      IsLeast (SolCosts steps target) v) := by
  have hdef : min_steps_part2 steps target positions =
    (if target.all (fun v => v == 0) then some 0
    else if (List.range target.length).any (fun idx =>
        decide (0 < target.getD idx 0) &&
          (steps.countP (fun mk => mk.testBit idx) == 0)) then none
    else if !(reachable_mod2 steps (parityPattern target)) then none
    else
      aStarLoop (stepIndices steps positions)
        (stepsOrder (stepIndices steps positions))
        (mssOf (stepIndices steps positions))
        (stateCount target * (target.sum + 3) + 3)
        [(heurC (mssOf (stepIndices steps positions)) target, 0, target)]
        [(target, 0)]) := rfl
  by_cases hz : target.all (fun v => v == 0) = true
  · -- all-zero target: some 0
    rw [hdef, if_pos hz]
    have hzero : ∀ pos, pos < target.length → target.getD pos 0 = 0 :=
      fun pos hpos => all_zero_getD target ((all_zero_iff target).mp hz) pos
    have hsol : IsSolution steps target (List.replicate steps.length 0) := by
      refine ⟨List.length_replicate _ _, ?_⟩
      intro pos hpos
      rw [appliedCount_replicate_zero, hzero pos hpos]
    have hmem : 0 ∈ SolCosts steps target :=
      ⟨List.replicate steps.length 0, hsol, by simp⟩
    constructor
    · constructor
      · intro h
        exact absurd h (by simp)
      · intro h
        exact absurd ⟨List.replicate steps.length 0, hsol⟩ h
    · intro v
      constructor
      · intro h
        have hv : v = 0 := (Option.some.inj h).symm
        rw [hv]
        exact ⟨hmem, fun w _ => Nat.zero_le w⟩
      · rintro ⟨hv, hlb⟩
        have := hlb hmem
        have hv0 : v = 0 := by omega
        rw [hv0]
  · rw [hdef, if_neg hz]
    by_cases hcov : (List.range target.length).any (fun idx =>
        decide (0 < target.getD idx 0) &&
          (steps.countP (fun mk => mk.testBit idx) == 0)) = true
    · -- an uncovered positive position: unsolvable
      rw [if_pos hcov]
      obtain ⟨idx, hidxmem, hidxcond⟩ := List.any_eq_true.mp hcov
      have hidxlt : idx < target.length := List.mem_range.mp hidxmem
      obtain ⟨hpos, hcnt⟩ := Bool.and_eq_true _ _ |>.mp hidxcond
      have hpos2 : 0 < target.getD idx 0 := of_decide_eq_true hpos
      have hcnt2 : steps.countP (fun mk => mk.testBit idx) = 0 := by
        simpa using hcnt
      have hnotouch : ∀ s ∈ steps, s.testBit idx = false := by
        intro s hs
        have := List.countP_eq_zero.mp hcnt2 s hs
        simpa using this
      have hno : ¬ ∃ xs, IsSolution steps target xs := by
        rintro ⟨xs, hxlen, hcount⟩
        have h1 := hcount idx hidxlt
        rw [appliedCount_no_touch steps idx hnotouch xs] at h1
        omega
      have hempty : SolCosts steps target = ∅ :=
        (Gemini.solCosts_empty_iff steps target).mpr hno
      constructor
      · constructor
        · intro _
          exact hno
        · intro _
          rfl
      · intro v
        constructor
        · intro h
          exact absurd h (by simp)
        · rintro ⟨hv, _⟩
          rw [Set.eq_empty_iff_forall_not_mem] at hempty
          exact absurd hv (hempty v)
    · rw [if_neg hcov]
      have hmask32 : ∀ s ∈ steps, s < 2 ^ 32 := by
        intro s hs
        have h1 := hlt s hs
        have h2 : (2:Nat) ^ positions ≤ 2 ^ 32 :=
          Nat.pow_le_pow_right (by norm_num) hn
        omega
      by_cases hrm : reachable_mod2 steps (parityPattern target) = true
      · rw [if_neg (by rw [hrm]; simp)]
        have hself : bgLookup [(target, 0)] target = some 0 := by
          rw [bgLookup, List.find?_cons_of_pos _ (by simp)]
          rfl
        have hbl : ∀ st e, bgLookup [(target, 0)] st = some e →
            st = target ∧ e = 0 := by
          intro st e h
          have hm := bgLookup_mem _ _ _ h
          rw [List.mem_singleton] at hm
          have h1 := congrArg Prod.fst hm
          have h2 := congrArg Prod.snd hm
          exact ⟨h1, h2⟩
        have hinv : AInv steps positions target
            (mssOf (stepIndices steps positions))
            [(heurC (mssOf (stepIndices steps positions)) target, 0, target)]
            [(target, 0)] := by
          refine ⟨?_, ?_, ?_, ?_, ?_, ?_, hself, by simp⟩
          · intro nd hnd
            rw [List.mem_singleton] at hnd
            rw [hnd]
            exact PathTo.refl target
          · intro nd hnd
            rw [List.mem_singleton] at hnd
            rw [hnd]
            show heurC _ target = 0 + heurC _ target
            omega
          · intro nd hnd
            rw [List.mem_singleton] at hnd
            rw [hnd]
            exact ⟨0, hself⟩
          · intro st e h
            obtain ⟨h1, h2⟩ := hbl st e h
            rw [h1, h2]
            exact PathTo.refl target
          · intro st e h hz2
            obtain ⟨h1, _⟩ := hbl st e h
            rw [h1] at hz2
            rw [hz2] at hz
            exact absurd rfl hz
          · intro u ku h hmin2 hnz2
            obtain ⟨h1, h2⟩ := hbl u ku h
            left
            refine ⟨(heurC (mssOf (stepIndices steps positions)) target, 0, target),
              List.mem_singleton.mpr rfl, ?_, ?_⟩
            · rw [h1]
            · rw [h2]
        have hphi : (1 : Nat) + bgWeight [(target, 0)] +
            (stateCount target - 1) * (target.sum + 3) <
            stateCount target * (target.sum + 3) + 3 := by
          have hbw : bgWeight [(target, 0)] = 1 := rfl
          have hNpos := stateCount_pos target
          have hNe : stateCount target * (target.sum + 3) =
              (stateCount target - 1) * (target.sum + 3) + (target.sum + 3) := by
            have h4 : stateCount target = (stateCount target - 1) + 1 := by omega
            conv_lhs => rw [h4]
            rw [Nat.succ_mul]
          rw [hbw]
          omega
        have hcor := aStarLoop_correct steps positions target hlen
          (stateCount target * (target.sum + 3) + 3)
          [(heurC (mssOf (stepIndices steps positions)) target, 0, target)]
          [(target, 0)] hinv (by
            have h5 : ([(heurC (mssOf (stepIndices steps positions)) target,
              0, target)] : List (Nat × Nat × List Nat)).length = 1 := rfl
            have h6 : ([(target, (0:Nat))] : List (List Nat × Nat)).length = 1 := rfl
            rw [h5, h6]
            exact hphi)
        obtain ⟨hpcemp, hpcleast⟩ := pathCosts_equiv steps positions target hlen
        constructor
        · constructor
          · intro h
            rw [← Gemini.solCosts_empty_iff]
            exact hpcemp.mp (hcor.1 h)
          · intro hno
            have hempty : SolCosts steps target = ∅ :=
              (Gemini.solCosts_empty_iff steps target).mpr hno
            have hpempty : PathCosts steps positions target = ∅ := hpcemp.mpr hempty
            cases hres : aStarLoop (stepIndices steps positions)
                (stepsOrder (stepIndices steps positions))
                (mssOf (stepIndices steps positions))
                (stateCount target * (target.sum + 3) + 3)
                [(heurC (mssOf (stepIndices steps positions)) target, 0, target)]
                [(target, 0)] with
            | none => rfl
            | some v =>
              exfalso
              have hl := hcor.2 v hres
              rw [Set.eq_empty_iff_forall_not_mem] at hpempty
              exact hpempty v hl.1
        · intro v
          constructor
          · intro h
            exact (hpcleast v).mp (hcor.2 v h)
          · intro hleast
            have hpleast : IsLeast (PathCosts steps positions target) v :=
              (hpcleast v).mpr hleast
            cases hres : aStarLoop (stepIndices steps positions)
                (stepsOrder (stepIndices steps positions))
                (mssOf (stepIndices steps positions))
                (stateCount target * (target.sum + 3) + 3)
                [(heurC (mssOf (stepIndices steps positions)) target, 0, target)]
                [(target, 0)] with
            | none =>
              exfalso
              have hempty := hcor.1 hres
              rw [Set.eq_empty_iff_forall_not_mem] at hempty
              exact hempty v hpleast.1
            | some v2 =>
              have hl2 := hcor.2 v2 hres
              have : v2 = v := Nat.le_antisymm (hl2.2 hpleast.1) (hpleast.2 hl2.1)
              rw [this]
      · -- parity-unreachable target: unsolvable
        have hrm2 : reachable_mod2 steps (parityPattern target) = false :=
          Bool.eq_false_iff.mpr hrm
        rw [if_pos (by rw [hrm2]; rfl)]
        have hno : ¬ ∃ xs, IsSolution steps target xs := by
          rintro ⟨xs, hsol⟩
          have hpar := parity_of_solution steps target xs positions hlt hlen hsol
          have hppl : parityPattern target < 2 ^ 32 := by
            have h1 := parityPattern_lt target
            have h2 : (2:Nat) ^ target.length ≤ 2 ^ 32 :=
              Nat.pow_le_pow_right (by norm_num) (by omega)
            omega
          have := (reachable_mod2_iff steps (parityPattern target) hmask32 hppl).mpr
            ⟨parityPattern xs, hpar⟩
          rw [hrm2] at this
          exact absurd this (by simp)
        constructor
        · constructor
          · intro _
            exact hno
          · intro _
            rfl
        · intro v
          constructor
          · intro h
            exact absurd h (by simp)
          · rintro ⟨hv, _⟩
            have hempty : SolCosts steps target = ∅ :=
              (Gemini.solCosts_empty_iff steps target).mpr hno
            rw [Set.eq_empty_iff_forall_not_mem] at hempty
            exact absurd hv (hempty v)

end Day10.Codex

namespace Day10.Codex

/-- One candidate total of codex `min_steps_part2_seeded`'s enumeration:
subtract the seed's steps once each (`applyCandidate` models the residual
loop with its negativity check), reject odd residuals, halve, and solve the
halved instance (`Some(0)` shortcut at all-zero; the `HashMap` cache only
memoises the pure `min_steps_part2` and is dropped). -/
def seedTotal (step_masks targets : List Nat) (positions : Nat) (seed : Nat) :
    Option Nat :=
  match Gemini.applyCandidate step_masks seed targets with
  | none => none
  | some residual =>
    if residual.any (fun v => !(v % 2 == 0)) then none
    else
      match (if (residual.map (fun v => v / 2)).all (fun v => v == 0) then some 0
        else min_steps_part2 step_masks (residual.map (fun v => v / 2)) positions) with
      | none => none
      | some sub => some (bitCount seed + 2 * sub)

/-- The body of the seed enumeration loop: build the coset member, skip it
when its step count already reaches the best, otherwise try it and keep the
better total. -/
def seedStepBody (step_masks targets : List Nat) (positions : Nat) (p : Nat)
    (basis : List Nat) (best : Option Nat) (seed_bits : Nat) : Option Nat :=
  if (match best with
      | some b => decide (b ≤ bitCount (p ^^^ selXor basis seed_bits))
      | none => false) then best
  else
    match seedTotal step_masks targets positions (p ^^^ selXor basis seed_bits) with
    | none => best
    | some tot =>
      match best with
      | none => some tot
      | some b => if tot < b then some tot else some b

/-- codex `min_steps_part2_seeded`: all-zero shortcut, GF(2) parity solve,
fallback to plain `min_steps_part2` beyond `MAX_SEED_ENUM = 20` kernel
vectors, else the full seed-coset enumeration. -/
def min_steps_part2_seeded (step_masks targets : List Nat) (positions : Nat) :
    Option Nat :=
  if targets.all (fun v => v == 0) then some 0
  else
    match solve_gf2 step_masks (parityPattern targets) positions with
    | none => none
    | some pb =>
      if pb.2.length > 20 then min_steps_part2 step_masks targets positions
      else
        (List.range (2 ^ pb.2.length)).foldl
          (seedStepBody step_masks targets positions pb.1 pb.2) none

theorem seedStepBody_none_acc (steps target : List Nat) (positions : Nat)
    (p : Nat) (basis : List Nat) (sb : Nat) :
    seedStepBody steps target positions p basis none sb =
      seedTotal steps target positions (p ^^^ selXor basis sb) := by
  have h0 : seedStepBody steps target positions p basis none sb =
    (match seedTotal steps target positions (p ^^^ selXor basis sb) with
    | none => none
    | some tot => some tot) := by
    rw [seedStepBody]
    rw [if_neg (by simp)]
  cases hG : seedTotal steps target positions (p ^^^ selXor basis sb) with
  | none =>
    rw [hG] at h0
    exact h0
  | some tot =>
    rw [hG] at h0
    exact h0

theorem seedStepBody_some_eq (steps target : List Nat) (positions : Nat)
    (p : Nat) (basis : List Nat) (b sb : Nat) :
    seedStepBody steps target positions p basis (some b) sb =
      (if b ≤ bitCount (p ^^^ selXor basis sb) then some b
      else match seedTotal steps target positions (p ^^^ selXor basis sb) with
        | none => some b
        | some tot => if tot < b then some tot else some b) := by
  have h0 : seedStepBody steps target positions p basis (some b) sb =
    (if decide (b ≤ bitCount (p ^^^ selXor basis sb)) = true then some b
    else match seedTotal steps target positions (p ^^^ selXor basis sb) with
      | none => some b
      | some tot => if tot < b then some tot else some b) := rfl
  rw [h0]
  by_cases hle : b ≤ bitCount (p ^^^ selXor basis sb)
  · rw [if_pos (decide_eq_true hle), if_pos hle]
  · rw [if_neg (fun hcon => hle (of_decide_eq_true hcon)), if_neg hle]

/-- Any successful candidate total is at least the seed's step count. -/
theorem seedTotal_ge (steps target : List Nat) (positions : Nat) (seed tot : Nat)
    (h : seedTotal steps target positions seed = some tot) :
    bitCount seed ≤ tot := by
  rw [seedTotal] at h
  cases happ : Gemini.applyCandidate steps seed target with
  | none =>
    rw [happ] at h
    exact absurd h (by simp)
  | some residual =>
    rw [happ] at h
    have h2 : (if residual.any (fun v => !(v % 2 == 0)) = true then none
      else match (if (residual.map (fun v => v / 2)).all (fun v => v == 0) then some 0
          else min_steps_part2 steps (residual.map (fun v => v / 2)) positions) with
        | none => none
        | some sub => some (bitCount seed + 2 * sub)) = some tot := h
    by_cases hodd : residual.any (fun v => !(v % 2 == 0)) = true
    · rw [if_pos hodd] at h2
      exact absurd h2 (by simp)
    · rw [if_neg hodd] at h2
      cases hsub : (if (residual.map (fun v => v / 2)).all (fun v => v == 0) then some 0
          else min_steps_part2 steps (residual.map (fun v => v / 2)) positions) with
      | none =>
        rw [hsub] at h2
        exact absurd h2 (by simp)
      | some sub =>
        rw [hsub] at h2
        have : bitCount seed + 2 * sub = tot := Option.some.inj h2
        omega

end Day10.Codex

namespace Day10.Codex

/-- Assembling a full solution from a parity seed that passed the residual
check and a solution of the halved residual instance. -/
theorem combine_solution (steps target : List Nat) (seed : Nat)
    (hsel : selXor steps seed = parityPattern target)
    (residual : List Nat)
    (happ : Gemini.applyCandidate steps seed target = some residual)
    (ys : List Nat)
    (hys : IsSolution steps (residual.map (fun v => v / 2)) ys) :
    IsSolution steps target (combine seed ys) ∧
      (combine seed ys).sum = countBits steps.length seed + 2 * ys.sum := by
  obtain ⟨hyslen, hyscnt⟩ := hys
  obtain ⟨hreslen, hresval⟩ := Gemini.applyCandidate_of_some steps seed target residual happ
  have heven := residual_even steps target seed hsel residual happ
  refine ⟨⟨?_, ?_⟩, ?_⟩
  · rw [combine_length, hyslen]
  · intro pos hpos
    rw [appliedCount_combine steps seed ys pos (by rw [hyslen])]
    have hy := hyscnt pos (by rw [List.length_map, hreslen]; exact hpos)
    rw [getD_map_div2 residual pos (by rw [hreslen]; exact hpos)] at hy
    obtain ⟨hble, hbv⟩ := hresval pos hpos
    have hev := heven pos hpos
    omega
  · rw [combine_sum, hyslen]

/-- Soundness of a successful candidate total: it is an attainable sum. -/
theorem seedTotal_sound (steps target : List Nat) (positions : Nat)
    (hn : positions ≤ 32) (hm : steps.length ≤ 64)
    (hlt : ∀ s ∈ steps, s < 2 ^ positions) (hlen : target.length = positions)
    (seed tot : Nat)
    (hsel : selXor steps seed = parityPattern target)
    (hseedlt : seed < 2 ^ steps.length)
    (h : seedTotal steps target positions seed = some tot) :
    tot ∈ SolCosts steps target := by
  rw [seedTotal] at h
  cases happ : Gemini.applyCandidate steps seed target with
  | none =>
    rw [happ] at h
    exact absurd h (by simp)
  | some residual =>
    rw [happ] at h
    have h2 : (if residual.any (fun v => !(v % 2 == 0)) = true then none
      else match (if (residual.map (fun v => v / 2)).all (fun v => v == 0) then some 0
          else min_steps_part2 steps (residual.map (fun v => v / 2)) positions) with
        | none => none
        | some sub => some (bitCount seed + 2 * sub)) = some tot := h
    obtain ⟨hreslen, _⟩ := Gemini.applyCandidate_of_some steps seed target residual happ
    have hevlen : (residual.map (fun v => v / 2)).length = positions := by
      rw [List.length_map, hreslen, hlen]
    have hbc : bitCount seed = countBits steps.length seed :=
      bitCount_eq_countBits_of_lt steps.length seed hseedlt hm
    by_cases hodd : residual.any (fun v => !(v % 2 == 0)) = true
    · rw [if_pos hodd] at h2
      exact absurd h2 (by simp)
    · rw [if_neg hodd] at h2
      by_cases hez : (residual.map (fun v => v / 2)).all (fun v => v == 0) = true
      · rw [if_pos hez] at h2
        have htot : bitCount seed + 2 * 0 = tot := Option.some.inj h2
        have hys : IsSolution steps (residual.map (fun v => v / 2))
            (List.replicate steps.length 0) := by
          refine ⟨List.length_replicate _ _, ?_⟩
          intro pos hpos
          rw [appliedCount_replicate_zero]
          exact (all_zero_getD _ ((all_zero_iff _).mp hez) pos).symm
        obtain ⟨hsol, hsum⟩ := combine_solution steps target seed hsel residual happ _ hys
        refine ⟨combine seed (List.replicate steps.length 0), hsol, ?_⟩
        rw [hsum]
        have hz : (List.replicate steps.length (0:Nat)).sum = 0 := by
          rw [List.sum_eq_zero]
          intro v hv
          exact List.eq_of_mem_replicate hv
        omega
      · rw [if_neg hez] at h2
        cases hsub : min_steps_part2 steps (residual.map (fun v => v / 2)) positions with
        | none =>
          rw [hsub] at h2
          exact absurd h2 (by simp)
        | some sub =>
          rw [hsub] at h2
          have htot : bitCount seed + 2 * sub = tot := Option.some.inj h2
          have hchar := min_steps_part2_char steps (residual.map (fun v => v / 2))
            positions hn hlt hevlen
          have hleast := (hchar.2 sub).mp hsub
          obtain ⟨ys, hysol, hyssum⟩ := hleast.1
          obtain ⟨hsol, hsum⟩ := combine_solution steps target seed hsel residual happ ys hysol
          refine ⟨combine seed ys, hsol, ?_⟩
          rw [hsum]
          omega

end Day10.Codex

namespace Day10.Codex

/-- Completeness of a single candidate: the parity mask of any solution is
a candidate whose total does not exceed the solution's sum. -/
theorem seed_complete (steps target : List Nat) (positions : Nat)
    (hn : positions ≤ 32) (hm : steps.length ≤ 64)
    (hlt : ∀ s ∈ steps, s < 2 ^ positions) (hlen : target.length = positions)
    (xs : List Nat) (hsol : IsSolution steps target xs) :
    ∃ tot, seedTotal steps target positions (parityPattern xs) = some tot ∧
      tot ≤ xs.sum := by
  obtain ⟨hxlen, hxcnt⟩ := hsol
  have hsel : selXor steps (parityPattern xs) = parityPattern target :=
    parity_of_solution steps target xs positions hlt hlen ⟨hxlen, hxcnt⟩
  have htch := selTouch_le_of_solution steps target xs ⟨hxlen, hxcnt⟩
  obtain ⟨residual, happ, hreslen, hresval⟩ :=
    Gemini.applyCandidate_some steps (parityPattern xs) target htch
  have heven := residual_even steps target (parityPattern xs) hsel residual happ
  have hoddF : residual.any (fun v => !(v % 2 == 0)) = false := by
    rw [List.any_eq_false]
    intro v hv
    obtain ⟨pos, hpos, hval⟩ := mem_to_index residual 0 v hv
    have := heven pos (by omega)
    rw [hval] at this
    simp [this]
  -- the halved multiplicities solve the halved residual instance
  have hdecomp : ∀ pos, appliedCount steps xs pos =
      selTouch steps (parityPattern xs) pos +
        2 * appliedCount steps (xs.map (fun x => x / 2)) pos := by
    intro pos
    conv_lhs => rw [← combine_parity_self xs]
    exact appliedCount_combine steps (parityPattern xs) (xs.map (fun x => x / 2)) pos
      (by rw [List.length_map, hxlen])
  have hys : IsSolution steps (residual.map (fun v => v / 2))
      (xs.map (fun x => x / 2)) := by
    refine ⟨by rw [List.length_map, hxlen], ?_⟩
    intro pos hpos
    have hposr : pos < residual.length := by
      rw [List.length_map] at hpos
      exact hpos
    have hpost : pos < target.length := by omega
    rw [getD_map_div2 residual pos hposr]
    have h1 := hdecomp pos
    have h2 := hxcnt pos hpost
    have h3 := htch pos hpost
    have h4 := hresval pos hpost
    have h5 := heven pos hpost
    omega
  have hsum : xs.sum = countBits steps.length (parityPattern xs) +
      2 * (xs.map (fun x => x / 2)).sum := by
    have h6 := combine_sum (parityPattern xs) (xs.map (fun x => x / 2))
    rw [combine_parity_self] at h6
    rw [List.length_map, hxlen] at h6
    exact h6
  have hbc : bitCount (parityPattern xs) = countBits steps.length (parityPattern xs) := by
    apply bitCount_eq_countBits_of_lt
    · have := parityPattern_lt xs
      rw [hxlen] at this
      exact this
    · exact hm
  have hevlen : (residual.map (fun v => v / 2)).length = positions := by
    rw [List.length_map, hreslen, hlen]
  have hdef : seedTotal steps target positions (parityPattern xs) =
    (match (if (residual.map (fun v => v / 2)).all (fun v => v == 0) then some 0
      else min_steps_part2 steps (residual.map (fun v => v / 2)) positions) with
    | none => none
    | some sub => some (bitCount (parityPattern xs) + 2 * sub)) := by
    rw [seedTotal, happ]
    have hstep : (if residual.any (fun v => !(v % 2 == 0)) = true then
        (none : Option Nat)
      else match (if (residual.map (fun v => v / 2)).all (fun v => v == 0) then some 0
        else min_steps_part2 steps (residual.map (fun v => v / 2)) positions) with
      | none => none
      | some sub => some (bitCount (parityPattern xs) + 2 * sub)) =
      (match (if (residual.map (fun v => v / 2)).all (fun v => v == 0) then some 0
        else min_steps_part2 steps (residual.map (fun v => v / 2)) positions) with
      | none => none
      | some sub => some (bitCount (parityPattern xs) + 2 * sub)) := by
      rw [if_neg (by rw [hoddF]; simp)]
    exact hstep
  by_cases hez : (residual.map (fun v => v / 2)).all (fun v => v == 0) = true
  · rw [if_pos hez] at hdef
    refine ⟨bitCount (parityPattern xs) + 2 * 0, hdef, ?_⟩
    omega
  · rw [if_neg hez] at hdef
    have hchar := min_steps_part2_char steps (residual.map (fun v => v / 2))
      positions hn hlt hevlen
    cases hsub : min_steps_part2 steps (residual.map (fun v => v / 2)) positions with
    | none =>
      exfalso
      have hno := hchar.1.mp hsub
      exact hno ⟨xs.map (fun x => x / 2), hys⟩
    | some sub =>
      rw [hsub] at hdef
      refine ⟨bitCount (parityPattern xs) + 2 * sub, hdef, ?_⟩
      have hleast := (hchar.2 sub).mp hsub
      have hle := hleast.2 ⟨xs.map (fun x => x / 2), hys, rfl⟩
      omega

end Day10.Codex


namespace Day10.Codex

theorem seedStep_skip (steps target : List Nat) (positions : Nat) (p : Nat)
    (basis : List Nat) (b sb : Nat)
    (hle : b ≤ bitCount (p ^^^ selXor basis sb)) :
    seedStepBody steps target positions p basis (some b) sb = some b := by
  rw [seedStepBody_some_eq, if_pos hle]

theorem seedStep_noskip_none (steps target : List Nat) (positions : Nat) (p : Nat)
    (basis : List Nat) (b sb : Nat)
    (hle : ¬ b ≤ bitCount (p ^^^ selXor basis sb))
    (hG : seedTotal steps target positions (p ^^^ selXor basis sb) = none) :
    seedStepBody steps target positions p basis (some b) sb = some b := by
  rw [seedStepBody_some_eq, if_neg hle, hG]

theorem seedStep_noskip_some (steps target : List Nat) (positions : Nat) (p : Nat)
    (basis : List Nat) (b sb tot : Nat)
    (hle : ¬ b ≤ bitCount (p ^^^ selXor basis sb))
    (hG : seedTotal steps target positions (p ^^^ selXor basis sb) = some tot) :
    seedStepBody steps target positions p basis (some b) sb =
      some (if tot < b then tot else b) := by
  rw [seedStepBody_some_eq, if_neg hle, hG]
  by_cases h2 : tot < b
  · rw [if_pos h2]
    exact if_pos h2
  · rw [if_neg h2]
    exact if_neg h2

theorem seedFold_some_stays (steps target : List Nat) (positions : Nat)
    (p : Nat) (basis : List Nat) :
    ∀ (l : List Nat) (b : Nat),
    ∃ b2, l.foldl (seedStepBody steps target positions p basis) (some b) = some b2 ∧
      b2 ≤ b := by
  intro l
  induction l with
  | nil =>
    intro b
    exact ⟨b, rfl, Nat.le_refl b⟩
  | cons sb tail ih =>
    intro b
    rw [List.foldl_cons]
    by_cases hle : b ≤ bitCount (p ^^^ selXor basis sb)
    · rw [seedStep_skip steps target positions p basis b sb hle]
      exact ih b
    · cases hG : seedTotal steps target positions (p ^^^ selXor basis sb) with
      | none =>
        rw [seedStep_noskip_none steps target positions p basis b sb hle hG]
        exact ih b
      | some tot =>
        rw [seedStep_noskip_some steps target positions p basis b sb tot hle hG]
        by_cases h2 : tot < b
        · rw [if_pos h2]
          obtain ⟨b2, hb2, hle2⟩ := ih tot
          exact ⟨b2, hb2, by omega⟩
        · rw [if_neg h2]
          exact ih b

theorem seedFold_none_iff (steps target : List Nat) (positions : Nat)
    (p : Nat) (basis : List Nat) :
    ∀ (l : List Nat),
    (l.foldl (seedStepBody steps target positions p basis) none = none ↔
      ∀ sb ∈ l, seedTotal steps target positions (p ^^^ selXor basis sb) = none) := by
  intro l
  induction l with
  | nil =>
    constructor
    · intro _ sb hsb
      exact absurd hsb (by simp)
    · intro _
      rfl
  | cons sb tail ih =>
    rw [List.foldl_cons, seedStepBody_none_acc]
    cases hG : seedTotal steps target positions (p ^^^ selXor basis sb) with
    | none =>
      constructor
      · intro h sb2 hsb2
        rcases List.mem_cons.mp hsb2 with h1 | h1
        · rw [h1]
          exact hG
        · exact ih.mp h sb2 h1
      · intro h
        exact ih.mpr (fun sb2 hsb2 => h sb2 (List.mem_cons_of_mem sb hsb2))
    | some tot =>
      obtain ⟨b2, hb2, _⟩ := seedFold_some_stays steps target positions p basis tail tot
      constructor
      · intro h
        rw [h] at hb2
        exact absurd hb2 (by simp)
      · intro h
        have h3 := h sb (List.mem_cons_self sb tail)
        rw [h3] at hG
        exact absurd hG (by simp)

theorem seedFold_le (steps target : List Nat) (positions : Nat)
    (p : Nat) (basis : List Nat) :
    ∀ (l : List Nat) (acc : Option Nat) (v : Nat),
    l.foldl (seedStepBody steps target positions p basis) acc = some v →
    (∀ sb ∈ l, ∀ tot, seedTotal steps target positions (p ^^^ selXor basis sb) =
        some tot → v ≤ tot) ∧
    (∀ b, acc = some b → v ≤ b) := by
  intro l
  induction l with
  | nil =>
    intro acc v h
    rw [List.foldl_nil] at h
    refine ⟨?_, ?_⟩
    · intro sb hsb
      exact absurd hsb (by simp)
    · intro b hb
      rw [hb] at h
      have h2 : b = v := Option.some.inj h
      omega
  | cons sb tail ih =>
    intro acc v h
    rw [List.foldl_cons] at h
    cases acc with
    | none =>
      rw [seedStepBody_none_acc] at h
      cases hG : seedTotal steps target positions (p ^^^ selXor basis sb) with
      | none =>
        rw [hG] at h
        obtain ⟨htail, hacc⟩ := ih none v h
        refine ⟨?_, ?_⟩
        · intro sb2 hsb2 tot htot
          rcases List.mem_cons.mp hsb2 with h1 | h1
          · rw [h1] at htot
            rw [htot] at hG
            exact absurd hG (by simp)
          · exact htail sb2 h1 tot htot
        · intro b hb
          exact absurd hb (by simp)
      | some tot0 =>
        rw [hG] at h
        obtain ⟨htail, hacc⟩ := ih (some tot0) v h
        refine ⟨?_, ?_⟩
        · intro sb2 hsb2 tot htot
          rcases List.mem_cons.mp hsb2 with h1 | h1
          · rw [h1] at htot
            rw [htot] at hG
            have heq : tot = tot0 := Option.some.inj hG
            have hv := hacc tot0 rfl
            omega
          · exact htail sb2 h1 tot htot
        · intro b hb
          exact absurd hb (by simp)
    | some b0 =>
      by_cases hle : b0 ≤ bitCount (p ^^^ selXor basis sb)
      · rw [seedStep_skip steps target positions p basis b0 sb hle] at h
        obtain ⟨htail, hacc⟩ := ih (some b0) v h
        refine ⟨?_, ?_⟩
        · intro sb2 hsb2 tot htot
          rcases List.mem_cons.mp hsb2 with h1 | h1
          · rw [h1] at htot
            have hge := seedTotal_ge steps target positions _ tot htot
            have hv := hacc b0 rfl
            omega
          · exact htail sb2 h1 tot htot
        · intro b hb
          have heq : b0 = b := Option.some.inj hb
          rw [← heq]
          exact hacc b0 rfl
      · cases hG : seedTotal steps target positions (p ^^^ selXor basis sb) with
        | none =>
          rw [seedStep_noskip_none steps target positions p basis b0 sb hle hG] at h
          obtain ⟨htail, hacc⟩ := ih (some b0) v h
          refine ⟨?_, ?_⟩
          · intro sb2 hsb2 tot htot
            rcases List.mem_cons.mp hsb2 with h1 | h1
            · rw [h1] at htot
              rw [htot] at hG
              exact absurd hG (by simp)
            · exact htail sb2 h1 tot htot
          · intro b hb
            have heq : b0 = b := Option.some.inj hb
            rw [← heq]
            exact hacc b0 rfl
        | some tot0 =>
          rw [seedStep_noskip_some steps target positions p basis b0 sb tot0 hle hG] at h
          by_cases h2 : tot0 < b0
          · rw [if_pos h2] at h
            obtain ⟨htail, hacc⟩ := ih (some tot0) v h
            refine ⟨?_, ?_⟩
            · intro sb2 hsb2 tot htot
              rcases List.mem_cons.mp hsb2 with h1 | h1
              · rw [h1] at htot
                rw [htot] at hG
                have heq : tot = tot0 := Option.some.inj hG
                have hv := hacc tot0 rfl
                omega
              · exact htail sb2 h1 tot htot
            · intro b hb
              have heq : b0 = b := Option.some.inj hb
              have hv := hacc tot0 rfl
              omega
          · rw [if_neg h2] at h
            obtain ⟨htail, hacc⟩ := ih (some b0) v h
            refine ⟨?_, ?_⟩
            · intro sb2 hsb2 tot htot
              rcases List.mem_cons.mp hsb2 with h1 | h1
              · rw [h1] at htot
                rw [htot] at hG
                have heq : tot = tot0 := Option.some.inj hG
                have hv := hacc b0 rfl
                omega
              · exact htail sb2 h1 tot htot
            · intro b hb
              have heq : b0 = b := Option.some.inj hb
              rw [← heq]
              exact hacc b0 rfl

theorem seedFold_mem (steps target : List Nat) (positions : Nat)
    (p : Nat) (basis : List Nat) :
    ∀ (l : List Nat) (acc : Option Nat) (v : Nat),
    l.foldl (seedStepBody steps target positions p basis) acc = some v →
    (∃ sb ∈ l, seedTotal steps target positions (p ^^^ selXor basis sb) = some v) ∨
      acc = some v := by
  intro l
  induction l with
  | nil =>
    intro acc v h
    rw [List.foldl_nil] at h
    right
    exact h
  | cons sb tail ih =>
    intro acc v h
    rw [List.foldl_cons] at h
    cases acc with
    | none =>
      rw [seedStepBody_none_acc] at h
      cases hG : seedTotal steps target positions (p ^^^ selXor basis sb) with
      | none =>
        rw [hG] at h
        rcases ih none v h with ⟨sb2, hsb2, htot⟩ | hacc
        · exact Or.inl ⟨sb2, List.mem_cons_of_mem sb hsb2, htot⟩
        · exact absurd hacc (by simp)
      | some tot0 =>
        rw [hG] at h
        rcases ih (some tot0) v h with ⟨sb2, hsb2, htot⟩ | hacc
        · exact Or.inl ⟨sb2, List.mem_cons_of_mem sb hsb2, htot⟩
        · left
          refine ⟨sb, List.mem_cons_self sb tail, ?_⟩
          rw [hG, hacc]
    | some b0 =>
      by_cases hle : b0 ≤ bitCount (p ^^^ selXor basis sb)
      · rw [seedStep_skip steps target positions p basis b0 sb hle] at h
        rcases ih (some b0) v h with ⟨sb2, hsb2, htot⟩ | hacc
        · exact Or.inl ⟨sb2, List.mem_cons_of_mem sb hsb2, htot⟩
        · exact Or.inr hacc
      · cases hG : seedTotal steps target positions (p ^^^ selXor basis sb) with
        | none =>
          rw [seedStep_noskip_none steps target positions p basis b0 sb hle hG] at h
          rcases ih (some b0) v h with ⟨sb2, hsb2, htot⟩ | hacc
          · exact Or.inl ⟨sb2, List.mem_cons_of_mem sb hsb2, htot⟩
          · exact Or.inr hacc
        | some tot0 =>
          rw [seedStep_noskip_some steps target positions p basis b0 sb tot0 hle hG] at h
          by_cases h2 : tot0 < b0
          · rw [if_pos h2] at h
            rcases ih (some tot0) v h with ⟨sb2, hsb2, htot⟩ | hacc
            · exact Or.inl ⟨sb2, List.mem_cons_of_mem sb hsb2, htot⟩
            · left
              refine ⟨sb, List.mem_cons_self sb tail, ?_⟩
              rw [hG, hacc]
          · rw [if_neg h2] at h
            rcases ih (some b0) v h with ⟨sb2, hsb2, htot⟩ | hacc
            · exact Or.inl ⟨sb2, List.mem_cons_of_mem sb hsb2, htot⟩
            · exact Or.inr hacc

end Day10.Codex

namespace Day10.Codex

/-- Characterisation of codex's `min_steps_part2_seeded`: under the driver's
invariants it returns `none` exactly when the instance has no solution, and
`some v` exactly when `v` is the minimum total number of steps. -/
theorem min_steps_part2_seeded_char (steps target : List Nat) (positions : Nat)
    (hn : positions ≤ 32) (hm : steps.length ≤ 64)
    (hlt : ∀ s ∈ steps, s < 2 ^ positions) (hlen : target.length = positions) :
    (min_steps_part2_seeded steps target positions = none ↔
      ¬ ∃ xs, IsSolution steps target xs) ∧
    (∀ v, min_steps_part2_seeded steps target positions = some v ↔
      IsLeast (SolCosts steps target) v) := by
  have hchar := min_steps_part2_char steps target positions hn hlt hlen
  have htlt : parityPattern target < 2 ^ positions := by
    have h1 := parityPattern_lt target
    rw [hlen] at h1
    exact h1
  by_cases hz : target.all (fun v => v == 0) = true
  · have hEq : min_steps_part2_seeded steps target positions =
        min_steps_part2 steps target positions := by
      have h1 : min_steps_part2_seeded steps target positions = some 0 := by
        rw [min_steps_part2_seeded, if_pos hz]
      have h2 : min_steps_part2 steps target positions = some 0 := by
        rw [min_steps_part2, if_pos hz]
      rw [h1, h2]
    rw [hEq]
    exact hchar
  · have hEq : min_steps_part2_seeded steps target positions =
        (match solve_gf2 steps (parityPattern target) positions with
        | none => none
        | some pb =>
          if pb.2.length > 20 then min_steps_part2 steps target positions
          else (List.range (2 ^ pb.2.length)).foldl
            (seedStepBody steps target positions pb.1 pb.2) none) := by
      rw [min_steps_part2_seeded, if_neg hz]
    cases hanyB : (elimRes steps (parityPattern target) positions).1.any
        (fun r => r.1 == 0 && r.2) with
    | true =>
      have hsgn : solve_gf2 steps (parityPattern target) positions = none := by
        rw [solve_gf2_eq2 steps (parityPattern target) positions hm, if_pos hanyB]
      rw [hsgn] at hEq
      have hEq2 : min_steps_part2_seeded steps target positions = none := hEq
      have hnosel : ¬ ∃ x, selXor steps x = parityPattern target :=
        (solve_gf2_none_iff steps (parityPattern target) positions hm hlt htlt).2.mp hsgn
      have hnosol : ¬ ∃ xs, IsSolution steps target xs := by
        intro hex
        obtain ⟨xs, hxs⟩ := hex
        exact hnosel ⟨parityPattern xs,
          parity_of_solution steps target xs positions hlt hlen hxs⟩
      refine ⟨?_, ?_⟩
      · rw [hEq2]
        exact iff_of_true rfl hnosol
      · intro v
        rw [hEq2]
        constructor
        · intro h
          exact absurd h (by simp)
        · intro hleast
          obtain ⟨xs, hxs, _⟩ := hleast.1
          exact absurd ⟨xs, hxs⟩ hnosol
    | false =>
      have hsg : solve_gf2 steps (parityPattern target) positions =
          some (partT steps (parityPattern target) positions,
            basisT steps (parityPattern target) positions) := by
        rw [solve_gf2_eq2 steps (parityPattern target) positions hm]
        rw [if_neg (by rw [hanyB]; exact Bool.false_ne_true)]
      rw [hsg] at hEq
      have hEq2 : min_steps_part2_seeded steps target positions =
          (if (basisT steps (parityPattern target) positions).length > 20 then
            min_steps_part2 steps target positions
          else (List.range
              (2 ^ (basisT steps (parityPattern target) positions).length)).foldl
            (seedStepBody steps target positions
              (partT steps (parityPattern target) positions)
              (basisT steps (parityPattern target) positions)) none) := hEq
      by_cases h20 : (basisT steps (parityPattern target) positions).length > 20
      · rw [hEq2, if_pos h20]
        exact hchar
      · rw [hEq2, if_neg h20]
        have hPlt := partT_lt steps (parityPattern target) positions hm
        have hBlt := basisT_lt steps (parityPattern target) positions hm
        have hseedlt : ∀ cw, partT steps (parityPattern target) positions ^^^
            selXor (basisT steps (parityPattern target) positions) cw <
              2 ^ steps.length :=
          fun cw => Nat.xor_lt_two_pow hPlt (selXor_lt_two_pow hBlt cw)
        have hsel : ∀ cw, selXor steps
            (partT steps (parityPattern target) positions ^^^
              selXor (basisT steps (parityPattern target) positions) cw) =
            parityPattern target :=
          coset_sound_ctx steps (parityPattern target) positions hm hlt htlt hanyB
        have hsound : ∀ sb tot, seedTotal steps target positions
            (partT steps (parityPattern target) positions ^^^
              selXor (basisT steps (parityPattern target) positions) sb) = some tot →
            tot ∈ SolCosts steps target :=
          fun sb tot h => seedTotal_sound steps target positions hn hm hlt hlen _ tot
            (hsel sb) (hseedlt sb) h
        have hcompl : ∀ xs, IsSolution steps target xs →
            ∃ sb, sb ∈ List.range
                (2 ^ (basisT steps (parityPattern target) positions).length) ∧
              ∃ tot, seedTotal steps target positions
                (partT steps (parityPattern target) positions ^^^
                  selXor (basisT steps (parityPattern target) positions) sb) =
                some tot ∧ tot ≤ xs.sum := by
          intro xs hxs
          obtain ⟨tot, htot, htle⟩ :=
            seed_complete steps target positions hn hm hlt hlen xs hxs
          have hpxlt : parityPattern xs < 2 ^ steps.length := by
            have h1 := parityPattern_lt xs
            rw [hxs.1] at h1
            exact h1
          obtain ⟨cw, hcw, hcweq⟩ := coset_complete_ctx steps (parityPattern target)
            positions hm hlt htlt hanyB (parityPattern xs) hpxlt
            (parity_of_solution steps target xs positions hlt hlen hxs)
          refine ⟨cw, List.mem_range.mpr hcw, tot, ?_, htle⟩
          rw [← hcweq]
          exact htot
        refine ⟨?_, ?_⟩
        · constructor
          · intro hnone
            intro hex
            obtain ⟨xs, hxs⟩ := hex
            obtain ⟨sb, hsbmem, tot, htot, _⟩ := hcompl xs hxs
            have hz2 := (seedFold_none_iff steps target positions
              (partT steps (parityPattern target) positions)
              (basisT steps (parityPattern target) positions)
              (List.range
                (2 ^ (basisT steps (parityPattern target) positions).length))).mp
              hnone sb hsbmem
            rw [hz2] at htot
            exact absurd htot (by simp)
          · intro hnosol
            cases hF : (List.range
                (2 ^ (basisT steps (parityPattern target) positions).length)).foldl
                (seedStepBody steps target positions
                  (partT steps (parityPattern target) positions)
                  (basisT steps (parityPattern target) positions)) none with
            | none => rfl
            | some v =>
              rcases seedFold_mem steps target positions
                  (partT steps (parityPattern target) positions)
                  (basisT steps (parityPattern target) positions)
                  (List.range
                    (2 ^ (basisT steps (parityPattern target) positions).length))
                  none v hF with ⟨sb, hsb, htot⟩ | hacc
              · obtain ⟨xs, hxs, _⟩ := hsound sb v htot
                exact absurd ⟨xs, hxs⟩ hnosol
              · exact absurd hacc (by simp)
        · intro v
          constructor
          · intro hF
            rcases seedFold_mem steps target positions
                (partT steps (parityPattern target) positions)
                (basisT steps (parityPattern target) positions)
                (List.range
                  (2 ^ (basisT steps (parityPattern target) positions).length))
                none v hF with ⟨sb, hsb, htot⟩ | hacc
            · refine ⟨hsound sb v htot, ?_⟩
              intro w hw
              obtain ⟨xs, hxs, hws⟩ := hw
              obtain ⟨sb2, hsb2mem, tot2, htot2, htle2⟩ := hcompl xs hxs
              have hle := (seedFold_le steps target positions
                (partT steps (parityPattern target) positions)
                (basisT steps (parityPattern target) positions)
                (List.range
                  (2 ^ (basisT steps (parityPattern target) positions).length))
                none v hF).1 sb2 hsb2mem tot2 htot2
              omega
            · exact absurd hacc (by simp)
          · intro hleast
            obtain ⟨xs, hxs, hxw⟩ := hleast.1
            obtain ⟨sb, hsbmem, tot, htot, _⟩ := hcompl xs hxs
            cases hF : (List.range
                (2 ^ (basisT steps (parityPattern target) positions).length)).foldl
                (seedStepBody steps target positions
                  (partT steps (parityPattern target) positions)
                  (basisT steps (parityPattern target) positions)) none with
            | none =>
              have hz2 := (seedFold_none_iff steps target positions
                (partT steps (parityPattern target) positions)
                (basisT steps (parityPattern target) positions)
                (List.range
                  (2 ^ (basisT steps (parityPattern target) positions).length))).mp
                hF sb hsbmem
              rw [hz2] at htot
              exact absurd htot (by simp)
            | some v2 =>
              have hleast2 : IsLeast (SolCosts steps target) v2 := by
                rcases seedFold_mem steps target positions
                    (partT steps (parityPattern target) positions)
                    (basisT steps (parityPattern target) positions)
                    (List.range
                      (2 ^ (basisT steps (parityPattern target) positions).length))
                    none v2 hF with ⟨sb2, hsb2, htot2⟩ | hacc
                · refine ⟨hsound sb2 v2 htot2, ?_⟩
                  intro w hw
                  obtain ⟨ys, hys, hws⟩ := hw
                  obtain ⟨sb3, hsb3mem, tot3, htot3, htle3⟩ := hcompl ys hys
                  have hle := (seedFold_le steps target positions
                    (partT steps (parityPattern target) positions)
                    (basisT steps (parityPattern target) positions)
                    (List.range
                      (2 ^ (basisT steps (parityPattern target) positions).length))
                    none v2 hF).1 sb3 hsb3mem tot3 htot3
                  omega
                · exact absurd hacc (by simp)
              rw [IsLeast.unique hleast2 hleast]

end Day10.Codex

namespace Day10.Gemini

/-- C1: for every problem with step masks over `n` positions and a vector of
target counts, both part (b) solvers — gemini's `solve_part2` (preprocessing,
GF(2) parity matching and recursive parity decomposition) and codex's
`min_steps_part2_seeded` (GF(2) seed-coset enumeration with the A* search
`min_steps_part2` as fallback) — return `None` exactly when no vector of
non-negative multiplicities gives every position exactly its target count of
applications, and return `some v` exactly when `v` is the minimum possible
sum of such multiplicities (codex's solver under its driver's `n ≤ 32`
u32-mask bound). -/
theorem claim_C1 (steps target : List Nat) (n : Nat)
    (hm : steps.length ≤ 64) (hlt : ∀ s ∈ steps, s < 2 ^ n)
    (hlen : target.length = n) :
    ((solve_part2 steps target n = none ↔ ¬ ∃ xs, IsSolution steps target xs) ∧
     (∀ v, solve_part2 steps target n = some v ↔
       IsLeast (SolCosts steps target) v)) ∧
    (n ≤ 32 →
      (Codex.min_steps_part2_seeded steps target n = none ↔
        ¬ ∃ xs, IsSolution steps target xs) ∧
      (∀ v, Codex.min_steps_part2_seeded steps target n = some v ↔
        IsLeast (SolCosts steps target) v)) :=
  ⟨solve_part2_char steps target n hm hlt hlen,
   fun hn => Codex.min_steps_part2_seeded_char steps target n hn hm hlt hlen⟩

theorem claim_C1_witness :
    (((solve_part2 [1] [2] 1 = none ↔ ¬ ∃ xs, IsSolution [1] [2] xs) ∧
      (∀ v, solve_part2 [1] [2] 1 = some v ↔ IsLeast (SolCosts [1] [2]) v)) ∧
     (1 ≤ 32 →
       (Codex.min_steps_part2_seeded [1] [2] 1 = none ↔
         ¬ ∃ xs, IsSolution [1] [2] xs) ∧
       (∀ v, Codex.min_steps_part2_seeded [1] [2] 1 = some v ↔
         IsLeast (SolCosts [1] [2]) v))) :=
  claim_C1 [1] [2] 1 (by decide) (by decide) (by decide)

end Day10.Gemini

namespace Day10.Codex

/-- C7: codex's cap on the seed-coset enumeration does not change answers:
under the driver's invariants, the seeded part (b) solver
`min_steps_part2_seeded` — which enumerates the seed coset when the kernel
basis has at most `MAX_SEED_ENUM = 20` vectors and falls back to the A*
search over residual count vectors otherwise — returns exactly the same
result as the plain A* search `min_steps_part2` on every instance: the same
minimum total number of step applications, and the same unreachability
verdict. -/
theorem claim_C7 (steps target : List Nat) (n : Nat)
    (hn : n ≤ 32) (hm : steps.length ≤ 64)
    (hlt : ∀ s ∈ steps, s < 2 ^ n) (hlen : target.length = n) :
    min_steps_part2_seeded steps target n = min_steps_part2 steps target n := by
  obtain ⟨hsn, hss⟩ := min_steps_part2_seeded_char steps target n hn hm hlt hlen
  obtain ⟨hpn, hps⟩ := min_steps_part2_char steps target n hn hlt hlen
  cases hp : min_steps_part2 steps target n with
  | none =>
    rw [hsn.mpr (hpn.mp hp)]
  | some v =>
    rw [(hss v).mpr ((hps v).mp hp)]

theorem claim_C7_witness :
    min_steps_part2_seeded [1] [2] 1 = min_steps_part2 [1] [2] 1 :=
  claim_C7 [1] [2] 1 (by decide) (by decide) (by decide) (by decide)

end Day10.Codex
